import Mathlib

set_option linter.unusedSectionVars false

/-!
Verification of the range-bounds map engine (an ordered map of
non-overlapping ranges over a totally ordered point type).

The engine source (`range_bounds_map.rs`) is embedded shallowly:

* Points are a generic linearly ordered type `I`.
* Range endpoints (`Bound` in the source) are `RBound`.
* The endpoint total order of spec section 4.1 (`DiscreteBoundOrd`, whose
  source module is not part of the provided sources) is modelled by
  mapping each endpoint to a key in `WithBot (WithTop (Lex (I × ℤ)))`.
* The backing B-tree is, per spec section 6, an external collaborator and
  is modelled as a list sorted in ascending key order, with the
  comparator-driven operations realised as list searches.
* Rust `Result` becomes `Except`, a Rust panic becomes `Option.none`, and
  every mutating operation returns the post-state map explicitly so that
  atomicity on error is a provable property rather than a modelling
  artefact.
* The user range type `K` is determined, for all engine purposes, by its
  two endpoints, so it is modelled as an endpoint pair `Rg` together with
  a representability predicate `P` standing for the `TryFromBounds`
  instance of `K`.
-/

/-- Range endpoint, mirroring `std::ops::Bound` from the source. -/
inductive RBound (I : Type) where
  | inc : I → RBound I
  | exc : I → RBound I
  | unb : RBound I
deriving DecidableEq, Repr

/-- Endpoint keys: the carrier of the endpoint total order of spec 4.1. -/
abbrev EK (I : Type) := WithBot (WithTop (Lex (I × Int)))

variable {I : Type} [LinearOrder I]

/-- Finite endpoint key: a point of `I` with a small integer offset
recording on which side of the point the endpoint sits. -/
def ekFin (p : I) (k : Int) : EK I :=
  (((toLex (p, k) : Lex (I × Int)) : WithTop (Lex (I × Int))) : EK I)

/-- The key below every other key (an unbounded start). -/
def ekBot : EK I := ⊥

/-- The key above every other key (an unbounded end). -/
def ekTop : EK I := ((⊤ : WithTop (Lex (I × Int))) : EK I)

/-- Modelled from the spec (section 4.1, the `bound_ord` module is absent
from the sources): the key of an endpoint used as a start.  An inclusive
start sits exactly at its point, an exclusive start just after it, and an
unbounded start below everything. -/
def startKey : RBound I → EK I
  | .inc p => ekFin p 0
  | .exc p => ekFin p 1
  | .unb => ekBot

/-- Modelled from the spec (section 4.1): the key of an endpoint used as
an end.  An inclusive end sits exactly at its point, an exclusive end just
before it, and an unbounded end above everything. -/
def endKey : RBound I → EK I
  | .inc p => ekFin p 0
  | .exc p => ekFin p (-1)
  | .unb => ekTop

/-- Key of a bare point, for point membership queries. -/
def pointKey (p : I) : EK I := ekFin p 0

/-- Modelled from the spec (section 4.2, the `utils` module is absent
from the sources): swap inclusive and exclusive, fixing unbounded. -/
def flip_bound : RBound I → RBound I
  | .inc p => .exc p
  | .exc p => .inc p
  | .unb => .unb

theorem flip_bound_flip_bound (b : RBound I) : flip_bound (flip_bound b) = b := by
  cases b <;> rfl

-- Basic comparison lemmas for endpoint keys.

theorem ekFin_le_ekFin {p q : I} {k l : Int} :
    ekFin p k ≤ ekFin q l ↔ p < q ∨ (p = q ∧ k ≤ l) := by
  unfold ekFin
  rw [WithBot.coe_le_coe, WithTop.coe_le_coe, Prod.Lex.le_iff]

theorem ekFin_lt_ekFin {p q : I} {k l : Int} :
    ekFin p k < ekFin q l ↔ p < q ∨ (p = q ∧ k < l) := by
  unfold ekFin
  rw [WithBot.coe_lt_coe, WithTop.coe_lt_coe, Prod.Lex.lt_iff]

theorem ekBot_le (a : EK I) : ekBot ≤ a := bot_le

theorem le_ekTop (a : EK I) : a ≤ ekTop := by
  cases a with
  | none => exact bot_le
  | some a => exact WithBot.coe_le_coe.mpr le_top

theorem not_ekFin_le_ekBot (p : I) (k : Int) : ¬ ekFin p k ≤ ekBot := by
  simp [ekFin, ekBot]

theorem not_ekTop_le_ekFin (p : I) (k : Int) : ¬ ekTop ≤ ekFin p k := by
  simp [ekTop, ekFin, WithBot.coe_le_coe]

theorem ekBot_lt_ekFin (p : I) (k : Int) : ekBot < ekFin p k := by
  simp [ekFin, ekBot, WithBot.bot_lt_coe]

theorem ekFin_lt_ekTop (p : I) (k : Int) : ekFin p k < ekTop :=
  WithBot.coe_lt_coe.mpr (WithTop.coe_lt_top _)

theorem ekBot_lt_ekTop : (ekBot : EK I) < ekTop := by
  simp [ekBot, ekTop, WithBot.bot_lt_coe]

/-- Every endpoint key is the bottom key, the top key, or a finite key. -/
theorem ek_cases (a : EK I) : a = ekBot ∨ a = ekTop ∨ ∃ p k, a = ekFin p k := by
  cases a with
  | none => exact Or.inl rfl
  | some a =>
    cases a with
    | top => exact Or.inr (Or.inl rfl)
    | coe a => exact Or.inr (Or.inr ⟨(ofLex a).1, (ofLex a).2, rfl⟩)

theorem not_ekTop_lt_ekFin (p : I) (k : Int) : ¬ ekTop < ekFin p k :=
  not_lt.mpr (le_ekTop _)

theorem not_ekFin_lt_ekBot (p : I) (k : Int) : ¬ ekFin p k < ekBot :=
  not_lt.mpr (ekBot_le _)

theorem startKey_eq_bot_iff {s : RBound I} : startKey s = ekBot ↔ s = .unb := by
  cases s <;> simp [startKey] <;> intro h <;>
    exact absurd h (ne_of_gt (ekBot_lt_ekFin _ _))

theorem endKey_eq_top_iff {s : RBound I} : endKey s = ekTop ↔ s = .unb := by
  cases s <;> simp [endKey] <;> intro h <;>
    exact absurd h (ne_of_lt (ekFin_lt_ekTop _ _))

theorem ne_unb_of_lt_startKey {a : EK I} {s : RBound I} (h : a < startKey s) :
    s ≠ .unb := by
  intro hs; subst hs
  exact absurd h (by simp [startKey, ekBot])

theorem ne_unb_of_endKey_lt {a : EK I} {s : RBound I} (h : endKey s < a) :
    s ≠ .unb := by
  intro hs; subst hs
  exact absurd h (not_lt.mpr (le_ekTop a))

/-- Flipping an endpoint and reading it as an end lands immediately below
the original start position: the keys below `startKey s` are exactly the
keys at or below `endKey (flip_bound s)`. -/
theorem le_endKey_flip_iff {s : RBound I} (hs : s ≠ .unb) (a : EK I) :
    a ≤ endKey (flip_bound s) ↔ a < startKey s := by
  cases s with
  | unb => exact absurd rfl hs
  | inc p =>
    show a ≤ ekFin p (-1) ↔ a < ekFin p 0
    rcases ek_cases a with h | h | ⟨q, l, h⟩ <;> subst h
    · simp [ekBot_le, ekBot_lt_ekFin]
    · simp [not_ekTop_le_ekFin, not_ekTop_lt_ekFin]
    · rw [ekFin_le_ekFin, ekFin_lt_ekFin]
      exact or_congr Iff.rfl (and_congr Iff.rfl (by omega))
  | exc p =>
    show a ≤ ekFin p 0 ↔ a < ekFin p 1
    rcases ek_cases a with h | h | ⟨q, l, h⟩ <;> subst h
    · simp [ekBot_le, ekBot_lt_ekFin]
    · simp [not_ekTop_le_ekFin, not_ekTop_lt_ekFin]
    · rw [ekFin_le_ekFin, ekFin_lt_ekFin]
      exact or_congr Iff.rfl (and_congr Iff.rfl (by omega))

/-- Flipping an endpoint and reading it as a start lands immediately above
the original end position: the keys above `endKey s` are exactly the keys
at or above `startKey (flip_bound s)`. -/
theorem startKey_flip_le_iff {s : RBound I} (hs : s ≠ .unb) (a : EK I) :
    startKey (flip_bound s) ≤ a ↔ endKey s < a := by
  cases s with
  | unb => exact absurd rfl hs
  | inc p =>
    show ekFin p 1 ≤ a ↔ ekFin p 0 < a
    rcases ek_cases a with h | h | ⟨q, l, h⟩ <;> subst h
    · simp [not_ekFin_le_ekBot, not_ekFin_lt_ekBot]
    · simp [le_ekTop, ekFin_lt_ekTop]
    · rw [ekFin_le_ekFin, ekFin_lt_ekFin]
      exact or_congr Iff.rfl (and_congr Iff.rfl (by omega))
  | exc p =>
    show ekFin p 0 ≤ a ↔ ekFin p (-1) < a
    rcases ek_cases a with h | h | ⟨q, l, h⟩ <;> subst h
    · simp [not_ekFin_le_ekBot, not_ekFin_lt_ekBot]
    · simp [le_ekTop, ekFin_lt_ekTop]
    · rw [ekFin_le_ekFin, ekFin_lt_ekFin]
      exact or_congr Iff.rfl (and_congr Iff.rfl (by omega))

theorem endKey_flip_lt_startKey {s : RBound I} (hs : s ≠ .unb) :
    endKey (flip_bound s) < startKey s :=
  (le_endKey_flip_iff hs _).mp le_rfl

theorem endKey_lt_startKey_flip {s : RBound I} (hs : s ≠ .unb) :
    endKey s < startKey (flip_bound s) :=
  (startKey_flip_le_iff hs _).mp le_rfl

/-- A range: a pair of endpoints.  This models the user range type `K`,
which the engine uses only through its start and end endpoint
projections. -/
structure Rg (I : Type) where
  start : RBound I
  endb : RBound I
deriving DecidableEq, Repr

/-- Modelled from the spec (section 4.2, `utils` absent from the
sources): a range is valid when its start endpoint key is at most its end
endpoint key; same-point pairs survive only when both sides are
inclusive. -/
def is_valid_range (r : Rg I) : Bool := decide (startKey r.start ≤ endKey r.endb)

/-- Modelled from the spec (section 4.2): two ranges overlap when each
one's start key is at most the other's end key. -/
def overlaps (a b : Rg I) : Bool :=
  decide (startKey a.start ≤ endKey b.endb) && decide (startKey b.start ≤ endKey a.endb)

/-- Point membership in a range, phrased through the endpoint keys.  It
agrees with the source's `RangeBounds::contains`. -/
def containsPoint (r : Rg I) (p : I) : Prop :=
  startKey r.start ≤ pointKey p ∧ pointKey p ≤ endKey r.endb

instance (r : Rg I) (p : I) : Decidable (containsPoint r p) := by
  unfold containsPoint; infer_instance

/-- Result of cutting one range by another, mirroring the source's
`CutResult`. -/
structure CutResult (I : Type) where
  before_cut : Option (RBound I × RBound I)
  inside_cut : Option (RBound I × RBound I)
  after_cut : Option (RBound I × RBound I)
deriving DecidableEq, Repr

/-- Later of two start endpoints in the endpoint order. -/
def maxStart (a b : RBound I) : RBound I := if startKey a ≤ startKey b then b else a

/-- Earlier of two end endpoints in the endpoint order. -/
def minEnd (a b : RBound I) : RBound I := if endKey a ≤ endKey b then a else b

/-- Modelled from the spec (section 4.2): the three-way split of `base`
by `cut`.  The piece before the cut survives when `base` starts strictly
before `cut`, the piece after when `cut` ends strictly before `base`, and
the inside piece exists whenever the two ranges overlap. -/
def cut_range (base cut : Rg I) : CutResult I :=
  { before_cut :=
      if startKey base.start < startKey cut.start then
        some (base.start, flip_bound cut.start)
      else none
    inside_cut :=
      if overlaps base cut then
        some (maxStart base.start cut.start, minEnd base.endb cut.endb)
      else none
    after_cut :=
      if endKey cut.endb < endKey base.endb then
        some (flip_bound cut.endb, base.endb)
      else none }

theorem is_valid_range_iff {r : Rg I} :
    is_valid_range r = true ↔ startKey r.start ≤ endKey r.endb := by
  simp [is_valid_range]

theorem overlaps_iff {a b : Rg I} :
    overlaps a b = true ↔
      startKey a.start ≤ endKey b.endb ∧ startKey b.start ≤ endKey a.endb := by
  simp [overlaps]

theorem overlaps_comm {a b : Rg I} : overlaps a b = overlaps b a := by
  simp only [overlaps, Bool.and_comm]

theorem overlaps_of_containsPoint {a b : Rg I} {p : I}
    (ha : containsPoint a p) (hb : containsPoint b p) : overlaps a b = true :=
  overlaps_iff.mpr ⟨ha.1.trans hb.2, hb.1.trans ha.2⟩

theorem pointKey_le_pointKey {p q : I} : pointKey p ≤ pointKey q ↔ p ≤ q := by
  rw [pointKey, pointKey, ekFin_le_ekFin]
  constructor
  · rintro (h | ⟨rfl, -⟩)
    · exact h.le
    · exact le_rfl
  · intro h
    rcases lt_or_eq_of_le h with h | rfl
    · exact Or.inl h
    · exact Or.inr ⟨rfl, le_rfl⟩

theorem pointKey_lt_pointKey {p q : I} : pointKey p < pointKey q ↔ p < q := by
  rw [pointKey, pointKey, ekFin_lt_ekFin]
  constructor
  · rintro (h | ⟨rfl, h⟩)
    · exact h
    · exact absurd h (lt_irrefl 0)
  · exact Or.inl

/-- Ranges are order-convex with respect to points. -/
theorem containsPoint_of_between {r : Rg I} {p c p' : I}
    (hp : containsPoint r p) (hp' : containsPoint r p')
    (h1 : p ≤ c) (h2 : c ≤ p') : containsPoint r c :=
  ⟨hp.1.trans (pointKey_le_pointKey.mpr h1),
   (pointKey_le_pointKey.mpr h2).trans hp'.2⟩


theorem startKey_maxStart (a b : RBound I) :
    startKey (maxStart a b) = max (startKey a) (startKey b) := by
  unfold maxStart
  split
  · exact (max_eq_right (by assumption)).symm
  · exact (max_eq_left (le_of_not_le (by assumption))).symm

theorem endKey_minEnd (a b : RBound I) :
    endKey (minEnd a b) = min (endKey a) (endKey b) := by
  unfold minEnd
  split
  · exact (min_eq_left (by assumption)).symm
  · exact (min_eq_right (le_of_not_le (by assumption))).symm

/-- Over a dense order without extremal points, every valid range
contains a point. -/
theorem exists_containsPoint_of_valid [DenselyOrdered I] [NoMinOrder I]
    [NoMaxOrder I] [Nonempty I] {r : Rg I} (h : is_valid_range r = true) :
    ∃ p, containsPoint r p := by
  rw [is_valid_range_iff] at h
  obtain ⟨s, e⟩ := r
  cases s with
  | inc a => exact ⟨a, le_rfl, h⟩
  | exc a =>
    cases e with
    | inc b => exact ⟨b, h, le_rfl⟩
    | exc b =>
      have hab : a < b := by
        rcases ekFin_le_ekFin.mp h with h' | ⟨rfl, h'⟩
        · exact h'
        · omega
      obtain ⟨c, hc1, hc2⟩ := exists_between hab
      exact ⟨c, ekFin_le_ekFin.mpr (Or.inl hc1), ekFin_le_ekFin.mpr (Or.inl hc2)⟩
    | unb =>
      obtain ⟨c, hc⟩ := exists_gt a
      exact ⟨c, ekFin_le_ekFin.mpr (Or.inl hc), le_ekTop _⟩
  | unb =>
    cases e with
    | inc b => exact ⟨b, ekBot_le _, le_rfl⟩
    | exc b =>
      obtain ⟨c, hc⟩ := exists_lt b
      exact ⟨c, ekBot_le _, ekFin_le_ekFin.mpr (Or.inl hc)⟩
    | unb => exact ⟨Classical.arbitrary I, ekBot_le _, le_ekTop _⟩

/-- Over a dense order, two valid ranges whose key spans intersect share
an actual point. -/
theorem exists_point_common [DenselyOrdered I] [NoMinOrder I] [NoMaxOrder I]
    [Nonempty I] {a b : Rg I} (ha : is_valid_range a = true)
    (hb : is_valid_range b = true)
    (h1 : startKey a.start ≤ endKey b.endb)
    (h2 : startKey b.start ≤ endKey a.endb) :
    ∃ p, containsPoint a p ∧ containsPoint b p := by
  rw [is_valid_range_iff] at ha hb
  have hv : is_valid_range (⟨maxStart a.start b.start, minEnd a.endb b.endb⟩ : Rg I) = true := by
    rw [is_valid_range_iff]
    show startKey (maxStart a.start b.start) ≤ endKey (minEnd a.endb b.endb)
    rw [startKey_maxStart, endKey_minEnd]
    exact max_le (le_min ha h1) (le_min h2 hb)
  obtain ⟨p, hp1, hp2⟩ := exists_containsPoint_of_valid hv
  rw [show (⟨maxStart a.start b.start, minEnd a.endb b.endb⟩ : Rg I).start
        = maxStart a.start b.start from rfl] at hp1
  rw [show (⟨maxStart a.start b.start, minEnd a.endb b.endb⟩ : Rg I).endb
        = minEnd a.endb b.endb from rfl] at hp2
  rw [startKey_maxStart] at hp1
  rw [endKey_minEnd] at hp2
  exact ⟨p, ⟨(le_max_left _ _).trans hp1, hp2.trans (min_le_left _ _)⟩,
          ⟨(le_max_right _ _).trans hp1, hp2.trans (min_le_right _ _)⟩⟩

/-- Overlap agrees with sharing a point, over a dense order. -/
theorem overlaps_iff_exists_point [DenselyOrdered I] [NoMinOrder I]
    [NoMaxOrder I] [Nonempty I] {a b : Rg I} (ha : is_valid_range a = true)
    (hb : is_valid_range b = true) :
    overlaps a b = true ↔ ∃ p, containsPoint a p ∧ containsPoint b p := by
  constructor
  · intro h
    rcases overlaps_iff.mp h with ⟨h1, h2⟩
    exact exists_point_common ha hb h1 h2
  · rintro ⟨p, hp1, hp2⟩
    exact overlaps_of_containsPoint hp1 hp2

/-- Modelled from the spec (section 4.1 rationale, `utils` absent from
the sources): compare a query endpoint key against a stored range,
reporting whether the key falls before, inside, or after the range.  The
orientation (query relative to stored) is the one the source's touching
comparators and insertion comparator use. -/
def cmp_range_with_discrete_bound_ord (inner : Rg I) (k : EK I) : Ordering :=
  if k < startKey inner.start then .lt
  else if endKey inner.endb < k then .gt
  else .eq

/-- Translated from the source `overlapping_start_comp`: search by a
range's start endpoint. -/
def overlapping_start_comp (s : RBound I) (inner : Rg I) : Ordering :=
  cmp_range_with_discrete_bound_ord inner (startKey s)

/-- Translated from the source `overlapping_end_comp`: search by a
range's end endpoint. -/
def overlapping_end_comp (e : RBound I) (inner : Rg I) : Ordering :=
  cmp_range_with_discrete_bound_ord inner (endKey e)

/-- Fallback branch of the source `touching_start_comp`: the normal
comparison of the query start against the stored end, with ties forced to
greater so that non-touching contacts never match. -/
def touching_start_fallback (e s : RBound I) : Ordering :=
  match compare (startKey s) (endKey e) with
  | .eq => .gt
  | x => x

/-- Translated from the source `touching_start_comp`: matches only the
stored range whose end abuts the query start with opposite inclusivity at
the same point. -/
def touching_start_comp (s : RBound I) (inner : Rg I) : Ordering :=
  match inner.endb, s with
  | .inc e, .exc s' => if e = s' then .eq else touching_start_fallback (.inc e) (.exc s')
  | .exc e, .inc s' => if e = s' then .eq else touching_start_fallback (.exc e) (.inc s')
  | e, s' => touching_start_fallback e s'

/-- Fallback branch of the source `touching_end_comp`, with ties forced
to less. -/
def touching_end_fallback (e s : RBound I) : Ordering :=
  match compare (endKey e) (startKey s) with
  | .eq => .lt
  | x => x

/-- Translated from the source `touching_end_comp`: matches only the
stored range whose start abuts the query end with opposite inclusivity at
the same point. -/
def touching_end_comp (e : RBound I) (inner : Rg I) : Ordering :=
  match e, inner.start with
  | .inc e', .exc s => if e' = s then .eq else touching_end_fallback (.inc e') (.exc s)
  | .exc e', .inc s => if e' = s then .eq else touching_end_fallback (.exc e') (.inc s)
  | e', s => touching_end_fallback e' s

/-- The map: per spec section 6 the backing ordered container is an
external collaborator; it is modelled as a list of entries kept in
ascending start-key order. -/
abbrev RBMap (I V : Type) := List (Rg I × V)

variable {V : Type}

/-- Model of the container's comparator lookup `get_key_value`: the entry
the comparator reports as equal. -/
def btGetKeyValue (comp : Rg I → Ordering) (m : RBMap I V) : Option (Rg I × V) :=
  m.find? (fun e => comp e.1 == .eq)

/-- Model of the container's `contains_key`. -/
def btContainsKey (comp : Rg I → Ordering) (m : RBMap I V) : Bool :=
  (btGetKeyValue comp m).isSome

/-- Model of the container's comparator `remove`: removes the first entry
the comparator reports as equal, returning its value and the remaining
entries. -/
def btRemove (comp : Rg I → Ordering) : RBMap I V → Option V × RBMap I V
  | [] => (none, [])
  | e :: rest =>
    if comp e.1 = .eq then (some e.2, rest)
    else
      let r := btRemove comp rest
      (r.1, e :: r.2)

/-- Model of the container's ranged traversal between a start comparator
and an end comparator, both bounds included: on a sorted store this is
the entries not before the start position and not after the end
position. -/
def btRange (scomp ecomp : Rg I → Ordering) (m : RBMap I V) : List (Rg I × V) :=
  m.filter (fun e => !(scomp e.1 == .gt) && !(ecomp e.1 == .lt))

/-- Model of the container's `upper_bound(...).key()` with the bound
included: the greatest entry at or before the comparator position. -/
def btUpperBound (comp : Rg I → Ordering) (m : RBMap I V) : Option (Rg I × V) :=
  (m.filter (fun e => !(comp e.1 == .lt))).getLast?

/-- Model of the container's `lower_bound(...).key()` with the bound
included: the least entry at or after the comparator position. -/
def btLowerBound (comp : Rg I → Ordering) (m : RBMap I V) : Option (Rg I × V) :=
  (m.filter (fun e => !(comp e.1 == .gt))).head?

/-- Model of the container's `drain_filter`: the removed entries in
ascending order, and the retained store. -/
def btDrainFilter (pred : Rg I × V → Bool) (m : RBMap I V) :
    List (Rg I × V) × RBMap I V :=
  (m.filter pred, m.filter (fun e => ! pred e))

/-- Model of the container's comparator `insert` driven by the source's
`double_comp`, which orders entries by their start endpoint and, like the
underlying B-tree, replaces an entry whose key compares equal. -/
def btInsert (r : Rg I) (v : V) : RBMap I V → RBMap I V
  | [] => [(r, v)]
  | e :: rest =>
    match compare (startKey r.start) (startKey e.1.start) with
    | .lt => (r, v) :: e :: rest
    | .eq => (r, v) :: rest
    | .gt => e :: btInsert r v rest

/-- Mirror of the source error type `OverlapError`. -/
inductive OverlapError where
  | overlapError
deriving DecidableEq, Repr

/-- Mirror of the source error type `TryFromBoundsError`. -/
inductive TryFromBoundsError where
  | tryFromBoundsError
deriving DecidableEq, Repr

/-- Mirror of the source error type `OverlapOrTryFromBoundsError`. -/
inductive OverlapOrTryFromBoundsError where
  | Overlap : OverlapError → OverlapOrTryFromBoundsError
  | TryFromBounds : TryFromBoundsError → OverlapOrTryFromBoundsError
deriving DecidableEq, Repr

/-- The `TryFromBounds` conversion of the user range type `K`: the
representability predicate `P` abstracts which endpoint pairs `K` can
express, and a successful conversion yields exactly the requested pair
(as every `TryFromBounds` implementation in the source does). -/
def try_from_bounds (P : Rg I → Bool) (s e : RBound I) :
    Except TryFromBoundsError (Rg I) :=
  if P ⟨s, e⟩ then .ok ⟨s, e⟩ else .error .tryFromBoundsError

/-- Translated from the source `RangeBoundsMap::overlapping`: ranged
traversal between the two overlapping comparators, bounds included. -/
def overlapping (m : RBMap I V) (range : Rg I) : List (Rg I × V) :=
  btRange (overlapping_start_comp range.start) (overlapping_end_comp range.endb) m

/-- Translated from the source `RangeBoundsMap::overlaps`. -/
def overlaps_map (m : RBMap I V) (range : Rg I) : Bool :=
  !(overlapping m range).isEmpty

/-- Translated from the source `RangeBoundsMap::get_entry_at_point`:
point lookup returning the containing entry, or the maximal gap at the
point on a miss. -/
def get_entry_at_point (m : RBMap I V) (point : I) :
    Except (RBound I × RBound I) (Rg I × V) :=
  match btGetKeyValue (overlapping_start_comp (.inc point)) m with
  | some e => .ok e
  | none =>
    let lower := btUpperBound (overlapping_start_comp (.inc point)) m
    let upper := btLowerBound (overlapping_end_comp (.inc point)) m
    .error
      (match lower with
       | some l => flip_bound l.1.endb
       | none => .unb,
       match upper with
       | some u => flip_bound u.1.start
       | none => .unb)

/-- Translated from the source `RangeBoundsMap::get_at_point`. -/
def get_at_point (m : RBMap I V) (point : I) : Option V :=
  (get_entry_at_point m point).toOption.map Prod.snd

/-- Translated from the source `RangeBoundsMap::contains_point`. -/
def contains_point (m : RBMap I V) (point : I) : Bool :=
  match get_entry_at_point m point with
  | .ok _ => true
  | .error _ => false

/-- Translated from the source `RangeBoundsMap::remove_overlapping`:
drain every entry overlapping the range.  Returns the new map and the
removed entries in ascending order. -/
def remove_overlapping (m : RBMap I V) (range : Rg I) :
    RBMap I V × List (Rg I × V) :=
  let r := btDrainFilter (fun e => overlaps e.1 range) m
  (r.2, r.1)

/-- Translated from the source `RangeBoundsMap::insert_unchecked`. -/
def insert_unchecked (m : RBMap I V) (range : Rg I) (value : V) : RBMap I V :=
  btInsert range value m

/-- Translated from the source `RangeBoundsMap::insert_strict`. -/
def insert_strict (m : RBMap I V) (range : Rg I) (value : V) :
    RBMap I V × Except OverlapError Unit :=
  if overlaps_map m range then (m, .error .overlapError)
  else (insert_unchecked m range value, .ok ())

/-- Conversion of an optional leftover piece, mirroring the source's
`match ... Some => Some(K::try_from_bounds(..)?), None => None` blocks. -/
def tfb_opt (P : Rg I → Bool) (oc : Option (RBound I × RBound I)) :
    Except TryFromBoundsError (Option (Rg I)) :=
  match oc with
  | some (s, e) => (try_from_bounds P s e).map some
  | none => .ok none

/-- Reinsert a representable leftover piece, when present, with the
straddler's cloned value. -/
def applyPiece (m : RBMap I V) (o : Option (Rg I)) (v : V) : RBMap I V :=
  match o with
  | some r => insert_unchecked m r v
  | none => m

/-- Translated from the source `cut_single_overlapping`: both leftover
pieces are converted before any removal; the single straddling entry is
then removed and the representable pieces reinserted with cloned
values.  A `none` result models the source's `unwrap` panics. -/
def cut_single_overlapping (P : Rg I → Bool) (m : RBMap I V) (range : Rg I)
    (single_overlapping_range : Rg I) :
    Option (RBMap I V × Except TryFromBoundsError (List ((RBound I × RBound I) × V))) :=
  match tfb_opt P (cut_range single_overlapping_range range).before_cut with
  | .error er => some (m, .error er)
  | .ok returning_before_cut =>
  match tfb_opt P (cut_range single_overlapping_range range).after_cut with
  | .error er => some (m, .error er)
  | .ok returning_after_cut =>
  match btRemove (overlapping_start_comp range.start) m with
  | (none, _) => none
  | (some value, m1) =>
  match (cut_range single_overlapping_range range).inside_cut with
  | none => none
  | some inside =>
    some (applyPiece (applyPiece m1 returning_before_cut value)
        returning_after_cut value,
      .ok [(inside, value)])

/-- One straddler-side configuration of `cut_non_single_overlapping`: the
representable outside piece (if the straddler extends outside the cut)
together with the straddler's inside slice. -/
def cut_side_config (P : Rg I → Bool) (range : Rg I)
    (pick : CutResult I → Option (RBound I × RBound I))
    (ov : Option (Rg I)) :
    Option (Except TryFromBoundsError
      (Option (Option (Rg I) × (RBound I × RBound I)))) :=
  match ov with
  | none => some (.ok none)
  | some side =>
    match pick (cut_range side range) with
    | some (s, e) =>
      match try_from_bounds P s e, (cut_range side range).inside_cut with
      | .error er, _ => some (.error er)
      | .ok _, none => none
      | .ok k, some inside => some (.ok (some (some k, inside)))
    | none =>
      match (cut_range side range).inside_cut with
      | none => none
      | some inside => some (.ok (some (none, inside)))

/-- Reinsertion step for one straddler side of
`cut_non_single_overlapping`: when the side configuration carries a
representable outside piece it is reinserted with the straddler's cloned
value, panicking (`none`) if the straddler's removal produced no value. -/
def step_piece (cfg : Option (Option (Rg I) × (RBound I × RBound I)))
    (val : Option V) (m : RBMap I V) : Option (RBMap I V) :=
  match cfg, val with
  | some (some rb, _), some v => some (insert_unchecked m rb v)
  | some (some _, _), none => none
  | _, _ => some m

/-- The yielded inside slice for one straddler side of
`cut_non_single_overlapping`, panicking (`none`) if the side has a
configuration but its removal produced no value. -/
def keep_piece (cfg : Option (Option (Rg I) × (RBound I × RBound I)))
    (val : Option V) : Option (Option ((RBound I × RBound I) × V)) :=
  match cfg, val with
  | some (_, keeping), some v => some (some (keeping, v))
  | some (_, _), none => none
  | none, _ => some none

/-- Translated from the source `cut_non_single_overlapping`: compute both
side configurations (running every `try_from_bounds` probe) before any
mutation, then remove the straddlers, reinsert their representable
outside pieces, and drain everything still overlapping the range. -/
def cut_non_single_overlapping (P : Rg I → Bool) (m : RBMap I V) (range : Rg I)
    (left_overlapping right_overlapping : Option (Rg I)) :
    Option (RBMap I V × Except TryFromBoundsError (List ((RBound I × RBound I) × V))) :=
  match cut_side_config P range (fun c => c.before_cut) left_overlapping with
  | none => none
  | some (.error er) => some (m, .error er)
  | some (.ok before_config) =>
  match cut_side_config P range (fun c => c.after_cut) right_overlapping with
  | none => none
  | some (.error er) => some (m, .error er)
  | some (.ok after_config) =>
  match step_piece before_config
      (btRemove (overlapping_start_comp range.start) m).1
      (btRemove (overlapping_end_comp range.endb)
        (btRemove (overlapping_start_comp range.start) m).2).2 with
  | none => none
  | some m3 =>
  match step_piece after_config
      (btRemove (overlapping_end_comp range.endb)
        (btRemove (overlapping_start_comp range.start) m).2).1 m3 with
  | none => none
  | some m4 =>
  match keep_piece before_config
      (btRemove (overlapping_start_comp range.start) m).1 with
  | none => none
  | some keeping_before_entry =>
  match keep_piece after_config
      (btRemove (overlapping_end_comp range.endb)
        (btRemove (overlapping_start_comp range.start) m).2).1 with
  | none => none
  | some keeping_after_entry =>
  some ((remove_overlapping m4 range).1, .ok (keeping_before_entry.toList
    ++ (remove_overlapping m4 range).2.map (fun e => ((e.1.start, e.1.endb), e.2))
    ++ keeping_after_entry.toList))

/-- Translated from the source `RangeBoundsMap::cut`: dispatch on the
entries containing the cut range's start and end positions. -/
def cut (P : Rg I → Bool) (m : RBMap I V) (range : Rg I) :
    Option (RBMap I V × Except TryFromBoundsError (List ((RBound I × RBound I) × V))) :=
  match (btGetKeyValue (overlapping_start_comp range.start) m).map Prod.fst,
      (btGetKeyValue (overlapping_end_comp range.endb) m).map Prod.fst with
  | some left, some right =>
    if left.start = right.start then cut_single_overlapping P m range left
    else cut_non_single_overlapping P m range (some left) (some right)
  | lo, ro => cut_non_single_overlapping P m range lo ro

/-- Translated from the source `RangeBoundsMap::gaps`: the maximal gaps
within the outer range, synthesised from the overlapping entries flanked
by artificial boundary entries. -/
def gaps (m : RBMap I V) (outer_range : Rg I) : List (RBound I × RBound I) :=
  let ovl := (overlapping m outer_range).map (fun e => (e.1.start, e.1.endb))
  let artificial_start :=
    (flip_bound outer_range.start, flip_bound outer_range.start)
  let artificial_end :=
    (flip_bound outer_range.endb, flip_bound outer_range.endb)
  let artificials := artificial_start :: (ovl ++ [artificial_end])
  let start_contained := btContainsKey (overlapping_start_comp outer_range.start) m
  let end_contained := btContainsKey (overlapping_end_comp outer_range.endb) m
  let a1 := if start_contained then artificials.tail else artificials
  let a2 := if end_contained then a1.dropLast else a1
  ((a2.zip a2.tail).map
      (fun w => (flip_bound w.1.2, flip_bound w.2.1))).filter
    (fun r => is_valid_range ⟨r.1, r.2⟩)

/-- Translated from the source `RangeBoundsMap::contains_range`. -/
def contains_range (m : RBMap I V) (range : Rg I) : Bool :=
  (gaps m range).isEmpty

/-- The merged range of `insert_merge_with_comps`: its endpoints come
from the side neighbours where present, else from the inserted range. -/
def merge_returning (P : Rg I → Bool) (range : Rg I)
    (matching_start matching_end : Option (Rg I)) :
    Except TryFromBoundsError (Rg I) :=
  match matching_start, matching_end with
  | some ms, some me => try_from_bounds P ms.start me.endb
  | some ms, none => try_from_bounds P ms.start range.endb
  | none, some me => try_from_bounds P range.start me.endb
  | none, none => .ok range

/-- Translated from the source `insert_merge_with_comps`: the shared
merging insert.  The merged range is computed (with its representability
probe) before any removal, then everything overlapping the inserted range
is drained, the side neighbours are removed by the provided callbacks,
and the merged range is inserted. -/
def insert_merge_with_comps (P : Rg I → Bool) (m : RBMap I V)
    (range : Rg I) (value : V)
    (get_start get_end : RBMap I V → V → Option (Rg I))
    (remove_start remove_end : RBMap I V → V → RBMap I V) :
    RBMap I V × Except TryFromBoundsError (Rg I) :=
  match merge_returning P range (get_start m value) (get_end m value) with
  | .error er => (m, .error er)
  | .ok returning =>
    (insert_unchecked
      (remove_end
        (remove_start ((btDrainFilter (fun e => overlaps e.1 range) m).2) value)
        value)
      returning value, .ok returning)

/-- Translated from the source `RangeBoundsMap::insert_merge_touching`. -/
def insert_merge_touching_core (P : Rg I → Bool) (m : RBMap I V)
    (range : Rg I) (value : V) : RBMap I V × Except TryFromBoundsError (Rg I) :=
  insert_merge_with_comps P m range value
    (fun selfy _ =>
      (btGetKeyValue (touching_start_comp range.start) selfy).map Prod.fst)
    (fun selfy _ =>
      (btGetKeyValue (touching_end_comp range.endb) selfy).map Prod.fst)
    (fun selfy _ => (btRemove (touching_start_comp range.start) selfy).2)
    (fun selfy _ => (btRemove (touching_end_comp range.endb) selfy).2)

def insert_merge_touching (P : Rg I → Bool) (m : RBMap I V)
    (range : Rg I) (value : V) :
    RBMap I V × Except OverlapOrTryFromBoundsError (Rg I) :=
  if overlaps_map m range then (m, .error (.Overlap .overlapError))
  else
    ((insert_merge_touching_core P m range value).1,
     (insert_merge_touching_core P m range value).2.mapError .TryFromBounds)

/-- Translated from the source
`RangeBoundsMap::insert_merge_touching_if_values_equal`: a neighbour
participates only when its value equals the inserted value. -/
def get_start_if_values_equal [DecidableEq V] (range : Rg I)
    (selfy : RBMap I V) (v : V) : Option (Rg I) :=
  (((btGetKeyValue (touching_start_comp range.start) selfy)).filter
    (fun e => e.2 = v)).map Prod.fst

def get_end_if_values_equal [DecidableEq V] (range : Rg I)
    (selfy : RBMap I V) (v : V) : Option (Rg I) :=
  (((btGetKeyValue (touching_end_comp range.endb) selfy)).filter
    (fun e => e.2 = v)).map Prod.fst

def insert_merge_touching_if_values_equal_core [DecidableEq V]
    (P : Rg I → Bool) (m : RBMap I V) (range : Rg I) (value : V) :
    RBMap I V × Except TryFromBoundsError (Rg I) :=
  insert_merge_with_comps P m range value
    (get_start_if_values_equal range) (get_end_if_values_equal range)
    (fun selfy v =>
      if (get_start_if_values_equal range selfy v).isSome then
        (btRemove (touching_start_comp range.start) selfy).2
      else selfy)
    (fun selfy v =>
      if (get_end_if_values_equal range selfy v).isSome then
        (btRemove (touching_end_comp range.endb) selfy).2
      else selfy)

def insert_merge_touching_if_values_equal [DecidableEq V]
    (P : Rg I → Bool) (m : RBMap I V) (range : Rg I) (value : V) :
    RBMap I V × Except OverlapOrTryFromBoundsError (Rg I) :=
  if overlaps_map m range then (m, .error (.Overlap .overlapError))
  else
    ((insert_merge_touching_if_values_equal_core P m range value).1,
     (insert_merge_touching_if_values_equal_core P m range value).2.mapError
       .TryFromBounds)

/-- Translated from the source `RangeBoundsMap::insert_merge_overlapping`. -/
def insert_merge_overlapping (P : Rg I → Bool) (m : RBMap I V)
    (range : Rg I) (value : V) :
    RBMap I V × Except TryFromBoundsError (Rg I) :=
  insert_merge_with_comps P m range value
    (fun selfy _ =>
      (btGetKeyValue (overlapping_start_comp range.start) selfy).map Prod.fst)
    (fun selfy _ =>
      (btGetKeyValue (overlapping_end_comp range.endb) selfy).map Prod.fst)
    (fun selfy _ => selfy)
    (fun selfy _ => selfy)

/-- Translated from the source
`RangeBoundsMap::insert_merge_touching_or_overlapping`: each side prefers
the touching neighbour and falls back to the overlapping one. -/
def insert_merge_touching_or_overlapping (P : Rg I → Bool) (m : RBMap I V)
    (range : Rg I) (value : V) :
    RBMap I V × Except TryFromBoundsError (Rg I) :=
  insert_merge_with_comps P m range value
    (fun selfy _ =>
      (((btGetKeyValue (touching_start_comp range.start) selfy).map Prod.fst).or
        ((btGetKeyValue (overlapping_start_comp range.start) selfy).map Prod.fst)))
    (fun selfy _ =>
      (((btGetKeyValue (touching_end_comp range.endb) selfy).map Prod.fst).or
        ((btGetKeyValue (overlapping_end_comp range.endb) selfy).map Prod.fst)))
    (fun selfy _ => (btRemove (touching_start_comp range.start) selfy).2)
    (fun selfy _ => (btRemove (touching_end_comp range.endb) selfy).2)

/-- Translated from the source `RangeBoundsMap::insert_overwrite`: cut
the range, then insert unconditionally. -/
def insert_overwrite (P : Rg I → Bool) (m : RBMap I V)
    (range : Rg I) (value : V) :
    Option (RBMap I V × Except TryFromBoundsError Unit) :=
  match cut P m range with
  | none => none
  | some (m1, .error er) => some (m1, .error er)
  | some (m1, .ok _) => some (insert_unchecked m1 range value, .ok ())

/-- Translated from the source `RangeBoundsMap::first_entry`. -/
def first_entry (m : RBMap I V) : Option (Rg I × V) := m.head?

/-- Translated from the source `RangeBoundsMap::last_entry`. -/
def last_entry (m : RBMap I V) : Option (Rg I × V) := m.getLast?

/-- Translated from the source `RangeBoundsMap::from_slice_strict`. -/
def from_slice_strict (slice : List (Rg I × V)) :
    Except OverlapError (RBMap I V) :=
  slice.foldlM
    (fun m e =>
      match insert_strict m e.1 e.2 with
      | (m', .ok _) => .ok m'
      | (_, .error er) => .error er)
    ([] : RBMap I V)

/-!  Invariant and container-model lemmas. -/

/-- Strict separation of two entries: the first ends strictly before the
second starts.  On valid entries this is equivalent to being disjoint and
ordered. -/
def entrySep (a b : Rg I × V) : Prop := endKey a.1.endb < startKey b.1.start

/-- The data-model invariant: entries are pairwise separated in ascending
order (I1 and I3) and every stored range is valid (I2). -/
def MapInv (m : RBMap I V) : Prop :=
  m.Pairwise entrySep ∧ ∀ e ∈ m, is_valid_range e.1 = true

theorem MapInv_nil : MapInv ([] : RBMap I V) := ⟨List.Pairwise.nil, by simp⟩

theorem not_overlaps_of_entrySep {a b : Rg I × V} (h : entrySep a b) :
    overlaps a.1 b.1 = false := by
  rw [← Bool.not_eq_true, overlaps_iff]
  rintro ⟨-, h2⟩
  exact absurd h (not_lt.mpr h2)

theorem not_overlaps_of_entrySep' {a b : Rg I × V} (h : entrySep b a) :
    overlaps a.1 b.1 = false := by
  rw [← Bool.not_eq_true, overlaps_iff]
  rintro ⟨h1, -⟩
  exact absurd h (not_lt.mpr h1)

theorem entrySep_or_of_not_overlaps {a b : Rg I × V}
    (h : ¬ overlaps a.1 b.1 = true) : entrySep a b ∨ entrySep b a := by
  rw [overlaps_iff, not_and_or, not_le, not_le] at h
  rcases h with h | h
  · exact Or.inr h
  · exact Or.inl h

theorem pairwise_cases {α : Type} {R : α → α → Prop} :
    ∀ {l : List α}, l.Pairwise R → ∀ {a b}, a ∈ l → b ∈ l →
      a = b ∨ R a b ∨ R b a := by
  intro l hl
  induction hl with
  | nil => intro a b ha _; exact absurd ha (List.not_mem_nil a)
  | cons hhead _ ih =>
    intro a b ha hb
    rcases List.mem_cons.mp ha with rfl | ha' <;>
      rcases List.mem_cons.mp hb with rfl | hb'
    · exact Or.inl rfl
    · exact Or.inr (Or.inl (hhead _ hb'))
    · exact Or.inr (Or.inr (hhead _ ha'))
    · exact ih ha' hb'

/-- Under the invariant, at most one entry's key span contains a given
key. -/
theorem inv_unique_contains {m : RBMap I V} (hInv : MapInv m) {k : EK I}
    {a b : Rg I × V} (ha : a ∈ m) (hb : b ∈ m)
    (hak : startKey a.1.start ≤ k ∧ k ≤ endKey a.1.endb)
    (hbk : startKey b.1.start ≤ k ∧ k ≤ endKey b.1.endb) : a = b := by
  rcases pairwise_cases hInv.1 ha hb with h | h | h
  · exact h
  · exact absurd ((hbk.1.trans hak.2).trans_lt h) (lt_irrefl _)
  · exact absurd ((hak.1.trans hbk.2).trans_lt h) (lt_irrefl _)

-- Characterisation of the overlapping comparators.

theorem cmp_rwb_eq_iff {inner : Rg I} {k : EK I} :
    cmp_range_with_discrete_bound_ord inner k = .eq ↔
      startKey inner.start ≤ k ∧ k ≤ endKey inner.endb := by
  unfold cmp_range_with_discrete_bound_ord
  split
  · simp only [iff_false_intro (by simp : ¬ Ordering.lt = Ordering.eq), false_iff]
    intro h
    exact absurd (by assumption : k < startKey inner.start) (not_lt.mpr h.1)
  · split
    · simp only [iff_false_intro (by simp : ¬ Ordering.gt = Ordering.eq), false_iff]
      intro h
      exact absurd (by assumption : endKey inner.endb < k) (not_lt.mpr h.2)
    · simp only [true_iff]
      exact ⟨le_of_not_lt (by assumption), le_of_not_lt (by assumption)⟩

theorem cmp_rwb_ne_lt_iff {inner : Rg I} {k : EK I} :
    cmp_range_with_discrete_bound_ord inner k ≠ .lt ↔
      startKey inner.start ≤ k := by
  unfold cmp_range_with_discrete_bound_ord
  split
  · rename_i h1
    exact iff_of_false (by simp) (not_le.mpr h1)
  · rename_i h1
    have h1' := le_of_not_lt h1
    split <;> exact iff_of_true (by decide) h1'

theorem cmp_rwb_ne_gt_iff {inner : Rg I} (hv : is_valid_range inner = true)
    {k : EK I} :
    cmp_range_with_discrete_bound_ord inner k ≠ .gt ↔
      k ≤ endKey inner.endb := by
  unfold cmp_range_with_discrete_bound_ord
  split
  · rename_i h1
    exact iff_of_true (by decide) (h1.trans_le (is_valid_range_iff.mp hv)).le
  · rename_i h1
    split
    · rename_i h2
      exact iff_of_false (by simp) (not_le.mpr h2)
    · rename_i h2
      exact iff_of_true (by decide) (le_of_not_lt h2)

theorem ordering_eq_of_beq : ∀ {a b : Ordering}, (a == b) = true → a = b := by
  intro a b h
  cases a <;> cases b <;> first | rfl | cases h

theorem ordering_beq_refl : ∀ (a : Ordering), (a == a) = true := by
  intro a; cases a <;> rfl

instance : LawfulBEq Ordering where
  eq_of_beq := ordering_eq_of_beq
  rfl := ordering_beq_refl _

theorem ordering_beq_iff {o o' : Ordering} : ((o == o') = true) ↔ o = o' := by
  cases o <;> cases o' <;> decide

theorem ordering_beq_false_iff {o o' : Ordering} : ((o == o') = false) ↔ o ≠ o' := by
  cases o <;> cases o' <;> decide

/-- On a store of valid entries, the overlapping traversal is exactly the
overlap filter. -/
theorem overlapping_eq_filter {m : RBMap I V}
    (hval : ∀ e ∈ m, is_valid_range e.1 = true) (q : Rg I) :
    overlapping m q = m.filter (fun e => overlaps e.1 q) := by
  unfold overlapping btRange
  refine List.filter_congr ?_
  intro e he
  have hv := hval e he
  rw [Bool.eq_iff_iff]
  simp only [Bool.and_eq_true, Bool.not_eq_true', ordering_beq_false_iff]
  rw [overlaps_iff]
  unfold overlapping_start_comp overlapping_end_comp
  rw [cmp_rwb_ne_gt_iff hv, cmp_rwb_ne_lt_iff]
  exact ⟨fun h => ⟨h.2, h.1⟩, fun h => ⟨h.2, h.1⟩⟩

/-- Membership characterisation of the comparator lookup when at most one
entry can match. -/
theorem btGetKeyValue_eq_some_iff {comp : Rg I → Ordering} {m : RBMap I V}
    (hu : ∀ a ∈ m, ∀ b ∈ m, comp a.1 = .eq → comp b.1 = .eq → a = b)
    {e : Rg I × V} :
    btGetKeyValue comp m = some e ↔ (e ∈ m ∧ comp e.1 = .eq) := by
  unfold btGetKeyValue
  constructor
  · intro h
    refine ⟨List.mem_of_find?_eq_some h, ?_⟩
    simpa using List.find?_some h
  · rintro ⟨hmem, heq⟩
    rcases hf : m.find? (fun e => comp e.1 == .eq) with _ | a
    · rw [List.find?_eq_none] at hf
      exact absurd (by simpa using ordering_beq_iff.mpr heq) (hf e hmem)
    · have ha1 : comp a.1 = Ordering.eq := by simpa using List.find?_some hf
      have ha2 := List.mem_of_find?_eq_some hf
      have hae : a = e := hu a ha2 e hmem ha1 heq
      exact hae ▸ hf

theorem btGetKeyValue_eq_none_iff {comp : Rg I → Ordering} {m : RBMap I V} :
    btGetKeyValue comp m = none ↔ ∀ e ∈ m, comp e.1 ≠ .eq := by
  unfold btGetKeyValue
  rw [List.find?_eq_none]
  constructor
  · intro h e he heq
    exact absurd (ordering_beq_iff.mpr heq) (by simpa using h e he)
  · intro h e he
    simp only [Bool.not_eq_true]
    exact ordering_beq_false_iff.mpr (h e he)

/-- The comparator remove returns `none` and keeps the store intact when
nothing matches. -/
theorem btRemove_of_no_match {comp : Rg I → Ordering} :
    ∀ {m : RBMap I V}, (∀ e ∈ m, comp e.1 ≠ .eq) → btRemove comp m = (none, m) := by
  intro m
  induction m with
  | nil => intro _; rfl
  | cons e rest ih =>
    intro h
    unfold btRemove
    rw [if_neg (h e (List.mem_cons_self e rest))]
    rw [ih (fun x hx => h x (List.mem_cons_of_mem e hx))]

/-- Decomposition of a successful comparator remove: the store splits
around the first matching entry. -/
theorem btRemove_eq_some {comp : Rg I → Ordering} :
    ∀ {m : RBMap I V} {v : V} {m' : RBMap I V},
      btRemove comp m = (some v, m') →
      ∃ pre k post, m = pre ++ (k, v) :: post ∧ m' = pre ++ post ∧
        comp k = .eq ∧ ∀ e ∈ pre, comp e.1 ≠ .eq := by
  intro m
  induction m with
  | nil => intro v m' h; cases h
  | cons e rest ih =>
    intro v m' h
    unfold btRemove at h
    by_cases he : comp e.1 = .eq
    · rw [if_pos he, Prod.mk.injEq] at h
      have h1 : e.2 = v := Option.some.inj h.1
      have h2 : rest = m' := h.2
      subst h1; subst h2
      exact ⟨[], e.1, rest, by simp, by simp, he, by simp⟩
    · rw [if_neg he] at h
      rw [show (let r := btRemove comp rest; (r.1, e :: r.2)) =
            ((btRemove comp rest).1, e :: (btRemove comp rest).2) from rfl,
          Prod.mk.injEq] at h
      have h1 : (btRemove comp rest).1 = some v := h.1
      have h2 : e :: (btRemove comp rest).2 = m' := h.2
      obtain ⟨pre, k, post, hm, hm', hk, hpre⟩ :=
        ih (show btRemove comp rest = (some v, (btRemove comp rest).2) from by
          rw [← h1])
      refine ⟨e :: pre, k, post, by rw [List.cons_append, ← hm], ?_, hk, ?_⟩
      · rw [← h2, hm']; rfl
      · intro x hx
        rcases List.mem_cons.mp hx with rfl | hx'
        · exact he
        · exact hpre x hx'

theorem btRemove_fst_isSome_iff {comp : Rg I → Ordering} :
    ∀ {m : RBMap I V},
      (btRemove comp m).1.isSome = true ↔ ∃ e ∈ m, comp e.1 = .eq := by
  intro m
  induction m with
  | nil => simp [btRemove]
  | cons e rest ih =>
    unfold btRemove
    by_cases he : comp e.1 = .eq
    · rw [if_pos he]
      simp only [Option.isSome_some, true_iff]
      exact ⟨e, List.mem_cons_self e rest, he⟩
    · rw [if_neg he]
      show (btRemove comp rest).1.isSome = true ↔ _
      rw [ih]
      constructor
      · rintro ⟨x, hx, hxeq⟩
        exact ⟨x, List.mem_cons_of_mem e hx, hxeq⟩
      · rintro ⟨x, hx, hxeq⟩
        rcases List.mem_cons.mp hx with rfl | hx'
        · exact absurd hxeq he
        · exact ⟨x, hx', hxeq⟩

/-- A comparator remove always yields a sublist of the store. -/
theorem btRemove_sublist (comp : Rg I → Ordering) :
    ∀ (m : RBMap I V), (btRemove comp m).2.Sublist m := by
  intro m
  induction m with
  | nil => exact List.Sublist.refl _
  | cons e rest ih =>
    unfold btRemove
    split
    · exact List.sublist_cons_self e rest
    · exact List.Sublist.cons₂ e ih

theorem btInsert_mem_weak {r : Rg I} {v : V} :
    ∀ {m : RBMap I V} {x}, x ∈ btInsert r v m → x = (r, v) ∨ x ∈ m := by
  intro m
  induction m with
  | nil =>
    intro x hx
    rcases List.mem_singleton.mp hx with rfl
    exact Or.inl rfl
  | cons e rest ih =>
    intro x hx
    unfold btInsert at hx
    rcases hc : compare (startKey r.start) (startKey e.1.start) with _ | _ | _ <;>
      rw [hc] at hx
    · rcases List.mem_cons.mp hx with rfl | hx'
      · exact Or.inl rfl
      · exact Or.inr hx'
    · rcases List.mem_cons.mp hx with rfl | hx'
      · exact Or.inl rfl
      · exact Or.inr (List.mem_cons_of_mem e hx')
    · rcases List.mem_cons.mp hx with rfl | hx'
      · exact Or.inr (List.mem_cons_self _ _)
      · rcases ih hx' with h | h
        · exact Or.inl h
        · exact Or.inr (List.mem_cons_of_mem e h)

/-- When no stored entry shares the new entry's start key, the insert is
a permutation of simply prepending the entry. -/
theorem btInsert_perm {r : Rg I} {v : V} :
    ∀ {m : RBMap I V},
      (∀ e ∈ m, startKey r.start ≠ startKey e.1.start) →
      (btInsert r v m).Perm ((r, v) :: m) := by
  intro m
  induction m with
  | nil => intro _; exact List.Perm.refl _
  | cons e rest ih =>
    intro h
    unfold btInsert
    rcases hc : compare (startKey r.start) (startKey e.1.start) with _ | _ | _
    · exact List.Perm.refl _
    · exact absurd (compare_eq_iff_eq.mp hc) (h e (List.mem_cons_self e rest))
    · have hperm := ih fun x hx => h x (List.mem_cons_of_mem e hx)
      exact (hperm.cons e).trans (List.Perm.swap (r, v) e rest)

/-- Inserting a valid entry that overlaps nothing preserves separation. -/
theorem btInsert_pairwise {r : Rg I} {v : V} :
    ∀ {m : RBMap I V}, m.Pairwise entrySep →
      (∀ e ∈ m, is_valid_range e.1 = true) →
      is_valid_range r = true →
      (∀ e ∈ m, overlaps e.1 r = false) →
      (btInsert r v m).Pairwise entrySep := by
  intro m
  induction m with
  | nil => intro _ _ _ _; simp [btInsert]
  | cons e rest ih =>
    intro hpw hval hvr hno
    have hve := hval e (List.mem_cons_self e rest)
    have hnoe := hno e (List.mem_cons_self e rest)
    unfold btInsert
    rcases hc : compare (startKey r.start) (startKey e.1.start) with _ | _ | _
    · -- new entry goes first
      have hc' := compare_lt_iff_lt.mp hc
      have hsep_re : entrySep (r, v) e := by
        rcases @entrySep_or_of_not_overlaps I _ V e (r, v)
            (by show ¬ overlaps e.1 r = true; rw [hnoe]; simp) with h | h
        · exact absurd (lt_trans (lt_of_lt_of_le hc' (is_valid_range_iff.mp hve)) h)
            (lt_irrefl _)
        · exact h
      refine List.Pairwise.cons ?_ hpw
      intro x hx
      rcases List.mem_cons.mp hx with rfl | hx'
      · exact hsep_re
      · have hsex := (List.pairwise_cons.mp hpw).1 x hx'
        exact lt_trans (lt_of_lt_of_le hsep_re (is_valid_range_iff.mp hve)) hsex
    · -- equal start keys cannot happen: the ranges would overlap
      have hc' := compare_eq_iff_eq.mp hc
      have : overlaps e.1 r = true := by
        rw [overlaps_iff]
        constructor
        · rw [← hc']
          exact is_valid_range_iff.mp hvr
        · rw [hc']
          exact is_valid_range_iff.mp hve
      rw [this] at hnoe
      cases hnoe
    · -- new entry goes past the head
      have hc' := compare_gt_iff_gt.mp hc
      have hsep_er : entrySep e (r, v) := by
        rcases @entrySep_or_of_not_overlaps I _ V e (r, v)
            (by show ¬ overlaps e.1 r = true; rw [hnoe]; simp) with h | h
        · exact h
        · exact absurd (lt_trans (lt_of_lt_of_le hc' (is_valid_range_iff.mp hvr)) h)
            (lt_irrefl _)
      refine List.Pairwise.cons ?_
        (ih (List.pairwise_cons.mp hpw).2
          (fun x hx => hval x (List.mem_cons_of_mem e hx)) hvr
          (fun x hx => hno x (List.mem_cons_of_mem e hx)))
      intro x hx
      rcases btInsert_mem_weak hx with rfl | hx'
      · exact hsep_er
      · exact (List.pairwise_cons.mp hpw).1 x hx'

theorem touching_start_fallback_ne_eq (e s : RBound I) :
    touching_start_fallback e s ≠ .eq := by
  unfold touching_start_fallback
  rcases h : compare (startKey s) (endKey e) with _ | _ | _ <;> simp

theorem touching_end_fallback_ne_eq (e s : RBound I) :
    touching_end_fallback e s ≠ .eq := by
  unfold touching_end_fallback
  rcases h : compare (endKey e) (startKey s) with _ | _ | _ <;> simp

/-- The touching-start comparator matches exactly the half-open contact
shapes: an inclusive stored end against an exclusive query start at the
same point, or the reverse. -/
theorem touching_start_comp_eq_iff {s : RBound I} {inner : Rg I} :
    touching_start_comp s inner = .eq ↔
      (∃ p, inner.endb = RBound.inc p ∧ s = RBound.exc p) ∨
      (∃ p, inner.endb = RBound.exc p ∧ s = RBound.inc p) := by
  obtain ⟨ist, ien⟩ := inner
  cases ien <;> cases s <;>
    simp only [touching_start_comp] <;>
    (simp [touching_start_fallback_ne_eq]; try exact eq_comm)

/-- The touching-end comparator matches exactly the half-open contact
shapes at the query's end. -/
theorem touching_end_comp_eq_iff {e : RBound I} {inner : Rg I} :
    touching_end_comp e inner = .eq ↔
      (∃ p, e = RBound.inc p ∧ inner.start = RBound.exc p) ∨
      (∃ p, e = RBound.exc p ∧ inner.start = RBound.inc p) := by
  obtain ⟨ist, ien⟩ := inner
  cases ist <;> cases e <;>
    simp only [touching_end_comp] <;>
    (simp [touching_end_fallback_ne_eq]; try exact eq_comm)

/-- Entries of an invariant-satisfying store are distinct. -/
theorem MapInv.nodup {m : RBMap I V} (h : MapInv m) : m.Nodup := by
  refine List.Pairwise.imp_of_mem ?_ h.1
  intro a b ha hb hsep heq
  subst heq
  exact absurd (lt_of_le_of_lt (is_valid_range_iff.mp (h.2 a ha)) hsep) (lt_irrefl _)

/-- Under the invariant, at most one stored entry can satisfy the
touching-start comparator. -/
theorem touching_start_unique {m : RBMap I V} (hInv : MapInv m) (s : RBound I) :
    ∀ a ∈ m, ∀ b ∈ m, touching_start_comp s a.1 = .eq →
      touching_start_comp s b.1 = .eq → a = b := by
  intro a ha b hb hac hbc
  have hends : a.1.endb = b.1.endb := by
    rcases touching_start_comp_eq_iff.mp hac with ⟨p, hp1, hp2⟩ | ⟨p, hp1, hp2⟩ <;>
      rcases touching_start_comp_eq_iff.mp hbc with ⟨q, hq1, hq2⟩ | ⟨q, hq1, hq2⟩ <;>
      rw [hp2] at hq2 <;> first
        | (cases hq2; rw [hp1, hq1])
        | cases hq2
  rcases pairwise_cases hInv.1 ha hb with h | h | h
  · exact h
  · have hvb := is_valid_range_iff.mp (hInv.2 b hb)
    rw [← hends] at hvb
    exact absurd (lt_of_lt_of_le h hvb) (lt_irrefl _)
  · have hva := is_valid_range_iff.mp (hInv.2 a ha)
    rw [hends] at hva
    exact absurd (lt_of_lt_of_le h hva) (lt_irrefl _)

/-- Under the invariant, at most one stored entry can satisfy the
touching-end comparator. -/
theorem touching_end_unique {m : RBMap I V} (hInv : MapInv m) (e : RBound I) :
    ∀ a ∈ m, ∀ b ∈ m, touching_end_comp e a.1 = .eq →
      touching_end_comp e b.1 = .eq → a = b := by
  intro a ha b hb hac hbc
  have hstarts : a.1.start = b.1.start := by
    rcases touching_end_comp_eq_iff.mp hac with ⟨p, hp1, hp2⟩ | ⟨p, hp1, hp2⟩ <;>
      rcases touching_end_comp_eq_iff.mp hbc with ⟨q, hq1, hq2⟩ | ⟨q, hq1, hq2⟩ <;>
      rw [hp1] at hq1 <;> first
        | (cases hq1; rw [hp2, hq2])
        | cases hq1
  rcases pairwise_cases hInv.1 ha hb with h | h | h
  · exact h
  · have hva := is_valid_range_iff.mp (hInv.2 a ha)
    rw [hstarts] at hva
    exact absurd (lt_of_le_of_lt hva h) (lt_irrefl _)
  · have hvb := is_valid_range_iff.mp (hInv.2 b hb)
    rw [← hstarts] at hvb
    exact absurd (lt_of_le_of_lt hvb h) (lt_irrefl _)

theorem length_le_one_of_nodup_of_all_eq {α : Type} {l : List α}
    (hnd : l.Nodup) (h : ∀ a ∈ l, ∀ b ∈ l, a = b) : l.length ≤ 1 := by
  match l with
  | [] => simp
  | [a] => simp
  | a :: b :: rest =>
    exact absurd (h a (by simp) b (by simp))
      ((List.nodup_cons.mp hnd).1 ∘ fun hab => hab ▸ List.mem_cons_self b rest)

/-- When at most one entry can match, removing by comparator agrees with
filtering the match away. -/
theorem btRemove_snd_eq_filter {comp : Rg I → Ordering} :
    ∀ {m : RBMap I V},
      (m.filter (fun e => comp e.1 == .eq)).length ≤ 1 →
      (btRemove comp m).2 = m.filter (fun e => !(comp e.1 == .eq)) := by
  intro m
  induction m with
  | nil => intro _; rfl
  | cons e rest ih =>
    intro hlen
    rw [List.filter_cons] at hlen
    unfold btRemove
    by_cases he : comp e.1 = .eq
    · rw [if_pos he]
      rw [if_pos (by simp [he])] at hlen
      have hrestnil : rest.filter (fun x : Rg I × V => comp x.1 == Ordering.eq) = [] := by
        rcases hf : rest.filter (fun x : Rg I × V => comp x.1 == Ordering.eq) with _ | ⟨y, ys⟩
        · rfl
        · rw [hf] at hlen
          simp at hlen
      have hrest : ∀ x ∈ rest, comp x.1 ≠ .eq := by
        intro x hx hxeq
        have hmem : x ∈ rest.filter (fun x : Rg I × V => comp x.1 == Ordering.eq) :=
          List.mem_filter.mpr ⟨hx, ordering_beq_iff.mpr hxeq⟩
        rw [hrestnil] at hmem
        cases hmem
      show rest = _
      rw [List.filter_cons, if_neg (by simp [he])]
      exact (List.filter_eq_self.mpr (fun x hx => by simp [hrest x hx])).symm
    · rw [if_neg he]
      rw [if_neg (by simp [he])] at hlen
      show e :: (btRemove comp rest).2 = _
      rw [List.filter_cons, if_pos (by simp [he]), ih hlen]

theorem filter_matches_length_le_one {comp : Rg I → Ordering} {m : RBMap I V}
    (hInv : MapInv m)
    (hu : ∀ a ∈ m, ∀ b ∈ m, comp a.1 = .eq → comp b.1 = .eq → a = b) :
    (m.filter (fun e => comp e.1 == .eq)).length ≤ 1 := by
  refine length_le_one_of_nodup_of_all_eq (hInv.nodup.filter _) ?_
  intro a ha b hb
  have ha' := List.mem_filter.mp ha
  have hb' := List.mem_filter.mp hb
  exact hu a ha'.1 b hb'.1 (ordering_beq_iff.mp ha'.2) (ordering_beq_iff.mp hb'.2)

/-- Under the invariant, the comparator that searches for the entry
containing a key matches at most one entry. -/
theorem cmp_rwb_unique {m : RBMap I V} (hInv : MapInv m) (k : EK I) :
    ∀ a ∈ m, ∀ b ∈ m, cmp_range_with_discrete_bound_ord a.1 k = .eq →
      cmp_range_with_discrete_bound_ord b.1 k = .eq → a = b := by
  intro a ha b hb hac hbc
  exact inv_unique_contains hInv ha hb (cmp_rwb_eq_iff.mp hac) (cmp_rwb_eq_iff.mp hbc)

/-- Inserting past a filter that rejects the new entry leaves the filter
unchanged, provided no stored entry shares the new start key. -/
theorem btInsert_filter {r : Rg I} {v : V} {p : Rg I × V → Bool}
    (hp : p (r, v) = false) :
    ∀ {m : RBMap I V},
      (∀ e ∈ m, startKey r.start ≠ startKey e.1.start) →
      (btInsert r v m).filter p = m.filter p := by
  intro m
  induction m with
  | nil =>
    intro _
    show List.filter p [(r, v)] = _
    rw [List.filter_cons, if_neg (by simp [hp])]
  | cons e rest ih =>
    intro hne
    unfold btInsert
    rcases hc : compare (startKey r.start) (startKey e.1.start) with _ | _ | _
    · rw [List.filter_cons, if_neg (by simp [hp])]
    · exact absurd (compare_eq_iff_eq.mp hc) (hne e (List.mem_cons_self e rest))
    · rw [List.filter_cons, List.filter_cons]
      rw [ih (fun x hx => hne x (List.mem_cons_of_mem e hx))]

theorem overlaps_map_iff {m : RBMap I V}
    (hval : ∀ e ∈ m, is_valid_range e.1 = true) {q : Rg I} :
    overlaps_map m q = true ↔ ∃ e ∈ m, overlaps e.1 q = true := by
  unfold overlaps_map
  rw [overlapping_eq_filter hval]
  constructor
  · intro h
    rcases hf : m.filter (fun e => overlaps e.1 q) with _ | ⟨a, rest⟩
    · rw [hf] at h
      cases h
    · have hmem : a ∈ m.filter (fun e => overlaps e.1 q) := by
        rw [hf]
        exact List.mem_cons_self a rest
      have h' := List.mem_filter.mp hmem
      exact ⟨a, h'.1, h'.2⟩
  · rintro ⟨e, he, heo⟩
    have hm : e ∈ m.filter (fun e => overlaps e.1 q) := List.mem_filter.mpr ⟨he, heo⟩
    rcases hf : m.filter (fun e => overlaps e.1 q) with _ | ⟨a, rest⟩
    · rw [hf] at hm
      cases hm
    · rw [hf]
      rfl

/-- Under the invariant the store is sorted by strictly increasing start
key. -/
theorem inv_sorted {m : RBMap I V} (hInv : MapInv m) :
    m.Pairwise (fun a b => startKey a.1.start < startKey b.1.start) := by
  refine List.Pairwise.imp_of_mem ?_ hInv.1
  intro a b ha _ hsep
  exact lt_of_le_of_lt (is_valid_range_iff.mp (hInv.2 a ha)) hsep

/-- The invariant restricts to any sublist of the store. -/
theorem MapInv.sublist {m m' : RBMap I V} (h : MapInv m) (hs : m'.Sublist m) :
    MapInv m' :=
  ⟨h.1.sublist hs, fun e he => h.2 e (hs.mem he)⟩

/-!  Atomicity on error. -/

theorem insert_strict_error {m m' : RBMap I V} {r : Rg I} {v : V}
    {er : OverlapError} (h : insert_strict m r v = (m', .error er)) : m' = m := by
  unfold insert_strict at h
  split at h
  · cases h
    rfl
  · exact absurd (congrArg Prod.snd h) (by simp)


theorem cut_single_overlapping_error {P : Rg I → Bool} {m m' : RBMap I V}
    {q s : Rg I} {er : TryFromBoundsError}
    (h : cut_single_overlapping P m q s = some (m', .error er)) : m' = m := by
  unfold cut_single_overlapping at h
  repeat' split at h
  all_goals first
    | (cases h; rfl)
    | cases h

theorem cut_non_single_overlapping_error {P : Rg I → Bool} {m m' : RBMap I V}
    {q : Rg I} {lo ro : Option (Rg I)} {er : TryFromBoundsError}
    (h : cut_non_single_overlapping P m q lo ro = some (m', .error er)) :
    m' = m := by
  unfold cut_non_single_overlapping at h
  repeat' split at h
  all_goals first
    | (cases h; rfl)
    | cases h

theorem cut_error {P : Rg I → Bool} {m m' : RBMap I V} {q : Rg I}
    {er : TryFromBoundsError}
    (h : cut P m q = some (m', .error er)) : m' = m := by
  unfold cut at h
  split at h
  · split at h
    · exact cut_single_overlapping_error h
    · exact cut_non_single_overlapping_error h
  · exact cut_non_single_overlapping_error h

theorem insert_merge_with_comps_error {P : Rg I → Bool} {m m' : RBMap I V}
    {r : Rg I} {v : V} {er : TryFromBoundsError}
    {gs ge : RBMap I V → V → Option (Rg I)}
    {rs re : RBMap I V → V → RBMap I V}
    (h : insert_merge_with_comps P m r v gs ge rs re = (m', .error er)) :
    m' = m := by
  unfold insert_merge_with_comps at h
  split at h
  · cases h
    rfl
  · exact absurd (congrArg Prod.snd h) (by simp)

theorem insert_merge_touching_error {P : Rg I → Bool} {m m' : RBMap I V}
    {r : Rg I} {v : V} {er : OverlapOrTryFromBoundsError}
    (h : insert_merge_touching P m r v = (m', .error er)) : m' = m := by
  unfold insert_merge_touching at h
  split at h
  · cases h
    rfl
  · rcases hr : insert_merge_touching_core P m r v with ⟨m1, res⟩
    rw [hr] at h
    cases res with
    | ok a => exact absurd (congrArg Prod.snd h) (by simp [Except.mapError])
    | error e' =>
      have hm1 : m' = m1 := (congrArg Prod.fst h).symm
      rw [hm1]
      exact insert_merge_with_comps_error hr

theorem insert_merge_touching_if_values_equal_error [DecidableEq V]
    {P : Rg I → Bool} {m m' : RBMap I V}
    {r : Rg I} {v : V} {er : OverlapOrTryFromBoundsError}
    (h : insert_merge_touching_if_values_equal P m r v = (m', .error er)) :
    m' = m := by
  unfold insert_merge_touching_if_values_equal at h
  split at h
  · cases h
    rfl
  · rcases hr : insert_merge_touching_if_values_equal_core P m r v with ⟨m1, res⟩
    rw [hr] at h
    cases res with
    | ok a => exact absurd (congrArg Prod.snd h) (by simp [Except.mapError])
    | error e' =>
      have hm1 : m' = m1 := (congrArg Prod.fst h).symm
      rw [hm1]
      exact insert_merge_with_comps_error hr

theorem insert_merge_overlapping_error {P : Rg I → Bool} {m m' : RBMap I V}
    {r : Rg I} {v : V} {er : TryFromBoundsError}
    (h : insert_merge_overlapping P m r v = (m', .error er)) : m' = m :=
  insert_merge_with_comps_error h

theorem insert_merge_touching_or_overlapping_error {P : Rg I → Bool}
    {m m' : RBMap I V} {r : Rg I} {v : V} {er : TryFromBoundsError}
    (h : insert_merge_touching_or_overlapping P m r v = (m', .error er)) :
    m' = m :=
  insert_merge_with_comps_error h

theorem insert_overwrite_error {P : Rg I → Bool} {m m' : RBMap I V}
    {r : Rg I} {v : V} {er : TryFromBoundsError}
    (h : insert_overwrite P m r v = some (m', .error er)) : m' = m := by
  unfold insert_overwrite at h
  split at h
  · cases h
  · rename_i m1 er' heq
    cases h
    exact cut_error heq
  · cases h

instance exceptDecidableEq {E A : Type} [DecidableEq E] [DecidableEq A] :
    DecidableEq (Except E A) := fun x y =>
  match x, y with
  | .ok a, .ok b =>
    if h : a = b then isTrue (by rw [h])
    else isFalse (by intro hh; cases hh; exact h rfl)
  | .error a, .error b =>
    if h : a = b then isTrue (by rw [h])
    else isFalse (by intro hh; cases hh; exact h rfl)
  | .ok _, .error _ => isFalse (by intro hh; cases hh)
  | .error _, .ok _ => isFalse (by intro hh; cases hh)

/-- C2: any public operation that returns an error (overlap,
representability, or either) leaves the map equal to its pre-call state;
in particular cut and every merging insert run all representability
checks before mutating. -/
theorem C2_error_atomicity {I V : Type} [LinearOrder I] [DecidableEq V]
    (P : Rg I → Bool) (m : RBMap I V) (r q : Rg I) (v : V) :
    (∀ m' er, insert_strict m r v = (m', .error er) → m' = m) ∧
    (∀ m' er, cut P m q = some (m', .error er) → m' = m) ∧
    (∀ m' er, insert_merge_touching P m r v = (m', .error er) → m' = m) ∧
    (∀ m' er,
      insert_merge_touching_if_values_equal P m r v = (m', .error er) → m' = m) ∧
    (∀ m' er, insert_merge_overlapping P m r v = (m', .error er) → m' = m) ∧
    (∀ m' er,
      insert_merge_touching_or_overlapping P m r v = (m', .error er) → m' = m) ∧
    (∀ m' er, insert_overwrite P m r v = some (m', .error er) → m' = m) :=
  ⟨fun _ _ => insert_strict_error,
   fun _ _ => cut_error,
   fun _ _ => insert_merge_touching_error,
   fun _ _ => insert_merge_touching_if_values_equal_error,
   fun _ _ => insert_merge_overlapping_error,
   fun _ _ => insert_merge_touching_or_overlapping_error,
   fun _ _ => insert_overwrite_error⟩

/-- Witness for C2: cutting a closed range out of a half-open-only store
fails with the representability error and leaves the store unchanged. -/
theorem C2_error_atomicity_witness :
    cut (fun r : Rg Int =>
        match r.start, r.endb with
        | RBound.inc _, RBound.exc _ => true
        | _, _ => false)
      ([(⟨RBound.inc 2, RBound.exc 8⟩, true)] : RBMap Int Bool)
      ⟨RBound.inc 4, RBound.inc 6⟩
      = some ([(⟨RBound.inc 2, RBound.exc 8⟩, true)],
          .error .tryFromBoundsError) ∧
    ([(⟨RBound.inc 2, RBound.exc 8⟩, true)] : RBMap Int Bool)
      = [(⟨RBound.inc 2, RBound.exc 8⟩, true)] :=
  ⟨rfl,
   (C2_error_atomicity
      (fun r : Rg Int =>
        match r.start, r.endb with
        | RBound.inc _, RBound.exc _ => true
        | _, _ => false)
      ([(⟨RBound.inc 2, RBound.exc 8⟩, true)] : RBMap Int Bool)
      ⟨RBound.inc 4, RBound.inc 6⟩ ⟨RBound.inc 4, RBound.inc 6⟩
      true).2.1
    [(⟨RBound.inc 2, RBound.exc 8⟩, true)] .tryFromBoundsError rfl⟩

instance (a b : Rg I × V) : Decidable (entrySep a b) := by
  unfold entrySep
  infer_instance

instance (m : RBMap I V) : Decidable (MapInv m) := by
  unfold MapInv
  infer_instance

theorem startKey_ne_of_not_overlaps {e r : Rg I}
    (hve : is_valid_range e = true) (hvr : is_valid_range r = true)
    (h : overlaps e r = false) : startKey r.start ≠ startKey e.start := by
  intro heq
  have hov : overlaps e r = true := by
    refine overlaps_iff.mpr ⟨?_, ?_⟩
    · rw [← heq]
      exact is_valid_range_iff.mp hvr
    · rw [heq]
      exact is_valid_range_iff.mp hve
  rw [h] at hov
  cases hov

theorem MapInv.insert {m : RBMap I V} (hInv : MapInv m) {r : Rg I} {v : V}
    (hvr : is_valid_range r = true)
    (hno : ∀ e ∈ m, overlaps e.1 r = false) : MapInv (btInsert r v m) := by
  refine ⟨btInsert_pairwise hInv.1 hInv.2 hvr hno, ?_⟩
  intro e he
  rcases btInsert_mem_weak he with rfl | h
  · exact hvr
  · exact hInv.2 e h

/-- C8: strict insertion fails with the overlap error exactly when some
stored range overlaps the new range, leaving the map unchanged; otherwise
it succeeds and the new map is exactly the old entries plus the new one,
still satisfying the invariant. -/
theorem C8_insert_strict {I V : Type} [LinearOrder I] {m : RBMap I V}
    {r : Rg I} {v : V} (hInv : MapInv m) (hvr : is_valid_range r = true) :
    ((insert_strict m r v).2 = .error .overlapError ↔
      ∃ e ∈ m, overlaps e.1 r = true) ∧
    ((insert_strict m r v).2 = .error .overlapError →
      (insert_strict m r v).1 = m) ∧
    ((insert_strict m r v).2 = .ok () →
      (insert_strict m r v).1.Perm ((r, v) :: m) ∧
        MapInv (insert_strict m r v).1) := by
  unfold insert_strict
  by_cases hov : overlaps_map m r = true
  · rw [if_pos hov]
    refine ⟨iff_of_true rfl ((overlaps_map_iff hInv.2).mp hov), fun _ => rfl, ?_⟩
    intro h
    exact absurd h (by simp)
  · rw [if_neg hov]
    have hno : ∀ e ∈ m, overlaps e.1 r = false := by
      intro e he
      rcases hb : overlaps e.1 r with _ | _
      · rfl
      · exact absurd ((overlaps_map_iff hInv.2).mpr ⟨e, he, hb⟩) hov
    refine ⟨?_, ?_, ?_⟩
    · refine iff_of_false (by simp) ?_
      rintro ⟨e, he, hov'⟩
      rw [hno e he] at hov'
      cases hov'
    · intro h
      exact absurd h (by simp)
    · intro _
      refine ⟨?_, MapInv.insert hInv hvr hno⟩
      exact btInsert_perm
        (fun e he => startKey_ne_of_not_overlaps (hInv.2 e he) hvr (hno e he))

/-- Witness for C8 on a concrete overlapping insertion attempt. -/
theorem C8_insert_strict_witness :
    MapInv ([(⟨RBound.inc 1, RBound.exc 4⟩, false)] : RBMap Int Bool) ∧
    is_valid_range (⟨RBound.inc 2, RBound.exc 6⟩ : Rg Int) = true ∧
    (((insert_strict ([(⟨RBound.inc 1, RBound.exc 4⟩, false)] : RBMap Int Bool)
        ⟨RBound.inc 2, RBound.exc 6⟩ true).2 = .error .overlapError ↔
      ∃ e ∈ ([(⟨RBound.inc 1, RBound.exc 4⟩, false)] : RBMap Int Bool),
        overlaps e.1 ⟨RBound.inc 2, RBound.exc 6⟩ = true) ∧
    ((insert_strict ([(⟨RBound.inc 1, RBound.exc 4⟩, false)] : RBMap Int Bool)
        ⟨RBound.inc 2, RBound.exc 6⟩ true).2 = .error .overlapError →
      (insert_strict ([(⟨RBound.inc 1, RBound.exc 4⟩, false)] : RBMap Int Bool)
        ⟨RBound.inc 2, RBound.exc 6⟩ true).1
        = [(⟨RBound.inc 1, RBound.exc 4⟩, false)]) ∧
    ((insert_strict ([(⟨RBound.inc 1, RBound.exc 4⟩, false)] : RBMap Int Bool)
        ⟨RBound.inc 2, RBound.exc 6⟩ true).2 = .ok () →
      (insert_strict ([(⟨RBound.inc 1, RBound.exc 4⟩, false)] : RBMap Int Bool)
        ⟨RBound.inc 2, RBound.exc 6⟩ true).1.Perm
        ((⟨RBound.inc 2, RBound.exc 6⟩, true) ::
          [(⟨RBound.inc 1, RBound.exc 4⟩, false)]) ∧
      MapInv (insert_strict ([(⟨RBound.inc 1, RBound.exc 4⟩, false)] : RBMap Int Bool)
        ⟨RBound.inc 2, RBound.exc 6⟩ true).1)) :=
  ⟨by decide, by decide, C8_insert_strict (by decide) (by decide)⟩

/-- C7: the overlapping traversal yields exactly the stored entries whose
range overlaps the query, in ascending start order; and on a dense order,
overlap means sharing at least one point. -/
theorem C7_overlapping {I V : Type} [LinearOrder I] [DenselyOrdered I]
    [NoMinOrder I] [NoMaxOrder I] [Nonempty I]
    {m : RBMap I V} {q : Rg I} (hInv : MapInv m)
    (hvq : is_valid_range q = true) :
    overlapping m q = m.filter (fun e => overlaps e.1 q) ∧
    (∀ e ∈ m, (e ∈ overlapping m q ↔ overlaps e.1 q = true)) ∧
    (overlapping m q).Pairwise
      (fun a b => startKey a.1.start < startKey b.1.start) ∧
    (∀ e ∈ m, (overlaps e.1 q = true ↔
      ∃ p, containsPoint e.1 p ∧ containsPoint q p)) := by
  have hfe := overlapping_eq_filter hInv.2 q
  refine ⟨hfe, ?_, ?_, ?_⟩
  · intro e he
    rw [hfe]
    constructor
    · intro h
      exact (List.mem_filter.mp h).2
    · intro h
      exact List.mem_filter.mpr ⟨he, h⟩
  · rw [hfe]
    exact (inv_sorted hInv).sublist (List.filter_sublist m)
  · intro e he
    exact overlaps_iff_exists_point (hInv.2 e he) hvq

/-- Witness for C7 on a concrete rational store and query. -/
theorem C7_overlapping_witness :
    MapInv ([(⟨RBound.inc 1, RBound.exc 4⟩, false),
             (⟨RBound.inc 4, RBound.exc 8⟩, true)] : RBMap Rat Bool) ∧
    is_valid_range (⟨RBound.inc 2, RBound.exc 8⟩ : Rg Rat) = true ∧
    (overlapping
        ([(⟨RBound.inc 1, RBound.exc 4⟩, false),
          (⟨RBound.inc 4, RBound.exc 8⟩, true)] : RBMap Rat Bool)
        ⟨RBound.inc 2, RBound.exc 8⟩
      = ([(⟨RBound.inc 1, RBound.exc 4⟩, false),
          (⟨RBound.inc 4, RBound.exc 8⟩, true)] : RBMap Rat Bool).filter
          (fun e => overlaps e.1 ⟨RBound.inc 2, RBound.exc 8⟩)) :=
  ⟨by decide, by decide,
   (C7_overlapping (by decide) (by decide)).1⟩

/-! Extremal elements of sorted lists, for the gap characterisation. -/

/-- The last element of a list, when present, is a member. -/
theorem mem_of_getLast_opt {α : Type} :
    ∀ {l : List α} {a : α}, l.getLast? = some a → a ∈ l := by
  intro l
  induction l with
  | nil => intro a ha; cases ha
  | cons x xs ih =>
    intro a ha
    cases xs with
    | nil =>
      have hx : x = a := by simpa using ha
      exact hx ▸ List.mem_singleton_self x
    | cons y ys =>
      rw [List.getLast?_cons_cons] at ha
      exact List.mem_cons_of_mem x (ih ha)

/-- A list with no last element is empty. -/
theorem eq_nil_of_getLast_opt_none {α : Type} :
    ∀ {l : List α}, l.getLast? = none → l = [] := by
  intro l
  induction l with
  | nil => intro _; rfl
  | cons x xs ih =>
    intro h
    cases xs with
    | nil => simp at h
    | cons y ys =>
      rw [List.getLast?_cons_cons] at h
      exact absurd (ih h) (List.cons_ne_nil y ys)

/-- A list with no head is empty. -/
theorem eq_nil_of_head_opt_none {α : Type} :
    ∀ {l : List α}, l.head? = none → l = [] := by
  intro l h
  cases l with
  | nil => rfl
  | cons x xs => cases h

/-- The head of a list, when present, is a member. -/
theorem mem_of_head_opt {α : Type} :
    ∀ {l : List α} {a : α}, l.head? = some a → a ∈ l := by
  intro l a h
  cases l with
  | nil => cases h
  | cons x xs =>
    have hx : x = a := by simpa using h
    exact hx ▸ List.mem_cons_self x xs

/-- In a pairwise-related list every element is the last one or relates
to it. -/
theorem pairwise_getLast_opt {α : Type} {R : α → α → Prop} :
    ∀ {l : List α}, l.Pairwise R → ∀ {a : α}, l.getLast? = some a →
      ∀ b ∈ l, b = a ∨ R b a := by
  intro l
  induction l with
  | nil => intro _ a ha; cases ha
  | cons x xs ih =>
    intro hp a ha b hb
    have hx := (List.pairwise_cons.mp hp).1
    have hxs := (List.pairwise_cons.mp hp).2
    cases xs with
    | nil =>
      have hxa : x = a := by simpa using ha
      exact Or.inl ((List.mem_singleton.mp hb).trans hxa)
    | cons y ys =>
      rw [List.getLast?_cons_cons] at ha
      rcases List.mem_cons.mp hb with rfl | hb'
      · exact Or.inr (hx a (mem_of_getLast_opt ha))
      · exact ih hxs ha b hb'

/-- In a pairwise-related list every element is the head or is related
from it. -/
theorem pairwise_head_opt {α : Type} {R : α → α → Prop} {l : List α}
    (hp : l.Pairwise R) {a : α} (ha : l.head? = some a) :
    ∀ b ∈ l, b = a ∨ R a b := by
  cases l with
  | nil => cases ha
  | cons x xs =>
    have hxa : x = a := by simpa using ha
    intro b hb
    rcases List.mem_cons.mp hb with rfl | hb'
    · exact Or.inl hxa
    · exact Or.inr (hxa ▸ (List.pairwise_cons.mp hp).1 b hb')

/-- C5: `get_entry_at_point` returns `Ok` exactly when some stored entry
contains the point; on a miss it returns the gap whose lower endpoint is
the flip of the end of the greatest entry starting at or before the point
(`Unbounded` if none) and whose upper endpoint is the flip of the start of
the least entry starting after the point (`Unbounded` if none); this gap
is a valid range, disjoint from every stored entry, and contains the
point. -/
theorem C5_get_entry_at_point {I V : Type} [LinearOrder I] {m : RBMap I V}
    {p : I} (hInv : MapInv m) :
    ((∃ e, get_entry_at_point m p = .ok e) ↔ ∃ e ∈ m, containsPoint e.1 p) ∧
    (∀ e, get_entry_at_point m p = .ok e → e ∈ m ∧ containsPoint e.1 p) ∧
    (∀ lo hi, get_entry_at_point m p = .error (lo, hi) →
      ((lo = RBound.unb ∧ ∀ e ∈ m, ¬ startKey e.1.start ≤ pointKey p) ∨
        (∃ l ∈ m, lo = flip_bound l.1.endb ∧
          startKey l.1.start ≤ pointKey p ∧
          ∀ e ∈ m, startKey e.1.start ≤ pointKey p →
            startKey e.1.start ≤ startKey l.1.start)) ∧
      ((hi = RBound.unb ∧ ∀ e ∈ m, ¬ pointKey p < startKey e.1.start) ∨
        (∃ u ∈ m, hi = flip_bound u.1.start ∧
          pointKey p < startKey u.1.start ∧
          ∀ e ∈ m, pointKey p < startKey e.1.start →
            startKey u.1.start ≤ startKey e.1.start)) ∧
      is_valid_range (⟨lo, hi⟩ : Rg I) = true ∧
      (∀ e ∈ m, overlaps (⟨lo, hi⟩ : Rg I) e.1 = false) ∧
      containsPoint (⟨lo, hi⟩ : Rg I) p) := by
  rcases hg : btGetKeyValue (overlapping_start_comp (RBound.inc p)) m with _ | e₀
  · -- miss
    have hnone := btGetKeyValue_eq_none_iff.mp hg
    have hnc : ∀ e ∈ m, ¬ containsPoint e.1 p := by
      intro e he hc
      exact hnone e he (cmp_rwb_eq_iff.mpr hc)
    have hval : get_entry_at_point m p = Except.error
        (match btUpperBound (overlapping_start_comp (RBound.inc p)) m with
         | some l => flip_bound l.1.endb
         | none => RBound.unb,
         match btLowerBound (overlapping_end_comp (RBound.inc p)) m with
         | some u => flip_bound u.1.start
         | none => RBound.unb) := by
      unfold get_entry_at_point
      rw [hg]
    have hmiss1 : ∀ e ∈ m, startKey e.1.start ≤ pointKey p →
        endKey e.1.endb < pointKey p := by
      intro e he hse
      by_contra hcon
      exact hnc e he ⟨hse, le_of_not_lt hcon⟩
    have hmiss2 : ∀ e ∈ m, (pointKey p ≤ endKey e.1.endb ↔
        pointKey p < startKey e.1.start) := by
      intro e he
      constructor
      · intro hpe
        by_contra hcon
        exact hnc e he ⟨le_of_not_lt hcon, hpe⟩
      · intro hps
        exact le_of_lt (lt_of_lt_of_le hps (is_valid_range_iff.mp (hInv.2 e he)))
    have hmem_lows : ∀ e : Rg I × V,
        (e ∈ m.filter
            (fun e => !(overlapping_start_comp (RBound.inc p) e.1 == Ordering.lt)) ↔
          (e ∈ m ∧ startKey e.1.start ≤ pointKey p)) := by
      intro e
      simp only [List.mem_filter, Bool.not_eq_true', ordering_beq_false_iff,
        overlapping_start_comp]
      exact and_congr Iff.rfl cmp_rwb_ne_lt_iff
    have hmem_highs : ∀ e : Rg I × V,
        (e ∈ m.filter
            (fun e => !(overlapping_end_comp (RBound.inc p) e.1 == Ordering.gt)) ↔
          (e ∈ m ∧ pointKey p ≤ endKey e.1.endb)) := by
      intro e
      simp only [List.mem_filter, Bool.not_eq_true', ordering_beq_false_iff,
        overlapping_end_comp]
      constructor
      · rintro ⟨he, hcomp⟩
        exact ⟨he, (cmp_rwb_ne_gt_iff (hInv.2 e he)).mp hcomp⟩
      · rintro ⟨he, hle⟩
        exact ⟨he, (cmp_rwb_ne_gt_iff (hInv.2 e he)).mpr hle⟩
    have hlows_pair : (m.filter
        (fun e => !(overlapping_start_comp (RBound.inc p) e.1
          == Ordering.lt))).Pairwise entrySep :=
      hInv.1.sublist (List.filter_sublist m)
    have hhighs_pair : (m.filter
        (fun e => !(overlapping_end_comp (RBound.inc p) e.1
          == Ordering.gt))).Pairwise entrySep :=
      hInv.1.sublist (List.filter_sublist m)
    refine ⟨?_, ?_, ?_⟩
    · refine iff_of_false ?_ ?_
      · rintro ⟨e, he⟩
        rw [hval] at he
        exact Except.noConfusion he
      · rintro ⟨e, he, hc⟩
        exact hnc e he hc
    · intro f hf
      rw [hval] at hf
      exact Except.noConfusion hf
    · intro lo hi herr
      rcases hL : btUpperBound (overlapping_start_comp (RBound.inc p)) m with _ | l
      · rcases hU : btLowerBound (overlapping_end_comp (RBound.inc p)) m with _ | u
        · -- no entry at or before, none after
          simp only [hL, hU] at hval
          have hpair := hval.symm.trans herr
          rw [Except.error.injEq, Prod.mk.injEq] at hpair
          obtain ⟨hlo, hhi⟩ := hpair
          subst hlo
          subst hhi
          unfold btUpperBound at hL
          unfold btLowerBound at hU
          have hnolow : ∀ e ∈ m, ¬ startKey e.1.start ≤ pointKey p := by
            intro e he hle
            have hmem := (hmem_lows e).mpr ⟨he, hle⟩
            rw [eq_nil_of_getLast_opt_none hL] at hmem
            cases hmem
          have hnohigh : ∀ e ∈ m, ¬ pointKey p < startKey e.1.start := by
            intro e he hlt
            have hmem := (hmem_highs e).mpr ⟨he, (hmiss2 e he).mpr hlt⟩
            rw [eq_nil_of_head_opt_none hU] at hmem
            cases hmem
          have hcp : containsPoint (⟨RBound.unb, RBound.unb⟩ : Rg I) p :=
            ⟨bot_le, le_ekTop _⟩
          refine ⟨Or.inl ⟨rfl, hnolow⟩, Or.inl ⟨rfl, hnohigh⟩,
            is_valid_range_iff.mpr (le_trans hcp.1 hcp.2), ?_, hcp⟩
          intro e he
          rw [← Bool.not_eq_true, overlaps_iff]
          rintro ⟨h1, h2⟩
          rcases le_or_lt (startKey e.1.start) (pointKey p) with hse | hse
          · exact hnolow e he hse
          · exact hnohigh e he hse
        · -- none at or before, least after is u
          simp only [hL, hU] at hval
          have hpair := hval.symm.trans herr
          rw [Except.error.injEq, Prod.mk.injEq] at hpair
          obtain ⟨hlo, hhi⟩ := hpair
          subst hlo
          subst hhi
          unfold btUpperBound at hL
          unfold btLowerBound at hU
          have hnolow : ∀ e ∈ m, ¬ startKey e.1.start ≤ pointKey p := by
            intro e he hle
            have hmem := (hmem_lows e).mpr ⟨he, hle⟩
            rw [eq_nil_of_getLast_opt_none hL] at hmem
            cases hmem
          have humem := (hmem_highs u).mp (mem_of_head_opt hU)
          have hpu : pointKey p < startKey u.1.start :=
            (hmiss2 u humem.1).mp humem.2
          have hus : u.1.start ≠ RBound.unb := ne_unb_of_lt_startKey hpu
          have hhead := pairwise_head_opt hhighs_pair hU
          have hleast : ∀ e ∈ m, pointKey p < startKey e.1.start →
              startKey u.1.start ≤ startKey e.1.start := by
            intro e he hlt
            rcases hhead e ((hmem_highs e).mpr ⟨he, (hmiss2 e he).mpr hlt⟩)
              with rfl | hsep
            · exact le_rfl
            · exact le_of_lt (lt_of_le_of_lt
                (is_valid_range_iff.mp (hInv.2 u humem.1)) hsep)
          have hdishigh : ∀ e ∈ m, pointKey p < startKey e.1.start →
              ¬ startKey e.1.start ≤ endKey (flip_bound u.1.start) := by
            intro e he hlt hcon
            rw [le_endKey_flip_iff hus] at hcon
            exact absurd hcon (not_lt.mpr (hleast e he hlt))
          have hcp : containsPoint (⟨RBound.unb, flip_bound u.1.start⟩ : Rg I) p :=
            ⟨bot_le, (le_endKey_flip_iff hus (pointKey p)).mpr hpu⟩
          refine ⟨Or.inl ⟨rfl, hnolow⟩, Or.inr ⟨u, humem.1, rfl, hpu, hleast⟩,
            is_valid_range_iff.mpr (le_trans hcp.1 hcp.2), ?_, hcp⟩
          intro e he
          rw [← Bool.not_eq_true, overlaps_iff]
          rintro ⟨h1, h2⟩
          rcases le_or_lt (startKey e.1.start) (pointKey p) with hse | hse
          · exact hnolow e he hse
          · exact hdishigh e he hse h2
      · rcases hU : btLowerBound (overlapping_end_comp (RBound.inc p)) m with _ | u
        · -- greatest at or before is l, none after
          simp only [hL, hU] at hval
          have hpair := hval.symm.trans herr
          rw [Except.error.injEq, Prod.mk.injEq] at hpair
          obtain ⟨hlo, hhi⟩ := hpair
          subst hlo
          subst hhi
          unfold btUpperBound at hL
          unfold btLowerBound at hU
          have hnohigh : ∀ e ∈ m, ¬ pointKey p < startKey e.1.start := by
            intro e he hlt
            have hmem := (hmem_highs e).mpr ⟨he, (hmiss2 e he).mpr hlt⟩
            rw [eq_nil_of_head_opt_none hU] at hmem
            cases hmem
          have hlmem := (hmem_lows l).mp (mem_of_getLast_opt hL)
          have hel : endKey l.1.endb < pointKey p := hmiss1 l hlmem.1 hlmem.2
          have hlub : l.1.endb ≠ RBound.unb := ne_unb_of_endKey_lt hel
          have hlast := pairwise_getLast_opt hlows_pair hL
          have hgreat : ∀ e ∈ m, startKey e.1.start ≤ pointKey p →
              startKey e.1.start ≤ startKey l.1.start := by
            intro e he hse
            rcases hlast e ((hmem_lows e).mpr ⟨he, hse⟩) with rfl | hsep
            · exact le_rfl
            · exact le_of_lt (lt_of_le_of_lt
                (is_valid_range_iff.mp (hInv.2 e he)) hsep)
          have hdislow : ∀ e ∈ m, startKey e.1.start ≤ pointKey p →
              ¬ startKey (flip_bound l.1.endb) ≤ endKey e.1.endb := by
            intro e he hse hcon
            rw [startKey_flip_le_iff hlub] at hcon
            rcases hlast e ((hmem_lows e).mpr ⟨he, hse⟩) with rfl | hsep
            · exact absurd hcon (lt_irrefl _)
            · exact absurd (lt_trans hcon (lt_of_lt_of_le hsep
                (is_valid_range_iff.mp (hInv.2 l hlmem.1)))) (lt_irrefl _)
          have hcp : containsPoint (⟨flip_bound l.1.endb, RBound.unb⟩ : Rg I) p :=
            ⟨(startKey_flip_le_iff hlub (pointKey p)).mpr hel, le_ekTop _⟩
          refine ⟨Or.inr ⟨l, hlmem.1, rfl, hlmem.2, hgreat⟩,
            Or.inl ⟨rfl, hnohigh⟩,
            is_valid_range_iff.mpr (le_trans hcp.1 hcp.2), ?_, hcp⟩
          intro e he
          rw [← Bool.not_eq_true, overlaps_iff]
          rintro ⟨h1, h2⟩
          rcases le_or_lt (startKey e.1.start) (pointKey p) with hse | hse
          · exact hdislow e he hse h1
          · exact hnohigh e he hse
        · -- both neighbours exist
          simp only [hL, hU] at hval
          have hpair := hval.symm.trans herr
          rw [Except.error.injEq, Prod.mk.injEq] at hpair
          obtain ⟨hlo, hhi⟩ := hpair
          subst hlo
          subst hhi
          unfold btUpperBound at hL
          unfold btLowerBound at hU
          have hlmem := (hmem_lows l).mp (mem_of_getLast_opt hL)
          have hel : endKey l.1.endb < pointKey p := hmiss1 l hlmem.1 hlmem.2
          have hlub : l.1.endb ≠ RBound.unb := ne_unb_of_endKey_lt hel
          have hlast := pairwise_getLast_opt hlows_pair hL
          have hgreat : ∀ e ∈ m, startKey e.1.start ≤ pointKey p →
              startKey e.1.start ≤ startKey l.1.start := by
            intro e he hse
            rcases hlast e ((hmem_lows e).mpr ⟨he, hse⟩) with rfl | hsep
            · exact le_rfl
            · exact le_of_lt (lt_of_le_of_lt
                (is_valid_range_iff.mp (hInv.2 e he)) hsep)
          have hdislow : ∀ e ∈ m, startKey e.1.start ≤ pointKey p →
              ¬ startKey (flip_bound l.1.endb) ≤ endKey e.1.endb := by
            intro e he hse hcon
            rw [startKey_flip_le_iff hlub] at hcon
            rcases hlast e ((hmem_lows e).mpr ⟨he, hse⟩) with rfl | hsep
            · exact absurd hcon (lt_irrefl _)
            · exact absurd (lt_trans hcon (lt_of_lt_of_le hsep
                (is_valid_range_iff.mp (hInv.2 l hlmem.1)))) (lt_irrefl _)
          have humem := (hmem_highs u).mp (mem_of_head_opt hU)
          have hpu : pointKey p < startKey u.1.start :=
            (hmiss2 u humem.1).mp humem.2
          have hus : u.1.start ≠ RBound.unb := ne_unb_of_lt_startKey hpu
          have hhead := pairwise_head_opt hhighs_pair hU
          have hleast : ∀ e ∈ m, pointKey p < startKey e.1.start →
              startKey u.1.start ≤ startKey e.1.start := by
            intro e he hlt
            rcases hhead e ((hmem_highs e).mpr ⟨he, (hmiss2 e he).mpr hlt⟩)
              with rfl | hsep
            · exact le_rfl
            · exact le_of_lt (lt_of_le_of_lt
                (is_valid_range_iff.mp (hInv.2 u humem.1)) hsep)
          have hdishigh : ∀ e ∈ m, pointKey p < startKey e.1.start →
              ¬ startKey e.1.start ≤ endKey (flip_bound u.1.start) := by
            intro e he hlt hcon
            rw [le_endKey_flip_iff hus] at hcon
            exact absurd hcon (not_lt.mpr (hleast e he hlt))
          have hcp : containsPoint
              (⟨flip_bound l.1.endb, flip_bound u.1.start⟩ : Rg I) p :=
            ⟨(startKey_flip_le_iff hlub (pointKey p)).mpr hel,
             (le_endKey_flip_iff hus (pointKey p)).mpr hpu⟩
          refine ⟨Or.inr ⟨l, hlmem.1, rfl, hlmem.2, hgreat⟩,
            Or.inr ⟨u, humem.1, rfl, hpu, hleast⟩,
            is_valid_range_iff.mpr (le_trans hcp.1 hcp.2), ?_, hcp⟩
          intro e he
          rw [← Bool.not_eq_true, overlaps_iff]
          rintro ⟨h1, h2⟩
          rcases le_or_lt (startKey e.1.start) (pointKey p) with hse | hse
          · exact hdislow e he hse h1
          · exact hdishigh e he hse h2
  · -- hit
    have hval : get_entry_at_point m p = .ok e₀ := by
      unfold get_entry_at_point
      rw [hg]
    have he₀ := (btGetKeyValue_eq_some_iff
      (cmp_rwb_unique hInv (pointKey p))).mp hg
    have hc₀ : containsPoint e₀.1 p := cmp_rwb_eq_iff.mp he₀.2
    refine ⟨iff_of_true ⟨e₀, hval⟩ ⟨e₀, he₀.1, hc₀⟩, ?_, ?_⟩
    · intro f hf
      rw [hval] at hf
      rw [Except.ok.injEq] at hf
      subst hf
      exact ⟨he₀.1, hc₀⟩
    · intro lo hi herr
      rw [hval] at herr
      exact Except.noConfusion herr

/-- Witness for C5 on the doctest store, where looking up the point `7`
misses and returns the gap `(Included 6, Excluded 8)`. -/
theorem C5_get_entry_at_point_witness :
    MapInv ([(⟨RBound.inc 1, RBound.exc 4⟩, false),
             (⟨RBound.inc 4, RBound.exc 6⟩, true),
             (⟨RBound.inc 8, RBound.exc 100⟩, false)] : RBMap Int Bool) ∧
    is_valid_range (⟨RBound.inc 6, RBound.exc 8⟩ : Rg Int) = true ∧
    containsPoint (⟨RBound.inc 6, RBound.exc 8⟩ : Rg Int) 7 := by
  have h := (@C5_get_entry_at_point Int Bool _
      ([(⟨RBound.inc 1, RBound.exc 4⟩, false),
        (⟨RBound.inc 4, RBound.exc 6⟩, true),
        (⟨RBound.inc 8, RBound.exc 100⟩, false)] : RBMap Int Bool) 7
      (by decide)).2.2 (RBound.inc 6) (RBound.exc 8) rfl
  exact ⟨by decide, h.2.2.1, h.2.2.2.2⟩

/-- Under the invariant, entries are determined by their start key. -/
theorem inv_start_inj {m : RBMap I V} (hInv : MapInv m) :
    ∀ a ∈ m, ∀ b ∈ m, startKey a.1.start = startKey b.1.start → a = b := by
  intro a ha b hb heq
  rcases pairwise_cases (inv_sorted hInv) ha hb with h | h | h
  · exact h
  · rw [heq] at h
    exact absurd h (lt_irrefl _)
  · rw [heq] at h
    exact absurd h (lt_irrefl _)

/-- Two successive filters collapse into one conjunction filter. -/
theorem filter_filter_eq {α : Type} (p q : α → Bool) :
    ∀ l : List α, (l.filter p).filter q = l.filter (fun a => p a && q a) := by
  intro l
  induction l with
  | nil => rfl
  | cons x xs ih =>
    rw [List.filter_cons, List.filter_cons]
    by_cases hp : p x = true
    · rw [if_pos hp, List.filter_cons]
      by_cases hq : q x = true
      · rw [if_pos hq, if_pos (by rw [hp, hq]; rfl), ih]
      · rw [if_neg hq, if_neg (by simp [hq]), ih]
    · rw [if_neg hp, if_neg (by simp [hp]), ih]

/-- Draining the overlap of a range that overlaps nothing keeps the store
intact. -/
theorem drain_keep_of_no_overlap {m : RBMap I V} {r : Rg I}
    (hno : ∀ e ∈ m, overlaps e.1 r = false) :
    (btDrainFilter (fun e => overlaps e.1 r) m).2 = m := by
  show m.filter _ = m
  refine List.filter_eq_self.mpr ?_
  intro e he
  simp [hno e he]

/-- C10: when the inserted range neither overlaps nor touches any stored
range, `insert_merge_touching` succeeds for every representability
predicate — the conversion can never fail because no merge happens — and
returns exactly the given range, the store gaining exactly the new
entry. -/
theorem C10_insert_merge_touching_untouched {I V : Type} [LinearOrder I]
    {m : RBMap I V} {r : Rg I} {v : V} (hInv : MapInv m)
    (hvr : is_valid_range r = true)
    (hno : ∀ e ∈ m, overlaps e.1 r = false)
    (hts : ∀ e ∈ m, touching_start_comp r.start e.1 ≠ .eq)
    (hte : ∀ e ∈ m, touching_end_comp r.endb e.1 ≠ .eq) :
    ∀ P : Rg I → Bool,
      (insert_merge_touching P m r v).2 = .ok r ∧
      (insert_merge_touching P m r v).1 = btInsert r v m ∧
      (insert_merge_touching P m r v).1.Perm ((r, v) :: m) ∧
      MapInv (insert_merge_touching P m r v).1 := by
  intro P
  have hovf : overlaps_map m r = false := by
    rcases hb : overlaps_map m r with _ | _
    · rfl
    · obtain ⟨e, he, heo⟩ := (overlaps_map_iff hInv.2).mp hb
      rw [hno e he] at heo
      cases heo
  have hgs : btGetKeyValue (touching_start_comp r.start) m = none :=
    btGetKeyValue_eq_none_iff.mpr hts
  have hge : btGetKeyValue (touching_end_comp r.endb) m = none :=
    btGetKeyValue_eq_none_iff.mpr hte
  have hrs2 : (btRemove (touching_start_comp r.start) m).2 = m := by
    rw [btRemove_of_no_match hts]
  have hre2 : (btRemove (touching_end_comp r.endb) m).2 = m := by
    rw [btRemove_of_no_match hte]
  have hcore : insert_merge_touching_core P m r v = (btInsert r v m, .ok r) := by
    unfold insert_merge_touching_core insert_merge_with_comps
    simp only [hgs, hge, Option.map_none', merge_returning]
    rw [drain_keep_of_no_overlap hno, hrs2, hre2]
    rfl
  have himt : insert_merge_touching P m r v = (btInsert r v m, .ok r) := by
    unfold insert_merge_touching
    rw [if_neg (by simp [hovf]), hcore]
    rfl
  refine ⟨by rw [himt], by rw [himt], ?_, ?_⟩
  · rw [himt]
    exact btInsert_perm
      (fun e he => startKey_ne_of_not_overlaps (hInv.2 e he) hvr (hno e he))
  · rw [himt]
    exact MapInv.insert hInv hvr hno

/-- Witness for C10 with an unrepresentable-everything predicate, showing
the conversion is never consulted. -/
theorem C10_insert_merge_touching_untouched_witness :
    MapInv ([(⟨RBound.inc 1, RBound.exc 4⟩, false)] : RBMap Int Bool) ∧
    is_valid_range (⟨RBound.inc 5, RBound.exc 6⟩ : Rg Int) = true ∧
    (∀ e ∈ ([(⟨RBound.inc 1, RBound.exc 4⟩, false)] : RBMap Int Bool),
      overlaps e.1 ⟨RBound.inc 5, RBound.exc 6⟩ = false) ∧
    (insert_merge_touching (fun _ => false)
        ([(⟨RBound.inc 1, RBound.exc 4⟩, false)] : RBMap Int Bool)
        ⟨RBound.inc 5, RBound.exc 6⟩ true).2 = .ok ⟨RBound.inc 5, RBound.exc 6⟩ :=
  ⟨by decide, by decide, by decide,
   (C10_insert_merge_touching_untouched (by decide) (by decide)
     (by decide) (by decide) (by decide) (fun _ => false)).1⟩

/-- A start-side touching neighbour ends strictly before the query range
starts. -/
theorem touching_start_lt {s : RBound I} {inner : Rg I}
    (h : touching_start_comp s inner = .eq) : endKey inner.endb < startKey s := by
  rcases touching_start_comp_eq_iff.mp h with ⟨p, h1, h2⟩ | ⟨p, h1, h2⟩
  · rw [h1, h2]
    show ekFin p 0 < ekFin p 1
    rw [ekFin_lt_ekFin]
    exact Or.inr ⟨rfl, by norm_num⟩
  · rw [h1, h2]
    show ekFin p (-1) < ekFin p 0
    rw [ekFin_lt_ekFin]
    exact Or.inr ⟨rfl, by norm_num⟩

/-- An end-side touching neighbour starts strictly after the query range
ends. -/
theorem touching_end_lt {e : RBound I} {inner : Rg I}
    (h : touching_end_comp e inner = .eq) : endKey e < startKey inner.start := by
  rcases touching_end_comp_eq_iff.mp h with ⟨p, h1, h2⟩ | ⟨p, h1, h2⟩
  · rw [h1, h2]
    show ekFin p 0 < ekFin p 1
    rw [ekFin_lt_ekFin]
    exact Or.inr ⟨rfl, by norm_num⟩
  · rw [h1, h2]
    show ekFin p (-1) < ekFin p 0
    rw [ekFin_lt_ekFin]
    exact Or.inr ⟨rfl, by norm_num⟩

/-- No valid range can touch a valid query range on both sides at once. -/
theorem not_touching_both {x r : Rg I} (hvx : is_valid_range x = true)
    (hvr : is_valid_range r = true)
    (h1 : touching_start_comp r.start x = .eq)
    (h2 : touching_end_comp r.endb x = .eq) : False := by
  have a1 := touching_start_lt h1
  have a2 := touching_end_lt h2
  exact absurd (lt_trans (lt_of_le_of_lt (is_valid_range_iff.mp hvx) a1)
    (lt_of_le_of_lt (is_valid_range_iff.mp hvr) a2)) (lt_irrefl _)

/-- C9: `insert_merge_touching` fails with the overlap error exactly when
some stored range overlaps the inserted range, leaves the store unchanged
on any error, and otherwise merges: the merged start is the start of the
start-side touching neighbour when one exists and the inserted range's
start otherwise (symmetrically for the end); an unrepresentable merged
pair fails with the conversion error without mutating, and a representable
one removes the touching neighbours and inserts the merged range with the
new value, returning it.  The inserted range itself is representable,
being a value of the user range type. -/
theorem C9_insert_merge_touching {I V : Type} [LinearOrder I]
    {P : Rg I → Bool} {m : RBMap I V} {r : Rg I} {v : V}
    (hInv : MapInv m) (hvr : is_valid_range r = true)
    (hPr : P r = true) :
    ((insert_merge_touching P m r v).2 = .error (.Overlap .overlapError) ↔
      ∃ e ∈ m, overlaps e.1 r = true) ∧
    (∀ er, (insert_merge_touching P m r v).2 = .error er →
      (insert_merge_touching P m r v).1 = m) ∧
    ((∀ e ∈ m, overlaps e.1 r = false) →
      ∃ ms me : RBound I,
        ((∃ l ∈ m, touching_start_comp r.start l.1 = .eq ∧ ms = l.1.start) ∨
          ((∀ l ∈ m, touching_start_comp r.start l.1 ≠ .eq) ∧ ms = r.start)) ∧
        ((∃ u ∈ m, touching_end_comp r.endb u.1 = .eq ∧ me = u.1.endb) ∨
          ((∀ u ∈ m, touching_end_comp r.endb u.1 ≠ .eq) ∧ me = r.endb)) ∧
        (P ⟨ms, me⟩ = false →
          (insert_merge_touching P m r v).2 =
            .error (.TryFromBounds .tryFromBoundsError) ∧
          (insert_merge_touching P m r v).1 = m) ∧
        (P ⟨ms, me⟩ = true →
          (insert_merge_touching P m r v).2 = .ok ⟨ms, me⟩ ∧
          (insert_merge_touching P m r v).1.Perm ((⟨ms, me⟩, v) ::
            m.filter (fun e => !(touching_start_comp r.start e.1 == .eq) &&
              !(touching_end_comp r.endb e.1 == .eq))))) := by
  by_cases hov : ∃ e ∈ m, overlaps e.1 r = true
  · have hovt : overlaps_map m r = true := (overlaps_map_iff hInv.2).mpr hov
    have himt : insert_merge_touching P m r v =
        (m, .error (.Overlap .overlapError)) := by
      unfold insert_merge_touching
      rw [if_pos hovt]
    refine ⟨iff_of_true (by rw [himt]) hov, ?_, ?_⟩
    · intro er her
      rw [himt]
    · intro hno
      obtain ⟨e, he, heo⟩ := hov
      rw [hno e he] at heo
      cases heo
  · have hno : ∀ e ∈ m, overlaps e.1 r = false := by
      intro e he
      rcases hb : overlaps e.1 r with _ | _
      · rfl
      · exact absurd ⟨e, he, hb⟩ hov
    have hovf : overlaps_map m r = false := by
      rcases hb : overlaps_map m r with _ | _
      · rfl
      · exact absurd ((overlaps_map_iff hInv.2).mp hb) hov
    have hdrain := drain_keep_of_no_overlap hno
    rcases hMS : btGetKeyValue (touching_start_comp r.start) m with _ | l
    · rcases hME : btGetKeyValue (touching_end_comp r.endb) m with _ | u
      · -- no neighbour on either side
        have hts := btGetKeyValue_eq_none_iff.mp hMS
        have hte := btGetKeyValue_eq_none_iff.mp hME
        have hrs2 : (btRemove (touching_start_comp r.start) m).2 = m := by
          rw [btRemove_of_no_match hts]
        have hre2 : (btRemove (touching_end_comp r.endb) m).2 = m := by
          rw [btRemove_of_no_match hte]
        have hcore : insert_merge_touching_core P m r v =
            (btInsert r v m, .ok r) := by
          unfold insert_merge_touching_core insert_merge_with_comps
          simp only [hMS, hME, Option.map_none', merge_returning]
          rw [hdrain, hrs2, hre2]
          rfl
        have himt : insert_merge_touching P m r v =
            (btInsert r v m, .ok r) := by
          unfold insert_merge_touching
          rw [if_neg (by simp [hovf]), hcore]
          rfl
        have hfilt : m.filter
            (fun e => !(touching_start_comp r.start e.1 == Ordering.eq) &&
              !(touching_end_comp r.endb e.1 == Ordering.eq)) = m := by
          refine List.filter_eq_self.mpr ?_
          intro e he
          simp only [Bool.and_eq_true, Bool.not_eq_true', ordering_beq_false_iff]
          exact ⟨hts e he, hte e he⟩
        refine ⟨iff_of_false (fun h => ?_) hov, ?_, ?_⟩
        · rw [himt] at h
          exact Except.noConfusion h
        · intro er her
          rw [himt] at her
          exact Except.noConfusion her
        · intro _
          refine ⟨r.start, r.endb, Or.inr ⟨hts, rfl⟩, Or.inr ⟨hte, rfl⟩, ?_, ?_⟩
          · intro hPf
            rw [show (⟨r.start, r.endb⟩ : Rg I) = r from rfl, hPr] at hPf
            cases hPf
          · intro _
            refine ⟨by rw [himt], ?_⟩
            rw [hfilt, himt]
            exact btInsert_perm (fun e he =>
              startKey_ne_of_not_overlaps (hInv.2 e he) hvr (hno e he))
      · -- end-side neighbour only
        have hts := btGetKeyValue_eq_none_iff.mp hMS
        have hu := (btGetKeyValue_eq_some_iff
          (touching_end_unique hInv r.endb)).mp hME
        have hrs2 : (btRemove (touching_start_comp r.start) m).2 = m := by
          rw [btRemove_of_no_match hts]
        have hlen := filter_matches_length_le_one hInv
          (touching_end_unique hInv r.endb)
        have hre : (btRemove (touching_end_comp r.endb) m).2 =
            m.filter (fun e => !(touching_end_comp r.endb e.1 == Ordering.eq)) :=
          btRemove_snd_eq_filter hlen
        have hfilt : m.filter
            (fun e => !(touching_start_comp r.start e.1 == Ordering.eq) &&
              !(touching_end_comp r.endb e.1 == Ordering.eq)) =
            m.filter (fun e => !(touching_end_comp r.endb e.1 == Ordering.eq)) := by
          refine List.filter_congr ?_
          intro e he
          have hbe : (!(touching_start_comp r.start e.1 == Ordering.eq)) = true := by
            simp only [Bool.not_eq_true', ordering_beq_false_iff]
            exact hts e he
          rw [hbe, Bool.true_and]
        by_cases hP : P (⟨r.start, u.1.endb⟩ : Rg I) = true
        · have htfb : try_from_bounds P r.start u.1.endb =
              .ok ⟨r.start, u.1.endb⟩ := by
            unfold try_from_bounds
            rw [if_pos hP]
          have hcore : insert_merge_touching_core P m r v =
              (btInsert ⟨r.start, u.1.endb⟩ v
                (m.filter (fun e => !(touching_end_comp r.endb e.1 == Ordering.eq))),
               .ok ⟨r.start, u.1.endb⟩) := by
            unfold insert_merge_touching_core insert_merge_with_comps
            simp only [hMS, hME, Option.map_none', Option.map_some',
              merge_returning, htfb]
            rw [hdrain, hrs2, hre]
            rfl
          have himt : insert_merge_touching P m r v =
              (btInsert ⟨r.start, u.1.endb⟩ v
                (m.filter (fun e => !(touching_end_comp r.endb e.1 == Ordering.eq))),
               .ok ⟨r.start, u.1.endb⟩) := by
            unfold insert_merge_touching
            rw [if_neg (by simp [hovf]), hcore]
            rfl
          refine ⟨iff_of_false (fun h => ?_) hov, ?_, ?_⟩
          · rw [himt] at h
            exact Except.noConfusion h
          · intro er her
            rw [himt] at her
            exact Except.noConfusion her
          · intro _
            refine ⟨r.start, u.1.endb, Or.inr ⟨hts, rfl⟩,
              Or.inl ⟨u, hu.1, hu.2, rfl⟩, ?_, ?_⟩
            · intro hPf
              rw [hP] at hPf
              cases hPf
            · intro _
              refine ⟨by rw [himt], ?_⟩
              rw [hfilt, himt]
              refine btInsert_perm ?_
              intro e he
              have hem := List.mem_filter.mp he
              have hne := startKey_ne_of_not_overlaps (hInv.2 e hem.1) hvr
                (hno e hem.1)
              exact hne
        · have htfb : try_from_bounds P r.start u.1.endb =
              .error .tryFromBoundsError := by
            unfold try_from_bounds
            rw [if_neg hP]
          have hcore : insert_merge_touching_core P m r v =
              (m, .error .tryFromBoundsError) := by
            unfold insert_merge_touching_core insert_merge_with_comps
            simp only [hMS, hME, Option.map_none', Option.map_some',
              merge_returning, htfb]
          have himt : insert_merge_touching P m r v =
              (m, .error (.TryFromBounds .tryFromBoundsError)) := by
            unfold insert_merge_touching
            rw [if_neg (by simp [hovf]), hcore]
            rfl
          refine ⟨iff_of_false (fun h => ?_) hov, ?_, ?_⟩
          · rw [himt] at h
            simp at h
          · intro er her
            rw [himt]
          · intro _
            refine ⟨r.start, u.1.endb, Or.inr ⟨hts, rfl⟩,
              Or.inl ⟨u, hu.1, hu.2, rfl⟩, ?_, ?_⟩
            · intro _
              exact ⟨by rw [himt], by rw [himt]⟩
            · intro hPt
              exact absurd hPt hP
    · rcases hME : btGetKeyValue (touching_end_comp r.endb) m with _ | u
      · -- start-side neighbour only
        have hl := (btGetKeyValue_eq_some_iff
          (touching_start_unique hInv r.start)).mp hMS
        have hte := btGetKeyValue_eq_none_iff.mp hME
        have hlen := filter_matches_length_le_one hInv
          (touching_start_unique hInv r.start)
        have hrs : (btRemove (touching_start_comp r.start) m).2 =
            m.filter (fun e => !(touching_start_comp r.start e.1 == Ordering.eq)) :=
          btRemove_snd_eq_filter hlen
        have hte1 : ∀ e ∈ m.filter
            (fun e => !(touching_start_comp r.start e.1 == Ordering.eq)),
            touching_end_comp r.endb e.1 ≠ .eq :=
          fun e he => hte e (List.mem_filter.mp he).1
        have hre2 : (btRemove (touching_end_comp r.endb)
            (m.filter (fun e =>
              !(touching_start_comp r.start e.1 == Ordering.eq)))).2 =
            m.filter (fun e =>
              !(touching_start_comp r.start e.1 == Ordering.eq)) := by
          rw [btRemove_of_no_match hte1]
        have hfilt : m.filter
            (fun e => !(touching_start_comp r.start e.1 == Ordering.eq) &&
              !(touching_end_comp r.endb e.1 == Ordering.eq)) =
            m.filter (fun e => !(touching_start_comp r.start e.1 == Ordering.eq)) := by
          refine List.filter_congr ?_
          intro e he
          have hbe : (!(touching_end_comp r.endb e.1 == Ordering.eq)) = true := by
            simp only [Bool.not_eq_true', ordering_beq_false_iff]
            exact hte e he
          rw [hbe, Bool.and_true]
        by_cases hP : P (⟨l.1.start, r.endb⟩ : Rg I) = true
        · have htfb : try_from_bounds P l.1.start r.endb =
              .ok ⟨l.1.start, r.endb⟩ := by
            unfold try_from_bounds
            rw [if_pos hP]
          have hcore : insert_merge_touching_core P m r v =
              (btInsert ⟨l.1.start, r.endb⟩ v
                (m.filter (fun e =>
                  !(touching_start_comp r.start e.1 == Ordering.eq))),
               .ok ⟨l.1.start, r.endb⟩) := by
            unfold insert_merge_touching_core insert_merge_with_comps
            simp only [hMS, hME, Option.map_none', Option.map_some',
              merge_returning, htfb]
            rw [hdrain, hrs, hre2]
            rfl
          have himt : insert_merge_touching P m r v =
              (btInsert ⟨l.1.start, r.endb⟩ v
                (m.filter (fun e =>
                  !(touching_start_comp r.start e.1 == Ordering.eq))),
               .ok ⟨l.1.start, r.endb⟩) := by
            unfold insert_merge_touching
            rw [if_neg (by simp [hovf]), hcore]
            rfl
          refine ⟨iff_of_false (fun h => ?_) hov, ?_, ?_⟩
          · rw [himt] at h
            exact Except.noConfusion h
          · intro er her
            rw [himt] at her
            exact Except.noConfusion her
          · intro _
            refine ⟨l.1.start, r.endb, Or.inl ⟨l, hl.1, hl.2, rfl⟩,
              Or.inr ⟨hte, rfl⟩, ?_, ?_⟩
            · intro hPf
              rw [hP] at hPf
              cases hPf
            · intro _
              refine ⟨by rw [himt], ?_⟩
              rw [hfilt, himt]
              refine btInsert_perm ?_
              intro e he heq
              have hem := List.mem_filter.mp he
              have hle : l = e := inv_start_inj hInv l hl.1 e hem.1 heq
              rw [← hle] at hem
              have h2 := hem.2
              simp only [Bool.not_eq_true', ordering_beq_false_iff] at h2
              exact h2 hl.2
        · have htfb : try_from_bounds P l.1.start r.endb =
              .error .tryFromBoundsError := by
            unfold try_from_bounds
            rw [if_neg hP]
          have hcore : insert_merge_touching_core P m r v =
              (m, .error .tryFromBoundsError) := by
            unfold insert_merge_touching_core insert_merge_with_comps
            simp only [hMS, hME, Option.map_none', Option.map_some',
              merge_returning, htfb]
          have himt : insert_merge_touching P m r v =
              (m, .error (.TryFromBounds .tryFromBoundsError)) := by
            unfold insert_merge_touching
            rw [if_neg (by simp [hovf]), hcore]
            rfl
          refine ⟨iff_of_false (fun h => ?_) hov, ?_, ?_⟩
          · rw [himt] at h
            simp at h
          · intro er her
            rw [himt]
          · intro _
            refine ⟨l.1.start, r.endb, Or.inl ⟨l, hl.1, hl.2, rfl⟩,
              Or.inr ⟨hte, rfl⟩, ?_, ?_⟩
            · intro _
              exact ⟨by rw [himt], by rw [himt]⟩
            · intro hPt
              exact absurd hPt hP
      · -- neighbours on both sides
        have hl := (btGetKeyValue_eq_some_iff
          (touching_start_unique hInv r.start)).mp hMS
        have hu := (btGetKeyValue_eq_some_iff
          (touching_end_unique hInv r.endb)).mp hME
        have hlen := filter_matches_length_le_one hInv
          (touching_start_unique hInv r.start)
        have hrs : (btRemove (touching_start_comp r.start) m).2 =
            m.filter (fun e => !(touching_start_comp r.start e.1 == Ordering.eq)) :=
          btRemove_snd_eq_filter hlen
        have hInv1 : MapInv (m.filter (fun e =>
            !(touching_start_comp r.start e.1 == Ordering.eq))) :=
          MapInv.sublist hInv (List.filter_sublist m)
        have hlen1 := filter_matches_length_le_one hInv1
          (touching_end_unique hInv1 r.endb)
        have hre : (btRemove (touching_end_comp r.endb)
            (m.filter (fun e =>
              !(touching_start_comp r.start e.1 == Ordering.eq)))).2 =
            (m.filter (fun e =>
              !(touching_start_comp r.start e.1 == Ordering.eq))).filter
              (fun e => !(touching_end_comp r.endb e.1 == Ordering.eq)) :=
          btRemove_snd_eq_filter hlen1
        by_cases hP : P (⟨l.1.start, u.1.endb⟩ : Rg I) = true
        · have htfb : try_from_bounds P l.1.start u.1.endb =
              .ok ⟨l.1.start, u.1.endb⟩ := by
            unfold try_from_bounds
            rw [if_pos hP]
          have hcore : insert_merge_touching_core P m r v =
              (btInsert ⟨l.1.start, u.1.endb⟩ v
                (m.filter (fun e =>
                  !(touching_start_comp r.start e.1 == Ordering.eq) &&
                  !(touching_end_comp r.endb e.1 == Ordering.eq))),
               .ok ⟨l.1.start, u.1.endb⟩) := by
            unfold insert_merge_touching_core insert_merge_with_comps
            simp only [hMS, hME, Option.map_some', merge_returning, htfb]
            rw [hdrain, hrs, hre, filter_filter_eq]
            rfl
          have himt : insert_merge_touching P m r v =
              (btInsert ⟨l.1.start, u.1.endb⟩ v
                (m.filter (fun e =>
                  !(touching_start_comp r.start e.1 == Ordering.eq) &&
                  !(touching_end_comp r.endb e.1 == Ordering.eq))),
               .ok ⟨l.1.start, u.1.endb⟩) := by
            unfold insert_merge_touching
            rw [if_neg (by simp [hovf]), hcore]
            rfl
          refine ⟨iff_of_false (fun h => ?_) hov, ?_, ?_⟩
          · rw [himt] at h
            exact Except.noConfusion h
          · intro er her
            rw [himt] at her
            exact Except.noConfusion her
          · intro _
            refine ⟨l.1.start, u.1.endb, Or.inl ⟨l, hl.1, hl.2, rfl⟩,
              Or.inl ⟨u, hu.1, hu.2, rfl⟩, ?_, ?_⟩
            · intro hPf
              rw [hP] at hPf
              cases hPf
            · intro _
              refine ⟨by rw [himt], ?_⟩
              rw [himt]
              refine btInsert_perm ?_
              intro e he heq
              have hem := List.mem_filter.mp he
              have hle : l = e := inv_start_inj hInv l hl.1 e hem.1 heq
              rw [← hle] at hem
              have h2 := hem.2
              simp only [Bool.and_eq_true, Bool.not_eq_true',
                ordering_beq_false_iff] at h2
              exact h2.1 hl.2
        · have htfb : try_from_bounds P l.1.start u.1.endb =
              .error .tryFromBoundsError := by
            unfold try_from_bounds
            rw [if_neg hP]
          have hcore : insert_merge_touching_core P m r v =
              (m, .error .tryFromBoundsError) := by
            unfold insert_merge_touching_core insert_merge_with_comps
            simp only [hMS, hME, Option.map_some', merge_returning, htfb]
          have himt : insert_merge_touching P m r v =
              (m, .error (.TryFromBounds .tryFromBoundsError)) := by
            unfold insert_merge_touching
            rw [if_neg (by simp [hovf]), hcore]
            rfl
          refine ⟨iff_of_false (fun h => ?_) hov, ?_, ?_⟩
          · rw [himt] at h
            simp at h
          · intro er her
            rw [himt]
          · intro _
            refine ⟨l.1.start, u.1.endb, Or.inl ⟨l, hl.1, hl.2, rfl⟩,
              Or.inl ⟨u, hu.1, hu.2, rfl⟩, ?_, ?_⟩
            · intro _
              exact ⟨by rw [himt], by rw [himt]⟩
            · intro hPt
              exact absurd hPt hP

/-- Witness for C9 on the spec's touching-merge scenario, with the
half-open-only representability predicate. -/
theorem C9_insert_merge_touching_witness :
    MapInv ([(⟨RBound.inc 1, RBound.exc 4⟩, false),
             (⟨RBound.inc 6, RBound.exc 8⟩, true)] : RBMap Int Bool) ∧
    is_valid_range (⟨RBound.inc 4, RBound.exc 6⟩ : Rg Int) = true ∧
    (fun g : Rg Int => match g.start, g.endb with
      | RBound.inc _, RBound.exc _ => true
      | _, _ => false) ⟨RBound.inc 4, RBound.exc 6⟩ = true ∧
    ((insert_merge_touching
        (fun g : Rg Int => match g.start, g.endb with
          | RBound.inc _, RBound.exc _ => true
          | _, _ => false)
        ([(⟨RBound.inc 1, RBound.exc 4⟩, false),
          (⟨RBound.inc 6, RBound.exc 8⟩, true)] : RBMap Int Bool)
        ⟨RBound.inc 4, RBound.exc 6⟩ true).2 =
        .error (.Overlap .overlapError) ↔
      ∃ e ∈ ([(⟨RBound.inc 1, RBound.exc 4⟩, false),
          (⟨RBound.inc 6, RBound.exc 8⟩, true)] : RBMap Int Bool),
        overlaps e.1 ⟨RBound.inc 4, RBound.exc 6⟩ = true) :=
  ⟨by decide, by decide, by rfl,
   (C9_insert_merge_touching (by decide) (by decide) (by rfl)).1⟩

/-!  Helper layer for the cut characterisation. -/

/-- The value slot of a comparator remove is the found entry's value. -/
theorem btRemove_fst_eq {comp : Rg I → Ordering} :
    ∀ {m : RBMap I V},
      (btRemove comp m).1 = (btGetKeyValue comp m).map Prod.snd := by
  intro m
  induction m with
  | nil => rfl
  | cons e rest ih =>
    unfold btRemove
    by_cases he : comp e.1 = .eq
    · rw [if_pos he]
      have hg : btGetKeyValue comp (e :: rest) = some e := by
        unfold btGetKeyValue
        exact List.find?_cons_of_pos _ (by simp [he])
      rw [hg]
      rfl
    · rw [if_neg he]
      have hg : btGetKeyValue comp (e :: rest) = btGetKeyValue comp rest := by
        unfold btGetKeyValue
        exact List.find?_cons_of_neg _ (by simp [he])
      rw [hg]
      show (btRemove comp rest).1 = _
      exact ih

/-- A filter keeping exactly one known element. -/
theorem filter_eq_singleton_of_unique {α : Type} {p : α → Bool} {a : α} :
    ∀ {L : List α}, a ∈ L → p a = true → L.Nodup →
      (∀ b ∈ L, p b = true → b = a) → L.filter p = [a] := by
  intro L
  induction L with
  | nil => intro ha; cases ha
  | cons x xs ih =>
    intro ha hpa hnd huniq
    rw [List.filter_cons]
    rcases List.mem_cons.mp ha with rfl | ha'
    · rw [if_pos hpa]
      have hxs : xs.filter p = [] := by
        rcases hf : xs.filter p with _ | ⟨y, ys⟩
        · rfl
        · have hy : y ∈ xs.filter p := by
            rw [hf]
            exact List.mem_cons_self y ys
          have hy' := List.mem_filter.mp hy
          have hya := huniq y (List.mem_cons_of_mem _ hy'.1) hy'.2
          subst hya
          exact absurd hy'.1 (List.nodup_cons.mp hnd).1
      rw [hxs]
    · have hpx : ¬ p x = true := by
        intro hpx
        have hxa := huniq x (List.mem_cons_self x xs) hpx
        exact absurd (hxa ▸ ha') (List.nodup_cons.mp hnd).1
      rw [if_neg hpx]
      exact ih ha' hpa (List.nodup_cons.mp hnd).2
        (fun b hb hpb => huniq b (List.mem_cons_of_mem x hb) hpb)

/-- Separation cannot hold in both directions between valid entries. -/
theorem entrySep_asymm {a b : Rg I × V}
    (hva : is_valid_range a.1 = true) (hvb : is_valid_range b.1 = true)
    (h1 : entrySep a b) (h2 : entrySep b a) : False := by
  have := lt_trans (lt_of_le_of_lt (is_valid_range_iff.mp hva) h1)
    (lt_of_le_of_lt (is_valid_range_iff.mp hvb) h2)
  exact absurd this (lt_irrefl _)

/-- A piece ending at the flip of the cut's start never overlaps the
cut. -/
theorem before_piece_not_overlaps {q : Rg I} {s : RBound I}
    (hq : q.start ≠ RBound.unb) :
    overlaps ⟨s, flip_bound q.start⟩ q = false := by
  rw [← Bool.not_eq_true, overlaps_iff]
  rintro ⟨-, h2⟩
  exact absurd ((le_endKey_flip_iff hq _).mp h2) (lt_irrefl _)

/-- A piece starting at the flip of the cut's end never overlaps the
cut. -/
theorem after_piece_not_overlaps {q : Rg I} {e : RBound I}
    (hq : q.endb ≠ RBound.unb) :
    overlaps ⟨flip_bound q.endb, e⟩ q = false := by
  rw [← Bool.not_eq_true, overlaps_iff]
  rintro ⟨h1, -⟩
  exact absurd ((startKey_flip_le_iff hq _).mp h1) (lt_irrefl _)

theorem before_piece_contains_iff {q : Rg I} {s : RBound I}
    (hq : q.start ≠ RBound.unb) (p : I) :
    containsPoint (⟨s, flip_bound q.start⟩ : Rg I) p ↔
      (startKey s ≤ pointKey p ∧ pointKey p < startKey q.start) := by
  unfold containsPoint
  exact and_congr Iff.rfl (le_endKey_flip_iff hq _)

theorem after_piece_contains_iff {q : Rg I} {e : RBound I}
    (hq : q.endb ≠ RBound.unb) (p : I) :
    containsPoint (⟨flip_bound q.endb, e⟩ : Rg I) p ↔
      (endKey q.endb < pointKey p ∧ pointKey p ≤ endKey e) := by
  unfold containsPoint
  exact and_congr (startKey_flip_le_iff hq _) Iff.rfl

theorem not_containsPoint_iff {q : Rg I} {p : I} :
    ¬ containsPoint q p ↔
      (pointKey p < startKey q.start ∨ endKey q.endb < pointKey p) := by
  unfold containsPoint
  rw [not_and_or, not_le, not_le]

/-- An overlapping non-start-hit entry starts strictly inside the query
range. -/
theorem ov_start_lt {e q : Rg I} (hov : overlaps e q = true)
    (hns : cmp_range_with_discrete_bound_ord e (startKey q.start) ≠ .eq) :
    startKey q.start < startKey e.start := by
  rw [overlaps_iff] at hov
  by_contra hc
  exact hns (cmp_rwb_eq_iff.mpr ⟨le_of_not_lt hc, hov.2⟩)

/-- An overlapping non-end-hit entry ends strictly inside the query
range. -/
theorem ov_end_lt {e q : Rg I} (hov : overlaps e q = true)
    (hne : cmp_range_with_discrete_bound_ord e (endKey q.endb) ≠ .eq) :
    endKey e.endb < endKey q.endb := by
  rw [overlaps_iff] at hov
  by_contra hc
  exact hne (cmp_rwb_eq_iff.mpr ⟨hov.1, le_of_not_lt hc⟩)

/-- The start hit separates before every other overlapping entry. -/
theorem hit_start_first {m : RBMap I V} (hInv : MapInv m) {q : Rg I}
    {l : Rg I × V} (hl : l ∈ m)
    (hc : cmp_range_with_discrete_bound_ord l.1 (startKey q.start) = .eq) :
    ∀ b ∈ m, overlaps b.1 q = true → b ≠ l → entrySep l b := by
  intro b hb hov hne
  obtain ⟨h1, h2⟩ := cmp_rwb_eq_iff.mp hc
  rcases pairwise_cases hInv.1 hl hb with h | h | h
  · exact absurd h.symm hne
  · exact h
  · rw [overlaps_iff] at hov
    exact absurd (lt_of_le_of_lt hov.2 (lt_of_lt_of_le h h1)) (lt_irrefl _)

/-- The end hit separates after every other overlapping entry. -/
theorem hit_end_last {m : RBMap I V} (hInv : MapInv m) {q : Rg I}
    {rt : Rg I × V} (hrt : rt ∈ m)
    (hc : cmp_range_with_discrete_bound_ord rt.1 (endKey q.endb) = .eq) :
    ∀ b ∈ m, overlaps b.1 q = true → b ≠ rt → entrySep b rt := by
  intro b hb hov hne
  obtain ⟨h1, h2⟩ := cmp_rwb_eq_iff.mp hc
  rcases pairwise_cases hInv.1 hb hrt with h | h | h
  · exact absurd h hne
  · exact h
  · rw [overlaps_iff] at hov
    exact absurd (lt_of_le_of_lt (hov.1.trans h2) h) (lt_irrefl _)

/-- The inside slice of a wholly-contained entry is the entry itself. -/
theorem slice_self {e q : Rg I}
    (h1 : startKey q.start < startKey e.start)
    (h2 : endKey e.endb < endKey q.endb) :
    maxStart e.start q.start = e.start ∧ minEnd e.endb q.endb = e.endb := by
  constructor
  · unfold maxStart
    rw [if_neg (not_le.mpr h1)]
  · unfold minEnd
    rw [if_pos (le_of_lt h2)]

/-- An entry spanning the whole query range is the only overlapping
entry. -/
theorem span_unique_ov {m : RBMap I V} (hInv : MapInv m) {q : Rg I}
    {l : Rg I × V} (hl : l ∈ m)
    (h1 : startKey l.1.start ≤ startKey q.start)
    (h2 : endKey q.endb ≤ endKey l.1.endb) :
    ∀ b ∈ m, overlaps b.1 q = true → b = l := by
  intro b hb hov
  rw [overlaps_iff] at hov
  rcases pairwise_cases hInv.1 hb hl with h | h | h
  · exact h
  · exact absurd (lt_of_le_of_lt (h1.trans hov.2) h) (lt_irrefl _)
  · exact absurd (lt_of_le_of_lt (hov.1.trans h2) h) (lt_irrefl _)

/-- Splitting a sorted filter at its first element: when a unique marked
element is first among the kept ones, the filter is that element followed
by the unmarked kept ones. -/
theorem filter_head_split {α : Type} {R : α → α → Prop} :
    ∀ {L : List α}, L.Pairwise R → ∀ {p s : α → Bool} {a : α}, a ∈ L →
      p a = true → s a = true →
      (∀ b ∈ L, s b = true → b = a) →
      (∀ b ∈ L, p b = true → b ≠ a → R a b) →
      (∀ b ∈ L, R a b → R b a → False) →
      L.filter p = a :: L.filter (fun b => p b && !(s b)) := by
  intro L
  induction L with
  | nil => intro _ p s a ha; cases ha
  | cons x xs ih =>
    intro hP p s a ha hpa hsa huniq hfirst hasym
    obtain ⟨hx, hxs⟩ := List.pairwise_cons.mp hP
    rcases List.mem_cons.mp ha with rfl | ha'
    · rw [List.filter_cons, if_pos hpa, List.filter_cons,
        if_neg (by simp [hsa])]
      congr 1
      refine List.filter_congr ?_
      intro b hb
      have hsb : s b = false := by
        rcases hsb' : s b with _ | _
        · rfl
        · have hbe := huniq b (List.mem_cons_of_mem _ hb) hsb'
          subst hbe
          exact ((hasym _ (List.mem_cons_self _ _) (hx _ hb) (hx _ hb)).elim)
      rw [hsb]
      exact (Bool.and_true _).symm
    · have hxa : x ≠ a := by
        intro hxe
        subst hxe
        exact hasym _ (List.mem_cons_self _ _) (hx _ ha') (hx _ ha')
      have hpx : p x = false := by
        rcases hpx' : p x with _ | _
        · rfl
        · exact ((hasym x (List.mem_cons_self _ _)
            (hfirst x (List.mem_cons_self _ _) hpx' hxa) (hx a ha')).elim)
      rw [List.filter_cons, if_neg (by simp [hpx]), List.filter_cons,
        if_neg (by simp [hpx])]
      exact ih hxs ha' hpa hsa
        (fun b hb => huniq b (List.mem_cons_of_mem _ hb))
        (fun b hb => hfirst b (List.mem_cons_of_mem _ hb))
        (fun b hb => hasym b (List.mem_cons_of_mem _ hb))

/-- Splitting a sorted filter at its last element. -/
theorem filter_last_split {α : Type} {R : α → α → Prop} :
    ∀ {L : List α}, L.Pairwise R → ∀ {p s : α → Bool} {a : α}, a ∈ L →
      p a = true → s a = true →
      (∀ b ∈ L, s b = true → b = a) →
      (∀ b ∈ L, p b = true → b ≠ a → R b a) →
      (∀ b ∈ L, R a b → R b a → False) →
      L.filter p = L.filter (fun b => p b && !(s b)) ++ [a] := by
  intro L
  induction L with
  | nil => intro _ p s a ha; cases ha
  | cons x xs ih =>
    intro hP p s a ha hpa hsa huniq hlast hasym
    obtain ⟨hx, hxs⟩ := List.pairwise_cons.mp hP
    rcases List.mem_cons.mp ha with rfl | ha'
    · have hxsnil : ∀ b ∈ xs, p b = false := by
        intro b hb
        rcases hpb : p b with _ | _
        · rfl
        · have hba : b ≠ a := by
            intro hbe
            subst hbe
            exact hasym _ (List.mem_cons_self _ _) (hx _ hb) (hx _ hb)
          exact ((hasym b (List.mem_cons_of_mem _ hb) (hx b hb)
            (hlast b (List.mem_cons_of_mem _ hb) hpb hba)).elim)
      have h1 : xs.filter p = [] := by
        rcases hf : xs.filter p with _ | ⟨y, ys⟩
        · rfl
        · have hy : y ∈ xs.filter p := by
            rw [hf]
            exact List.mem_cons_self y ys
          have hy' := List.mem_filter.mp hy
          rw [hxsnil y hy'.1] at hy'
          cases hy'.2
      have h2 : xs.filter (fun b => p b && !(s b)) = [] := by
        rcases hf : xs.filter (fun b => p b && !(s b)) with _ | ⟨y, ys⟩
        · rfl
        · have hy : y ∈ xs.filter (fun b => p b && !(s b)) := by
            rw [hf]
            exact List.mem_cons_self y ys
          have hy' := List.mem_filter.mp hy
          have := hy'.2
          rw [hxsnil y hy'.1] at this
          cases this
      rw [List.filter_cons, if_pos hpa, List.filter_cons,
        if_neg (by simp [hsa]), h1, h2]
      rfl
    · have hsx : s x = false := by
        rcases hsx' : s x with _ | _
        · rfl
        · have hxe := huniq x (List.mem_cons_self _ _) hsx'
          subst hxe
          exact ((hasym _ (List.mem_cons_self _ _) (hx _ ha') (hx _ ha')).elim)
      rw [List.filter_cons, List.filter_cons]
      by_cases hpx : p x = true
      · rw [if_pos hpx, if_pos (by rw [hpx, hsx]; rfl)]
        rw [List.cons_append]
        congr 1
        exact ih hxs ha' hpa hsa
          (fun b hb => huniq b (List.mem_cons_of_mem _ hb))
          (fun b hb => hlast b (List.mem_cons_of_mem _ hb))
          (fun b hb => hasym b (List.mem_cons_of_mem _ hb))
      · rw [if_neg hpx, if_neg (by simp [Bool.eq_false_iff.mpr hpx])]
        exact ih hxs ha' hpa hsa
          (fun b hb => huniq b (List.mem_cons_of_mem _ hb))
          (fun b hb => hlast b (List.mem_cons_of_mem _ hb))
          (fun b hb => hasym b (List.mem_cons_of_mem _ hb))

/-- Equation view of the before piece of a range cut. -/
theorem before_cut_eq (b c : Rg I) :
    (cut_range b c).before_cut =
      if startKey b.start < startKey c.start then
        some (b.start, flip_bound c.start)
      else none := rfl

/-- Equation view of the after piece of a range cut. -/
theorem after_cut_eq (b c : Rg I) :
    (cut_range b c).after_cut =
      if endKey c.endb < endKey b.endb then
        some (flip_bound c.endb, b.endb)
      else none := rfl

/-- Equation view of the inside piece of a range cut. -/
theorem inside_cut_eq (b c : Rg I) :
    (cut_range b c).inside_cut =
      if overlaps b c then
        some (maxStart b.start c.start, minEnd b.endb c.endb)
      else none := rfl

theorem inside_cut_eq_some {b c : Rg I} {i : RBound I × RBound I}
    (h : (cut_range b c).inside_cut = some i) :
    overlaps b c = true ∧
      i = (maxStart b.start c.start, minEnd b.endb c.endb) := by
  rw [inside_cut_eq] at h
  split at h
  · exact ⟨by assumption, (Option.some.inj h).symm⟩
  · cases h

theorem try_from_bounds_ok {P : Rg I → Bool} {s e : RBound I} {k : Rg I}
    (h : try_from_bounds P s e = .ok k) :
    k = ⟨s, e⟩ ∧ P ⟨s, e⟩ = true := by
  unfold try_from_bounds at h
  split at h
  · exact ⟨(Except.ok.inj h).symm, by assumption⟩
  · cases h

/-- Success shapes of a straddler-side configuration. -/
theorem cut_side_config_ok_some {P : Rg I → Bool} {q : Rg I}
    {pick : CutResult I → Option (RBound I × RBound I)} {side : Rg I}
    {cfg : Option (Option (Rg I) × (RBound I × RBound I))}
    (h : cut_side_config P q pick (some side) = some (.ok cfg)) :
    ∃ inside, (cut_range side q).inside_cut = some inside ∧
      ((∃ s e, pick (cut_range side q) = some (s, e) ∧ P ⟨s, e⟩ = true ∧
          cfg = some (some ⟨s, e⟩, inside)) ∨
        (pick (cut_range side q) = none ∧ cfg = some (none, inside))) := by
  have hd : (match pick (cut_range side q) with
       | some (s, e) =>
         match try_from_bounds P s e, (cut_range side q).inside_cut with
         | .error er, _ => some (.error er)
         | .ok _, none => none
         | .ok k, some inside => some (.ok (some (some k, inside)))
       | none =>
         match (cut_range side q).inside_cut with
         | none => none
         | some inside => some (.ok (some (none, inside)))) =
      some (Except.ok cfg) := h
  rcases hpick : pick (cut_range side q) with _ | ⟨s, e⟩
  · rw [hpick] at hd
    have hd2 : (match (cut_range side q).inside_cut with
        | none => none
        | some inside => some (Except.ok (some (none, inside)))) =
        some (Except.ok cfg) := hd
    rcases hin : (cut_range side q).inside_cut with _ | inside
    · rw [hin] at hd2
      cases hd2
    · rw [hin] at hd2
      have hcfg := Except.ok.inj (Option.some.inj hd2)
      exact ⟨inside, rfl, Or.inr ⟨rfl, hcfg.symm⟩⟩
  · rw [hpick] at hd
    have hd2 : (match try_from_bounds P s e, (cut_range side q).inside_cut with
        | .error er, _ => some (.error er)
        | .ok _, none => none
        | .ok k, some inside => some (Except.ok (some (some k, inside)))) =
        some (Except.ok cfg) := hd
    rcases htfb : try_from_bounds P s e with er | k
    · rw [htfb] at hd2
      have hd3 : some (Except.error er : Except TryFromBoundsError
          (Option (Option (Rg I) × (RBound I × RBound I)))) =
          some (Except.ok cfg) := hd2
      exact absurd (Option.some.inj hd3) (by simp)
    · rw [htfb] at hd2
      rcases hin : (cut_range side q).inside_cut with _ | inside
      · rw [hin] at hd2
        cases hd2
      · rw [hin] at hd2
        have hd3 : some (Except.ok (some (some k, inside))) =
            some (Except.ok cfg) := hd2
        obtain ⟨hk, hP⟩ := try_from_bounds_ok htfb
        subst hk
        have hcfg := Except.ok.inj (Option.some.inj hd3)
        exact ⟨inside, rfl, Or.inl ⟨s, e, rfl, hP, hcfg.symm⟩⟩

/-- An absent side needs no configuration. -/
theorem cut_side_config_none {P : Rg I → Bool} {q : Rg I}
    {pick : CutResult I → Option (RBound I × RBound I)} :
    cut_side_config P q pick none = some (.ok none) := rfl

/-- Success shapes of the optional leftover conversion. -/
theorem tfb_opt_ok {P : Rg I → Bool} {oc : Option (RBound I × RBound I)}
    {ro : Option (Rg I)} (h : tfb_opt P oc = .ok ro) :
    (oc = none ∧ ro = none) ∨
      (∃ s e, oc = some (s, e) ∧ P ⟨s, e⟩ = true ∧ ro = some ⟨s, e⟩) := by
  unfold tfb_opt at h
  rcases oc with _ | ⟨s, e⟩
  · exact Or.inl ⟨rfl, (Except.ok.inj h).symm⟩
  · have h' : Except.map some (try_from_bounds P s e) = Except.ok ro := h
    rcases htfb : try_from_bounds P s e with er | k
    · rw [htfb] at h'
      have h'' : (Except.error er : Except TryFromBoundsError
          (Option (Rg I))) = Except.ok ro := h'
      cases h''
    · rw [htfb] at h'
      obtain ⟨hk, hP⟩ := try_from_bounds_ok htfb
      subst hk
      refine Or.inr ⟨s, e, rfl, hP, ?_⟩
      have h'' : (Except.ok (some (⟨s, e⟩ : Rg I)) :
          Except TryFromBoundsError (Option (Rg I))) = .ok ro := h'
      exact (Except.ok.inj h'').symm

/-- A start hit overlaps the query range. -/
theorem hit_ov_start {l q : Rg I} (hvq : is_valid_range q = true)
    (hc : cmp_range_with_discrete_bound_ord l (startKey q.start) = .eq) :
    overlaps l q = true := by
  obtain ⟨h1, h2⟩ := cmp_rwb_eq_iff.mp hc
  exact overlaps_iff.mpr ⟨h1.trans (is_valid_range_iff.mp hvq), h2⟩

/-- An end hit overlaps the query range. -/
theorem hit_ov_end {rt q : Rg I} (hvq : is_valid_range q = true)
    (hc : cmp_range_with_discrete_bound_ord rt (endKey q.endb) = .eq) :
    overlaps rt q = true := by
  obtain ⟨h1, h2⟩ := cmp_rwb_eq_iff.mp hc
  exact overlaps_iff.mpr ⟨h1, (is_valid_range_iff.mp hvq).trans h2⟩

theorem before_piece_valid {q : Rg I} (hq : q.start ≠ RBound.unb)
    {s : RBound I} (h : startKey s < startKey q.start) :
    is_valid_range (⟨s, flip_bound q.start⟩ : Rg I) = true :=
  is_valid_range_iff.mpr ((le_endKey_flip_iff hq _).mpr h)

theorem after_piece_valid {q : Rg I} (hq : q.endb ≠ RBound.unb)
    {e : RBound I} (h : endKey q.endb < endKey e) :
    is_valid_range (⟨flip_bound q.endb, e⟩ : Rg I) = true :=
  is_valid_range_iff.mpr ((startKey_flip_le_iff hq _).mpr h)

/-- The reinserted before piece overlaps no other stored entry. -/
theorem before_piece_no_ov {m : RBMap I V} (hInv : MapInv m) {q : Rg I}
    {l : Rg I × V} (hl : l ∈ m)
    (hcl : cmp_range_with_discrete_bound_ord l.1 (startKey q.start) = .eq)
    (hq : q.start ≠ RBound.unb) :
    ∀ e ∈ m, e ≠ l →
      overlaps e.1 (⟨l.1.start, flip_bound q.start⟩ : Rg I) = false := by
  intro e he hne
  rw [← Bool.not_eq_true, overlaps_iff]
  rintro ⟨h1, h2⟩
  obtain ⟨g1, g2⟩ := cmp_rwb_eq_iff.mp hcl
  rcases pairwise_cases hInv.1 he hl with h | h | h
  · exact hne h
  · exact absurd (lt_of_le_of_lt h2 h) (lt_irrefl _)
  · have hlt := (le_endKey_flip_iff hq _).mp h1
    exact absurd (lt_trans (lt_of_lt_of_le hlt g2) h) (lt_irrefl _)

/-- The reinserted after piece overlaps no other stored entry. -/
theorem after_piece_no_ov {m : RBMap I V} (hInv : MapInv m) {q : Rg I}
    {rt : Rg I × V} (hrt : rt ∈ m)
    (hcr : cmp_range_with_discrete_bound_ord rt.1 (endKey q.endb) = .eq)
    (hq : q.endb ≠ RBound.unb) :
    ∀ e ∈ m, e ≠ rt →
      overlaps e.1 (⟨flip_bound q.endb, rt.1.endb⟩ : Rg I) = false := by
  intro e he hne
  rw [← Bool.not_eq_true, overlaps_iff]
  rintro ⟨h1, h2⟩
  obtain ⟨g1, g2⟩ := cmp_rwb_eq_iff.mp hcr
  have h2' := (startKey_flip_le_iff hq _).mp h2
  rcases pairwise_cases hInv.1 he hrt with h | h | h
  · exact hne h
  · exact absurd (lt_of_lt_of_le (lt_trans h2' h) g1) (lt_irrefl _)
  · exact absurd (lt_of_le_of_lt h1 h) (lt_irrefl _)

/-- The two leftover pieces never overlap each other. -/
theorem pieces_no_ov {q : Rg I} (hvq : is_valid_range q = true)
    (hqs : q.start ≠ RBound.unb) (hqe : q.endb ≠ RBound.unb)
    {s e : RBound I} :
    overlaps (⟨s, flip_bound q.start⟩ : Rg I)
      (⟨flip_bound q.endb, e⟩ : Rg I) = false := by
  rw [← Bool.not_eq_true, overlaps_iff]
  rintro ⟨-, h2⟩
  have ha := (startKey_flip_le_iff hqe _).mp h2
  have hb := endKey_flip_lt_startKey hqs
  exact absurd (lt_trans ha (lt_of_lt_of_le hb (is_valid_range_iff.mp hvq)))
    (lt_irrefl _)

/-- The coverage bookkeeping of a cut, given a membership description of
the resulting store as untouched non-overlapping entries plus leftover
pieces. -/
theorem cut_coverage {m : RBMap I V} {q : Rg I}
    {m' : RBMap I V} {pieces : List (Rg I × V)}
    (hmem : ∀ x, x ∈ m' ↔ ((x ∈ m ∧ overlaps x.1 q = false) ∨ x ∈ pieces))
    (hsub : ∀ pc ∈ pieces, ∀ p : I, containsPoint pc.1 p →
      ((∃ rg : Rg I, (rg, pc.2) ∈ m ∧ containsPoint rg p) ∧
        ¬ containsPoint q p))
    (hback : ∀ e ∈ m, ∀ p : I, containsPoint e.1 p → ¬ containsPoint q p →
      overlaps e.1 q = true →
      ∃ pc ∈ pieces, pc.2 = e.2 ∧ containsPoint pc.1 p) :
    ∀ (p : I) (w : V), (∃ rg : Rg I, (rg, w) ∈ m' ∧ containsPoint rg p) ↔
      ((∃ rg : Rg I, (rg, w) ∈ m ∧ containsPoint rg p) ∧
        ¬ containsPoint q p) := by
  intro p w
  constructor
  · rintro ⟨rg, hx, hcx⟩
    rcases (hmem (rg, w)).mp hx with ⟨hxm, hxov⟩ | hxp
    · have hxov2 : overlaps rg q = false := hxov
      refine ⟨⟨rg, hxm, hcx⟩, ?_⟩
      intro hq
      rw [overlaps_comm] at hxov2
      rw [overlaps_of_containsPoint hq hcx] at hxov2
      cases hxov2
    · exact hsub (rg, w) hxp p hcx
  · rintro ⟨⟨rg, he, hce⟩, hnq⟩
    rcases hov : overlaps rg q with _ | _
    · exact ⟨rg, (hmem (rg, w)).mpr (Or.inl ⟨he, hov⟩), hce⟩
    · obtain ⟨pc, hpc, hpc2, hcpc⟩ := hback (rg, w) he p hce hnq hov
      refine ⟨pc.1, ?_, hcpc⟩
      have hpc3 : pc.2 = w := hpc2
      rw [← hpc3]
      exact (hmem pc).mpr (Or.inr hpc)

/-- The conclusions of a successful cut: invariant, no remaining overlap,
coverage is the old coverage minus the cut range, and the yield maps every
overlapping entry in ascending order to its inside slice with its
value. -/
def CutOut (P : Rg I → Bool) (m : RBMap I V) (q : Rg I) (m' : RBMap I V)
    (ys : List ((RBound I × RBound I) × V)) : Prop :=
  MapInv m' ∧
  (∀ e ∈ m', overlaps e.1 q = false) ∧
  (∀ (p : I) (w : V), (∃ rg : Rg I, (rg, w) ∈ m' ∧ containsPoint rg p) ↔
    ((∃ rg : Rg I, (rg, w) ∈ m ∧ containsPoint rg p) ∧
      ¬ containsPoint q p)) ∧
  (ys = (m.filter (fun e => overlaps e.1 q)).map
    (fun e => ((maxStart e.1.start q.start, minEnd e.1.endb q.endb), e.2))) ∧
  (∀ e ∈ m', e ∈ m ∨ P e.1 = true)

/-- Pointwise equality of two list maps. -/
theorem map_congr_mem {α β : Type} {f g : α → β} :
    ∀ {l : List α}, (∀ a ∈ l, f a = g a) → l.map f = l.map g := by
  intro l
  induction l with
  | nil => intro _; rfl
  | cons x xs ih =>
    intro h
    show f x :: xs.map f = g x :: xs.map g
    rw [h x (List.mem_cons_self x xs), ih (fun a ha => h a (List.mem_cons_of_mem x ha))]

/-- The no-straddler branch of the non-single cut. -/
theorem cut_nso_none_none {P : Rg I → Bool} {m : RBMap I V} {q : Rg I}
    {m' : RBMap I V} {ys : List ((RBound I × RBound I) × V)}
    (hInv : MapInv m) (hvq : is_valid_range q = true)
    (hLH : btGetKeyValue (overlapping_start_comp q.start) m = none)
    (hRH : btGetKeyValue (overlapping_end_comp q.endb) m = none)
    (h : cut_non_single_overlapping P m q none none = some (m', .ok ys)) :
    CutOut P m q m' ys := by
  have hts : ∀ e ∈ m, overlapping_start_comp q.start e.1 ≠ .eq :=
    btGetKeyValue_eq_none_iff.mp hLH
  have hte : ∀ e ∈ m, overlapping_end_comp q.endb e.1 ≠ .eq :=
    btGetKeyValue_eq_none_iff.mp hRH
  have hRS2 : (btRemove (overlapping_start_comp q.start) m).2 = m := by
    rw [btRemove_of_no_match hts]
  have hRE2 : (btRemove (overlapping_end_comp q.endb) m).2 = m := by
    rw [btRemove_of_no_match hte]
  have hval : cut_non_single_overlapping P m q none none =
      some ((remove_overlapping (btRemove (overlapping_end_comp q.endb)
          (btRemove (overlapping_start_comp q.start) m).2).2 q).1,
        .ok ((remove_overlapping (btRemove (overlapping_end_comp q.endb)
          (btRemove (overlapping_start_comp q.start) m).2).2 q).2.map
            (fun e => ((e.1.start, e.1.endb), e.2)) ++ [])) := rfl
  rw [hRS2, hRE2] at hval
  have hro1 : (remove_overlapping m q).1 =
      m.filter (fun e => !(overlaps e.1 q)) := rfl
  have hro2 : (remove_overlapping m q).2 =
      m.filter (fun e => overlaps e.1 q) := rfl
  rw [hro1, hro2, List.append_nil] at hval
  rw [hval] at h
  have hp := Option.some.inj h
  rw [Prod.mk.injEq] at hp
  obtain ⟨h1, h2⟩ := hp
  have h2' := Except.ok.inj h2
  subst h1
  subst h2'
  refine ⟨MapInv.sublist hInv (List.filter_sublist m), ?_, ?_, ?_, ?_⟩
  · intro e he
    have hb := (List.mem_filter.mp he).2
    rw [Bool.not_eq_true'] at hb
    exact hb
  · refine @cut_coverage I _ V m q _ [] ?_ ?_ ?_
    · intro x
      rw [List.mem_filter]
      constructor
      · rintro ⟨hm, hb⟩
        rw [Bool.not_eq_true'] at hb
        exact Or.inl ⟨hm, hb⟩
      · rintro (⟨hm, hb⟩ | hx)
        · refine ⟨hm, ?_⟩
          rw [hb]
          rfl
        · cases hx
    · intro pc hpc
      cases hpc
    · intro e he p hce hnq hov
      exfalso
      rcases not_containsPoint_iff.mp hnq with hlt | hgt
      · exact hts e he (cmp_rwb_eq_iff.mpr
          ⟨le_of_lt (lt_of_le_of_lt hce.1 hlt), (overlaps_iff.mp hov).2⟩)
      · exact hte e he (cmp_rwb_eq_iff.mpr
          ⟨(overlaps_iff.mp hov).1, le_of_lt (lt_of_lt_of_le hgt hce.2)⟩)
  · refine map_congr_mem ?_
    intro e he
    have hem := List.mem_filter.mp he
    have h1 := ov_start_lt hem.2 (hts e hem.1)
    have h2 := ov_end_lt hem.2 (hte e hem.1)
    obtain ⟨hs, hen⟩ := slice_self h1 h2
    rw [hs, hen]
  · intro e he
    exact Or.inl (List.mem_filter.mp he).1

/-- Entries of a drained-and-filtered store never overlap the range. -/
theorem no_ov_of_filter {X : RBMap I V} {q : Rg I} :
    ∀ e ∈ X.filter (fun e => !(overlaps e.1 q)), overlaps e.1 q = false := by
  intro e he
  have hb := (List.mem_filter.mp he).2
  rw [Bool.not_eq_true'] at hb
  exact hb

/-- Resolved start-side configuration: the inside slice plus the optional
representable outside piece. -/
theorem start_side_result {P : Rg I → Bool} {q : Rg I} {side : Rg I}
    {bc : Option (Option (Rg I) × (RBound I × RBound I))}
    (hbc : cut_side_config P q (fun c => c.before_cut) (some side) =
      some (.ok bc)) :
    ∃ ob : Option (Rg I),
      bc = some (ob, (maxStart side.start q.start, minEnd side.endb q.endb)) ∧
      ((startKey side.start < startKey q.start ∧
          ob = some ⟨side.start, flip_bound q.start⟩ ∧
          P ⟨side.start, flip_bound q.start⟩ = true) ∨
        (¬ startKey side.start < startKey q.start ∧ ob = none)) := by
  obtain ⟨inside, hin, hsh⟩ := cut_side_config_ok_some hbc
  obtain ⟨-, hival⟩ := inside_cut_eq_some hin
  subst hival
  by_cases hbl : startKey side.start < startKey q.start
  · have hbcut : (cut_range side q).before_cut =
        some (side.start, flip_bound q.start) := by
      rw [before_cut_eq, if_pos hbl]
    rcases hsh with ⟨s, e, hpk, hP, hbceq⟩ | ⟨hpk, hbceq⟩
    · have hpk' : (cut_range side q).before_cut = some (s, e) := hpk
      rw [hbcut] at hpk'
      have hse := Option.some.inj hpk'
      rw [Prod.mk.injEq] at hse
      obtain ⟨hs, he⟩ := hse
      subst hs
      subst he
      exact ⟨some ⟨side.start, flip_bound q.start⟩, hbceq,
        Or.inl ⟨hbl, rfl, hP⟩⟩
    · have hpk' : (cut_range side q).before_cut = none := hpk
      rw [hbcut] at hpk'
      cases hpk'
  · have hbcut : (cut_range side q).before_cut = none := by
      rw [before_cut_eq, if_neg hbl]
    rcases hsh with ⟨s, e, hpk, hP, hbceq⟩ | ⟨hpk, hbceq⟩
    · have hpk' : (cut_range side q).before_cut = some (s, e) := hpk
      rw [hbcut] at hpk'
      cases hpk'
    · exact ⟨none, hbceq, Or.inr ⟨hbl, rfl⟩⟩

/-- Resolved end-side configuration. -/
theorem end_side_result {P : Rg I → Bool} {q : Rg I} {side : Rg I}
    {ac : Option (Option (Rg I) × (RBound I × RBound I))}
    (hac : cut_side_config P q (fun c => c.after_cut) (some side) =
      some (.ok ac)) :
    ∃ oa : Option (Rg I),
      ac = some (oa, (maxStart side.start q.start, minEnd side.endb q.endb)) ∧
      ((endKey q.endb < endKey side.endb ∧
          oa = some ⟨flip_bound q.endb, side.endb⟩ ∧
          P ⟨flip_bound q.endb, side.endb⟩ = true) ∨
        (¬ endKey q.endb < endKey side.endb ∧ oa = none)) := by
  obtain ⟨inside, hin, hsh⟩ := cut_side_config_ok_some hac
  obtain ⟨-, hival⟩ := inside_cut_eq_some hin
  subst hival
  by_cases hal : endKey q.endb < endKey side.endb
  · have hacut : (cut_range side q).after_cut =
        some (flip_bound q.endb, side.endb) := by
      rw [after_cut_eq, if_pos hal]
    rcases hsh with ⟨s, e, hpk, hP, haceq⟩ | ⟨hpk, haceq⟩
    · have hpk' : (cut_range side q).after_cut = some (s, e) := hpk
      rw [hacut] at hpk'
      have hse := Option.some.inj hpk'
      rw [Prod.mk.injEq] at hse
      obtain ⟨hs, he⟩ := hse
      subst hs
      subst he
      exact ⟨some ⟨flip_bound q.endb, side.endb⟩, haceq,
        Or.inl ⟨hal, rfl, hP⟩⟩
    · have hpk' : (cut_range side q).after_cut = none := hpk
      rw [hacut] at hpk'
      cases hpk'
  · have hacut : (cut_range side q).after_cut = none := by
      rw [after_cut_eq, if_neg hal]
    rcases hsh with ⟨s, e, hpk, hP, haceq⟩ | ⟨hpk, haceq⟩
    · have hpk' : (cut_range side q).after_cut = some (s, e) := hpk
      rw [hacut] at hpk'
      cases hpk'
    · exact ⟨none, haceq, Or.inr ⟨hal, rfl⟩⟩

theorem step_piece_eq {ob : Option (Rg I)} {ins : RBound I × RBound I} {v : V}
    {mcur m3 : RBMap I V}
    (h : step_piece (some (ob, ins)) (some v) mcur = some m3) :
    m3 = applyPiece mcur ob v := by
  rcases ob with _ | rb
  · have h' : some mcur = some m3 := h
    exact (Option.some.inj h').symm
  · have h' : some (insert_unchecked mcur rb v) = some m3 := h
    exact (Option.some.inj h').symm

theorem keep_piece_eq {ob : Option (Rg I)} {ins : RBound I × RBound I} {v : V}
    {kb : Option ((RBound I × RBound I) × V)}
    (h : keep_piece (some (ob, ins)) (some v) = some kb) :
    kb = some (ins, v) := by
  have h' : some (some (ins, v)) = some kb := h
  exact (Option.some.inj h').symm

theorem step_piece_none {val : Option V} {mcur : RBMap I V} :
    step_piece (none : Option (Option (Rg I) × (RBound I × RBound I)))
      val mcur = some mcur := rfl

theorem keep_piece_none {val : Option V} :
    keep_piece (none : Option (Option (Rg I) × (RBound I × RBound I)))
      val = some (none : Option ((RBound I × RBound I) × V)) := rfl

theorem applyPiece_filter {L : RBMap I V} {o : Option (Rg I)} {v : V}
    {p : Rg I × V → Bool}
    (hp : ∀ pc, o = some pc → p (pc, v) = false)
    (hne : ∀ pc, o = some pc → ∀ e ∈ L,
      startKey pc.start ≠ startKey e.1.start) :
    (applyPiece L o v).filter p = L.filter p := by
  rcases o with _ | pc
  · rfl
  · exact btInsert_filter (hp pc rfl) (hne pc rfl)

theorem applyPiece_perm {L : RBMap I V} {o : Option (Rg I)} {v : V}
    (hne : ∀ pc, o = some pc → ∀ e ∈ L,
      startKey pc.start ≠ startKey e.1.start) :
    (applyPiece L o v).Perm
      ((o.map (fun rb => (rb, v))).toList ++ L) := by
  rcases o with _ | pc
  · exact List.Perm.refl _
  · exact btInsert_perm (hne pc rfl)

theorem applyPiece_inv {L : RBMap I V} (hInvL : MapInv L) {o : Option (Rg I)}
    {v : V}
    (hval : ∀ pc, o = some pc → is_valid_range pc = true)
    (hno : ∀ pc, o = some pc → ∀ e ∈ L, overlaps e.1 pc = false) :
    MapInv (applyPiece L o v) := by
  rcases o with _ | pc
  · exact hInvL
  · exact MapInv.insert hInvL (hval pc rfl) (hno pc rfl)

theorem applyPiece_mem {L : RBMap I V} {o : Option (Rg I)} {v : V}
    {x : Rg I × V}
    (hne : ∀ pc, o = some pc → ∀ e ∈ L,
      startKey pc.start ≠ startKey e.1.start) :
    (x ∈ applyPiece L o v ↔
      ((∃ pc, o = some pc ∧ x = (pc, v)) ∨ x ∈ L)) := by
  rw [List.Perm.mem_iff (applyPiece_perm hne)]
  rcases o with _ | pc
  · simp
  · simp [Option.toList]

theorem remove_overlapping_fst (X : RBMap I V) (q : Rg I) :
    (remove_overlapping X q).1 = X.filter (fun e => !(overlaps e.1 q)) := rfl

theorem remove_overlapping_snd (X : RBMap I V) (q : Rg I) :
    (remove_overlapping X q).2 = X.filter (fun e => overlaps e.1 q) := rfl

/-- No stored entry starts at the key of the reinserted after piece. -/
theorem after_piece_fresh {m : RBMap I V} (hInv : MapInv m) {q : Rg I}
    {rt : Rg I × V} (hrt : rt ∈ m)
    (hc : cmp_range_with_discrete_bound_ord rt.1 (endKey q.endb) = .eq)
    (hlt : endKey q.endb < endKey rt.1.endb) (hq : q.endb ≠ RBound.unb) :
    ∀ e ∈ m, startKey (flip_bound q.endb) ≠ startKey e.1.start := by
  intro e he heq
  obtain ⟨h1, h2⟩ := cmp_rwb_eq_iff.mp hc
  have hgt : endKey q.endb < startKey e.1.start := by
    rw [← heq]
    exact endKey_lt_startKey_flip hq
  have hne : e ≠ rt := by
    intro hre
    subst hre
    exact absurd (lt_of_le_of_lt h1 hgt) (lt_irrefl _)
  rcases pairwise_cases hInv.1 hrt he with h | h | h
  · exact hne h.symm
  · have h' : endKey rt.1.endb < startKey e.1.start := h
    rw [← heq] at h'
    exact absurd ((startKey_flip_le_iff hq _).mpr hlt) (not_le.mpr h')
  · have h' : endKey e.1.endb < startKey rt.1.start := h
    exact absurd (lt_of_le_of_lt (is_valid_range_iff.mp (hInv.2 e he))
      (lt_of_lt_of_le h' (le_trans h1 (le_of_lt hgt)))) (lt_irrefl _)


/-- The distinct-straddlers branch of the non-single cut. -/
theorem cut_nso_some_some {P : Rg I → Bool} {m : RBMap I V} {q : Rg I}
    {l rt : Rg I × V} {m' : RBMap I V} {ys : List ((RBound I × RBound I) × V)}
    (hInv : MapInv m) (hvq : is_valid_range q = true)
    (hLH : btGetKeyValue (overlapping_start_comp q.start) m = some l)
    (hRH : btGetKeyValue (overlapping_end_comp q.endb) m = some rt)
    (hlr : l ≠ rt)
    (h : cut_non_single_overlapping P m q (some l.1) (some rt.1) =
      some (m', .ok ys)) :
    CutOut P m q m' ys := by
  have hl := (btGetKeyValue_eq_some_iff
    (cmp_rwb_unique hInv (startKey q.start))).mp hLH
  have hr := (btGetKeyValue_eq_some_iff
    (cmp_rwb_unique hInv (endKey q.endb))).mp hRH
  have hovl : overlaps l.1 q = true := hit_ov_start hvq hl.2
  have hovr : overlaps rt.1 q = true := hit_ov_end hvq hr.2
  obtain ⟨gl1, gl2⟩ := cmp_rwb_eq_iff.mp hl.2
  obtain ⟨gr1, gr2⟩ := cmp_rwb_eq_iff.mp hr.2
  have huniq1 : ∀ b ∈ m,
      (overlapping_start_comp q.start b.1 == Ordering.eq) = true → b = l := by
    intro b hb hsb
    exact cmp_rwb_unique hInv (startKey q.start) b hb l hl.1
      (ordering_beq_iff.mp hsb) hl.2
  have huniq2 : ∀ b ∈ m,
      (overlapping_end_comp q.endb b.1 == Ordering.eq) = true → b = rt := by
    intro b hb hsb
    exact cmp_rwb_unique hInv (endKey q.endb) b hb rt hr.1
      (ordering_beq_iff.mp hsb) hr.2
  have hs1rt : (overlapping_start_comp q.start rt.1 == Ordering.eq) = false := by
    rcases hx : (overlapping_start_comp q.start rt.1 == Ordering.eq) with _ | _
    · rfl
    · exact absurd (huniq1 rt hr.1 hx).symm hlr
  have hlen1 : (m.filter
      (fun e => overlapping_start_comp q.start e.1 == Ordering.eq)).length ≤ 1 :=
    filter_matches_length_le_one hInv (cmp_rwb_unique hInv (startKey q.start))
  have hRSf : (btRemove (overlapping_start_comp q.start) m).1 = some l.2 := by
    rw [btRemove_fst_eq, hLH]
    rfl
  have hRSs : (btRemove (overlapping_start_comp q.start) m).2 = m.filter (fun e => !(overlapping_start_comp q.start e.1 == Ordering.eq)) :=
    btRemove_snd_eq_filter hlen1
  have hInv1 : MapInv (m.filter (fun e => !(overlapping_start_comp q.start e.1 == Ordering.eq))) :=
    hInv.sublist (List.filter_sublist m)
  have hrtb : rt ∈ m.filter (fun e => !(overlapping_start_comp q.start e.1 == Ordering.eq)) :=
    List.mem_filter.mpr ⟨hr.1, by rw [hs1rt]; rfl⟩
  have hlen2 : ((m.filter (fun e => !(overlapping_start_comp q.start e.1 == Ordering.eq))).filter
      (fun e => overlapping_end_comp q.endb e.1 == Ordering.eq)).length ≤ 1 :=
    filter_matches_length_le_one hInv1 (cmp_rwb_unique hInv1 (endKey q.endb))
  have hgkv1 : btGetKeyValue (overlapping_end_comp q.endb) (m.filter (fun e => !(overlapping_start_comp q.start e.1 == Ordering.eq))) = some rt :=
    (btGetKeyValue_eq_some_iff (cmp_rwb_unique hInv1 (endKey q.endb))).mpr
      ⟨hrtb, hr.2⟩
  have hREf : (btRemove (overlapping_end_comp q.endb) (m.filter (fun e => !(overlapping_start_comp q.start e.1 == Ordering.eq)))).1 = some rt.2 := by
    rw [btRemove_fst_eq, hgkv1]
    rfl
  have hREs : (btRemove (overlapping_end_comp q.endb) (m.filter (fun e => !(overlapping_start_comp q.start e.1 == Ordering.eq)))).2 = (m.filter (fun e => !(overlapping_start_comp q.start e.1 == Ordering.eq))).filter (fun e => !(overlapping_end_comp q.endb e.1 == Ordering.eq)) :=
    btRemove_snd_eq_filter hlen2
  unfold cut_non_single_overlapping at h
  repeat' split at h
  all_goals try (solve | cases h)
  rename_i x1 bc hbc x2 ac hac x3 m3 hm3 x4 m4 hm4 x5 kb hkb x6 ka hka
  obtain ⟨ob, hbceq, hobd⟩ := start_side_result hbc
  obtain ⟨oa, haceq, hoad⟩ := end_side_result hac
  subst hbceq
  subst haceq
  rw [hRSf] at hkb
  rw [hRSs] at hm3 hm4 hka
  rw [hREs] at hm3
  rw [hREf] at hm4 hka
  rw [hRSf] at hm3
  have hm3e := step_piece_eq hm3
  subst hm3e
  have hm4e := step_piece_eq hm4
  subst hm4e
  have hkbe := keep_piece_eq hkb
  subst hkbe
  have hkae := keep_piece_eq hka
  subst hkae
  have hp := Option.some.inj h
  rw [Prod.mk.injEq] at hp
  obtain ⟨h1, h2⟩ := hp
  have h2e := Except.ok.inj h2
  subst h1
  subst h2e
  have hob_eq : ∀ pc, ob = some pc →
      pc = (⟨l.1.start, flip_bound q.start⟩ : Rg I) ∧
      startKey l.1.start < startKey q.start ∧ P pc = true := by
    intro pc hpc
    rcases hobd with ⟨hbl, hoeq, hP⟩ | ⟨hbl, hoeq⟩
    · rw [hoeq] at hpc
      have hpe := Option.some.inj hpc
      subst hpe
      exact ⟨rfl, hbl, hP⟩
    · rw [hoeq] at hpc
      cases hpc
  have hoa_eq : ∀ pc, oa = some pc →
      pc = (⟨flip_bound q.endb, rt.1.endb⟩ : Rg I) ∧
      endKey q.endb < endKey rt.1.endb ∧ P pc = true := by
    intro pc hpc
    rcases hoad with ⟨hal, hoeq, hP⟩ | ⟨hal, hoeq⟩
    · rw [hoeq] at hpc
      have hpe := Option.some.inj hpc
      subst hpe
      exact ⟨rfl, hal, hP⟩
    · rw [hoeq] at hpc
      cases hpc
  have hb2mem : ∀ x : Rg I × V, x ∈ (m.filter (fun e => !(overlapping_start_comp q.start e.1 == Ordering.eq))).filter (fun e => !(overlapping_end_comp q.endb e.1 == Ordering.eq)) ↔
      (x ∈ m ∧ (overlapping_start_comp q.start x.1 == Ordering.eq) = false ∧
        (overlapping_end_comp q.endb x.1 == Ordering.eq) = false) := by
    intro x
    constructor
    · intro hx
      have hx2 := List.mem_filter.mp hx
      have hx1 := List.mem_filter.mp hx2.1
      refine ⟨hx1.1, ?_, ?_⟩
      · have hb := hx1.2
        rw [Bool.not_eq_true'] at hb
        exact hb
      · have hb := hx2.2
        rw [Bool.not_eq_true'] at hb
        exact hb
    · rintro ⟨hxm, hx1, hx2⟩
      exact List.mem_filter.mpr
        ⟨List.mem_filter.mpr ⟨hxm, by rw [hx1]; rfl⟩, by rw [hx2]; rfl⟩
  have hob_fresh : ∀ pc, ob = some pc → ∀ e ∈ (m.filter (fun e => !(overlapping_start_comp q.start e.1 == Ordering.eq))).filter (fun e => !(overlapping_end_comp q.endb e.1 == Ordering.eq)),
      startKey pc.start ≠ startKey e.1.start := by
    intro pc hpc e he heq
    obtain ⟨hpcv, hbl, -⟩ := hob_eq pc hpc
    subst hpcv
    have heq2 : startKey l.1.start = startKey e.1.start := heq
    have hel : l = e := inv_start_inj hInv l hl.1 e ((hb2mem e).mp he).1 heq2
    have hb := ((hb2mem e).mp he).2.1
    rw [← hel, ordering_beq_false_iff] at hb
    exact hb hl.2
  have hob_val : ∀ pc, ob = some pc → is_valid_range pc = true := by
    intro pc hpc
    obtain ⟨hpcv, hbl, -⟩ := hob_eq pc hpc
    subst hpcv
    exact before_piece_valid (ne_unb_of_lt_startKey hbl) hbl
  have hob_noov : ∀ pc, ob = some pc → ∀ e ∈ (m.filter (fun e => !(overlapping_start_comp q.start e.1 == Ordering.eq))).filter (fun e => !(overlapping_end_comp q.endb e.1 == Ordering.eq)),
      overlaps e.1 pc = false := by
    intro pc hpc e he
    obtain ⟨hpcv, hbl, -⟩ := hob_eq pc hpc
    subst hpcv
    have hem := (hb2mem e).mp he
    have hnel : e ≠ l := by
      intro hle
      have hb := hem.2.1
      rw [hle, ordering_beq_false_iff] at hb
      exact hb hl.2
    exact before_piece_no_ov hInv hl.1 hl.2 (ne_unb_of_lt_startKey hbl)
      e hem.1 hnel
  have hInv2 : MapInv ((m.filter (fun e => !(overlapping_start_comp q.start e.1 == Ordering.eq))).filter (fun e => !(overlapping_end_comp q.endb e.1 == Ordering.eq))) := hInv1.sublist (List.filter_sublist _)
  have hInv3 : MapInv (applyPiece ((m.filter (fun e => !(overlapping_start_comp q.start e.1 == Ordering.eq))).filter (fun e => !(overlapping_end_comp q.endb e.1 == Ordering.eq))) ob l.2) :=
    applyPiece_inv hInv2 hob_val hob_noov
  have hm3mem : ∀ x : Rg I × V, x ∈ applyPiece ((m.filter (fun e => !(overlapping_start_comp q.start e.1 == Ordering.eq))).filter (fun e => !(overlapping_end_comp q.endb e.1 == Ordering.eq))) ob l.2 ↔
      ((∃ pc, ob = some pc ∧ x = (pc, l.2)) ∨ x ∈ (m.filter (fun e => !(overlapping_start_comp q.start e.1 == Ordering.eq))).filter (fun e => !(overlapping_end_comp q.endb e.1 == Ordering.eq))) :=
    fun x => applyPiece_mem hob_fresh
  have hoa_fresh : ∀ pc, oa = some pc → ∀ e ∈ applyPiece ((m.filter (fun e => !(overlapping_start_comp q.start e.1 == Ordering.eq))).filter (fun e => !(overlapping_end_comp q.endb e.1 == Ordering.eq))) ob l.2,
      startKey pc.start ≠ startKey e.1.start := by
    intro pc hpc e he heq
    obtain ⟨hpcv, hal, -⟩ := hoa_eq pc hpc
    subst hpcv
    have heq2 : startKey (flip_bound q.endb) = startKey e.1.start := heq
    rcases (hm3mem e).mp he with ⟨pb, hpb, hepb⟩ | heb2
    · obtain ⟨hpbv, hbl, -⟩ := hob_eq pb hpb
      subst hpbv
      subst hepb
      have heq3 : startKey (flip_bound q.endb) = startKey l.1.start := heq2
      have hx1 : endKey q.endb < startKey (flip_bound q.endb) :=
        endKey_lt_startKey_flip (ne_unb_of_endKey_lt hal)
      rw [heq3] at hx1
      exact absurd (lt_of_le_of_lt (le_trans gl1 (is_valid_range_iff.mp hvq))
        hx1) (lt_irrefl _)
    · exact after_piece_fresh hInv hr.1 hr.2 hal (ne_unb_of_endKey_lt hal)
        e ((hb2mem e).mp heb2).1 heq2
  have hoa_val : ∀ pc, oa = some pc → is_valid_range pc = true := by
    intro pc hpc
    obtain ⟨hpcv, hal, -⟩ := hoa_eq pc hpc
    subst hpcv
    exact after_piece_valid (ne_unb_of_endKey_lt hal) hal
  have hoa_noov : ∀ pc, oa = some pc → ∀ e ∈ applyPiece ((m.filter (fun e => !(overlapping_start_comp q.start e.1 == Ordering.eq))).filter (fun e => !(overlapping_end_comp q.endb e.1 == Ordering.eq))) ob l.2,
      overlaps e.1 pc = false := by
    intro pc hpc e he
    obtain ⟨hpcv, hal, -⟩ := hoa_eq pc hpc
    subst hpcv
    rcases (hm3mem e).mp he with ⟨pb, hpb, hepb⟩ | heb2
    · obtain ⟨hpbv, hbl, -⟩ := hob_eq pb hpb
      subst hpbv
      subst hepb
      exact pieces_no_ov hvq (ne_unb_of_lt_startKey hbl)
        (ne_unb_of_endKey_lt hal)
    · have hem := (hb2mem e).mp heb2
      have hner : e ≠ rt := by
        intro hre
        have hb := hem.2.2
        rw [hre, ordering_beq_false_iff] at hb
        exact hb hr.2
      exact after_piece_no_ov hInv hr.1 hr.2 (ne_unb_of_endKey_lt hal)
        e hem.1 hner
  have hInv4 : MapInv (applyPiece (applyPiece ((m.filter (fun e => !(overlapping_start_comp q.start e.1 == Ordering.eq))).filter (fun e => !(overlapping_end_comp q.endb e.1 == Ordering.eq))) ob l.2) oa rt.2) :=
    applyPiece_inv hInv3 hoa_val hoa_noov
  have hm4mem : ∀ x : Rg I × V,
      x ∈ applyPiece (applyPiece ((m.filter (fun e => !(overlapping_start_comp q.start e.1 == Ordering.eq))).filter (fun e => !(overlapping_end_comp q.endb e.1 == Ordering.eq))) ob l.2) oa rt.2 ↔
      ((∃ pc, oa = some pc ∧ x = (pc, rt.2)) ∨
        x ∈ applyPiece ((m.filter (fun e => !(overlapping_start_comp q.start e.1 == Ordering.eq))).filter (fun e => !(overlapping_end_comp q.endb e.1 == Ordering.eq))) ob l.2) :=
    fun x => applyPiece_mem hoa_fresh
  have hpA : ∀ pc, oa = some pc →
      (fun e : Rg I × V => overlaps e.1 q) (pc, rt.2) = false := by
    intro pc hpc
    obtain ⟨hpcv, hal, -⟩ := hoa_eq pc hpc
    subst hpcv
    exact after_piece_not_overlaps (ne_unb_of_endKey_lt hal)
  have hpB : ∀ pc, ob = some pc →
      (fun e : Rg I × V => overlaps e.1 q) (pc, l.2) = false := by
    intro pc hpc
    obtain ⟨hpcv, hbl, -⟩ := hob_eq pc hpc
    subst hpcv
    exact before_piece_not_overlaps (ne_unb_of_lt_startKey hbl)
  have hmid : (applyPiece (applyPiece ((m.filter (fun e => !(overlapping_start_comp q.start e.1 == Ordering.eq))).filter (fun e => !(overlapping_end_comp q.endb e.1 == Ordering.eq))) ob l.2) oa rt.2).filter
      (fun e => overlaps e.1 q) =
      m.filter (fun b => (overlaps b.1 q &&
        !(overlapping_start_comp q.start b.1 == Ordering.eq)) &&
        !(overlapping_end_comp q.endb b.1 == Ordering.eq)) := by
    rw [applyPiece_filter hpA hoa_fresh, applyPiece_filter hpB hob_fresh,
      filter_filter_eq, filter_filter_eq]
    refine List.filter_congr ?_
    intro e he
    rcases hx1 : (overlapping_start_comp q.start e.1 == Ordering.eq) with _ | _ <;>
      rcases hx2 : (overlapping_end_comp q.endb e.1 == Ordering.eq) with _ | _ <;>
      rcases hx3 : overlaps e.1 q with _ | _ <;> rfl
  have hsplit1 : m.filter (fun e => overlaps e.1 q) =
      l :: m.filter (fun b => overlaps b.1 q &&
        !(overlapping_start_comp q.start b.1 == Ordering.eq)) :=
    filter_head_split hInv.1 hl.1 hovl (ordering_beq_iff.mpr hl.2) huniq1
      (fun b hb hpb hne => hit_start_first hInv hl.1 hl.2 b hb hpb hne)
      (fun b hb h1 h2 => entrySep_asymm (hInv.2 l hl.1) (hInv.2 b hb) h1 h2)
  have hsplit2 : m.filter (fun b => overlaps b.1 q &&
      !(overlapping_start_comp q.start b.1 == Ordering.eq)) =
      m.filter (fun b => (overlaps b.1 q &&
        !(overlapping_start_comp q.start b.1 == Ordering.eq)) &&
        !(overlapping_end_comp q.endb b.1 == Ordering.eq)) ++ [rt] :=
    filter_last_split hInv.1 hr.1 (by rw [hovr, hs1rt]; rfl)
      (ordering_beq_iff.mpr hr.2) huniq2
      (fun b hb hpb hne => hit_end_last hInv hr.1 hr.2 b hb
        (by have hx := hpb; rw [Bool.and_eq_true] at hx; exact hx.1) hne)
      (fun b hb h1 h2 => entrySep_asymm (hInv.2 rt hr.1) (hInv.2 b hb) h1 h2)
  refine ⟨MapInv.sublist hInv4 (List.filter_sublist _), no_ov_of_filter,
    ?_, ?_, ?_⟩
  · refine @cut_coverage I _ V m q _
      ((ob.map (fun rb => (rb, l.2))).toList ++
        (oa.map (fun rb => (rb, rt.2))).toList) ?_ ?_ ?_
    · intro x
      rw [remove_overlapping_fst, List.mem_filter]
      constructor
      · rintro ⟨hx4, hxb⟩
        rw [Bool.not_eq_true'] at hxb
        rcases (hm4mem x).mp hx4 with ⟨pc, hpc, hxeq⟩ | hx3
        · subst hxeq
          refine Or.inr (List.mem_append.mpr (Or.inr ?_))
          rw [hpc]
          exact List.mem_singleton_self _
        · rcases (hm3mem x).mp hx3 with ⟨pc, hpc, hxeq⟩ | hxb2
          · subst hxeq
            refine Or.inr (List.mem_append.mpr (Or.inl ?_))
            rw [hpc]
            exact List.mem_singleton_self _
          · exact Or.inl ⟨((hb2mem x).mp hxb2).1, hxb⟩
      · rintro (⟨hxm, hxov⟩ | hxp)
        · refine ⟨(hm4mem x).mpr (Or.inr ((hm3mem x).mpr (Or.inr
            ((hb2mem x).mpr ⟨hxm, ?_, ?_⟩)))), by rw [hxov]; rfl⟩
          · rcases hx1 : (overlapping_start_comp q.start x.1 == Ordering.eq)
              with _ | _
            · rfl
            · have hxl := huniq1 x hxm hx1
              rw [hxl] at hxov
              rw [hovl] at hxov
              cases hxov
          · rcases hx2 : (overlapping_end_comp q.endb x.1 == Ordering.eq)
              with _ | _
            · rfl
            · have hxr := huniq2 x hxm hx2
              rw [hxr] at hxov
              rw [hovr] at hxov
              cases hxov
        · rcases List.mem_append.mp hxp with hxb | hxa
          · have hxmem : ∃ pc, ob = some pc ∧ x = (pc, l.2) := by
              rcases hobx : ob with _ | pb
              · rw [hobx] at hxb
                cases hxb
              · rw [hobx] at hxb
                exact ⟨pb, rfl, List.mem_singleton.mp hxb⟩
            obtain ⟨pb, hpb, hxeq⟩ := hxmem
            subst hxeq
            refine ⟨(hm4mem _).mpr (Or.inr ((hm3mem _).mpr
              (Or.inl ⟨pb, hpb, rfl⟩))), ?_⟩
            have hno : overlaps pb q = false := hpB pb hpb
            show (!(overlaps pb q)) = true
            rw [hno]
            rfl
          · have hxmem : ∃ pc, oa = some pc ∧ x = (pc, rt.2) := by
              rcases hoax : oa with _ | pa
              · rw [hoax] at hxa
                cases hxa
              · rw [hoax] at hxa
                exact ⟨pa, rfl, List.mem_singleton.mp hxa⟩
            obtain ⟨pa, hpa, hxeq⟩ := hxmem
            subst hxeq
            refine ⟨(hm4mem _).mpr (Or.inl ⟨pa, hpa, rfl⟩), ?_⟩
            have hno : overlaps pa q = false := hpA pa hpa
            show (!(overlaps pa q)) = true
            rw [hno]
            rfl
    · intro pc hpc p hcp
      rcases List.mem_append.mp hpc with hb | ha
      · rcases hobx : ob with _ | pb
        · rw [hobx] at hb
          cases hb
        · rw [hobx] at hb
          have hxe := List.mem_singleton.mp hb
          subst hxe
          obtain ⟨hpbv, hbl, -⟩ := hob_eq pb hobx
          subst hpbv
          rw [before_piece_contains_iff (ne_unb_of_lt_startKey hbl)] at hcp
          obtain ⟨hc1, hc2⟩ := hcp
          refine ⟨⟨l.1, hl.1, hc1, le_of_lt (lt_of_lt_of_le hc2 gl2)⟩, ?_⟩
          rw [not_containsPoint_iff]
          exact Or.inl hc2
      · rcases hoax : oa with _ | pa
        · rw [hoax] at ha
          cases ha
        · rw [hoax] at ha
          have hxe := List.mem_singleton.mp ha
          subst hxe
          obtain ⟨hpav, hal, -⟩ := hoa_eq pa hoax
          subst hpav
          rw [after_piece_contains_iff (ne_unb_of_endKey_lt hal)] at hcp
          obtain ⟨hc1, hc2⟩ := hcp
          refine ⟨⟨rt.1, hr.1, le_of_lt (lt_of_le_of_lt gr1 hc1), hc2⟩, ?_⟩
          rw [not_containsPoint_iff]
          exact Or.inr hc1
    · intro e he p hce hnq hov'
      rcases not_containsPoint_iff.mp hnq with hlt | hgt
      · have heeq : e = l := cmp_rwb_unique hInv (startKey q.start) e he l hl.1
          (cmp_rwb_eq_iff.mpr ⟨le_of_lt (lt_of_le_of_lt hce.1 hlt),
            (overlaps_iff.mp hov').2⟩) hl.2
        subst heeq
        have hbl : startKey e.1.start < startKey q.start :=
          lt_of_le_of_lt hce.1 hlt
        rcases hobd with ⟨hbl', hoeq, -⟩ | ⟨hnbl, -⟩
        · refine ⟨(⟨e.1.start, flip_bound q.start⟩, e.2),
            List.mem_append.mpr (Or.inl ?_), rfl, ?_⟩
          · rw [hoeq]
            exact List.mem_singleton_self _
          · rw [before_piece_contains_iff (ne_unb_of_lt_startKey hbl)]
            exact ⟨hce.1, hlt⟩
        · exact absurd hbl hnbl
      · have heeq : e = rt := cmp_rwb_unique hInv (endKey q.endb) e he rt hr.1
          (cmp_rwb_eq_iff.mpr ⟨(overlaps_iff.mp hov').1,
            le_of_lt (lt_of_lt_of_le hgt hce.2)⟩) hr.2
        subst heeq
        have hal : endKey q.endb < endKey e.1.endb :=
          lt_of_lt_of_le hgt hce.2
        rcases hoad with ⟨hal', hoeq, -⟩ | ⟨hnal, -⟩
        · refine ⟨(⟨flip_bound q.endb, e.1.endb⟩, e.2),
            List.mem_append.mpr (Or.inr ?_), rfl, ?_⟩
          · rw [hoeq]
            exact List.mem_singleton_self _
          · rw [after_piece_contains_iff (ne_unb_of_endKey_lt hal)]
            exact ⟨hgt, hce.2⟩
        · exact absurd hal hnal
  · rw [remove_overlapping_snd, hmid, hsplit1, hsplit2, List.map_cons,
      List.map_append]
    have hinner : (m.filter (fun b => (overlaps b.1 q &&
        !(overlapping_start_comp q.start b.1 == Ordering.eq)) &&
        !(overlapping_end_comp q.endb b.1 == Ordering.eq))).map
          (fun e => ((e.1.start, e.1.endb), e.2)) =
        (m.filter (fun b => (overlaps b.1 q &&
        !(overlapping_start_comp q.start b.1 == Ordering.eq)) &&
        !(overlapping_end_comp q.endb b.1 == Ordering.eq))).map
          (fun e => ((maxStart e.1.start q.start, minEnd e.1.endb q.endb),
            e.2)) := by
      refine map_congr_mem ?_
      intro e he
      have hem := List.mem_filter.mp he
      have hx := hem.2
      rw [Bool.and_eq_true, Bool.and_eq_true] at hx
      obtain ⟨⟨hxov, hx1⟩, hx2⟩ := hx
      rw [Bool.not_eq_true', ordering_beq_false_iff] at hx1 hx2
      have hg1 := ov_start_lt hxov hx1
      have hg2 := ov_end_lt hxov hx2
      obtain ⟨hs, hen⟩ := slice_self hg1 hg2
      rw [hs, hen]
    rw [hinner]
    rfl
  · intro e he
    have he4 := (List.mem_filter.mp he).1
    rcases (hm4mem e).mp he4 with ⟨pc, hpc, hxeq⟩ | he3
    · obtain ⟨hpcv, -, hP⟩ := hoa_eq pc hpc
      subst hpcv
      subst hxeq
      exact Or.inr hP
    · rcases (hm3mem e).mp he3 with ⟨pc, hpc, hxeq⟩ | heb
      · obtain ⟨hpcv, -, hP⟩ := hob_eq pc hpc
        subst hpcv
        subst hxeq
        exact Or.inr hP
      · exact Or.inl ((hb2mem e).mp heb).1


/-- The start-straddler-only branch of the non-single cut. -/
theorem cut_nso_some_none {P : Rg I → Bool} {m : RBMap I V} {q : Rg I}
    {l : Rg I × V} {m' : RBMap I V} {ys : List ((RBound I × RBound I) × V)}
    (hInv : MapInv m) (hvq : is_valid_range q = true)
    (hLH : btGetKeyValue (overlapping_start_comp q.start) m = some l)
    (hRH : btGetKeyValue (overlapping_end_comp q.endb) m = none)
    (h : cut_non_single_overlapping P m q (some l.1) none =
      some (m', .ok ys)) :
    CutOut P m q m' ys := by
  have hl := (btGetKeyValue_eq_some_iff
    (cmp_rwb_unique hInv (startKey q.start))).mp hLH
  have hte : ∀ e ∈ m, overlapping_end_comp q.endb e.1 ≠ .eq :=
    btGetKeyValue_eq_none_iff.mp hRH
  have hovl : overlaps l.1 q = true := hit_ov_start hvq hl.2
  obtain ⟨gl1, gl2⟩ := cmp_rwb_eq_iff.mp hl.2
  have huniq1 : ∀ b ∈ m,
      (overlapping_start_comp q.start b.1 == Ordering.eq) = true → b = l := by
    intro b hb hsb
    exact cmp_rwb_unique hInv (startKey q.start) b hb l hl.1
      (ordering_beq_iff.mp hsb) hl.2
  have hlen1 : (m.filter
      (fun e => overlapping_start_comp q.start e.1 == Ordering.eq)).length ≤ 1 :=
    filter_matches_length_le_one hInv (cmp_rwb_unique hInv (startKey q.start))
  have hRSf : (btRemove (overlapping_start_comp q.start) m).1 = some l.2 := by
    rw [btRemove_fst_eq, hLH]
    rfl
  have hRSs : (btRemove (overlapping_start_comp q.start) m).2 = m.filter (fun e => !(overlapping_start_comp q.start e.1 == Ordering.eq)) :=
    btRemove_snd_eq_filter hlen1
  have hInv1 : MapInv (m.filter (fun e => !(overlapping_start_comp q.start e.1 == Ordering.eq))) :=
    hInv.sublist (List.filter_sublist m)
  have hte1 : ∀ e ∈ m.filter (fun e => !(overlapping_start_comp q.start e.1 == Ordering.eq)), overlapping_end_comp q.endb e.1 ≠ .eq :=
    fun e he => hte e (List.mem_filter.mp he).1
  have hREeq : btRemove (overlapping_end_comp q.endb) (m.filter (fun e => !(overlapping_start_comp q.start e.1 == Ordering.eq))) = (none, m.filter (fun e => !(overlapping_start_comp q.start e.1 == Ordering.eq))) :=
    btRemove_of_no_match hte1
  have hREf : (btRemove (overlapping_end_comp q.endb) (m.filter (fun e => !(overlapping_start_comp q.start e.1 == Ordering.eq)))).1 = none := by
    rw [hREeq]
  have hREs : (btRemove (overlapping_end_comp q.endb) (m.filter (fun e => !(overlapping_start_comp q.start e.1 == Ordering.eq)))).2 = m.filter (fun e => !(overlapping_start_comp q.start e.1 == Ordering.eq)) := by
    rw [hREeq]
  unfold cut_non_single_overlapping at h
  repeat' split at h
  all_goals try (solve | cases h)
  rename_i x1 bc hbc x2 ac hac x3 m3 hm3 x4 m4 hm4 x5 kb hkb x6 ka hka
  obtain ⟨ob, hbceq, hobd⟩ := start_side_result hbc
  subst hbceq
  rw [cut_side_config_none] at hac
  have hace := Except.ok.inj (Option.some.inj hac)
  subst hace
  rw [hRSf] at hkb
  rw [hRSs] at hm3 hm4 hka
  rw [hREs] at hm3
  rw [hREf] at hm4 hka
  rw [hRSf] at hm3
  have hm3e := step_piece_eq hm3
  subst hm3e
  have hm4e : m4 = applyPiece (m.filter (fun e => !(overlapping_start_comp q.start e.1 == Ordering.eq))) ob l.2 :=
    (Option.some.inj hm4).symm
  subst hm4e
  have hkbe := keep_piece_eq hkb
  subst hkbe
  have hkae : ka = none := (Option.some.inj hka).symm
  subst hkae
  have hp := Option.some.inj h
  rw [Prod.mk.injEq] at hp
  obtain ⟨h1, h2⟩ := hp
  have h2e := Except.ok.inj h2
  subst h1
  subst h2e
  have hob_eq : ∀ pc, ob = some pc →
      pc = (⟨l.1.start, flip_bound q.start⟩ : Rg I) ∧
      startKey l.1.start < startKey q.start ∧ P pc = true := by
    intro pc hpc
    rcases hobd with ⟨hbl, hoeq, hP⟩ | ⟨hbl, hoeq⟩
    · rw [hoeq] at hpc
      have hpe := Option.some.inj hpc
      subst hpe
      exact ⟨rfl, hbl, hP⟩
    · rw [hoeq] at hpc
      cases hpc
  have hb1mem : ∀ x : Rg I × V, x ∈ m.filter (fun e => !(overlapping_start_comp q.start e.1 == Ordering.eq)) ↔
      (x ∈ m ∧ (overlapping_start_comp q.start x.1 == Ordering.eq) = false) := by
    intro x
    constructor
    · intro hx
      have hx1 := List.mem_filter.mp hx
      refine ⟨hx1.1, ?_⟩
      have hb := hx1.2
      rw [Bool.not_eq_true'] at hb
      exact hb
    · rintro ⟨hxm, hx1⟩
      exact List.mem_filter.mpr ⟨hxm, by rw [hx1]; rfl⟩
  have hob_fresh : ∀ pc, ob = some pc → ∀ e ∈ m.filter (fun e => !(overlapping_start_comp q.start e.1 == Ordering.eq)),
      startKey pc.start ≠ startKey e.1.start := by
    intro pc hpc e he heq
    obtain ⟨hpcv, hbl, -⟩ := hob_eq pc hpc
    subst hpcv
    have heq2 : startKey l.1.start = startKey e.1.start := heq
    have hel : l = e := inv_start_inj hInv l hl.1 e ((hb1mem e).mp he).1 heq2
    have hb := ((hb1mem e).mp he).2
    rw [← hel, ordering_beq_false_iff] at hb
    exact hb hl.2
  have hob_val : ∀ pc, ob = some pc → is_valid_range pc = true := by
    intro pc hpc
    obtain ⟨hpcv, hbl, -⟩ := hob_eq pc hpc
    subst hpcv
    exact before_piece_valid (ne_unb_of_lt_startKey hbl) hbl
  have hob_noov : ∀ pc, ob = some pc → ∀ e ∈ m.filter (fun e => !(overlapping_start_comp q.start e.1 == Ordering.eq)),
      overlaps e.1 pc = false := by
    intro pc hpc e he
    obtain ⟨hpcv, hbl, -⟩ := hob_eq pc hpc
    subst hpcv
    have hem := (hb1mem e).mp he
    have hnel : e ≠ l := by
      intro hle
      have hb := hem.2
      rw [hle, ordering_beq_false_iff] at hb
      exact hb hl.2
    exact before_piece_no_ov hInv hl.1 hl.2 (ne_unb_of_lt_startKey hbl)
      e hem.1 hnel
  have hInv4 : MapInv (applyPiece (m.filter (fun e => !(overlapping_start_comp q.start e.1 == Ordering.eq))) ob l.2) :=
    applyPiece_inv hInv1 hob_val hob_noov
  have hm4mem : ∀ x : Rg I × V, x ∈ applyPiece (m.filter (fun e => !(overlapping_start_comp q.start e.1 == Ordering.eq))) ob l.2 ↔
      ((∃ pc, ob = some pc ∧ x = (pc, l.2)) ∨ x ∈ m.filter (fun e => !(overlapping_start_comp q.start e.1 == Ordering.eq))) :=
    fun x => applyPiece_mem hob_fresh
  have hpB : ∀ pc, ob = some pc →
      (fun e : Rg I × V => overlaps e.1 q) (pc, l.2) = false := by
    intro pc hpc
    obtain ⟨hpcv, hbl, -⟩ := hob_eq pc hpc
    subst hpcv
    exact before_piece_not_overlaps (ne_unb_of_lt_startKey hbl)
  have hmid : (applyPiece (m.filter (fun e => !(overlapping_start_comp q.start e.1 == Ordering.eq))) ob l.2).filter (fun e => overlaps e.1 q) =
      m.filter (fun b => overlaps b.1 q &&
        !(overlapping_start_comp q.start b.1 == Ordering.eq)) := by
    rw [applyPiece_filter hpB hob_fresh, filter_filter_eq]
    refine List.filter_congr ?_
    intro e he
    rcases hx1 : (overlapping_start_comp q.start e.1 == Ordering.eq) with _ | _ <;>
      rcases hx3 : overlaps e.1 q with _ | _ <;> rfl
  have hsplit1 : m.filter (fun e => overlaps e.1 q) =
      l :: m.filter (fun b => overlaps b.1 q &&
        !(overlapping_start_comp q.start b.1 == Ordering.eq)) :=
    filter_head_split hInv.1 hl.1 hovl (ordering_beq_iff.mpr hl.2) huniq1
      (fun b hb hpb hne => hit_start_first hInv hl.1 hl.2 b hb hpb hne)
      (fun b hb h1 h2 => entrySep_asymm (hInv.2 l hl.1) (hInv.2 b hb) h1 h2)
  refine ⟨MapInv.sublist hInv4 (List.filter_sublist _), no_ov_of_filter,
    ?_, ?_, ?_⟩
  · refine @cut_coverage I _ V m q _
      ((ob.map (fun rb => (rb, l.2))).toList) ?_ ?_ ?_
    · intro x
      rw [remove_overlapping_fst, List.mem_filter]
      constructor
      · rintro ⟨hx4, hxb⟩
        rw [Bool.not_eq_true'] at hxb
        rcases (hm4mem x).mp hx4 with ⟨pc, hpc, hxeq⟩ | hxb1
        · subst hxeq
          refine Or.inr ?_
          rw [hpc]
          exact List.mem_singleton_self _
        · exact Or.inl ⟨((hb1mem x).mp hxb1).1, hxb⟩
      · rintro (⟨hxm, hxov⟩ | hxp)
        · refine ⟨(hm4mem x).mpr (Or.inr ((hb1mem x).mpr ⟨hxm, ?_⟩)),
            by rw [hxov]; rfl⟩
          rcases hx1 : (overlapping_start_comp q.start x.1 == Ordering.eq)
            with _ | _
          · rfl
          · have hxl := huniq1 x hxm hx1
            rw [hxl] at hxov
            rw [hovl] at hxov
            cases hxov
        · have hxmem : ∃ pc, ob = some pc ∧ x = (pc, l.2) := by
            rcases hobx : ob with _ | pb
            · rw [hobx] at hxp
              cases hxp
            · rw [hobx] at hxp
              exact ⟨pb, rfl, List.mem_singleton.mp hxp⟩
          obtain ⟨pb, hpb, hxeq⟩ := hxmem
          subst hxeq
          refine ⟨(hm4mem _).mpr (Or.inl ⟨pb, hpb, rfl⟩), ?_⟩
          have hno : overlaps pb q = false := hpB pb hpb
          show (!(overlaps pb q)) = true
          rw [hno]
          rfl
    · intro pc hpc p hcp
      have hxmem : ∃ pb, ob = some pb ∧ pc = (pb, l.2) := by
        rcases hobx : ob with _ | pb
        · rw [hobx] at hpc
          cases hpc
        · rw [hobx] at hpc
          exact ⟨pb, rfl, List.mem_singleton.mp hpc⟩
      obtain ⟨pb, hpb, hxeq⟩ := hxmem
      subst hxeq
      obtain ⟨hpbv, hbl, -⟩ := hob_eq pb hpb
      subst hpbv
      rw [before_piece_contains_iff (ne_unb_of_lt_startKey hbl)] at hcp
      obtain ⟨hc1, hc2⟩ := hcp
      refine ⟨⟨l.1, hl.1, hc1, le_of_lt (lt_of_lt_of_le hc2 gl2)⟩, ?_⟩
      rw [not_containsPoint_iff]
      exact Or.inl hc2
    · intro e he p hce hnq hov'
      rcases not_containsPoint_iff.mp hnq with hlt | hgt
      · have heeq : e = l := cmp_rwb_unique hInv (startKey q.start) e he l hl.1
          (cmp_rwb_eq_iff.mpr ⟨le_of_lt (lt_of_le_of_lt hce.1 hlt),
            (overlaps_iff.mp hov').2⟩) hl.2
        subst heeq
        have hbl : startKey e.1.start < startKey q.start :=
          lt_of_le_of_lt hce.1 hlt
        rcases hobd with ⟨hbl', hoeq, -⟩ | ⟨hnbl, -⟩
        · refine ⟨(⟨e.1.start, flip_bound q.start⟩, e.2), ?_, rfl, ?_⟩
          · rw [hoeq]
            exact List.mem_singleton_self _
          · rw [before_piece_contains_iff (ne_unb_of_lt_startKey hbl)]
            exact ⟨hce.1, hlt⟩
        · exact absurd hbl hnbl
      · exact absurd (cmp_rwb_eq_iff.mpr ⟨(overlaps_iff.mp hov').1,
          le_of_lt (lt_of_lt_of_le hgt hce.2)⟩) (hte e he)
  · rw [remove_overlapping_snd, hmid, hsplit1, List.map_cons]
    have hinner : (m.filter (fun b => overlaps b.1 q &&
        !(overlapping_start_comp q.start b.1 == Ordering.eq))).map
          (fun e => ((e.1.start, e.1.endb), e.2)) =
        (m.filter (fun b => overlaps b.1 q &&
        !(overlapping_start_comp q.start b.1 == Ordering.eq))).map
          (fun e => ((maxStart e.1.start q.start, minEnd e.1.endb q.endb),
            e.2)) := by
      refine map_congr_mem ?_
      intro e he
      have hem := List.mem_filter.mp he
      have hx := hem.2
      rw [Bool.and_eq_true] at hx
      obtain ⟨hxov, hx1⟩ := hx
      rw [Bool.not_eq_true', ordering_beq_false_iff] at hx1
      have hg1 := ov_start_lt hxov hx1
      have hg2 := ov_end_lt hxov (hte e hem.1)
      obtain ⟨hs, hen⟩ := slice_self hg1 hg2
      rw [hs, hen]
    rw [hinner, Option.toList_none, List.append_nil]
    rfl
  · intro e he
    have he4 := (List.mem_filter.mp he).1
    rcases (hm4mem e).mp he4 with ⟨pc, hpc, hxeq⟩ | heb
    · obtain ⟨hpcv, -, hP⟩ := hob_eq pc hpc
      subst hpcv
      subst hxeq
      exact Or.inr hP
    · exact Or.inl ((hb1mem e).mp heb).1


/-- The end-straddler-only branch of the non-single cut. -/
theorem cut_nso_none_some {P : Rg I → Bool} {m : RBMap I V} {q : Rg I}
    {rt : Rg I × V} {m' : RBMap I V} {ys : List ((RBound I × RBound I) × V)}
    (hInv : MapInv m) (hvq : is_valid_range q = true)
    (hLH : btGetKeyValue (overlapping_start_comp q.start) m = none)
    (hRH : btGetKeyValue (overlapping_end_comp q.endb) m = some rt)
    (h : cut_non_single_overlapping P m q none (some rt.1) =
      some (m', .ok ys)) :
    CutOut P m q m' ys := by
  have hr := (btGetKeyValue_eq_some_iff
    (cmp_rwb_unique hInv (endKey q.endb))).mp hRH
  have hts : ∀ e ∈ m, overlapping_start_comp q.start e.1 ≠ .eq :=
    btGetKeyValue_eq_none_iff.mp hLH
  have hovr : overlaps rt.1 q = true := hit_ov_end hvq hr.2
  obtain ⟨gr1, gr2⟩ := cmp_rwb_eq_iff.mp hr.2
  have huniq2 : ∀ b ∈ m,
      (overlapping_end_comp q.endb b.1 == Ordering.eq) = true → b = rt := by
    intro b hb hsb
    exact cmp_rwb_unique hInv (endKey q.endb) b hb rt hr.1
      (ordering_beq_iff.mp hsb) hr.2
  have hRSeq : btRemove (overlapping_start_comp q.start) m = (none, m) :=
    btRemove_of_no_match hts
  have hRSf : (btRemove (overlapping_start_comp q.start) m).1 = none := by
    rw [hRSeq]
  have hRSs : (btRemove (overlapping_start_comp q.start) m).2 = m := by
    rw [hRSeq]
  have hlen2 : (m.filter
      (fun e => overlapping_end_comp q.endb e.1 == Ordering.eq)).length ≤ 1 :=
    filter_matches_length_le_one hInv (cmp_rwb_unique hInv (endKey q.endb))
  have hREf : (btRemove (overlapping_end_comp q.endb) m).1 = some rt.2 := by
    rw [btRemove_fst_eq, hRH]
    rfl
  have hREs : (btRemove (overlapping_end_comp q.endb) m).2 = m.filter (fun e => !(overlapping_end_comp q.endb e.1 == Ordering.eq)) :=
    btRemove_snd_eq_filter hlen2
  have hInv1 : MapInv (m.filter (fun e => !(overlapping_end_comp q.endb e.1 == Ordering.eq))) := hInv.sublist (List.filter_sublist m)
  unfold cut_non_single_overlapping at h
  repeat' split at h
  all_goals try (solve | cases h)
  rename_i x1 bc hbc x2 ac hac x3 m3 hm3 x4 m4 hm4 x5 kb hkb x6 ka hka
  obtain ⟨oa, haceq, hoad⟩ := end_side_result hac
  subst haceq
  rw [cut_side_config_none] at hbc
  have hbce := Except.ok.inj (Option.some.inj hbc)
  subst hbce
  rw [hRSf] at hkb
  rw [hRSs] at hm3 hm4 hka
  rw [hREs] at hm3
  rw [hREf] at hm4 hka
  rw [hRSf] at hm3
  have hm3e : m3 = m.filter (fun e => !(overlapping_end_comp q.endb e.1 == Ordering.eq)) := (Option.some.inj hm3).symm
  subst hm3e
  have hm4e := step_piece_eq hm4
  subst hm4e
  have hkbe : kb = none := (Option.some.inj hkb).symm
  subst hkbe
  have hkae := keep_piece_eq hka
  subst hkae
  have hp := Option.some.inj h
  rw [Prod.mk.injEq] at hp
  obtain ⟨h1, h2⟩ := hp
  have h2e := Except.ok.inj h2
  subst h1
  subst h2e
  have hoa_eq : ∀ pc, oa = some pc →
      pc = (⟨flip_bound q.endb, rt.1.endb⟩ : Rg I) ∧
      endKey q.endb < endKey rt.1.endb ∧ P pc = true := by
    intro pc hpc
    rcases hoad with ⟨hal, hoeq, hP⟩ | ⟨hal, hoeq⟩
    · rw [hoeq] at hpc
      have hpe := Option.some.inj hpc
      subst hpe
      exact ⟨rfl, hal, hP⟩
    · rw [hoeq] at hpc
      cases hpc
  have hb2mem : ∀ x : Rg I × V, x ∈ m.filter (fun e => !(overlapping_end_comp q.endb e.1 == Ordering.eq)) ↔
      (x ∈ m ∧ (overlapping_end_comp q.endb x.1 == Ordering.eq) = false) := by
    intro x
    constructor
    · intro hx
      have hx1 := List.mem_filter.mp hx
      refine ⟨hx1.1, ?_⟩
      have hb := hx1.2
      rw [Bool.not_eq_true'] at hb
      exact hb
    · rintro ⟨hxm, hx1⟩
      exact List.mem_filter.mpr ⟨hxm, by rw [hx1]; rfl⟩
  have hoa_fresh : ∀ pc, oa = some pc → ∀ e ∈ m.filter (fun e => !(overlapping_end_comp q.endb e.1 == Ordering.eq)),
      startKey pc.start ≠ startKey e.1.start := by
    intro pc hpc e he heq
    obtain ⟨hpcv, hal, -⟩ := hoa_eq pc hpc
    subst hpcv
    have heq2 : startKey (flip_bound q.endb) = startKey e.1.start := heq
    exact after_piece_fresh hInv hr.1 hr.2 hal (ne_unb_of_endKey_lt hal)
      e ((hb2mem e).mp he).1 heq2
  have hoa_val : ∀ pc, oa = some pc → is_valid_range pc = true := by
    intro pc hpc
    obtain ⟨hpcv, hal, -⟩ := hoa_eq pc hpc
    subst hpcv
    exact after_piece_valid (ne_unb_of_endKey_lt hal) hal
  have hoa_noov : ∀ pc, oa = some pc → ∀ e ∈ m.filter (fun e => !(overlapping_end_comp q.endb e.1 == Ordering.eq)),
      overlaps e.1 pc = false := by
    intro pc hpc e he
    obtain ⟨hpcv, hal, -⟩ := hoa_eq pc hpc
    subst hpcv
    have hem := (hb2mem e).mp he
    have hner : e ≠ rt := by
      intro hre
      have hb := hem.2
      rw [hre, ordering_beq_false_iff] at hb
      exact hb hr.2
    exact after_piece_no_ov hInv hr.1 hr.2 (ne_unb_of_endKey_lt hal)
      e hem.1 hner
  have hInv4 : MapInv (applyPiece (m.filter (fun e => !(overlapping_end_comp q.endb e.1 == Ordering.eq))) oa rt.2) :=
    applyPiece_inv hInv1 hoa_val hoa_noov
  have hm4mem : ∀ x : Rg I × V, x ∈ applyPiece (m.filter (fun e => !(overlapping_end_comp q.endb e.1 == Ordering.eq))) oa rt.2 ↔
      ((∃ pc, oa = some pc ∧ x = (pc, rt.2)) ∨ x ∈ m.filter (fun e => !(overlapping_end_comp q.endb e.1 == Ordering.eq))) :=
    fun x => applyPiece_mem hoa_fresh
  have hpA : ∀ pc, oa = some pc →
      (fun e : Rg I × V => overlaps e.1 q) (pc, rt.2) = false := by
    intro pc hpc
    obtain ⟨hpcv, hal, -⟩ := hoa_eq pc hpc
    subst hpcv
    exact after_piece_not_overlaps (ne_unb_of_endKey_lt hal)
  have hmid : (applyPiece (m.filter (fun e => !(overlapping_end_comp q.endb e.1 == Ordering.eq))) oa rt.2).filter (fun e => overlaps e.1 q) =
      m.filter (fun b => overlaps b.1 q &&
        !(overlapping_end_comp q.endb b.1 == Ordering.eq)) := by
    rw [applyPiece_filter hpA hoa_fresh, filter_filter_eq]
    refine List.filter_congr ?_
    intro e he
    rcases hx2 : (overlapping_end_comp q.endb e.1 == Ordering.eq) with _ | _ <;>
      rcases hx3 : overlaps e.1 q with _ | _ <;> rfl
  have hsplit2 : m.filter (fun e => overlaps e.1 q) =
      m.filter (fun b => overlaps b.1 q &&
        !(overlapping_end_comp q.endb b.1 == Ordering.eq)) ++ [rt] :=
    filter_last_split hInv.1 hr.1 hovr (ordering_beq_iff.mpr hr.2) huniq2
      (fun b hb hpb hne => hit_end_last hInv hr.1 hr.2 b hb hpb hne)
      (fun b hb h1 h2 => entrySep_asymm (hInv.2 rt hr.1) (hInv.2 b hb) h1 h2)
  refine ⟨MapInv.sublist hInv4 (List.filter_sublist _), no_ov_of_filter,
    ?_, ?_, ?_⟩
  · refine @cut_coverage I _ V m q _
      ((oa.map (fun rb => (rb, rt.2))).toList) ?_ ?_ ?_
    · intro x
      rw [remove_overlapping_fst, List.mem_filter]
      constructor
      · rintro ⟨hx4, hxb⟩
        rw [Bool.not_eq_true'] at hxb
        rcases (hm4mem x).mp hx4 with ⟨pc, hpc, hxeq⟩ | hxb1
        · subst hxeq
          refine Or.inr ?_
          rw [hpc]
          exact List.mem_singleton_self _
        · exact Or.inl ⟨((hb2mem x).mp hxb1).1, hxb⟩
      · rintro (⟨hxm, hxov⟩ | hxp)
        · refine ⟨(hm4mem x).mpr (Or.inr ((hb2mem x).mpr ⟨hxm, ?_⟩)),
            by rw [hxov]; rfl⟩
          rcases hx2 : (overlapping_end_comp q.endb x.1 == Ordering.eq)
            with _ | _
          · rfl
          · have hxr := huniq2 x hxm hx2
            rw [hxr] at hxov
            rw [hovr] at hxov
            cases hxov
        · have hxmem : ∃ pc, oa = some pc ∧ x = (pc, rt.2) := by
            rcases hoax : oa with _ | pa
            · rw [hoax] at hxp
              cases hxp
            · rw [hoax] at hxp
              exact ⟨pa, rfl, List.mem_singleton.mp hxp⟩
          obtain ⟨pa, hpa, hxeq⟩ := hxmem
          subst hxeq
          refine ⟨(hm4mem _).mpr (Or.inl ⟨pa, hpa, rfl⟩), ?_⟩
          have hno : overlaps pa q = false := hpA pa hpa
          show (!(overlaps pa q)) = true
          rw [hno]
          rfl
    · intro pc hpc p hcp
      have hxmem : ∃ pa, oa = some pa ∧ pc = (pa, rt.2) := by
        rcases hoax : oa with _ | pa
        · rw [hoax] at hpc
          cases hpc
        · rw [hoax] at hpc
          exact ⟨pa, rfl, List.mem_singleton.mp hpc⟩
      obtain ⟨pa, hpa, hxeq⟩ := hxmem
      subst hxeq
      obtain ⟨hpav, hal, -⟩ := hoa_eq pa hpa
      subst hpav
      rw [after_piece_contains_iff (ne_unb_of_endKey_lt hal)] at hcp
      obtain ⟨hc1, hc2⟩ := hcp
      refine ⟨⟨rt.1, hr.1, le_of_lt (lt_of_le_of_lt gr1 hc1), hc2⟩, ?_⟩
      rw [not_containsPoint_iff]
      exact Or.inr hc1
    · intro e he p hce hnq hov'
      rcases not_containsPoint_iff.mp hnq with hlt | hgt
      · exact absurd (cmp_rwb_eq_iff.mpr
          ⟨le_of_lt (lt_of_le_of_lt hce.1 hlt), (overlaps_iff.mp hov').2⟩)
          (hts e he)
      · have heeq : e = rt := cmp_rwb_unique hInv (endKey q.endb) e he rt hr.1
          (cmp_rwb_eq_iff.mpr ⟨(overlaps_iff.mp hov').1,
            le_of_lt (lt_of_lt_of_le hgt hce.2)⟩) hr.2
        subst heeq
        have hal : endKey q.endb < endKey e.1.endb :=
          lt_of_lt_of_le hgt hce.2
        rcases hoad with ⟨hal', hoeq, -⟩ | ⟨hnal, -⟩
        · refine ⟨(⟨flip_bound q.endb, e.1.endb⟩, e.2), ?_, rfl, ?_⟩
          · rw [hoeq]
            exact List.mem_singleton_self _
          · rw [after_piece_contains_iff (ne_unb_of_endKey_lt hal)]
            exact ⟨hgt, hce.2⟩
        · exact absurd hal hnal
  · rw [remove_overlapping_snd, hmid, hsplit2, List.map_append]
    have hinner : (m.filter (fun b => overlaps b.1 q &&
        !(overlapping_end_comp q.endb b.1 == Ordering.eq))).map
          (fun e => ((e.1.start, e.1.endb), e.2)) =
        (m.filter (fun b => overlaps b.1 q &&
        !(overlapping_end_comp q.endb b.1 == Ordering.eq))).map
          (fun e => ((maxStart e.1.start q.start, minEnd e.1.endb q.endb),
            e.2)) := by
      refine map_congr_mem ?_
      intro e he
      have hem := List.mem_filter.mp he
      have hx := hem.2
      rw [Bool.and_eq_true] at hx
      obtain ⟨hxov, hx2⟩ := hx
      rw [Bool.not_eq_true', ordering_beq_false_iff] at hx2
      have hg1 := ov_start_lt hxov (hts e hem.1)
      have hg2 := ov_end_lt hxov hx2
      obtain ⟨hs, hen⟩ := slice_self hg1 hg2
      rw [hs, hen]
    rw [hinner]
    rfl
  · intro e he
    have he4 := (List.mem_filter.mp he).1
    rcases (hm4mem e).mp he4 with ⟨pc, hpc, hxeq⟩ | heb
    · obtain ⟨hpcv, -, hP⟩ := hoa_eq pc hpc
      subst hpcv
      subst hxeq
      exact Or.inr hP
    · exact Or.inl ((hb2mem e).mp heb).1


/-- The single-straddler cut: one stored entry spans the whole query
range. -/
theorem cut_single_ok {P : Rg I → Bool} {m : RBMap I V} {q : Rg I}
    {l : Rg I × V} {m' : RBMap I V} {ys : List ((RBound I × RBound I) × V)}
    (hInv : MapInv m) (hvq : is_valid_range q = true)
    (hLH : btGetKeyValue (overlapping_start_comp q.start) m = some l)
    (hce : overlapping_end_comp q.endb l.1 = .eq)
    (h : cut_single_overlapping P m q l.1 = some (m', .ok ys)) :
    CutOut P m q m' ys := by
  have hl := (btGetKeyValue_eq_some_iff
    (cmp_rwb_unique hInv (startKey q.start))).mp hLH
  have hovl : overlaps l.1 q = true := hit_ov_start hvq hl.2
  obtain ⟨gl1, gl2⟩ := cmp_rwb_eq_iff.mp hl.2
  obtain ⟨ge1, ge2⟩ := cmp_rwb_eq_iff.mp hce
  have hspan : ∀ b ∈ m, overlaps b.1 q = true → b = l :=
    span_unique_ov hInv hl.1 gl1 ge2
  have hfilter_ov : m.filter (fun e => overlaps e.1 q) = [l] :=
    filter_eq_singleton_of_unique hl.1 hovl hInv.nodup hspan
  have huniq1 : ∀ b ∈ m,
      (overlapping_start_comp q.start b.1 == Ordering.eq) = true → b = l := by
    intro b hb hsb
    exact cmp_rwb_unique hInv (startKey q.start) b hb l hl.1
      (ordering_beq_iff.mp hsb) hl.2
  have hlen1 : (m.filter
      (fun e => overlapping_start_comp q.start e.1 == Ordering.eq)).length ≤ 1 :=
    filter_matches_length_le_one hInv (cmp_rwb_unique hInv (startKey q.start))
  have hRSf : (btRemove (overlapping_start_comp q.start) m).1 = some l.2 := by
    rw [btRemove_fst_eq, hLH]
    rfl
  have hRSs : (btRemove (overlapping_start_comp q.start) m).2 = m.filter (fun e => !(overlapping_start_comp q.start e.1 == Ordering.eq)) :=
    btRemove_snd_eq_filter hlen1
  have hInv1 : MapInv (m.filter (fun e => !(overlapping_start_comp q.start e.1 == Ordering.eq))) := hInv.sublist (List.filter_sublist m)
  have hb1mem : ∀ x : Rg I × V, x ∈ m.filter (fun e => !(overlapping_start_comp q.start e.1 == Ordering.eq)) ↔
      (x ∈ m ∧ (overlapping_start_comp q.start x.1 == Ordering.eq) = false) := by
    intro x
    constructor
    · intro hx
      have hx1 := List.mem_filter.mp hx
      refine ⟨hx1.1, ?_⟩
      have hb := hx1.2
      rw [Bool.not_eq_true'] at hb
      exact hb
    · rintro ⟨hxm, hx1⟩
      exact List.mem_filter.mpr ⟨hxm, by rw [hx1]; rfl⟩
  unfold cut_single_overlapping at h
  repeat' split at h
  all_goals try (solve | cases h)
  rename_i x1 rb hrb x2 ra hra x3 val m1 hrm x4 inside hin
  have hfst : (btRemove (overlapping_start_comp q.start) m).1 = some val := by
    rw [hrm]
  rw [hRSf] at hfst
  have hvv := Option.some.inj hfst
  subst hvv
  have hsnd : (btRemove (overlapping_start_comp q.start) m).2 = m1 := by
    rw [hrm]
  rw [hRSs] at hsnd
  subst hsnd
  obtain ⟨hovin, hinval⟩ := inside_cut_eq_some hin
  subst hinval
  have hp := Option.some.inj h
  rw [Prod.mk.injEq] at hp
  obtain ⟨h1, h2⟩ := hp
  have h2e := Except.ok.inj h2
  subst h1
  subst h2e
  have hrb_d : (startKey l.1.start < startKey q.start ∧
      rb = some (⟨l.1.start, flip_bound q.start⟩ : Rg I) ∧
      P ⟨l.1.start, flip_bound q.start⟩ = true) ∨
      (¬ startKey l.1.start < startKey q.start ∧ rb = none) := by
    by_cases hbl : startKey l.1.start < startKey q.start
    · have hbcut : (cut_range l.1 q).before_cut =
          some (l.1.start, flip_bound q.start) := by
        rw [before_cut_eq, if_pos hbl]
      rcases tfb_opt_ok hrb with ⟨hoc, hro⟩ | ⟨s, e, hoc, hP, hro⟩
      · rw [hbcut] at hoc
        cases hoc
      · rw [hbcut] at hoc
        have hse := Option.some.inj hoc
        rw [Prod.mk.injEq] at hse
        obtain ⟨hs, he⟩ := hse
        subst hs
        subst he
        exact Or.inl ⟨hbl, hro, hP⟩
    · have hbcut : (cut_range l.1 q).before_cut = none := by
        rw [before_cut_eq, if_neg hbl]
      rcases tfb_opt_ok hrb with ⟨hoc, hro⟩ | ⟨s, e, hoc, hP, hro⟩
      · exact Or.inr ⟨hbl, hro⟩
      · rw [hbcut] at hoc
        cases hoc
  have hra_d : (endKey q.endb < endKey l.1.endb ∧
      ra = some (⟨flip_bound q.endb, l.1.endb⟩ : Rg I) ∧
      P ⟨flip_bound q.endb, l.1.endb⟩ = true) ∨
      (¬ endKey q.endb < endKey l.1.endb ∧ ra = none) := by
    by_cases hal : endKey q.endb < endKey l.1.endb
    · have hacut : (cut_range l.1 q).after_cut =
          some (flip_bound q.endb, l.1.endb) := by
        rw [after_cut_eq, if_pos hal]
      rcases tfb_opt_ok hra with ⟨hoc, hro⟩ | ⟨s, e, hoc, hP, hro⟩
      · rw [hacut] at hoc
        cases hoc
      · rw [hacut] at hoc
        have hse := Option.some.inj hoc
        rw [Prod.mk.injEq] at hse
        obtain ⟨hs, he⟩ := hse
        subst hs
        subst he
        exact Or.inl ⟨hal, hro, hP⟩
    · have hacut : (cut_range l.1 q).after_cut = none := by
        rw [after_cut_eq, if_neg hal]
      rcases tfb_opt_ok hra with ⟨hoc, hro⟩ | ⟨s, e, hoc, hP, hro⟩
      · exact Or.inr ⟨hal, hro⟩
      · rw [hacut] at hoc
        cases hoc
  have hrb_eq : ∀ pc, rb = some pc →
      pc = (⟨l.1.start, flip_bound q.start⟩ : Rg I) ∧
      startKey l.1.start < startKey q.start ∧ P pc = true := by
    intro pc hpc
    rcases hrb_d with ⟨hbl, hoeq, hP⟩ | ⟨hbl, hoeq⟩
    · rw [hoeq] at hpc
      have hpe := Option.some.inj hpc
      subst hpe
      exact ⟨rfl, hbl, hP⟩
    · rw [hoeq] at hpc
      cases hpc
  have hra_eq : ∀ pc, ra = some pc →
      pc = (⟨flip_bound q.endb, l.1.endb⟩ : Rg I) ∧
      endKey q.endb < endKey l.1.endb ∧ P pc = true := by
    intro pc hpc
    rcases hra_d with ⟨hal, hoeq, hP⟩ | ⟨hal, hoeq⟩
    · rw [hoeq] at hpc
      have hpe := Option.some.inj hpc
      subst hpe
      exact ⟨rfl, hal, hP⟩
    · rw [hoeq] at hpc
      cases hpc
  have hrb_fresh : ∀ pc, rb = some pc → ∀ e ∈ m.filter (fun e => !(overlapping_start_comp q.start e.1 == Ordering.eq)),
      startKey pc.start ≠ startKey e.1.start := by
    intro pc hpc e he heq
    obtain ⟨hpcv, hbl, -⟩ := hrb_eq pc hpc
    subst hpcv
    have heq2 : startKey l.1.start = startKey e.1.start := heq
    have hel : l = e := inv_start_inj hInv l hl.1 e ((hb1mem e).mp he).1 heq2
    have hb := ((hb1mem e).mp he).2
    rw [← hel, ordering_beq_false_iff] at hb
    exact hb hl.2
  have hrb_val : ∀ pc, rb = some pc → is_valid_range pc = true := by
    intro pc hpc
    obtain ⟨hpcv, hbl, -⟩ := hrb_eq pc hpc
    subst hpcv
    exact before_piece_valid (ne_unb_of_lt_startKey hbl) hbl
  have hrb_noov : ∀ pc, rb = some pc → ∀ e ∈ m.filter (fun e => !(overlapping_start_comp q.start e.1 == Ordering.eq)),
      overlaps e.1 pc = false := by
    intro pc hpc e he
    obtain ⟨hpcv, hbl, -⟩ := hrb_eq pc hpc
    subst hpcv
    have hem := (hb1mem e).mp he
    have hnel : e ≠ l := by
      intro hle
      have hb := hem.2
      rw [hle, ordering_beq_false_iff] at hb
      exact hb hl.2
    exact before_piece_no_ov hInv hl.1 hl.2 (ne_unb_of_lt_startKey hbl)
      e hem.1 hnel
  have hInv3 : MapInv (applyPiece (m.filter (fun e => !(overlapping_start_comp q.start e.1 == Ordering.eq))) rb l.2) :=
    applyPiece_inv hInv1 hrb_val hrb_noov
  have hm3mem : ∀ x : Rg I × V, x ∈ applyPiece (m.filter (fun e => !(overlapping_start_comp q.start e.1 == Ordering.eq))) rb l.2 ↔
      ((∃ pc, rb = some pc ∧ x = (pc, l.2)) ∨ x ∈ m.filter (fun e => !(overlapping_start_comp q.start e.1 == Ordering.eq))) :=
    fun x => applyPiece_mem hrb_fresh
  have hra_fresh : ∀ pc, ra = some pc → ∀ e ∈ applyPiece (m.filter (fun e => !(overlapping_start_comp q.start e.1 == Ordering.eq))) rb l.2,
      startKey pc.start ≠ startKey e.1.start := by
    intro pc hpc e he heq
    obtain ⟨hpcv, hal, -⟩ := hra_eq pc hpc
    subst hpcv
    have heq2 : startKey (flip_bound q.endb) = startKey e.1.start := heq
    rcases (hm3mem e).mp he with ⟨pb, hpb, hepb⟩ | heb1
    · obtain ⟨hpbv, hbl, -⟩ := hrb_eq pb hpb
      subst hpbv
      subst hepb
      have heq3 : startKey (flip_bound q.endb) = startKey l.1.start := heq2
      have hx1 : endKey q.endb < startKey (flip_bound q.endb) :=
        endKey_lt_startKey_flip (ne_unb_of_endKey_lt hal)
      rw [heq3] at hx1
      exact absurd (lt_of_le_of_lt (le_trans gl1 (is_valid_range_iff.mp hvq))
        hx1) (lt_irrefl _)
    · exact after_piece_fresh hInv hl.1 hce hal (ne_unb_of_endKey_lt hal)
        e ((hb1mem e).mp heb1).1 heq2
  have hra_val : ∀ pc, ra = some pc → is_valid_range pc = true := by
    intro pc hpc
    obtain ⟨hpcv, hal, -⟩ := hra_eq pc hpc
    subst hpcv
    exact after_piece_valid (ne_unb_of_endKey_lt hal) hal
  have hra_noov : ∀ pc, ra = some pc → ∀ e ∈ applyPiece (m.filter (fun e => !(overlapping_start_comp q.start e.1 == Ordering.eq))) rb l.2,
      overlaps e.1 pc = false := by
    intro pc hpc e he
    obtain ⟨hpcv, hal, -⟩ := hra_eq pc hpc
    subst hpcv
    rcases (hm3mem e).mp he with ⟨pb, hpb, hepb⟩ | heb1
    · obtain ⟨hpbv, hbl, -⟩ := hrb_eq pb hpb
      subst hpbv
      subst hepb
      exact pieces_no_ov hvq (ne_unb_of_lt_startKey hbl)
        (ne_unb_of_endKey_lt hal)
    · have hem := (hb1mem e).mp heb1
      have hnel : e ≠ l := by
        intro hle
        have hb := hem.2
        rw [hle, ordering_beq_false_iff] at hb
        exact hb hl.2
      exact after_piece_no_ov hInv hl.1 hce (ne_unb_of_endKey_lt hal)
        e hem.1 hnel
  have hInv4 : MapInv (applyPiece (applyPiece (m.filter (fun e => !(overlapping_start_comp q.start e.1 == Ordering.eq))) rb l.2) ra l.2) :=
    applyPiece_inv hInv3 hra_val hra_noov
  have hm4mem : ∀ x : Rg I × V,
      x ∈ applyPiece (applyPiece (m.filter (fun e => !(overlapping_start_comp q.start e.1 == Ordering.eq))) rb l.2) ra l.2 ↔
      ((∃ pc, ra = some pc ∧ x = (pc, l.2)) ∨
        x ∈ applyPiece (m.filter (fun e => !(overlapping_start_comp q.start e.1 == Ordering.eq))) rb l.2) :=
    fun x => applyPiece_mem hra_fresh
  have hnoov : ∀ e ∈ applyPiece (applyPiece (m.filter (fun e => !(overlapping_start_comp q.start e.1 == Ordering.eq))) rb l.2) ra l.2,
      overlaps e.1 q = false := by
    intro e he
    rcases (hm4mem e).mp he with ⟨pc, hpc, hxeq⟩ | he3
    · obtain ⟨hpcv, hal, -⟩ := hra_eq pc hpc
      subst hpcv
      subst hxeq
      exact after_piece_not_overlaps (ne_unb_of_endKey_lt hal)
    · rcases (hm3mem e).mp he3 with ⟨pc, hpc, hxeq⟩ | heb1
      · obtain ⟨hpcv, hbl, -⟩ := hrb_eq pc hpc
        subst hpcv
        subst hxeq
        exact before_piece_not_overlaps (ne_unb_of_lt_startKey hbl)
      · have hem := (hb1mem e).mp heb1
        rcases hov' : overlaps e.1 q with _ | _
        · rfl
        · have hel := hspan e hem.1 hov'
          have hb := hem.2
          rw [hel, ordering_beq_false_iff] at hb
          exact absurd hl.2 hb
  refine ⟨hInv4, hnoov, ?_, ?_, ?_⟩
  · refine @cut_coverage I _ V m q _
      ((rb.map (fun r => (r, l.2))).toList ++
        (ra.map (fun r => (r, l.2))).toList) ?_ ?_ ?_
    · intro x
      constructor
      · intro hx4
        rcases (hm4mem x).mp hx4 with ⟨pc, hpc, hxeq⟩ | hx3
        · subst hxeq
          refine Or.inr (List.mem_append.mpr (Or.inr ?_))
          rw [hpc]
          exact List.mem_singleton_self _
        · rcases (hm3mem x).mp hx3 with ⟨pc, hpc, hxeq⟩ | hxb1
          · subst hxeq
            refine Or.inr (List.mem_append.mpr (Or.inl ?_))
            rw [hpc]
            exact List.mem_singleton_self _
          · have hem := (hb1mem x).mp hxb1
            refine Or.inl ⟨hem.1, ?_⟩
            rcases hov' : overlaps x.1 q with _ | _
            · rfl
            · have hel := hspan x hem.1 hov'
              have hb := hem.2
              rw [hel, ordering_beq_false_iff] at hb
              exact absurd hl.2 hb
      · rintro (⟨hxm, hxov⟩ | hxp)
        · refine (hm4mem x).mpr (Or.inr ((hm3mem x).mpr (Or.inr
            ((hb1mem x).mpr ⟨hxm, ?_⟩))))
          rcases hx1 : (overlapping_start_comp q.start x.1 == Ordering.eq)
            with _ | _
          · rfl
          · have hxl := huniq1 x hxm hx1
            rw [hxl] at hxov
            rw [hovl] at hxov
            cases hxov
        · rcases List.mem_append.mp hxp with hxb | hxa
          · have hxmem : ∃ pc, rb = some pc ∧ x = (pc, l.2) := by
              rcases hrbx : rb with _ | pb
              · rw [hrbx] at hxb
                cases hxb
              · rw [hrbx] at hxb
                exact ⟨pb, rfl, List.mem_singleton.mp hxb⟩
            obtain ⟨pb, hpb, hxeq⟩ := hxmem
            subst hxeq
            exact (hm4mem _).mpr (Or.inr ((hm3mem _).mpr
              (Or.inl ⟨pb, hpb, rfl⟩)))
          · have hxmem : ∃ pc, ra = some pc ∧ x = (pc, l.2) := by
              rcases hrax : ra with _ | pa
              · rw [hrax] at hxa
                cases hxa
              · rw [hrax] at hxa
                exact ⟨pa, rfl, List.mem_singleton.mp hxa⟩
            obtain ⟨pa, hpa, hxeq⟩ := hxmem
            subst hxeq
            exact (hm4mem _).mpr (Or.inl ⟨pa, hpa, rfl⟩)
    · intro pc hpc p hcp
      rcases List.mem_append.mp hpc with hb | ha
      · have hxmem : ∃ pb, rb = some pb ∧ pc = (pb, l.2) := by
          rcases hrbx : rb with _ | pb
          · rw [hrbx] at hb
            cases hb
          · rw [hrbx] at hb
            exact ⟨pb, rfl, List.mem_singleton.mp hb⟩
        obtain ⟨pb, hpb, hxeq⟩ := hxmem
        subst hxeq
        obtain ⟨hpbv, hbl, -⟩ := hrb_eq pb hpb
        subst hpbv
        rw [before_piece_contains_iff (ne_unb_of_lt_startKey hbl)] at hcp
        obtain ⟨hc1, hc2⟩ := hcp
        refine ⟨⟨l.1, hl.1, hc1, le_of_lt (lt_of_lt_of_le hc2 gl2)⟩, ?_⟩
        rw [not_containsPoint_iff]
        exact Or.inl hc2
      · have hxmem : ∃ pa, ra = some pa ∧ pc = (pa, l.2) := by
          rcases hrax : ra with _ | pa
          · rw [hrax] at ha
            cases ha
          · rw [hrax] at ha
            exact ⟨pa, rfl, List.mem_singleton.mp ha⟩
        obtain ⟨pa, hpa, hxeq⟩ := hxmem
        subst hxeq
        obtain ⟨hpav, hal, -⟩ := hra_eq pa hpa
        subst hpav
        rw [after_piece_contains_iff (ne_unb_of_endKey_lt hal)] at hcp
        obtain ⟨hc1, hc2⟩ := hcp
        refine ⟨⟨l.1, hl.1, le_of_lt (lt_of_le_of_lt ge1 hc1), hc2⟩, ?_⟩
        rw [not_containsPoint_iff]
        exact Or.inr hc1
    · intro e he p hcep hnq hov'
      have heeq := hspan e he hov'
      subst heeq
      rcases not_containsPoint_iff.mp hnq with hlt | hgt
      · have hbl : startKey e.1.start < startKey q.start :=
          lt_of_le_of_lt hcep.1 hlt
        rcases hrb_d with ⟨hbl', hoeq, -⟩ | ⟨hnbl, -⟩
        · refine ⟨(⟨e.1.start, flip_bound q.start⟩, e.2),
            List.mem_append.mpr (Or.inl ?_), rfl, ?_⟩
          · rw [hoeq]
            exact List.mem_singleton_self _
          · rw [before_piece_contains_iff (ne_unb_of_lt_startKey hbl)]
            exact ⟨hcep.1, hlt⟩
        · exact absurd hbl hnbl
      · have hal : endKey q.endb < endKey e.1.endb :=
          lt_of_lt_of_le hgt hcep.2
        rcases hra_d with ⟨hal', hoeq, -⟩ | ⟨hnal, -⟩
        · refine ⟨(⟨flip_bound q.endb, e.1.endb⟩, e.2),
            List.mem_append.mpr (Or.inr ?_), rfl, ?_⟩
          · rw [hoeq]
            exact List.mem_singleton_self _
          · rw [after_piece_contains_iff (ne_unb_of_endKey_lt hal)]
            exact ⟨hgt, hcep.2⟩
        · exact absurd hal hnal
  · rw [hfilter_ov]
    rfl
  · intro e he
    rcases (hm4mem e).mp he with ⟨pc, hpc, hxeq⟩ | he3
    · obtain ⟨hpcv, -, hP⟩ := hra_eq pc hpc
      subst hpcv
      subst hxeq
      exact Or.inr hP
    · rcases (hm3mem e).mp he3 with ⟨pc, hpc, hxeq⟩ | heb
      · obtain ⟨hpcv, -, hP⟩ := hrb_eq pc hpc
        subst hpcv
        subst hxeq
        exact Or.inr hP
      · exact Or.inl ((hb1mem e).mp heb).1

/-- Main correctness of `cut` in the successful case: whenever it returns
a new map together with `Ok` of the yielded cut pieces, the result removes
exactly the queried range from coverage and yields the overlapped slices
in ascending order. -/
theorem cut_ok_spec {P : Rg I → Bool} {m : RBMap I V} {q : Rg I}
    {m' : RBMap I V} {ys : List ((RBound I × RBound I) × V)}
    (hInv : MapInv m) (hvq : is_valid_range q = true)
    (h : cut P m q = some (m', .ok ys)) :
    CutOut P m q m' ys := by
  rcases hLH : btGetKeyValue (overlapping_start_comp q.start) m with _ | l <;>
    rcases hRH : btGetKeyValue (overlapping_end_comp q.endb) m with _ | rt <;>
    unfold cut at h <;> rw [hLH, hRH] at h
  · have h2 : cut_non_single_overlapping P m q none none =
        some (m', .ok ys) := h
    exact cut_nso_none_none hInv hvq hLH hRH h2
  · have h2 : cut_non_single_overlapping P m q none (some rt.1) =
        some (m', .ok ys) := h
    exact cut_nso_none_some hInv hvq hLH hRH h2
  · have h2 : cut_non_single_overlapping P m q (some l.1) none =
        some (m', .ok ys) := h
    exact cut_nso_some_none hInv hvq hLH hRH h2
  · have h2 : (if l.1.start = rt.1.start then cut_single_overlapping P m q l.1
        else cut_non_single_overlapping P m q (some l.1) (some rt.1)) =
        some (m', .ok ys) := h
    by_cases hss : l.1.start = rt.1.start
    · rw [if_pos hss] at h2
      have hl := (btGetKeyValue_eq_some_iff
        (cmp_rwb_unique hInv (startKey q.start))).mp hLH
      have hr := (btGetKeyValue_eq_some_iff
        (cmp_rwb_unique hInv (endKey q.endb))).mp hRH
      have hlrt : l = rt :=
        inv_start_inj hInv l hl.1 rt hr.1 (by rw [hss])
      have hce : overlapping_end_comp q.endb l.1 = .eq := by
        rw [hlrt]
        exact hr.2
      exact cut_single_ok hInv hvq hLH hce h2
    · rw [if_neg hss] at h2
      have hlr : l ≠ rt := by
        intro he
        apply hss
        rw [he]
      exact cut_nso_some_some hInv hvq hLH hRH hlr h2

/-- Finite endpoint keys determine their point and offset. -/
theorem ekFin_inj {p q : I} {j k : Int} (h : ekFin p j = ekFin q k) :
    p = q ∧ j = k := by
  simp only [ekFin, WithBot.coe_inj, WithTop.coe_inj] at h
  have h2 : (p, j) = (q, k) := h
  rw [Prod.mk.injEq] at h2
  exact h2

/-- Two endpoints with the same start key are equal. -/
theorem startKey_injective {a b : RBound I} (h : startKey a = startKey b) :
    a = b := by
  cases a with
  | inc p =>
    cases b with
    | inc q =>
      simp only [startKey] at h
      rw [(ekFin_inj h).1]
    | exc q =>
      simp only [startKey] at h
      exact absurd (ekFin_inj h).2 (by decide)
    | unb =>
      simp only [startKey] at h
      exact absurd h (ekBot_lt_ekFin p 0).ne'
  | exc p =>
    cases b with
    | inc q =>
      simp only [startKey] at h
      exact absurd (ekFin_inj h).2 (by decide)
    | exc q =>
      simp only [startKey] at h
      rw [(ekFin_inj h).1]
    | unb =>
      simp only [startKey] at h
      exact absurd h (ekBot_lt_ekFin p 1).ne'
  | unb =>
    cases b with
    | inc q =>
      simp only [startKey] at h
      exact absurd h (ekBot_lt_ekFin q 0).ne
    | exc q =>
      simp only [startKey] at h
      exact absurd h (ekBot_lt_ekFin q 1).ne
    | unb => rfl

/-- C3: on a map satisfying the invariant and a valid query range, a
successful `cut` leaves no remaining entry overlapping the query, the
remaining coverage is the old coverage minus the query's points, and the
yield lists, in ascending start order, the intersection of each
overlapping entry with the query together with its value; an entry wholly
contained in the query yields its own endpoint pair, so the yield is the
left straddler's inside slice (if any), then the wholly contained
entries, then the right straddler's inside slice (if any). -/
theorem C3_cut {P : Rg I → Bool} {m m' : RBMap I V} {q : Rg I}
    {ys : List ((RBound I × RBound I) × V)}
    (hInv : MapInv m) (hvq : is_valid_range q = true)
    (h : cut P m q = some (m', .ok ys)) :
    MapInv m' ∧
    (∀ e ∈ m', overlaps e.1 q = false) ∧
    (∀ p : I, (∃ e ∈ m', containsPoint e.1 p) ↔
      ((∃ e ∈ m, containsPoint e.1 p) ∧ ¬ containsPoint q p)) ∧
    ys = (m.filter (fun e => overlaps e.1 q)).map
      (fun e => ((maxStart e.1.start q.start, minEnd e.1.endb q.endb), e.2)) ∧
    List.Pairwise (fun a b => startKey a.1.1 < startKey b.1.1) ys ∧
    (∀ e ∈ m, startKey q.start ≤ startKey e.1.start →
      endKey e.1.endb ≤ endKey q.endb →
      ((maxStart e.1.start q.start, minEnd e.1.endb q.endb), e.2) =
        ((e.1.start, e.1.endb), e.2)) := by
  obtain ⟨h1, h2, h3, h4, -⟩ := cut_ok_spec hInv hvq h
  have h3v : ∀ p : I, (∃ e ∈ m', containsPoint e.1 p) ↔
      ((∃ e ∈ m, containsPoint e.1 p) ∧ ¬ containsPoint q p) := by
    intro p
    constructor
    · rintro ⟨e, he, hce⟩
      obtain ⟨⟨rg, hm2, hc2⟩, hnq⟩ := (h3 p e.2).mp ⟨e.1, he, hce⟩
      exact ⟨⟨(rg, e.2), hm2, hc2⟩, hnq⟩
    · rintro ⟨⟨e, he, hce⟩, hnq⟩
      obtain ⟨rg, hm2, hc2⟩ := (h3 p e.2).mpr ⟨⟨e.1, he, hce⟩, hnq⟩
      exact ⟨(rg, e.2), hm2, hc2⟩
  refine ⟨h1, h2, h3v, h4, ?_, ?_⟩
  · rw [h4, List.pairwise_map]
    have hps : (m.filter (fun e => overlaps e.1 q)).Pairwise entrySep :=
      hInv.1.sublist (List.filter_sublist m)
    refine List.Pairwise.imp_of_mem ?_ hps
    intro a b ha hb hab
    have hamem := List.mem_filter.mp ha
    have hbmem := List.mem_filter.mp hb
    have hova : overlaps a.1 q = true := hamem.2
    have hval_a : is_valid_range a.1 = true := hInv.2 a hamem.1
    have hsa : startKey (maxStart a.1.start q.start) ≤ endKey a.1.endb := by
      unfold maxStart
      by_cases hc : startKey a.1.start ≤ startKey q.start
      · rw [if_pos hc]
        exact (overlaps_iff.mp hova).2
      · rw [if_neg hc]
        exact is_valid_range_iff.mp hval_a
    have hsb : startKey b.1.start ≤ startKey (maxStart b.1.start q.start) := by
      unfold maxStart
      by_cases hc : startKey b.1.start ≤ startKey q.start
      · rw [if_pos hc]
        exact hc
      · rw [if_neg hc]
    exact lt_of_le_of_lt hsa (lt_of_lt_of_le hab hsb)
  · intro e he hqs hee
    have hmax : maxStart e.1.start q.start = e.1.start := by
      unfold maxStart
      by_cases hc : startKey e.1.start ≤ startKey q.start
      · rw [if_pos hc]
        exact (startKey_injective (le_antisymm hqs hc)).symm ▸ rfl
      · rw [if_neg hc]
    have hmin : minEnd e.1.endb q.endb = e.1.endb := by
      unfold minEnd
      rw [if_pos hee]
    rw [hmax, hmin]

theorem C3_cut_witness :
    MapInv ([(⟨RBound.inc 0, RBound.inc 10⟩, true)] : RBMap Int Bool) ∧
    (∀ e ∈ ([(⟨RBound.inc 0, RBound.exc 2⟩, true),
        (⟨RBound.exc 5, RBound.inc 10⟩, true)] : RBMap Int Bool),
      overlaps e.1 ⟨RBound.inc 2, RBound.inc 5⟩ = false) ∧
    ([((RBound.inc (2 : Int), RBound.inc 5), true)] :
        List ((RBound Int × RBound Int) × Bool)) =
      (([(⟨RBound.inc 0, RBound.inc 10⟩, true)] : RBMap Int Bool).filter
          (fun e => overlaps e.1 ⟨RBound.inc 2, RBound.inc 5⟩)).map
        (fun e => ((maxStart e.1.start (RBound.inc 2),
          minEnd e.1.endb (RBound.inc 5)), e.2)) := by
  have h := @C3_cut Int _ Bool (fun _ => true)
    ([(⟨RBound.inc 0, RBound.inc 10⟩, true)] : RBMap Int Bool)
    ([(⟨RBound.inc 0, RBound.exc 2⟩, true),
      (⟨RBound.exc 5, RBound.inc 10⟩, true)] : RBMap Int Bool)
    ⟨RBound.inc 2, RBound.inc 5⟩
    ([((RBound.inc (2 : Int), RBound.inc 5), true)])
    (by decide) (by decide) rfl
  exact ⟨by decide, h.2.1, h.2.2.2.1⟩

/-- Under the invariant, point lookup returns a value exactly when some
stored entry with that value contains the point. -/
theorem get_at_point_some_iff {m : RBMap I V} (hInv : MapInv m)
    {p : I} {v : V} :
    get_at_point m p = some v ↔
      ∃ rg : Rg I, (rg, v) ∈ m ∧ containsPoint rg p := by
  unfold get_at_point get_entry_at_point
  rcases hbt : btGetKeyValue (overlapping_start_comp (RBound.inc p)) m
    with _ | e
  · constructor
    · intro h
      have h2 : (none : Option V) = some v := h
      cases h2
    · rintro ⟨rg, hm, hc⟩
      have hnone := btGetKeyValue_eq_none_iff.mp hbt
      exact absurd (cmp_rwb_eq_iff.mpr hc) (hnone (rg, v) hm)
  · have he := (btGetKeyValue_eq_some_iff
      (cmp_rwb_unique hInv (startKey (RBound.inc p)))).mp hbt
    constructor
    · intro h
      have h2 : some e.2 = some v := h
      have hv := Option.some.inj h2
      refine ⟨e.1, ?_, cmp_rwb_eq_iff.mp he.2⟩
      rw [← hv]
      exact he.1
    · rintro ⟨rg, hm, hc⟩
      have heq : (rg, v) = e := cmp_rwb_unique hInv
        (startKey (RBound.inc p)) (rg, v) hm e he.1
        (cmp_rwb_eq_iff.mpr hc) he.2
      show some e.2 = some v
      rw [← heq]
  
/-- Point lookup misses exactly when no stored entry contains the
point. -/
theorem get_at_point_none_iff {m : RBMap I V} {p : I} :
    get_at_point m p = none ↔ ∀ e ∈ m, ¬ containsPoint e.1 p := by
  unfold get_at_point get_entry_at_point
  rcases hbt : btGetKeyValue (overlapping_start_comp (RBound.inc p)) m
    with _ | e
  · constructor
    · intro _ e he hc
      have hnone := btGetKeyValue_eq_none_iff.mp hbt
      exact hnone e he (cmp_rwb_eq_iff.mpr hc)
    · intro _
      rfl
  · constructor
    · intro h
      have h2 : some e.2 = (none : Option V) := h
      cases h2
    · intro h
      have hmem := List.mem_of_find?_eq_some hbt
      have hse := List.find?_some hbt
      have hse2 : overlapping_start_comp (RBound.inc p) e.1 = .eq :=
        ordering_beq_iff.mp (by simpa using hse)
      exact absurd (cmp_rwb_eq_iff.mp hse2) (h e hmem)

/-- C4: on an invariant-satisfying map and valid range, `insert_overwrite`
behaves as `cut` followed by `insert_strict`: on success every point of
the range looks up the new value and lookups outside the range are
unchanged, the invariant is preserved, and on a representability error
the map is untouched. -/
theorem C4_insert_overwrite {P : Rg I → Bool} {m : RBMap I V}
    {r : Rg I} {v : V}
    (hInv : MapInv m) (hvr : is_valid_range r = true) :
    (∀ m' u, insert_overwrite P m r v = some (m', .ok u) →
      (∃ m1 ys, cut P m r = some (m1, .ok ys) ∧
        insert_strict m1 r v = (m', .ok ())) ∧
      MapInv m' ∧
      (∀ p : I, containsPoint r p → get_at_point m' p = some v) ∧
      (∀ p : I, ¬ containsPoint r p →
        get_at_point m' p = get_at_point m p)) ∧
    (∀ m' er, insert_overwrite P m r v = some (m', .error er) → m' = m) := by
  constructor
  · intro m' u h
    unfold insert_overwrite at h
    rcases hc : cut P m r with _ | mr
    · rw [hc] at h
      have h2 : (none : Option (RBMap I V × Except TryFromBoundsError Unit)) =
        some (m', .ok u) := h
      cases h2
    · obtain ⟨m1, res⟩ := mr
      rw [hc] at h
      rcases res with er | ys
      · have h2 : (some (m1, Except.error er) :
            Option (RBMap I V × Except TryFromBoundsError Unit)) =
          some (m', .ok u) := h
        have h3 := Option.some.inj h2
        rw [Prod.mk.injEq] at h3
        cases h3.2
      · have h2 : (some (insert_unchecked m1 r v,
            (Except.ok () : Except TryFromBoundsError Unit))) =
          some (m', .ok u) := h
        have h3 := Option.some.inj h2
        rw [Prod.mk.injEq] at h3
        obtain ⟨hm', -⟩ := h3
        subst hm'
        obtain ⟨hInv1, hno1, hcov, -, -⟩ := cut_ok_spec hInv hvr hc
        have hovm : overlaps_map m1 r = false := by
          rcases hh : overlaps_map m1 r with _ | _
          · rfl
          · obtain ⟨e, he, heo⟩ := (overlaps_map_iff hInv1.2).mp hh
            rw [hno1 e he] at heo
            cases heo
        have hist : insert_strict m1 r v = (insert_unchecked m1 r v, .ok ()) := by
          unfold insert_strict
          rw [hovm]
          rfl
        have hInv2 : MapInv (insert_unchecked m1 r v) :=
          MapInv.insert hInv1 hvr hno1
        have hfresh : ∀ e ∈ m1, startKey r.start ≠ startKey e.1.start :=
          fun e he => startKey_ne_of_not_overlaps (hInv1.2 e he) hvr
            (hno1 e he)
        have hperm : (btInsert r v m1).Perm ((r, v) :: m1) :=
          btInsert_perm hfresh
        refine ⟨⟨m1, ys, rfl, hist⟩, hInv2, ?_, ?_⟩
        · intro p hp
          exact (get_at_point_some_iff hInv2).mpr
            ⟨r, hperm.mem_iff.mpr (List.mem_cons_self _ _), hp⟩
        · intro p hnp
          rcases hg : get_at_point m p with _ | w
          · have hnone := get_at_point_none_iff.mp hg
            rw [get_at_point_none_iff]
            intro e he hcp
            rcases btInsert_mem_weak he with rfl | he1
            · exact hnp hcp
            · obtain ⟨⟨rg, hm2, hc2⟩, -⟩ := (hcov p e.2).mp ⟨e.1, he1, hcp⟩
              exact hnone (rg, e.2) hm2 hc2
          · obtain ⟨rg, hm2, hc2⟩ := (get_at_point_some_iff hInv).mp hg
            obtain ⟨rg1, hm21, hc21⟩ := (hcov p w).mpr ⟨⟨rg, hm2, hc2⟩, hnp⟩
            exact (get_at_point_some_iff hInv2).mpr
              ⟨rg1, hperm.mem_iff.mpr (List.mem_cons_of_mem _ hm21), hc21⟩
  · intro m' er h
    exact insert_overwrite_error h

theorem C4_insert_overwrite_witness :
    get_at_point ([(⟨RBound.inc 0, RBound.exc 2⟩, true),
      (⟨RBound.inc 2, RBound.inc 5⟩, false),
      (⟨RBound.exc 5, RBound.inc 10⟩, true)] : RBMap Int Bool) 3 =
        some false ∧
    get_at_point ([(⟨RBound.inc 0, RBound.exc 2⟩, true),
      (⟨RBound.inc 2, RBound.inc 5⟩, false),
      (⟨RBound.exc 5, RBound.inc 10⟩, true)] : RBMap Int Bool) 7 =
      get_at_point
        ([(⟨RBound.inc 0, RBound.inc 10⟩, true)] : RBMap Int Bool) 7 := by
  have h := (@C4_insert_overwrite Int _ Bool (fun _ => true)
    ([(⟨RBound.inc 0, RBound.inc 10⟩, true)] : RBMap Int Bool)
    ⟨RBound.inc 2, RBound.inc 5⟩ false (by decide) (by decide)).1
    ([(⟨RBound.inc 0, RBound.exc 2⟩, true),
      (⟨RBound.inc 2, RBound.inc 5⟩, false),
      (⟨RBound.exc 5, RBound.inc 10⟩, true)] : RBMap Int Bool) () rfl
  exact ⟨h.2.2.1 3 (by decide), h.2.2.2 7 (by decide)⟩

-- The gaps machinery: the window list of boundary pairs and the gap
-- ranges read off between consecutive windows.

/-- The gap ranges between consecutive boundary pairs, as computed by the
tail of `gaps`: flip each left boundary's end and each right boundary's
start, and keep the valid ranges. -/
def gapsW (xs : List (RBound I × RBound I)) : List (RBound I × RBound I) :=
  ((xs.zip xs.tail).map (fun w => (flip_bound w.1.2, flip_bound w.2.1))).filter
    (fun r => is_valid_range ⟨r.1, r.2⟩)

/-- A point lies strictly between some adjacent boundary pair of the
list. -/
def adjW : List (RBound I × RBound I) → I → Prop
  | x :: y :: rest, p =>
      containsPoint ⟨flip_bound x.2, flip_bound y.1⟩ p ∨ adjW (y :: rest) p
  | _, _ => False

theorem gaps_eq_main {m : RBMap I V} {q : Rg I} :
    gaps m q = gapsW (
      (if btContainsKey (overlapping_end_comp q.endb) m then
        (if btContainsKey (overlapping_start_comp q.start) m then
          ((overlapping m q).map (fun e => (e.1.start, e.1.endb)) ++
            [(flip_bound q.endb, flip_bound q.endb)])
         else (flip_bound q.start, flip_bound q.start) ::
          ((overlapping m q).map (fun e => (e.1.start, e.1.endb)) ++
            [(flip_bound q.endb, flip_bound q.endb)])).dropLast
       else
        (if btContainsKey (overlapping_start_comp q.start) m then
          ((overlapping m q).map (fun e => (e.1.start, e.1.endb)) ++
            [(flip_bound q.endb, flip_bound q.endb)])
         else (flip_bound q.start, flip_bound q.start) ::
          ((overlapping m q).map (fun e => (e.1.start, e.1.endb)) ++
            [(flip_bound q.endb, flip_bound q.endb)])))) := by
  rcases h1 : btContainsKey (overlapping_start_comp q.start) m with _ | _ <;>
    rcases h2 : btContainsKey (overlapping_end_comp q.endb) m with _ | _ <;>
    unfold gaps gapsW <;> rw [h1, h2] <;> rfl

theorem dropLast_concat_eq {α : Type} (l : List α) (a : α) :
    (l ++ [a]).dropLast = l := by
  induction l with
  | nil => rfl
  | cons x xs ih =>
    rw [List.cons_append]
    rcases hx : xs ++ [a] with _ | ⟨y, ys⟩
    · cases xs <;> cases hx
    · rw [List.dropLast_cons₂]
      rw [← hx, ih]

theorem gaps_form_A {m : RBMap I V} {q : Rg I}
    (hsc : btContainsKey (overlapping_start_comp q.start) m = false)
    (hec : btContainsKey (overlapping_end_comp q.endb) m = false) :
    gaps m q = gapsW ((flip_bound q.start, flip_bound q.start) ::
      ((overlapping m q).map (fun e => (e.1.start, e.1.endb)) ++
        [(flip_bound q.endb, flip_bound q.endb)])) := by
  rw [gaps_eq_main, hsc, hec]
  rfl

theorem gaps_form_B {m : RBMap I V} {q : Rg I}
    (hsc : btContainsKey (overlapping_start_comp q.start) m = true)
    (hec : btContainsKey (overlapping_end_comp q.endb) m = false) :
    gaps m q = gapsW
      ((overlapping m q).map (fun e => (e.1.start, e.1.endb)) ++
        [(flip_bound q.endb, flip_bound q.endb)]) := by
  rw [gaps_eq_main, hsc, hec]
  rfl

theorem gaps_form_C {m : RBMap I V} {q : Rg I}
    (hsc : btContainsKey (overlapping_start_comp q.start) m = false)
    (hec : btContainsKey (overlapping_end_comp q.endb) m = true) :
    gaps m q = gapsW ((flip_bound q.start, flip_bound q.start) ::
      (overlapping m q).map (fun e => (e.1.start, e.1.endb))) := by
  rw [gaps_eq_main, hsc, hec]
  rw [if_pos rfl, if_neg (by simp), ← List.cons_append, dropLast_concat_eq]

theorem gaps_form_D {m : RBMap I V} {q : Rg I}
    (hsc : btContainsKey (overlapping_start_comp q.start) m = true)
    (hec : btContainsKey (overlapping_end_comp q.endb) m = true) :
    gaps m q = gapsW
      ((overlapping m q).map (fun e => (e.1.start, e.1.endb))) := by
  rw [gaps_eq_main, hsc, hec]
  rw [if_pos rfl, if_pos rfl, dropLast_concat_eq]

theorem valid_of_containsPoint {r : Rg I} {p : I} (h : containsPoint r p) :
    is_valid_range r = true := is_valid_range_iff.mpr (h.1.trans h.2)

theorem ekBot_lt_endKey (s : RBound I) : ekBot < endKey s := by
  cases s with
  | inc p => exact ekBot_lt_ekFin p 0
  | exc p => exact ekBot_lt_ekFin p (-1)
  | unb => exact ekBot_lt_ekTop

theorem btContainsKey_iff {comp : Rg I → Ordering} {m : RBMap I V} :
    btContainsKey comp m = true ↔ ∃ e ∈ m, comp e.1 = .eq := by
  unfold btContainsKey
  rcases hf : btGetKeyValue comp m with _ | e
  · simp only [Option.isSome_none]
    constructor
    · intro h
      cases h
    · rintro ⟨e, he, hc⟩
      exact absurd hc (btGetKeyValue_eq_none_iff.mp hf e he)
  · simp only [Option.isSome_some]
    constructor
    · intro _
      have hm := List.mem_of_find?_eq_some hf
      have h2 := List.find?_some hf
      exact ⟨e, hm, ordering_beq_iff.mp (by simpa using h2)⟩
    · intro _
      trivial

theorem gapsW_nil : gapsW ([] : List (RBound I × RBound I)) = [] := rfl

theorem gapsW_single (x : RBound I × RBound I) : gapsW [x] = [] := rfl

theorem gapsW_mem_cons₂ {x y : RBound I × RBound I}
    {rest : List (RBound I × RBound I)} {g : RBound I × RBound I} :
    g ∈ gapsW (x :: y :: rest) ↔
      ((g = (flip_bound x.2, flip_bound y.1) ∧
        is_valid_range ⟨flip_bound x.2, flip_bound y.1⟩ = true) ∨
      g ∈ gapsW (y :: rest)) := by
  show g ∈ ((((x, y) :: (y :: rest).zip rest).map
      (fun w => (flip_bound w.1.2, flip_bound w.2.1))).filter
      (fun r => is_valid_range ⟨r.1, r.2⟩)) ↔ _
  rw [List.map_cons, List.filter_cons]
  rcases hv : is_valid_range
      (⟨flip_bound x.2, flip_bound y.1⟩ : Rg I) with _ | _
  · rw [if_neg (by simp [hv])]
    constructor
    · intro h
      exact Or.inr h
    · rintro (⟨-, hfalse⟩ | h)
      · cases hfalse
      · exact h
  · rw [if_pos (by simp [hv])]
    rw [List.mem_cons]
    constructor
    · rintro (hg | h)
      · exact Or.inl ⟨hg, rfl⟩
      · exact Or.inr h
    · rintro (⟨hg, -⟩ | h)
      · exact Or.inl hg
      · exact Or.inr h

theorem gapsW_contains_iff :
    ∀ (xs : List (RBound I × RBound I)) (p : I),
    (∃ g ∈ gapsW xs, containsPoint ⟨g.1, g.2⟩ p) ↔ adjW xs p := by
  intro xs
  induction xs with
  | nil =>
    intro p
    constructor
    · rintro ⟨g, hg, -⟩
      rw [gapsW_nil] at hg
      cases hg
    · intro h
      exact h.elim
  | cons x xs ih =>
    rcases xs with _ | ⟨y, rest⟩
    · intro p
      constructor
      · rintro ⟨g, hg, -⟩
        rw [gapsW_single] at hg
        cases hg
      · intro h
        exact h.elim
    · intro p
      constructor
      · rintro ⟨g, hg, hcp⟩
        rcases gapsW_mem_cons₂.mp hg with ⟨hgv, -⟩ | h
        · subst hgv
          exact Or.inl hcp
        · exact Or.inr ((ih p).mp ⟨g, h, hcp⟩)
      · rintro (h | h)
        · refine ⟨(flip_bound x.2, flip_bound y.1),
            gapsW_mem_cons₂.mpr (Or.inl ⟨rfl, valid_of_containsPoint h⟩), h⟩
        · obtain ⟨g, hg, hcp⟩ := (ih p).mpr h
          exact ⟨g, gapsW_mem_cons₂.mpr (Or.inr hg), hcp⟩

theorem adjW_of_append :
    ∀ (pre : List (RBound I × RBound I)) {x y : RBound I × RBound I}
      {post : List (RBound I × RBound I)} {p : I},
    containsPoint ⟨flip_bound x.2, flip_bound y.1⟩ p →
    adjW (pre ++ x :: y :: post) p := by
  intro pre
  induction pre with
  | nil =>
    intro x y post p h
    exact Or.inl h
  | cons a pre ih =>
    intro x y post p h
    rcases pre with _ | ⟨b, pre2⟩
    · exact Or.inr (ih h)
    · exact Or.inr (ih h)

theorem adjW_elim :
    ∀ {xs : List (RBound I × RBound I)} {p : I}, adjW xs p →
    ∃ pre x y post, xs = pre ++ x :: y :: post ∧
      containsPoint ⟨flip_bound x.2, flip_bound y.1⟩ p := by
  intro xs
  induction xs with
  | nil =>
    intro p h
    exact h.elim
  | cons x xs ih =>
    rcases xs with _ | ⟨y, rest⟩
    · intro p h
      exact h.elim
    · intro p h
      rcases h with h | h
      · exact ⟨[], x, y, rest, rfl, h⟩
      · obtain ⟨pre, a, b, post, heq, hc⟩ := ih h
        exact ⟨x :: pre, a, b, post, by rw [List.cons_append, ← heq], hc⟩

theorem gapsW_mem_elim :
    ∀ {xs : List (RBound I × RBound I)} {g : RBound I × RBound I},
    g ∈ gapsW xs →
    ∃ pre x y post, xs = pre ++ x :: y :: post ∧
      g = (flip_bound x.2, flip_bound y.1) ∧
      is_valid_range ⟨flip_bound x.2, flip_bound y.1⟩ = true := by
  intro xs
  induction xs with
  | nil =>
    intro g hg
    rw [gapsW_nil] at hg
    cases hg
  | cons x xs ih =>
    rcases xs with _ | ⟨y, rest⟩
    · intro g hg
      rw [gapsW_single] at hg
      cases hg
    · intro g hg
      rcases gapsW_mem_cons₂.mp hg with ⟨hgv, hval⟩ | h
      · exact ⟨[], x, y, rest, rfl, hgv, hval⟩
      · obtain ⟨pre, a, b, post, heq, hgv, hval⟩ := ih h
        exact ⟨x :: pre, a, b, post, by rw [List.cons_append, ← heq], hgv, hval⟩

theorem adj_split_cons {α : Type} {a : α} {L pre post : List α} {x y : α}
    (h : pre ++ x :: y :: post = a :: L) :
    (pre = [] ∧ x = a ∧ L = y :: post) ∨
    (∃ pre2, pre = a :: pre2 ∧ pre2 ++ x :: y :: post = L) := by
  cases pre with
  | nil =>
    rw [List.nil_append] at h
    have h1 := List.cons.inj h
    exact Or.inl ⟨rfl, h1.1, h1.2.symm⟩
  | cons p0 pre2 =>
    rw [List.cons_append] at h
    have h1 := List.cons.inj h
    exact Or.inr ⟨pre2, by rw [h1.1], h1.2⟩

theorem adj_split_concat {α : Type} {b : α} {L pre post : List α} {x y : α}
    (h : pre ++ x :: y :: post = L ++ [b]) :
    (∃ post2, post = post2 ++ [b] ∧ pre ++ x :: y :: post2 = L) ∨
    (post = [] ∧ y = b ∧ pre ++ [x] = L) := by
  rcases List.eq_nil_or_concat post with hp | ⟨post2, c, hp⟩
  · subst hp
    have h2 : (pre ++ [x]) ++ [y] = L ++ [b] := by
      rw [List.append_assoc]
      exact h
    obtain ⟨hL, hyb⟩ := List.append_inj' h2 rfl
    exact Or.inr ⟨rfl, (List.cons.inj hyb).1, hL⟩
  · subst hp
    rw [List.concat_eq_append] at h
    have h2 : (pre ++ x :: y :: post2) ++ [c] = L ++ [b] := by
      rw [List.append_assoc]
      exact h
    obtain ⟨hL, hcb⟩ := List.append_inj' h2 rfl
    refine Or.inl ⟨post2, ?_, hL⟩
    rw [List.concat_eq_append, (List.cons.inj hcb).1]

theorem map_adj_split {A B : Type} {f : A → B} :
    ∀ {pre : List B} {L : List A} {post : List B} {x y : B},
    pre ++ x :: y :: post = L.map f →
    ∃ l1 a b l2, L = l1 ++ a :: b :: l2 ∧ x = f a ∧ y = f b ∧
      pre = l1.map f ∧ post = l2.map f := by
  intro pre
  induction pre with
  | nil =>
    intro L post x y h
    rcases L with _ | ⟨a, L1⟩
    · cases h
    · rw [List.map_cons] at h
      have h1 := List.cons.inj h
      rcases L1 with _ | ⟨b, L2⟩
      · cases h1.2
      · rw [List.map_cons] at h1
        have h2 := List.cons.inj h1.2
        exact ⟨[], a, b, L2, rfl, h1.1, h2.1, rfl, h2.2⟩
  | cons p0 pre2 ih =>
    intro L post x y h
    rcases L with _ | ⟨a, L1⟩
    · cases h
    · rw [List.map_cons, List.cons_append] at h
      have h1 := List.cons.inj h
      obtain ⟨l1, c, d, l2, hL, hx, hy, hpre, hpost⟩ := ih h1.2
      exact ⟨a :: l1, c, d, l2, by rw [List.cons_append, ← hL], hx, hy,
        by rw [List.map_cons, ← hpre, h1.1], hpost⟩

theorem map_concat_split {A B : Type} {f : A → B} :
    ∀ {pre : List B} {x : B} {L : List A},
    pre ++ [x] = L.map f →
    ∃ l1 a, L = l1 ++ [a] ∧ x = f a ∧ pre = l1.map f := by
  intro pre
  induction pre with
  | nil =>
    intro x L h
    rcases L with _ | ⟨a, L1⟩
    · cases h
    · rw [List.map_cons] at h
      have h1 := List.cons.inj h
      rcases L1 with _ | ⟨b, L2⟩
      · exact ⟨[], a, rfl, h1.1, rfl⟩
      · cases h1.2
  | cons p0 pre2 ih =>
    intro x L h
    rcases L with _ | ⟨a, L1⟩
    · cases h
    · rw [List.map_cons, List.cons_append] at h
      have h1 := List.cons.inj h
      obtain ⟨l1, c, hL, hx, hpre⟩ := ih h1.2
      exact ⟨a :: l1, c, by rw [List.cons_append, ← hL], hx,
        by rw [List.map_cons, ← hpre, h1.1]⟩

theorem exists_point_between_startKeys [DenselyOrdered I] [NoMinOrder I]
    {a b : RBound I} (h : startKey a < startKey b) :
    ∃ p : I, startKey a ≤ pointKey p ∧ pointKey p < startKey b := by
  cases b with
  | unb => exact absurd h (not_lt.mpr (by simp [startKey, ekBot, ekBot_le]))
  | inc c =>
    cases a with
    | unb =>
      obtain ⟨p, hp⟩ := exists_lt c
      exact ⟨p, ekBot_le _, ekFin_lt_ekFin.mpr (Or.inl hp)⟩
    | inc d =>
      rcases ekFin_lt_ekFin.mp h with hdc | ⟨-, hk⟩
      · exact ⟨d, le_rfl, ekFin_lt_ekFin.mpr (Or.inl hdc)⟩
      · exact absurd hk (by omega)
    | exc d =>
      rcases ekFin_lt_ekFin.mp h with hdc | ⟨-, hk⟩
      · obtain ⟨p, hdp, hpc⟩ := exists_between hdc
        exact ⟨p, ekFin_le_ekFin.mpr (Or.inl hdp),
          ekFin_lt_ekFin.mpr (Or.inl hpc)⟩
      · exact absurd hk (by omega)
  | exc c =>
    refine ⟨c, ?_, ekFin_lt_ekFin.mpr (Or.inr ⟨rfl, by omega⟩)⟩
    cases a with
    | unb => exact ekBot_le _
    | inc d =>
      rcases ekFin_lt_ekFin.mp h with hdc | ⟨hdc, -⟩
      · exact ekFin_le_ekFin.mpr (Or.inl hdc)
      · exact ekFin_le_ekFin.mpr (Or.inr ⟨hdc, le_rfl⟩)
    | exc d =>
      rcases ekFin_lt_ekFin.mp h with hdc | ⟨-, hk⟩
      · exact ekFin_le_ekFin.mpr (Or.inl hdc)
      · exact absurd hk (by omega)

theorem exists_point_between_endKeys [DenselyOrdered I] [NoMaxOrder I]
    {a b : RBound I} (h : endKey a < endKey b) :
    ∃ p : I, endKey a < pointKey p ∧ pointKey p ≤ endKey b := by
  cases a with
  | unb => exact absurd h (not_lt.mpr (le_ekTop _))
  | inc c =>
    cases b with
    | unb =>
      obtain ⟨p, hp⟩ := exists_gt c
      exact ⟨p, ekFin_lt_ekFin.mpr (Or.inl hp), le_ekTop _⟩
    | inc d =>
      rcases ekFin_lt_ekFin.mp h with hcd | ⟨-, hk⟩
      · exact ⟨d, ekFin_lt_ekFin.mpr (Or.inl hcd), le_rfl⟩
      · exact absurd hk (by omega)
    | exc d =>
      rcases ekFin_lt_ekFin.mp h with hcd | ⟨-, hk⟩
      · obtain ⟨p, hcp, hpd⟩ := exists_between hcd
        exact ⟨p, ekFin_lt_ekFin.mpr (Or.inl hcp),
          ekFin_le_ekFin.mpr (Or.inl hpd)⟩
      · exact absurd hk (by omega)
  | exc c =>
    cases b with
    | unb =>
      exact ⟨c, ekFin_lt_ekFin.mpr (Or.inr ⟨rfl, by omega⟩), le_ekTop _⟩
    | inc d =>
      exact ⟨d, lt_of_lt_of_le h le_rfl, le_rfl⟩
    | exc d =>
      rcases ekFin_lt_ekFin.mp h with hcd | ⟨-, hk⟩
      · exact ⟨c, ekFin_lt_ekFin.mpr (Or.inr ⟨rfl, by omega⟩),
          ekFin_le_ekFin.mpr (Or.inl hcd)⟩
      · exact absurd hk (by omega)

theorem ov_mem_iff {m : RBMap I V} (hInv : MapInv m) {q : Rg I}
    {e : Rg I × V} :
    e ∈ overlapping m q ↔ (e ∈ m ∧ overlaps e.1 q = true) := by
  rw [overlapping_eq_filter hInv.2, List.mem_filter]

theorem ov_pairwise {m : RBMap I V} (hInv : MapInv m) (q : Rg I) :
    (overlapping m q).Pairwise entrySep := by
  rw [overlapping_eq_filter hInv.2]
  exact hInv.1.sublist (List.filter_sublist m)

theorem cov_in_ov {m : RBMap I V} (hInv : MapInv m) {q : Rg I}
    {e : Rg I × V} {p : I} (he : e ∈ m) (hce : containsPoint e.1 p)
    (hq : containsPoint q p) : e ∈ overlapping m q :=
  (ov_mem_iff hInv).mpr ⟨he, overlaps_of_containsPoint hce hq⟩

theorem sc_iff {m : RBMap I V} {q : Rg I} :
    btContainsKey (overlapping_start_comp q.start) m = true ↔
      ∃ e ∈ m, startKey e.1.start ≤ startKey q.start ∧
        startKey q.start ≤ endKey e.1.endb := by
  rw [btContainsKey_iff]
  constructor
  · rintro ⟨e, he, hc⟩
    exact ⟨e, he, cmp_rwb_eq_iff.mp hc⟩
  · rintro ⟨e, he, hc⟩
    exact ⟨e, he, cmp_rwb_eq_iff.mpr hc⟩

theorem ec_iff {m : RBMap I V} {q : Rg I} :
    btContainsKey (overlapping_end_comp q.endb) m = true ↔
      ∃ e ∈ m, startKey e.1.start ≤ endKey q.endb ∧
        endKey q.endb ≤ endKey e.1.endb := by
  rw [btContainsKey_iff]
  constructor
  · rintro ⟨e, he, hc⟩
    exact ⟨e, he, cmp_rwb_eq_iff.mp hc⟩
  · rintro ⟨e, he, hc⟩
    exact ⟨e, he, cmp_rwb_eq_iff.mpr hc⟩

theorem uncovered_position :
    ∀ {L : List (Rg I × V)}, L.Pairwise entrySep →
    ∀ {p : I}, (∀ e ∈ L, ¬ containsPoint e.1 p) →
    L = [] ∨
    (∃ h t, L = h :: t ∧ pointKey p < startKey h.1.start) ∨
    (∃ l1 a b l2, L = l1 ++ a :: b :: l2 ∧
      endKey a.1.endb < pointKey p ∧ pointKey p < startKey b.1.start) ∨
    (∃ l1 a, L = l1 ++ [a] ∧ endKey a.1.endb < pointKey p) := by
  intro L
  induction L with
  | nil =>
    intro _ p _
    exact Or.inl rfl
  | cons h t ih =>
    intro hsep p hnc
    rcases not_containsPoint_iff.mp (hnc h (List.mem_cons_self h t))
      with hlt | hgt
    · exact Or.inr (Or.inl ⟨h, t, rfl, hlt⟩)
    · have hnc' : ∀ e ∈ t, ¬ containsPoint e.1 p :=
        fun e he => hnc e (List.mem_cons_of_mem h he)
      rcases ih (List.Pairwise.sublist (List.sublist_cons_self h t) hsep) hnc'
        with ht | ⟨h2, t2, ht, hlt2⟩ | ⟨l1, a, b, l2, ht, h1, h2⟩ |
          ⟨l1, a, ht, h1⟩
      · subst ht
        exact Or.inr (Or.inr (Or.inr ⟨[], h, rfl, hgt⟩))
      · subst ht
        exact Or.inr (Or.inr (Or.inl ⟨[], h, h2, t2, rfl, hgt, hlt2⟩))
      · subst ht
        exact Or.inr (Or.inr (Or.inl ⟨h :: l1, a, b, l2, rfl, h1, h2⟩))
      · subst ht
        exact Or.inr (Or.inr (Or.inr ⟨h :: l1, a, by rw [List.cons_append],
          h1⟩))

theorem chain_adjacent {α : Type} {R : α → α → Prop} :
    ∀ {pre : List α} {l : List α} {u v : α} {post : List α},
    List.Chain' R l → l = pre ++ u :: v :: post → R u v := by
  intro pre
  induction pre with
  | nil =>
    intro l u v post hc hl
    subst hl
    exact List.chain'_cons.mp hc |>.1
  | cons a pre ih =>
    intro l u v post hc hl
    subst hl
    have hc2 := hc.tail
    exact ih hc2 rfl

theorem map_cons_split {A B : Type} {f : A → B} {y : B} {post : List B}
    {L : List A} (h : y :: post = L.map f) :
    ∃ a t, L = a :: t ∧ y = f a ∧ post = t.map f := by
  rcases L with _ | ⟨a, t⟩
  · cases h
  · rw [List.map_cons] at h
    have h1 := List.cons.inj h
    exact ⟨a, t, rfl, h1.1, h1.2⟩

/-- A point in the gap between two consecutive overlapping entries lies
in the query range and is uncovered. -/
theorem win_mid_sound {m : RBMap I V} {q : Rg I} (hInv : MapInv m)
    {l1 l2 : List (Rg I × V)} {a b : Rg I × V}
    (hov : overlapping m q = l1 ++ a :: b :: l2) {p : I}
    (hcp : containsPoint ⟨flip_bound a.1.endb, flip_bound b.1.start⟩ p) :
    containsPoint q p ∧ ∀ e ∈ m, ¬ containsPoint e.1 p := by
  have hovP := ov_pairwise hInv q
  rw [hov] at hovP
  have hP2 : (a :: b :: l2).Pairwise entrySep :=
    hovP.sublist (List.sublist_append_right l1 _)
  have hsepab : entrySep a b := (List.pairwise_cons.mp hP2).1 b
    (List.mem_cons_self b l2)
  have ha_mem : a ∈ overlapping m q := by
    rw [hov]
    exact List.mem_append.mpr (Or.inr (List.mem_cons_self a _))
  have hb_mem : b ∈ overlapping m q := by
    rw [hov]
    exact List.mem_append.mpr (Or.inr (List.mem_cons_of_mem a
      (List.mem_cons_self b l2)))
  have hovA := ((ov_mem_iff hInv).mp ha_mem).2
  have hovB := ((ov_mem_iff hInv).mp hb_mem).2
  have hvalA : is_valid_range a.1 = true :=
    hInv.2 a ((ov_mem_iff hInv).mp ha_mem).1
  have hvalB : is_valid_range b.1 = true :=
    hInv.2 b ((ov_mem_iff hInv).mp hb_mem).1
  have hAe : a.1.endb ≠ .unb := ne_unb_of_endKey_lt hsepab
  have hBs : b.1.start ≠ .unb := ne_unb_of_lt_startKey hsepab
  have h1 : endKey a.1.endb < pointKey p :=
    (startKey_flip_le_iff hAe _).mp hcp.1
  have h2 : pointKey p < startKey b.1.start :=
    (le_endKey_flip_iff hBs _).mp hcp.2
  have hq : containsPoint q p :=
    ⟨le_of_lt (lt_of_le_of_lt (overlaps_iff.mp hovA).2 h1),
     le_of_lt (lt_of_lt_of_le h2 (overlaps_iff.mp hovB).1)⟩
  refine ⟨hq, ?_⟩
  intro e he hce
  have he_ov := cov_in_ov hInv he hce hq
  rw [hov] at he_ov
  rcases List.mem_append.mp he_ov with hl1 | hm2
  · have hsep_ea : entrySep e a :=
      (List.pairwise_append.mp hovP).2.2 e hl1 a (List.mem_cons_self a _)
    have : pointKey p ≤ endKey e.1.endb := hce.2
    have hx : endKey e.1.endb < startKey a.1.start := hsep_ea
    exact absurd (lt_of_le_of_lt this (lt_of_lt_of_le hx
      (le_trans (is_valid_range_iff.mp hvalA) (le_of_lt h1))))
      (lt_irrefl _)
  · rcases List.mem_cons.mp hm2 with rfl | hm3
    · exact absurd (lt_of_lt_of_le h1 hce.2) (lt_irrefl _)
    · rcases List.mem_cons.mp hm3 with rfl | hl2
      · exact absurd (lt_of_lt_of_le h2 hce.1) (lt_irrefl _)
      · have hsep_be : entrySep b e :=
          (List.pairwise_cons.mp (List.pairwise_cons.mp hP2).2).1 e hl2
        have hx : endKey b.1.endb < startKey e.1.start := hsep_be
        exact absurd (lt_of_lt_of_le h2 (le_trans
          (le_trans (is_valid_range_iff.mp hvalB) (le_of_lt hx)) hce.1))
          (lt_irrefl _)

/-- A point in the gap between the query's start and the first
overlapping entry lies in the query range and is uncovered. -/
theorem win_AS_sound {m : RBMap I V} {q : Rg I} (hInv : MapInv m)
    (hvq : is_valid_range q = true)
    (hsc : btContainsKey (overlapping_start_comp q.start) m = false)
    {E : Rg I × V} {t : List (Rg I × V)}
    (hov : overlapping m q = E :: t) {p : I}
    (hcp : containsPoint ⟨q.start, flip_bound E.1.start⟩ p) :
    containsPoint q p ∧ ∀ e ∈ m, ¬ containsPoint e.1 p := by
  have hE_mem : E ∈ overlapping m q := by
    rw [hov]
    exact List.mem_cons_self E t
  have hovE := ((ov_mem_iff hInv).mp hE_mem).2
  have hvalE : is_valid_range E.1 = true :=
    hInv.2 E ((ov_mem_iff hInv).mp hE_mem).1
  have hEs : E.1.start ≠ .unb := by
    intro hu
    have hscT : btContainsKey (overlapping_start_comp q.start) m = true :=
      sc_iff.mpr ⟨E, ((ov_mem_iff hInv).mp hE_mem).1,
        by rw [hu]; exact ekBot_le _, (overlaps_iff.mp hovE).2⟩
    rw [hsc] at hscT
    cases hscT
  have h2 : pointKey p < startKey E.1.start :=
    (le_endKey_flip_iff hEs _).mp hcp.2
  have hq : containsPoint q p :=
    ⟨hcp.1, le_of_lt (lt_of_lt_of_le h2 (overlaps_iff.mp hovE).1)⟩
  refine ⟨hq, ?_⟩
  intro e he hce
  have he_ov := cov_in_ov hInv he hce hq
  rw [hov] at he_ov
  have hovP := ov_pairwise hInv q
  rw [hov] at hovP
  rcases List.mem_cons.mp he_ov with rfl | ht
  · exact absurd (lt_of_lt_of_le h2 hce.1) (lt_irrefl _)
  · have hsep : entrySep E e := (List.pairwise_cons.mp hovP).1 e ht
    have hx : endKey E.1.endb < startKey e.1.start := hsep
    exact absurd (lt_of_lt_of_le h2 (le_trans (le_trans
      (is_valid_range_iff.mp hvalE) (le_of_lt hx)) hce.1)) (lt_irrefl _)

/-- A point in the gap between the last overlapping entry and the
query's end lies in the query range and is uncovered. -/
theorem win_AE_sound {m : RBMap I V} {q : Rg I} (hInv : MapInv m)
    (hvq : is_valid_range q = true)
    (hec : btContainsKey (overlapping_end_comp q.endb) m = false)
    {l1 : List (Rg I × V)} {a : Rg I × V}
    (hov : overlapping m q = l1 ++ [a]) {p : I}
    (hcp : containsPoint ⟨flip_bound a.1.endb, q.endb⟩ p) :
    containsPoint q p ∧ ∀ e ∈ m, ¬ containsPoint e.1 p := by
  have ha_mem : a ∈ overlapping m q := by
    rw [hov]
    exact List.mem_append.mpr (Or.inr (List.mem_singleton_self a))
  have hovA := ((ov_mem_iff hInv).mp ha_mem).2
  have hvalA : is_valid_range a.1 = true :=
    hInv.2 a ((ov_mem_iff hInv).mp ha_mem).1
  have hAe : a.1.endb ≠ .unb := by
    intro hu
    have hecT : btContainsKey (overlapping_end_comp q.endb) m = true :=
      ec_iff.mpr ⟨a, ((ov_mem_iff hInv).mp ha_mem).1,
        (overlaps_iff.mp hovA).1, by rw [hu]; exact le_ekTop _⟩
    rw [hec] at hecT
    cases hecT
  have h1 : endKey a.1.endb < pointKey p :=
    (startKey_flip_le_iff hAe _).mp hcp.1
  have hq : containsPoint q p :=
    ⟨le_of_lt (lt_of_le_of_lt (overlaps_iff.mp hovA).2 h1), hcp.2⟩
  refine ⟨hq, ?_⟩
  intro e he hce
  have he_ov := cov_in_ov hInv he hce hq
  rw [hov] at he_ov
  have hovP := ov_pairwise hInv q
  rw [hov] at hovP
  rcases List.mem_append.mp he_ov with hl1 | hm2
  · have hsep : entrySep e a :=
      (List.pairwise_append.mp hovP).2.2 e hl1 a (List.mem_singleton_self a)
    have hx : endKey e.1.endb < startKey a.1.start := hsep
    exact absurd (lt_of_le_of_lt hce.2 (lt_of_lt_of_le hx (le_trans
      (is_valid_range_iff.mp hvalA) (le_of_lt h1)))) (lt_irrefl _)
  · rcases List.mem_singleton.mp hm2 with rfl
    exact absurd (lt_of_lt_of_le h1 hce.2) (lt_irrefl _)

/-- With no overlapping entry, a point of the query range is uncovered. -/
theorem win_ASAE_sound {m : RBMap I V} {q : Rg I} (hInv : MapInv m)
    (hov : overlapping m q = []) {p : I} (hq : containsPoint q p) :
    containsPoint q p ∧ ∀ e ∈ m, ¬ containsPoint e.1 p := by
  refine ⟨hq, ?_⟩
  intro e he hce
  have he_ov := cov_in_ov hInv he hce hq
  rw [hov] at he_ov
  cases he_ov

/-- Any point of any enumerated gap lies in the query range and is
uncovered. -/
theorem gaps_sound {m : RBMap I V} {q : Rg I} (hInv : MapInv m)
    (hvq : is_valid_range q = true) {p : I}
    (h : ∃ g ∈ gaps m q, containsPoint ⟨g.1, g.2⟩ p) :
    containsPoint q p ∧ ∀ e ∈ m, ¬ containsPoint e.1 p := by
  rcases hsc : btContainsKey (overlapping_start_comp q.start) m with _ | _ <;>
    rcases hec : btContainsKey (overlapping_end_comp q.endb) m with _ | _
  · -- no start hit, no end hit
    rw [gaps_form_A hsc hec, gapsW_contains_iff] at h
    obtain ⟨pre, x, y, post, heq, hcp⟩ := adjW_elim h
    rcases adj_split_cons heq.symm with ⟨hpre, hx, hL⟩ | ⟨pre2, hpre, heq2⟩
    · subst hx
      rcases hovl : overlapping m q with _ | ⟨E, t⟩
      · rw [hovl, List.map_nil, List.nil_append] at hL
        obtain ⟨hy, -⟩ := List.cons.inj hL
        subst hy
        have hcp2 : containsPoint ⟨flip_bound (flip_bound q.start),
            flip_bound (flip_bound q.endb)⟩ p := hcp
        rw [flip_bound_flip_bound, flip_bound_flip_bound] at hcp2
        exact win_ASAE_sound hInv hovl hcp2
      · rw [hovl, List.map_cons, List.cons_append] at hL
        obtain ⟨hy, -⟩ := List.cons.inj hL
        subst hy
        have hcp2 : containsPoint ⟨flip_bound (flip_bound q.start),
            flip_bound E.1.start⟩ p := hcp
        rw [flip_bound_flip_bound] at hcp2
        exact win_AS_sound hInv hvq hsc hovl hcp2
    · rcases adj_split_concat heq2 with ⟨post2, hpost, heq3⟩ |
        ⟨hpost, hy, heq3⟩
      · obtain ⟨l1, a, b, l2, hLov, hx, hy, -, -⟩ := map_adj_split heq3
        subst hx
        subst hy
        have hcp2 : containsPoint ⟨flip_bound a.1.endb,
            flip_bound b.1.start⟩ p := hcp
        exact win_mid_sound hInv hLov hcp2
      · obtain ⟨l1, a, hLov, hx, -⟩ := map_concat_split heq3
        subst hx
        subst hy
        have hcp2 : containsPoint ⟨flip_bound a.1.endb,
            flip_bound (flip_bound q.endb)⟩ p := hcp
        rw [flip_bound_flip_bound] at hcp2
        exact win_AE_sound hInv hvq hec hLov hcp2
  · -- no start hit, end hit
    rw [gaps_form_C hsc hec, gapsW_contains_iff] at h
    obtain ⟨pre, x, y, post, heq, hcp⟩ := adjW_elim h
    rcases adj_split_cons heq.symm with ⟨hpre, hx, hL⟩ | ⟨pre2, hpre, heq2⟩
    · subst hx
      obtain ⟨E, t, hLov, hy, -⟩ := map_cons_split hL.symm
      subst hy
      have hcp2 : containsPoint ⟨flip_bound (flip_bound q.start),
          flip_bound E.1.start⟩ p := hcp
      rw [flip_bound_flip_bound] at hcp2
      exact win_AS_sound hInv hvq hsc hLov hcp2
    · obtain ⟨l1, a, b, l2, hLov, hx, hy, -, -⟩ := map_adj_split heq2
      subst hx
      subst hy
      have hcp2 : containsPoint ⟨flip_bound a.1.endb,
          flip_bound b.1.start⟩ p := hcp
      exact win_mid_sound hInv hLov hcp2
  · -- start hit, no end hit
    rw [gaps_form_B hsc hec, gapsW_contains_iff] at h
    obtain ⟨pre, x, y, post, heq, hcp⟩ := adjW_elim h
    rcases adj_split_concat heq.symm with ⟨post2, hpost, heq3⟩ |
      ⟨hpost, hy, heq3⟩
    · obtain ⟨l1, a, b, l2, hLov, hx, hy, -, -⟩ := map_adj_split heq3
      subst hx
      subst hy
      have hcp2 : containsPoint ⟨flip_bound a.1.endb,
          flip_bound b.1.start⟩ p := hcp
      exact win_mid_sound hInv hLov hcp2
    · obtain ⟨l1, a, hLov, hx, -⟩ := map_concat_split heq3
      subst hx
      subst hy
      have hcp2 : containsPoint ⟨flip_bound a.1.endb,
          flip_bound (flip_bound q.endb)⟩ p := hcp
      rw [flip_bound_flip_bound] at hcp2
      exact win_AE_sound hInv hvq hec hLov hcp2
  · -- start hit and end hit
    rw [gaps_form_D hsc hec, gapsW_contains_iff] at h
    obtain ⟨pre, x, y, post, heq, hcp⟩ := adjW_elim h
    obtain ⟨l1, a, b, l2, hLov, hx, hy, -, -⟩ := map_adj_split heq.symm
    subst hx
    subst hy
    have hcp2 : containsPoint ⟨flip_bound a.1.endb,
        flip_bound b.1.start⟩ p := hcp
    exact win_mid_sound hInv hLov hcp2

/-- Every uncovered point of the query range lies in some enumerated
gap. -/
theorem uncovered_in_gaps {m : RBMap I V} {q : Rg I} (hInv : MapInv m)
    (hvq : is_valid_range q = true) {p : I} (hq : containsPoint q p)
    (hunc : ∀ e ∈ m, ¬ containsPoint e.1 p) :
    ∃ g ∈ gaps m q, containsPoint ⟨g.1, g.2⟩ p := by
  have hnc_ov : ∀ e ∈ overlapping m q, ¬ containsPoint e.1 p :=
    fun e he => hunc e ((ov_mem_iff hInv).mp he).1
  rcases uncovered_position (ov_pairwise hInv q) hnc_ov with hnil |
    ⟨E, t, hov, hlt⟩ | ⟨l1, a, b, l2, hov, h1, h2⟩ | ⟨l1, a, hov, h1⟩
  · -- no overlapping entries at all: the whole query is one gap
    have hsc : btContainsKey (overlapping_start_comp q.start) m = false := by
      rcases hsc : btContainsKey (overlapping_start_comp q.start) m
        with _ | _
      · rfl
      · obtain ⟨e, he, hc⟩ := btContainsKey_iff.mp hsc
        have he_ov : e ∈ overlapping m q :=
          (ov_mem_iff hInv).mpr ⟨he, hit_ov_start hvq hc⟩
        rw [hnil] at he_ov
        cases he_ov
    have hec : btContainsKey (overlapping_end_comp q.endb) m = false := by
      rcases hec : btContainsKey (overlapping_end_comp q.endb) m with _ | _
      · rfl
      · obtain ⟨e, he, hc⟩ := btContainsKey_iff.mp hec
        have he_ov : e ∈ overlapping m q :=
          (ov_mem_iff hInv).mpr ⟨he, hit_ov_end hvq hc⟩
        rw [hnil] at he_ov
        cases he_ov
    rw [gaps_form_A hsc hec, hnil, List.map_nil, List.nil_append,
      gapsW_contains_iff]
    refine Or.inl ?_
    show containsPoint ⟨flip_bound (flip_bound q.start),
      flip_bound (flip_bound q.endb)⟩ p
    rw [flip_bound_flip_bound, flip_bound_flip_bound]
    exact hq
  · -- the point lies before the first overlapping entry
    have hE_mem : E ∈ overlapping m q := by
      rw [hov]
      exact List.mem_cons_self E t
    have hsc : btContainsKey (overlapping_start_comp q.start) m = false := by
      rcases hsc : btContainsKey (overlapping_start_comp q.start) m
        with _ | _
      · rfl
      · obtain ⟨e, he, hc⟩ := btContainsKey_iff.mp hsc
        have he_ov : e ∈ overlapping m q :=
          (ov_mem_iff hInv).mpr ⟨he, hit_ov_start hvq hc⟩
        have hce := cmp_rwb_eq_iff.mp hc
        have hE_le : startKey E.1.start ≤ startKey e.1.start := by
          rw [hov] at he_ov
          rcases List.mem_cons.mp he_ov with rfl | ht
          · exact le_rfl
          · have hovP := ov_pairwise hInv q
            rw [hov] at hovP
            have hsep : entrySep E e := (List.pairwise_cons.mp hovP).1 e ht
            have hx : endKey E.1.endb < startKey e.1.start := hsep
            exact le_of_lt (lt_of_le_of_lt (is_valid_range_iff.mp
              (hInv.2 E ((ov_mem_iff hInv).mp hE_mem).1)) hx)
        exact absurd (lt_of_lt_of_le hlt (le_trans hE_le
          (le_trans hce.1 hq.1))) (lt_irrefl _)
    have hEs : E.1.start ≠ .unb := ne_unb_of_lt_startKey hlt
    have hcpAS : containsPoint ⟨flip_bound (flip_bound q.start),
        flip_bound E.1.start⟩ p := by
      rw [flip_bound_flip_bound]
      exact ⟨hq.1, (le_endKey_flip_iff hEs _).mpr hlt⟩
    rcases hec : btContainsKey (overlapping_end_comp q.endb) m with _ | _
    · rw [gaps_form_A hsc hec, hov, List.map_cons, List.cons_append,
        gapsW_contains_iff]
      exact Or.inl hcpAS
    · rw [gaps_form_C hsc hec, hov, List.map_cons, gapsW_contains_iff]
      exact Or.inl hcpAS
  · -- the point lies between two consecutive overlapping entries
    have hAe : a.1.endb ≠ .unb := ne_unb_of_endKey_lt h1
    have hBs : b.1.start ≠ .unb := ne_unb_of_lt_startKey h2
    have hcpM : containsPoint ⟨flip_bound a.1.endb,
        flip_bound b.1.start⟩ p :=
      ⟨(startKey_flip_le_iff hAe _).mpr h1, (le_endKey_flip_iff hBs _).mpr h2⟩
    rcases hsc : btContainsKey (overlapping_start_comp q.start) m
      with _ | _ <;>
      rcases hec : btContainsKey (overlapping_end_comp q.endb) m with _ | _
    · rw [gaps_form_A hsc hec, hov, List.map_append, List.map_cons,
        List.map_cons, List.append_assoc, List.cons_append, List.cons_append,
        gapsW_contains_iff]
      refine adjW_of_append ((flip_bound q.start, flip_bound q.start) ::
        l1.map (fun e => (e.1.start, e.1.endb))) ?_
      exact hcpM
    · rw [gaps_form_C hsc hec, hov, List.map_append, List.map_cons,
        List.map_cons, gapsW_contains_iff]
      refine adjW_of_append ((flip_bound q.start, flip_bound q.start) ::
        l1.map (fun e => (e.1.start, e.1.endb))) ?_
      exact hcpM
    · rw [gaps_form_B hsc hec, hov, List.map_append, List.map_cons,
        List.map_cons, List.append_assoc, List.cons_append, List.cons_append,
        gapsW_contains_iff]
      refine adjW_of_append (l1.map (fun e => (e.1.start, e.1.endb))) ?_
      exact hcpM
    · rw [gaps_form_D hsc hec, hov, List.map_append, List.map_cons,
        List.map_cons, gapsW_contains_iff]
      refine adjW_of_append (l1.map (fun e => (e.1.start, e.1.endb))) ?_
      exact hcpM
  · -- the point lies after the last overlapping entry
    have ha_mem : a ∈ overlapping m q := by
      rw [hov]
      exact List.mem_append.mpr (Or.inr (List.mem_singleton_self a))
    have hec : btContainsKey (overlapping_end_comp q.endb) m = false := by
      rcases hec : btContainsKey (overlapping_end_comp q.endb) m with _ | _
      · rfl
      · obtain ⟨e, he, hc⟩ := btContainsKey_iff.mp hec
        have he_ov : e ∈ overlapping m q :=
          (ov_mem_iff hInv).mpr ⟨he, hit_ov_end hvq hc⟩
        have hce := cmp_rwb_eq_iff.mp hc
        have he_le : endKey e.1.endb ≤ endKey a.1.endb := by
          rw [hov] at he_ov
          rcases List.mem_append.mp he_ov with hl1 | hm2
          · have hovP := ov_pairwise hInv q
            rw [hov] at hovP
            have hsep : entrySep e a := (List.pairwise_append.mp hovP).2.2
              e hl1 a (List.mem_singleton_self a)
            have hx : endKey e.1.endb < startKey a.1.start := hsep
            exact le_of_lt (lt_of_lt_of_le hx (is_valid_range_iff.mp
              (hInv.2 a ((ov_mem_iff hInv).mp ha_mem).1)))
          · rcases List.mem_singleton.mp hm2 with rfl
            exact le_rfl
        exact absurd (lt_of_le_of_lt (le_trans hq.2 (le_trans hce.2 he_le))
          h1) (lt_irrefl _)
    have hAe : a.1.endb ≠ .unb := ne_unb_of_endKey_lt h1
    have hcpL : containsPoint ⟨flip_bound a.1.endb,
        flip_bound (flip_bound q.endb)⟩ p := by
      rw [flip_bound_flip_bound]
      exact ⟨(startKey_flip_le_iff hAe _).mpr h1, hq.2⟩
    rcases hsc : btContainsKey (overlapping_start_comp q.start) m with _ | _
    · rw [gaps_form_A hsc hec, hov, List.map_append, List.map_cons,
        List.map_nil, List.append_assoc, List.cons_append, List.nil_append,
        gapsW_contains_iff]
      refine adjW_of_append ((flip_bound q.start, flip_bound q.start) ::
        l1.map (fun e => (e.1.start, e.1.endb))) ?_
      exact hcpL
    · rw [gaps_form_B hsc hec, hov, List.map_append, List.map_cons,
        List.map_nil, List.append_assoc, List.cons_append, List.nil_append,
        gapsW_contains_iff]
      refine adjW_of_append (l1.map (fun e => (e.1.start, e.1.endb))) ?_
      exact hcpL

/-- A boundary pair with finite endpoints spanning a nonempty key
interval. -/
def goodB (u : RBound I × RBound I) : Prop :=
  u.1 ≠ .unb ∧ u.2 ≠ .unb ∧ startKey u.1 ≤ endKey u.2

/-- Separation of boundary pairs: the first ends before the second
starts. -/
def sepB (u v : RBound I × RBound I) : Prop := endKey u.2 < startKey v.1

theorem gapsW_cons₂_eq {x y : RBound I × RBound I}
    {rest : List (RBound I × RBound I)} :
    gapsW (x :: y :: rest) =
      (if is_valid_range ⟨flip_bound x.2, flip_bound y.1⟩ then
        [(flip_bound x.2, flip_bound y.1)] else []) ++ gapsW (y :: rest) := by
  show ((((x, y) :: (y :: rest).zip rest).map
      (fun w => (flip_bound w.1.2, flip_bound w.2.1))).filter
      (fun r => is_valid_range ⟨r.1, r.2⟩)) = _
  rw [List.map_cons, List.filter_cons]
  rcases hv : is_valid_range
      (⟨flip_bound x.2, flip_bound y.1⟩ : Rg I) with _ | _
  · rw [if_neg (by simp [hv]), if_neg (by simp), List.nil_append]
    rfl
  · rw [if_pos (by simp [hv]), if_pos rfl, List.singleton_append]
    rfl

theorem reach_end :
    ∀ (pre : List (RBound I × RBound I)) {y u : RBound I × RBound I}
      {rest post : List (RBound I × RBound I)},
    y :: rest = pre ++ u :: post → post ≠ [] →
    List.Chain' (fun a b => goodB a) (y :: rest) →
    List.Chain' sepB ((y :: rest).dropLast) →
    endKey y.2 ≤ endKey u.2 := by
  intro pre
  induction pre with
  | nil =>
    intro y u rest post heq hpost hg hs
    have h1 := List.cons.inj heq
    rw [h1.1]
  | cons a pre ih =>
    intro y u rest post heq hpost hg hs
    have h1 := List.cons.inj heq
    rcases hrest : rest with _ | ⟨y2, rest2⟩
    · rw [hrest] at h1
      exact absurd h1.2.symm (by simp)
    · subst hrest
      have hrest2 : rest2 ≠ [] := by
        cases pre with
        | nil =>
          have h2 := (List.cons.inj h1.2).2
          rw [h2]
          exact hpost
        | cons a2 pre2 =>
          have h2 := (List.cons.inj h1.2).2
          rw [h2]
          simp
      obtain ⟨z, rest3, hr3⟩ := List.exists_cons_of_ne_nil hrest2
      subst hr3
      have hs2 : List.Chain' sepB (y :: y2 :: (z :: rest3).dropLast) := by
        rw [List.dropLast_cons₂, List.dropLast_cons₂] at hs
        exact hs
      have hsep_yy2 : sepB y y2 := (List.chain'_cons.mp hs2).1
      have hgood_y2 : goodB y2 := (List.chain'_cons.mp hg.tail).1
      have hs3 : List.Chain' sepB ((y2 :: z :: rest3).dropLast) := by
        rw [List.dropLast_cons₂]
        exact (List.chain'_cons.mp hs2).2
      have hih := ih h1.2 hpost hg.tail hs3
      exact le_trans (le_of_lt (lt_of_lt_of_le hsep_yy2 hgood_y2.2.2)) hih

theorem gapsW_pairwise :
    ∀ {xs : List (RBound I × RBound I)},
    List.Chain' (fun a b => goodB a) xs.tail →
    List.Chain' sepB (xs.tail.dropLast) →
    List.Pairwise (fun g1 g2 : RBound I × RBound I =>
      endKey g1.2 < startKey g2.1) (gapsW xs) := by
  intro xs
  induction xs with
  | nil =>
    intro _ _
    rw [gapsW_nil]
    exact List.Pairwise.nil
  | cons x xs ih =>
    rcases xs with _ | ⟨y, rest⟩
    · intro _ _
      rw [gapsW_single]
      exact List.Pairwise.nil
    · intro hg hs
      rcases rest with _ | ⟨z, rest2⟩
      · show List.Pairwise _
          (([(flip_bound x.2, flip_bound y.1)]).filter
            (fun r => is_valid_range ⟨r.1, r.2⟩))
        exact List.Pairwise.filter _ (List.pairwise_singleton _ _)
      · have hg2 : List.Chain' (fun a b => goodB a) (y :: z :: rest2) := hg
        have hs1 : List.Chain' sepB ((y :: z :: rest2).dropLast) := hs
        have hs_copy : List.Chain' sepB
            (y :: (z :: rest2).dropLast) := by
          rw [List.dropLast_cons₂] at hs1
          exact hs1
        have hs2 : List.Chain' sepB ((z :: rest2).dropLast) := hs_copy.tail
        have hpw_tail := ih hg2.tail hs2
        rw [gapsW_cons₂_eq]
        rcases hv : is_valid_range
            (⟨flip_bound x.2, flip_bound y.1⟩ : Rg I) with _ | _
        · rw [if_neg (by simp [hv]), List.nil_append]
          exact hpw_tail
        · rw [if_pos rfl, List.singleton_append]
          refine List.pairwise_cons.mpr ⟨?_, hpw_tail⟩
          intro g' hg'
          obtain ⟨pre, u, v, post, heq, hgv, -⟩ := gapsW_mem_elim hg'
          subst hgv
          have hy_good : goodB y := (List.chain'_cons.mp hg2).1
          have hu_good0 := chain_adjacent hg2 heq
          have hu_good : goodB u := hu_good0
          have hreach : endKey y.2 ≤ endKey u.2 := by
            refine reach_end pre heq (by simp) hg2 ?_
            rw [List.dropLast_cons₂]
            exact hs_copy
          show endKey (flip_bound y.1) < startKey (flip_bound u.2)
          exact lt_of_lt_of_le (endKey_flip_lt_startKey hy_good.1)
            (le_trans hy_good.2.2 (le_trans hreach
              (le_of_lt (endKey_lt_startKey_flip hu_good.2.1))))

theorem starts_ne_unb_of_not_sc {m : RBMap I V} {q : Rg I} (hInv : MapInv m)
    (hsc : btContainsKey (overlapping_start_comp q.start) m = false) :
    ∀ E ∈ overlapping m q, E.1.start ≠ .unb := by
  intro E hE hu
  have hscT : btContainsKey (overlapping_start_comp q.start) m = true :=
    sc_iff.mpr ⟨E, ((ov_mem_iff hInv).mp hE).1,
      by rw [hu]; exact ekBot_le _,
      (overlaps_iff.mp ((ov_mem_iff hInv).mp hE).2).2⟩
  rw [hsc] at hscT
  cases hscT

theorem ends_ne_unb_of_not_ec {m : RBMap I V} {q : Rg I} (hInv : MapInv m)
    (hec : btContainsKey (overlapping_end_comp q.endb) m = false) :
    ∀ E ∈ overlapping m q, E.1.endb ≠ .unb := by
  intro E hE hu
  have hecT : btContainsKey (overlapping_end_comp q.endb) m = true :=
    ec_iff.mpr ⟨E, ((ov_mem_iff hInv).mp hE).1,
      (overlaps_iff.mp ((ov_mem_iff hInv).mp hE).2).1,
      by rw [hu]; exact le_ekTop _⟩
  rw [hec] at hecT
  cases hecT

theorem tail_starts_ne_unb {E1 : Rg I × V} {t : List (Rg I × V)}
    (hP : (E1 :: t).Pairwise entrySep) :
    ∀ E ∈ t, E.1.start ≠ .unb := by
  intro E hE
  have hsep : entrySep E1 E := (List.pairwise_cons.mp hP).1 E hE
  exact ne_unb_of_lt_startKey hsep

theorem dropLast_ends_ne_unb {L : List (Rg I × V)}
    (hP : L.Pairwise entrySep) :
    ∀ E ∈ L.dropLast, E.1.endb ≠ .unb := by
  intro E hE
  have hne : L ≠ [] := by
    intro h
    rw [h] at hE
    cases hE
  have hdec : L.dropLast ++ [L.getLast hne] = L :=
    List.dropLast_append_getLast hne
  rw [← hdec] at hP
  have hsep : entrySep E (L.getLast hne) :=
    (List.pairwise_append.mp hP).2.2 E hE _ (List.mem_singleton_self _)
  exact ne_unb_of_endKey_lt hsep

theorem chain_good_concat :
    ∀ (l : List (RBound I × RBound I)) (ae : RBound I × RBound I),
    (∀ u ∈ l, goodB u) →
    List.Chain' (fun a b => goodB a) (l ++ [ae]) := by
  intro l
  induction l with
  | nil =>
    intro ae _
    exact List.chain'_singleton ae
  | cons u l ih =>
    intro ae hg
    rcases l with _ | ⟨v, l2⟩
    · exact List.chain'_cons.mpr ⟨hg u (List.mem_cons_self u _),
        List.chain'_singleton ae⟩
    · exact List.chain'_cons.mpr ⟨hg u (List.mem_cons_self u _),
        ih ae (fun w hw => hg w (List.mem_cons_of_mem u hw))⟩

theorem chain_good_list :
    ∀ (l : List (RBound I × RBound I)),
    (∀ u ∈ l.dropLast, goodB u) →
    List.Chain' (fun a b => goodB a) l := by
  intro l
  induction l with
  | nil =>
    intro _
    exact List.chain'_nil
  | cons u l ih =>
    intro hg
    rcases l with _ | ⟨v, l2⟩
    · exact List.chain'_singleton u
    · refine List.chain'_cons.mpr ⟨?_, ih ?_⟩
      · refine hg u ?_
        rw [List.dropLast_cons₂]
        exact List.mem_cons_self u _
      · intro w hw
        refine hg w ?_
        rw [List.dropLast_cons₂]
        exact List.mem_cons_of_mem u hw

theorem map_dropLast_eq {A B : Type} {f : A → B} :
    ∀ (l : List A), (l.map f).dropLast = l.dropLast.map f := by
  intro l
  induction l with
  | nil => rfl
  | cons a l ih =>
    rcases l with _ | ⟨b, l2⟩
    · rfl
    · rw [List.map_cons, List.map_cons, List.dropLast_cons₂,
        List.dropLast_cons₂, List.map_cons, ← List.map_cons, ih]

theorem chain_sep_map {L : List (Rg I × V)} (hP : L.Pairwise entrySep) :
    List.Chain' sepB (L.map (fun e => (e.1.start, e.1.endb))) := by
  have hP2 : L.Pairwise (fun a b : Rg I × V =>
      sepB (a.1.start, a.1.endb) (b.1.start, b.1.endb)) :=
    hP.imp (fun h => h)
  exact (List.pairwise_map.mpr hP2).chain'

/-- The enumerated gaps are in strictly ascending order, pairwise
separated. -/
theorem gaps_pairwise {m : RBMap I V} {q : Rg I} (hInv : MapInv m)
    (hvq : is_valid_range q = true) :
    List.Pairwise (fun g1 g2 : RBound I × RBound I =>
      endKey g1.2 < startKey g2.1) (gaps m q) := by
  have hovP := ov_pairwise hInv q
  rcases hsc : btContainsKey (overlapping_start_comp q.start) m with _ | _ <;>
    rcases hec : btContainsKey (overlapping_end_comp q.endb) m with _ | _
  · rw [gaps_form_A hsc hec]
    refine gapsW_pairwise ?_ ?_
    · show List.Chain' (fun a b => goodB a)
        ((overlapping m q).map (fun e => (e.1.start, e.1.endb)) ++
          [(flip_bound q.endb, flip_bound q.endb)])
      refine chain_good_concat _ _ ?_
      intro u hu
      obtain ⟨E, hE, hEu⟩ := List.mem_map.mp hu
      subst hEu
      exact ⟨starts_ne_unb_of_not_sc hInv hsc E hE,
        ends_ne_unb_of_not_ec hInv hec E hE,
        is_valid_range_iff.mp (hInv.2 E ((ov_mem_iff hInv).mp hE).1)⟩
    · show List.Chain' sepB
        (((overlapping m q).map (fun e => (e.1.start, e.1.endb)) ++
          [(flip_bound q.endb, flip_bound q.endb)]).dropLast)
      rw [dropLast_concat_eq]
      exact chain_sep_map hovP
  · rw [gaps_form_C hsc hec]
    refine gapsW_pairwise ?_ ?_
    · show List.Chain' (fun a b => goodB a)
        ((overlapping m q).map (fun e => (e.1.start, e.1.endb)))
      refine chain_good_list _ ?_
      intro u hu
      rw [map_dropLast_eq] at hu
      obtain ⟨E, hE, hEu⟩ := List.mem_map.mp hu
      subst hEu
      have hEL : E ∈ overlapping m q :=
        (List.dropLast_sublist (overlapping m q)).subset hE
      exact ⟨starts_ne_unb_of_not_sc hInv hsc E hEL,
        dropLast_ends_ne_unb hovP E hE,
        is_valid_range_iff.mp (hInv.2 E ((ov_mem_iff hInv).mp hEL).1)⟩
    · show List.Chain' sepB
        (((overlapping m q).map (fun e => (e.1.start, e.1.endb))).dropLast)
      rw [map_dropLast_eq]
      exact chain_sep_map (hovP.sublist (List.dropLast_sublist _))
  · rw [gaps_form_B hsc hec]
    rcases hov : overlapping m q with _ | ⟨E1, t⟩
    · rw [List.map_nil, List.nil_append]
      refine gapsW_pairwise ?_ ?_
      · exact List.chain'_nil
      · exact List.chain'_nil
    · rw [hov] at hovP
      rw [List.map_cons, List.cons_append]
      refine gapsW_pairwise ?_ ?_
      · show List.Chain' (fun a b => goodB a)
          (t.map (fun e => (e.1.start, e.1.endb)) ++
            [(flip_bound q.endb, flip_bound q.endb)])
        refine chain_good_concat _ _ ?_
        intro u hu
        obtain ⟨E, hE, hEu⟩ := List.mem_map.mp hu
        subst hEu
        have hEov : E ∈ overlapping m q := by
          rw [hov]
          exact List.mem_cons_of_mem E1 hE
        exact ⟨tail_starts_ne_unb hovP E hE,
          ends_ne_unb_of_not_ec hInv hec E hEov,
          is_valid_range_iff.mp (hInv.2 E ((ov_mem_iff hInv).mp hEov).1)⟩
      · show List.Chain' sepB
          ((t.map (fun e => (e.1.start, e.1.endb)) ++
            [(flip_bound q.endb, flip_bound q.endb)]).dropLast)
        rw [dropLast_concat_eq]
        exact chain_sep_map (List.pairwise_cons.mp hovP).2
  · rw [gaps_form_D hsc hec]
    rcases hov : overlapping m q with _ | ⟨E1, t⟩
    · rw [List.map_nil]
      refine gapsW_pairwise ?_ ?_
      · exact List.chain'_nil
      · exact List.chain'_nil
    · rw [hov] at hovP
      rw [List.map_cons]
      refine gapsW_pairwise ?_ ?_
      · show List.Chain' (fun a b => goodB a)
          (t.map (fun e => (e.1.start, e.1.endb)))
        refine chain_good_list _ ?_
        intro u hu
        rw [map_dropLast_eq] at hu
        obtain ⟨E, hE, hEu⟩ := List.mem_map.mp hu
        subst hEu
        have hEt : E ∈ t := (List.dropLast_sublist t).subset hE
        have hEov : E ∈ overlapping m q := by
          rw [hov]
          exact List.mem_cons_of_mem E1 hEt
        exact ⟨tail_starts_ne_unb hovP E hEt,
          dropLast_ends_ne_unb (List.pairwise_cons.mp hovP).2 E hE,
          is_valid_range_iff.mp (hInv.2 E ((ov_mem_iff hInv).mp hEov).1)⟩
      · show List.Chain' sepB
          ((t.map (fun e => (e.1.start, e.1.endb))).dropLast)
        rw [map_dropLast_eq]
        exact chain_sep_map ((List.pairwise_cons.mp hovP).2.sublist
          (List.dropLast_sublist t))

theorem gaps_valid {m : RBMap I V} {q : Rg I} {g : RBound I × RBound I}
    (hg : g ∈ gaps m q) : is_valid_range ⟨g.1, g.2⟩ = true := by
  rw [gaps_eq_main] at hg
  have h := List.mem_filter.mp hg
  exact h.2

/-- Each gap's lower endpoint is the query's start or the flip of a
stored entry's end, and its upper endpoint is the query's end or the flip
of a stored entry's start. -/
theorem gap_boundary {m : RBMap I V} {q : Rg I} (hInv : MapInv m)
    (hvq : is_valid_range q = true) {g : RBound I × RBound I}
    (hg : g ∈ gaps m q) :
    (g.1 = q.start ∨ ∃ E ∈ m, is_valid_range E.1 = true ∧
      E.1.endb ≠ .unb ∧ g.1 = flip_bound E.1.endb) ∧
    (g.2 = q.endb ∨ ∃ F ∈ m, is_valid_range F.1 = true ∧
      F.1.start ≠ .unb ∧ g.2 = flip_bound F.1.start) := by
  have hovP := ov_pairwise hInv q
  rcases hsc : btContainsKey (overlapping_start_comp q.start) m with _ | _ <;>
    rcases hec : btContainsKey (overlapping_end_comp q.endb) m with _ | _
  · rw [gaps_form_A hsc hec] at hg
    obtain ⟨pre, x, y, post, heq, hgv, -⟩ := gapsW_mem_elim hg
    rcases adj_split_cons heq.symm with ⟨hpre, hx, hL⟩ | ⟨pre2, hpre, heq2⟩
    · subst hx
      rcases hovl : overlapping m q with _ | ⟨E, t⟩
      · rw [hovl, List.map_nil, List.nil_append] at hL
        obtain ⟨hy, -⟩ := List.cons.inj hL
        subst hy
        constructor
        · refine Or.inl ?_
          rw [hgv]
          exact flip_bound_flip_bound q.start
        · refine Or.inl ?_
          rw [hgv]
          exact flip_bound_flip_bound q.endb
      · rw [hovl, List.map_cons, List.cons_append] at hL
        obtain ⟨hy, -⟩ := List.cons.inj hL
        subst hy
        have hE_ov : E ∈ overlapping m q := by
          rw [hovl]
          exact List.mem_cons_self E t
        constructor
        · refine Or.inl ?_
          rw [hgv]
          exact flip_bound_flip_bound q.start
        · exact Or.inr ⟨E, ((ov_mem_iff hInv).mp hE_ov).1,
            hInv.2 E ((ov_mem_iff hInv).mp hE_ov).1,
            starts_ne_unb_of_not_sc hInv hsc E hE_ov, by rw [hgv]⟩
    · rcases adj_split_concat heq2 with ⟨post2, hpost, heq3⟩ |
        ⟨hpost, hy, heq3⟩
      · obtain ⟨l1, a, b, l2, hLov, hx, hy, -, -⟩ := map_adj_split heq3
        subst hx
        subst hy
        have hovP2 := hovP
        rw [hLov] at hovP2
        have hsepab : entrySep a b :=
          (List.pairwise_cons.mp (hovP2.sublist
            (List.sublist_append_right l1 _))).1 b (List.mem_cons_self b l2)
        have ha_ov : a ∈ overlapping m q := by
          rw [hLov]
          exact List.mem_append.mpr (Or.inr (List.mem_cons_self a _))
        have hb_ov : b ∈ overlapping m q := by
          rw [hLov]
          exact List.mem_append.mpr (Or.inr (List.mem_cons_of_mem a
            (List.mem_cons_self b l2)))
        constructor
        · exact Or.inr ⟨a, ((ov_mem_iff hInv).mp ha_ov).1,
            hInv.2 a ((ov_mem_iff hInv).mp ha_ov).1,
            ne_unb_of_endKey_lt hsepab, by rw [hgv]⟩
        · exact Or.inr ⟨b, ((ov_mem_iff hInv).mp hb_ov).1,
            hInv.2 b ((ov_mem_iff hInv).mp hb_ov).1,
            ne_unb_of_lt_startKey hsepab, by rw [hgv]⟩
      · obtain ⟨l1, a, hLov, hx, -⟩ := map_concat_split heq3
        subst hx
        subst hy
        have ha_ov : a ∈ overlapping m q := by
          rw [hLov]
          exact List.mem_append.mpr (Or.inr (List.mem_singleton_self a))
        constructor
        · exact Or.inr ⟨a, ((ov_mem_iff hInv).mp ha_ov).1,
            hInv.2 a ((ov_mem_iff hInv).mp ha_ov).1,
            ends_ne_unb_of_not_ec hInv hec a ha_ov, by rw [hgv]⟩
        · refine Or.inl ?_
          rw [hgv]
          exact flip_bound_flip_bound q.endb
  · rw [gaps_form_C hsc hec] at hg
    obtain ⟨pre, x, y, post, heq, hgv, -⟩ := gapsW_mem_elim hg
    rcases adj_split_cons heq.symm with ⟨hpre, hx, hL⟩ | ⟨pre2, hpre, heq2⟩
    · subst hx
      obtain ⟨E, t, hLov, hy, -⟩ := map_cons_split hL.symm
      subst hy
      have hE_ov : E ∈ overlapping m q := by
        rw [hLov]
        exact List.mem_cons_self E t
      constructor
      · refine Or.inl ?_
        rw [hgv]
        exact flip_bound_flip_bound q.start
      · exact Or.inr ⟨E, ((ov_mem_iff hInv).mp hE_ov).1,
          hInv.2 E ((ov_mem_iff hInv).mp hE_ov).1,
          starts_ne_unb_of_not_sc hInv hsc E hE_ov, by rw [hgv]⟩
    · obtain ⟨l1, a, b, l2, hLov, hx, hy, -, -⟩ := map_adj_split heq2
      subst hx
      subst hy
      have hovP2 := hovP
      rw [hLov] at hovP2
      have hsepab : entrySep a b :=
        (List.pairwise_cons.mp (hovP2.sublist
          (List.sublist_append_right l1 _))).1 b (List.mem_cons_self b l2)
      have ha_ov : a ∈ overlapping m q := by
        rw [hLov]
        exact List.mem_append.mpr (Or.inr (List.mem_cons_self a _))
      have hb_ov : b ∈ overlapping m q := by
        rw [hLov]
        exact List.mem_append.mpr (Or.inr (List.mem_cons_of_mem a
          (List.mem_cons_self b l2)))
      constructor
      · exact Or.inr ⟨a, ((ov_mem_iff hInv).mp ha_ov).1,
          hInv.2 a ((ov_mem_iff hInv).mp ha_ov).1,
          ne_unb_of_endKey_lt hsepab, by rw [hgv]⟩
      · exact Or.inr ⟨b, ((ov_mem_iff hInv).mp hb_ov).1,
          hInv.2 b ((ov_mem_iff hInv).mp hb_ov).1,
          ne_unb_of_lt_startKey hsepab, by rw [hgv]⟩
  · rw [gaps_form_B hsc hec] at hg
    obtain ⟨pre, x, y, post, heq, hgv, -⟩ := gapsW_mem_elim hg
    rcases adj_split_concat heq.symm with ⟨post2, hpost, heq3⟩ |
      ⟨hpost, hy, heq3⟩
    · obtain ⟨l1, a, b, l2, hLov, hx, hy, -, -⟩ := map_adj_split heq3
      subst hx
      subst hy
      have hovP2 := hovP
      rw [hLov] at hovP2
      have hsepab : entrySep a b :=
        (List.pairwise_cons.mp (hovP2.sublist
          (List.sublist_append_right l1 _))).1 b (List.mem_cons_self b l2)
      have ha_ov : a ∈ overlapping m q := by
        rw [hLov]
        exact List.mem_append.mpr (Or.inr (List.mem_cons_self a _))
      have hb_ov : b ∈ overlapping m q := by
        rw [hLov]
        exact List.mem_append.mpr (Or.inr (List.mem_cons_of_mem a
          (List.mem_cons_self b l2)))
      constructor
      · exact Or.inr ⟨a, ((ov_mem_iff hInv).mp ha_ov).1,
          hInv.2 a ((ov_mem_iff hInv).mp ha_ov).1,
          ne_unb_of_endKey_lt hsepab, by rw [hgv]⟩
      · exact Or.inr ⟨b, ((ov_mem_iff hInv).mp hb_ov).1,
          hInv.2 b ((ov_mem_iff hInv).mp hb_ov).1,
          ne_unb_of_lt_startKey hsepab, by rw [hgv]⟩
    · obtain ⟨l1, a, hLov, hx, -⟩ := map_concat_split heq3
      subst hx
      subst hy
      have ha_ov : a ∈ overlapping m q := by
        rw [hLov]
        exact List.mem_append.mpr (Or.inr (List.mem_singleton_self a))
      constructor
      · exact Or.inr ⟨a, ((ov_mem_iff hInv).mp ha_ov).1,
          hInv.2 a ((ov_mem_iff hInv).mp ha_ov).1,
          ends_ne_unb_of_not_ec hInv hec a ha_ov, by rw [hgv]⟩
      · refine Or.inl ?_
        rw [hgv]
        exact flip_bound_flip_bound q.endb
  · rw [gaps_form_D hsc hec] at hg
    obtain ⟨pre, x, y, post, heq, hgv, -⟩ := gapsW_mem_elim hg
    obtain ⟨l1, a, b, l2, hLov, hx, hy, -, -⟩ := map_adj_split heq.symm
    subst hx
    subst hy
    have hovP2 := hovP
    rw [hLov] at hovP2
    have hsepab : entrySep a b :=
      (List.pairwise_cons.mp (hovP2.sublist
        (List.sublist_append_right l1 _))).1 b (List.mem_cons_self b l2)
    have ha_ov : a ∈ overlapping m q := by
      rw [hLov]
      exact List.mem_append.mpr (Or.inr (List.mem_cons_self a _))
    have hb_ov : b ∈ overlapping m q := by
      rw [hLov]
      exact List.mem_append.mpr (Or.inr (List.mem_cons_of_mem a
        (List.mem_cons_self b l2)))
    constructor
    · exact Or.inr ⟨a, ((ov_mem_iff hInv).mp ha_ov).1,
        hInv.2 a ((ov_mem_iff hInv).mp ha_ov).1,
        ne_unb_of_endKey_lt hsepab, by rw [hgv]⟩
    · exact Or.inr ⟨b, ((ov_mem_iff hInv).mp hb_ov).1,
        hInv.2 b ((ov_mem_iff hInv).mp hb_ov).1,
        ne_unb_of_lt_startKey hsepab, by rw [hgv]⟩

/-- No valid uncovered-within-the-query range strictly extends an
enumerated gap: the gaps are maximal. -/
theorem gap_maximal [DenselyOrdered I] [NoMinOrder I] [NoMaxOrder I]
    [Nonempty I] {m : RBMap I V} {q : Rg I} (hInv : MapInv m)
    (hvq : is_valid_range q = true) {g : RBound I × RBound I}
    (hg : g ∈ gaps m q) {g' : Rg I} (hval' : is_valid_range g' = true)
    (hunc' : ∀ p : I, containsPoint g' p →
      containsPoint q p ∧ ∀ e ∈ m, ¬ containsPoint e.1 p)
    (hsub1 : startKey g'.start ≤ startKey g.1)
    (hsub2 : endKey g.2 ≤ endKey g'.endb) :
    startKey g'.start = startKey g.1 ∧ endKey g'.endb = endKey g.2 := by
  have hvg := gaps_valid hg
  have hvgk : startKey g.1 ≤ endKey g.2 := is_valid_range_iff.mp hvg
  obtain ⟨hleft, hright⟩ := gap_boundary hInv hvq hg
  constructor
  · by_contra hne
    have hlt : startKey g'.start < startKey g.1 := lt_of_le_of_ne hsub1 hne
    rcases hleft with hqs | ⟨E, hEm, hEval, hEne, hE1⟩
    · rw [hqs] at hlt
      obtain ⟨p', h1', h2'⟩ := exists_point_between_startKeys hlt
      have hp'g' : containsPoint g' p' := by
        refine ⟨h1', ?_⟩
        rw [← hqs] at h2'
        exact le_trans (le_of_lt (lt_of_lt_of_le h2' hvgk)) hsub2
      have hq' := (hunc' p' hp'g').1
      rw [← hqs] at h2'
      rw [hqs] at h2'
      exact absurd (lt_of_le_of_lt hq'.1 h2') (lt_irrefl _)
    · rw [hE1] at hlt
      have hle : startKey g'.start ≤ endKey E.1.endb := by
        by_contra hc
        have hc2 : endKey E.1.endb < startKey g'.start := lt_of_not_le hc
        exact absurd (lt_of_le_of_lt
          ((startKey_flip_le_iff hEne _).mpr hc2) hlt) (lt_irrefl _)
      have h2 : startKey E.1.start ≤ endKey g'.endb := by
        refine le_trans (is_valid_range_iff.mp hEval) (le_trans
          (le_of_lt (endKey_lt_startKey_flip hEne)) ?_)
        rw [← hE1]
        exact le_trans hvgk hsub2
      obtain ⟨p', hp'g', hp'E⟩ := exists_point_common hval' hEval hle h2
      exact absurd hp'E ((hunc' p' hp'g').2 E hEm)
  · by_contra hne
    have hlt : endKey g.2 < endKey g'.endb :=
      lt_of_le_of_ne hsub2 (fun h => hne h.symm)
    rcases hright with hqe | ⟨F, hFm, hFval, hFne, hF2⟩
    · rw [hqe] at hlt
      obtain ⟨p', h1', h2'⟩ := exists_point_between_endKeys hlt
      have hp'g' : containsPoint g' p' := by
        refine ⟨?_, h2'⟩
        rw [← hqe] at h1'
        exact le_trans hsub1 (le_of_lt (lt_of_le_of_lt hvgk h1'))
      have hq' := (hunc' p' hp'g').1
      exact absurd (lt_of_lt_of_le h1' hq'.2) (lt_irrefl _)
    · rw [hF2] at hlt
      have hle : startKey F.1.start ≤ endKey g'.endb := by
        by_contra hc
        have hc2 : endKey g'.endb < startKey F.1.start := lt_of_not_le hc
        exact absurd (lt_of_lt_of_le hlt
          ((le_endKey_flip_iff hFne _).mpr hc2)) (lt_irrefl _)
      have h1 : startKey g'.start ≤ endKey F.1.endb := by
        refine le_trans hsub1 (le_trans hvgk ?_)
        rw [hF2]
        exact le_trans (le_of_lt (endKey_flip_lt_startKey hFne))
          (is_valid_range_iff.mp hFval)
      obtain ⟨p', hp'g', hp'F⟩ := exists_point_common hval' hFval h1 hle
      exact absurd hp'F ((hunc' p' hp'g').2 F hFm)

/-- C6: for an invariant-satisfying map and a valid query range, `gaps`
enumerates exactly the maximal sub-ranges of the query containing no
covered point, in ascending order: every gap is valid, the gaps' points
are exactly the uncovered points of the query, the gaps are pairwise
separated in ascending order, and no valid uncovered-within-the-query
range strictly extends a gap; moreover `contains_range` holds iff `gaps`
yields nothing iff every point of the query is covered. -/
theorem C6_gaps [DenselyOrdered I] [NoMinOrder I] [NoMaxOrder I]
    [Nonempty I] {m : RBMap I V} {q : Rg I} (hInv : MapInv m)
    (hvq : is_valid_range q = true) :
    (∀ g ∈ gaps m q, is_valid_range ⟨g.1, g.2⟩ = true) ∧
    (∀ p : I, (∃ g ∈ gaps m q, containsPoint ⟨g.1, g.2⟩ p) ↔
      (containsPoint q p ∧ ∀ e ∈ m, ¬ containsPoint e.1 p)) ∧
    List.Pairwise (fun g1 g2 : RBound I × RBound I =>
      endKey g1.2 < startKey g2.1) (gaps m q) ∧
    (∀ g ∈ gaps m q, ∀ g' : Rg I, is_valid_range g' = true →
      (∀ p : I, containsPoint g' p →
        containsPoint q p ∧ ∀ e ∈ m, ¬ containsPoint e.1 p) →
      startKey g'.start ≤ startKey g.1 → endKey g.2 ≤ endKey g'.endb →
      (startKey g'.start = startKey g.1 ∧ endKey g'.endb = endKey g.2)) ∧
    (contains_range m q = true ↔ gaps m q = []) ∧
    (contains_range m q = true ↔
      ∀ p : I, containsPoint q p → ∃ e ∈ m, containsPoint e.1 p) := by
  refine ⟨fun g hg => gaps_valid hg, ?_, gaps_pairwise hInv hvq,
    fun g hg g' hv' hu' h1 h2 => gap_maximal hInv hvq hg hv' hu' h1 h2,
    ?_, ?_⟩
  · intro p
    constructor
    · exact gaps_sound hInv hvq
    · rintro ⟨hq, hunc⟩
      exact uncovered_in_gaps hInv hvq hq hunc
  · unfold contains_range
    rw [List.isEmpty_iff]
  · unfold contains_range
    rw [List.isEmpty_iff]
    constructor
    · intro hnil p hq
      by_contra hc
      push_neg at hc
      obtain ⟨g, hg, -⟩ := uncovered_in_gaps hInv hvq hq hc
      rw [hnil] at hg
      cases hg
    · intro hcov
      rw [List.eq_nil_iff_forall_not_mem]
      intro g hg
      obtain ⟨p, hp1, hp2⟩ := exists_containsPoint_of_valid (gaps_valid hg)
      obtain ⟨hq, hunc⟩ := gaps_sound hInv hvq ⟨g, hg, hp1, hp2⟩
      obtain ⟨e, he, hce⟩ := hcov p hq
      exact hunc e he hce

theorem C6_gaps_witness :
    MapInv ([(⟨RBound.inc (0 : ℚ), RBound.inc 1⟩, true),
      (⟨RBound.inc 3, RBound.inc 4⟩, false)] : RBMap ℚ Bool) ∧
    (contains_range ([(⟨RBound.inc (0 : ℚ), RBound.inc 1⟩, true),
        (⟨RBound.inc 3, RBound.inc 4⟩, false)] : RBMap ℚ Bool)
        ⟨RBound.inc 0, RBound.inc 4⟩ = true ↔
      ∀ p : ℚ, containsPoint (⟨RBound.inc 0, RBound.inc 4⟩ : Rg ℚ) p →
        ∃ e ∈ ([(⟨RBound.inc (0 : ℚ), RBound.inc 1⟩, true),
          (⟨RBound.inc 3, RBound.inc 4⟩, false)] : RBMap ℚ Bool),
          containsPoint e.1 p) ∧
    (∀ g ∈ gaps ([(⟨RBound.inc (0 : ℚ), RBound.inc 1⟩, true),
        (⟨RBound.inc 3, RBound.inc 4⟩, false)] : RBMap ℚ Bool)
        ⟨RBound.inc 0, RBound.inc 4⟩,
      is_valid_range ⟨g.1, g.2⟩ = true) := by
  have h := @C6_gaps ℚ _ Bool _ _ _ _
    ([(⟨RBound.inc (0 : ℚ), RBound.inc 1⟩, true),
      (⟨RBound.inc 3, RBound.inc 4⟩, false)] : RBMap ℚ Bool)
    ⟨RBound.inc 0, RBound.inc 4⟩ (by decide) (by decide)
  exact ⟨by decide, h.2.2.2.2.2, h.1⟩

theorem overlaps_false_of_right {a b : Rg I}
    (h : endKey b.endb < startKey a.start) : overlaps a b = false := by
  rcases hb : overlaps a b with _ | _
  · rfl
  · exact absurd (lt_of_le_of_lt (overlaps_iff.mp hb).1 h) (lt_irrefl _)

theorem overlaps_false_of_left {a b : Rg I}
    (h : endKey a.endb < startKey b.start) : overlaps a b = false := by
  rcases hb : overlaps a b with _ | _
  · rfl
  · exact absurd (lt_of_le_of_lt (overlaps_iff.mp hb).2 h) (lt_irrefl _)

theorem overlaps_false_cases {a b : Rg I} (h : overlaps a b = false) :
    endKey b.endb < startKey a.start ∨ endKey a.endb < startKey b.start := by
  by_contra hc
  push_neg at hc
  rw [overlaps_iff.mpr ⟨hc.1, hc.2⟩] at h
  cases h

theorem lex_chain_absurd {p x y : I} {k ks ke : Int}
    (h1 : p < x ∨ (p = x ∧ k < ks))
    (h2 : x < y ∨ (x = y ∧ ks ≤ ke))
    (h3 : y < p ∨ (y = p ∧ ke < k + 1)) : False := by
  have hpx : p ≤ x := by
    rcases h1 with h | ⟨h, -⟩
    · exact le_of_lt h
    · exact le_of_eq h
  have hxy : x ≤ y := by
    rcases h2 with h | ⟨h, -⟩
    · exact le_of_lt h
    · exact le_of_eq h
  have hyp : y ≤ p := by
    rcases h3 with h | ⟨h, -⟩
    · exact le_of_lt h
    · exact le_of_eq h
  have hpx2 : p = x := le_antisymm hpx (le_trans hxy hyp)
  have hxy2 : x = y := le_antisymm hxy (le_trans hyp hpx)
  have hyp2 : y = p := le_antisymm hyp (le_trans hpx hxy)
  rcases h1 with h | ⟨-, hk1⟩
  · rw [hpx2] at h
    exact absurd h (lt_irrefl _)
  rcases h2 with h | ⟨-, hk2⟩
  · rw [hxy2] at h
    exact absurd h (lt_irrefl _)
  rcases h3 with h | ⟨-, hk3⟩
  · rw [hyp2] at h
    exact absurd h (lt_irrefl _)
  omega

/-- No valid range fits strictly between two adjacent endpoint keys. -/
theorem sandwich_impossible {p : I} {k : Int} {e : Rg I}
    (hve : is_valid_range e = true)
    (h1 : ekFin p k < startKey e.start)
    (h2 : endKey e.endb < ekFin p (k + 1)) : False := by
  have hv := is_valid_range_iff.mp hve
  cases hs : e.start with
  | unb =>
    rw [hs] at h1
    exact absurd h1 (not_ekFin_lt_ekBot p k)
  | inc x =>
    cases he : e.endb with
    | unb =>
      rw [he] at h2
      exact absurd h2 (not_ekTop_lt_ekFin p (k + 1))
    | inc y =>
      rw [hs, he] at hv
      rw [hs] at h1
      rw [he] at h2
      have h1' : ekFin p k < ekFin x 0 := h1
      have h2' : ekFin y 0 < ekFin p (k + 1) := h2
      have hv' : ekFin x 0 ≤ ekFin y 0 := hv
      exact lex_chain_absurd (ekFin_lt_ekFin.mp h1') (ekFin_le_ekFin.mp hv')
        (ekFin_lt_ekFin.mp h2')
    | exc y =>
      rw [hs, he] at hv
      rw [hs] at h1
      rw [he] at h2
      have h1' : ekFin p k < ekFin x 0 := h1
      have h2' : ekFin y (-1) < ekFin p (k + 1) := h2
      have hv' : ekFin x 0 ≤ ekFin y (-1) := hv
      exact lex_chain_absurd (ekFin_lt_ekFin.mp h1') (ekFin_le_ekFin.mp hv')
        (ekFin_lt_ekFin.mp h2')
  | exc x =>
    cases he : e.endb with
    | unb =>
      rw [he] at h2
      exact absurd h2 (not_ekTop_lt_ekFin p (k + 1))
    | inc y =>
      rw [hs, he] at hv
      rw [hs] at h1
      rw [he] at h2
      have h1' : ekFin p k < ekFin x 1 := h1
      have h2' : ekFin y 0 < ekFin p (k + 1) := h2
      have hv' : ekFin x 1 ≤ ekFin y 0 := hv
      exact lex_chain_absurd (ekFin_lt_ekFin.mp h1') (ekFin_le_ekFin.mp hv')
        (ekFin_lt_ekFin.mp h2')
    | exc y =>
      rw [hs, he] at hv
      rw [hs] at h1
      rw [he] at h2
      have h1' : ekFin p k < ekFin x 1 := h1
      have h2' : ekFin y (-1) < ekFin p (k + 1) := h2
      have hv' : ekFin x 1 ≤ ekFin y (-1) := hv
      exact lex_chain_absurd (ekFin_lt_ekFin.mp h1') (ekFin_le_ekFin.mp hv')
        (ekFin_lt_ekFin.mp h2')

/-- A surviving entry never overlaps the merged range: the merged range
reaches only as far as an adjacent (touching or overlapping) neighbour's
own endpoint on each side. -/
theorem merged_noov {m : RBMap I V} (hInv : MapInv m) {r : Rg I}
    (hvr : is_valid_range r = true) {s en : RBound I} {e : Rg I × V}
    (he : e ∈ m) (hno_e : overlaps e.1 r = false)
    (hs : (∃ l ∈ m, touching_start_comp r.start l.1 = .eq ∧
            s = l.1.start ∧ e ≠ l) ∨
          (∃ l ∈ m, overlapping_start_comp r.start l.1 = .eq ∧
            s = l.1.start) ∨ s = r.start)
    (hen : (∃ u ∈ m, touching_end_comp r.endb u.1 = .eq ∧
            en = u.1.endb ∧ e ≠ u) ∨
           (∃ u ∈ m, overlapping_end_comp r.endb u.1 = .eq ∧
            en = u.1.endb) ∨ en = r.endb) :
    overlaps e.1 (⟨s, en⟩ : Rg I) = false := by
  have hve : is_valid_range e.1 = true := hInv.2 e he
  rcases overlaps_false_cases hno_e with hright | hleft
  · rcases hen with ⟨u, hu, hcu, hen_eq, hne⟩ | ⟨u, hu, hcu, hen_eq⟩ | hen_eq
    · subst hen_eq
      rcases pairwise_cases hInv.1 he hu with heq | hsep | hsep
      · exact absurd heq hne
      · exfalso
        rcases touching_end_comp_eq_iff.mp hcu with ⟨p, hp1, hp2⟩ |
          ⟨p, hp1, hp2⟩
        · have hr' : ekFin p 0 < startKey e.1.start := by
            rw [hp1] at hright
            exact hright
          have hu' : endKey e.1.endb < ekFin p (0 + 1) := by
            have hx : endKey e.1.endb < startKey u.1.start := hsep
            rw [hp2] at hx
            exact hx
          exact sandwich_impossible hve hr' hu'
        · have hr' : ekFin p (-1) < startKey e.1.start := by
            rw [hp1] at hright
            exact hright
          have hu' : endKey e.1.endb < ekFin p (-1 + 1) := by
            have hx : endKey e.1.endb < startKey u.1.start := hsep
            rw [hp2] at hx
            exact hx
          exact sandwich_impossible hve hr' hu'
      · exact overlaps_false_of_right hsep
    · subst hen_eq
      obtain ⟨hc1, hc2⟩ := cmp_rwb_eq_iff.mp hcu
      rcases pairwise_cases hInv.1 he hu with heq | hsep | hsep
      · exfalso
        have hov_u : overlaps u.1 r = true := overlaps_iff.mpr
          ⟨hc1, le_trans (is_valid_range_iff.mp hvr) hc2⟩
        rw [heq] at hno_e
        rw [hov_u] at hno_e
        cases hno_e
      · exfalso
        have hx : endKey e.1.endb < startKey u.1.start := hsep
        exact absurd (lt_of_le_of_lt (is_valid_range_iff.mp hve)
          (lt_trans (lt_of_lt_of_le hx hc1) hright)) (lt_irrefl _)
      · exact overlaps_false_of_right hsep
    · subst hen_eq
      exact overlaps_false_of_right hright
  · rcases hs with ⟨l, hl, hcl, hs_eq, hne⟩ | ⟨l, hl, hcl, hs_eq⟩ | hs_eq
    · subst hs_eq
      rcases pairwise_cases hInv.1 he hl with heq | hsep | hsep
      · exact absurd heq hne
      · exact overlaps_false_of_left hsep
      · exfalso
        rcases touching_start_comp_eq_iff.mp hcl with ⟨p, hp1, hp2⟩ |
          ⟨p, hp1, hp2⟩
        · have hr' : ekFin p 0 < startKey e.1.start := by
            have hx : endKey l.1.endb < startKey e.1.start := hsep
            rw [hp1] at hx
            exact hx
          have hu' : endKey e.1.endb < ekFin p (0 + 1) := by
            rw [hp2] at hleft
            exact hleft
          exact sandwich_impossible hve hr' hu'
        · have hr' : ekFin p (-1) < startKey e.1.start := by
            have hx : endKey l.1.endb < startKey e.1.start := hsep
            rw [hp1] at hx
            exact hx
          have hu' : endKey e.1.endb < ekFin p (-1 + 1) := by
            rw [hp2] at hleft
            exact hleft
          exact sandwich_impossible hve hr' hu'
    · subst hs_eq
      obtain ⟨hc1, hc2⟩ := cmp_rwb_eq_iff.mp hcl
      rcases pairwise_cases hInv.1 he hl with heq | hsep | hsep
      · exfalso
        have hov_l : overlaps l.1 r = true := overlaps_iff.mpr
          ⟨le_trans hc1 (is_valid_range_iff.mp hvr), hc2⟩
        rw [heq] at hno_e
        rw [hov_l] at hno_e
        cases hno_e
      · exact overlaps_false_of_left hsep
      · exfalso
        have hx : endKey l.1.endb < startKey e.1.start := hsep
        exact absurd (lt_of_le_of_lt (is_valid_range_iff.mp hve)
          (lt_trans (lt_of_lt_of_le hleft hc2) hx)) (lt_irrefl _)
    · subst hs_eq
      exact overlaps_false_of_left hleft

/-- The store right before the final insertion of a merging insert: the
overlap drain followed by the two side-neighbour removal callbacks. -/
def mergeRem (m : RBMap I V) (r : Rg I) (v : V)
    (rs re : RBMap I V → V → RBMap I V) : RBMap I V :=
  re (rs ((btDrainFilter (fun e => overlaps e.1 r) m).2) v) v

theorem imwc_eq {P : Rg I → Bool} {m : RBMap I V} {r : Rg I} {v : V}
    {gs ge : RBMap I V → V → Option (Rg I)}
    {rs re : RBMap I V → V → RBMap I V} {m' : RBMap I V} {ret : Rg I}
    (h : insert_merge_with_comps P m r v gs ge rs re = (m', .ok ret)) :
    m' = insert_unchecked (mergeRem m r v rs re) ret v ∧
    merge_returning P r (gs m v) (ge m v) = .ok ret := by
  unfold insert_merge_with_comps at h
  rcases hmr : merge_returning P r (gs m v) (ge m v) with er | returning
  · rw [hmr] at h
    have h2 : (Except.error er : Except TryFromBoundsError (Rg I)) = .ok ret :=
      congrArg Prod.snd h
    cases h2
  · rw [hmr] at h
    have h1 : insert_unchecked (mergeRem m r v rs re) returning v = m' :=
      congrArg Prod.fst h
    have h2 : (Except.ok returning : Except TryFromBoundsError (Rg I)) = .ok ret :=
      congrArg Prod.snd h
    have h3 := Except.ok.inj h2
    subst h3
    exact ⟨h1.symm, rfl⟩

theorem merge_returning_cases {P : Rg I → Bool} {r : Rg I}
    {os oe : Option (Rg I)} {ret : Rg I}
    (h : merge_returning P r os oe = .ok ret) :
    ((os = none ∧ ret.start = r.start) ∨
      (∃ ms, os = some ms ∧ ret.start = ms.start)) ∧
    ((oe = none ∧ ret.endb = r.endb) ∨
      (∃ me, oe = some me ∧ ret.endb = me.endb)) ∧
    (ret = r ∨ P ret = true) := by
  rcases os with _ | ms <;> rcases oe with _ | me
  · have h2 : (Except.ok r : Except TryFromBoundsError (Rg I)) = .ok ret := h
    have h3 := Except.ok.inj h2
    subst h3
    exact ⟨Or.inl ⟨rfl, rfl⟩, Or.inl ⟨rfl, rfl⟩, Or.inl rfl⟩
  · have h2 : try_from_bounds P r.start me.endb = .ok ret := h
    unfold try_from_bounds at h2
    rcases hP : P ⟨r.start, me.endb⟩ with _ | _ <;> rw [hP] at h2
    · have h3 : (Except.error .tryFromBoundsError :
          Except TryFromBoundsError (Rg I)) = .ok ret := h2
      cases h3
    · have h3 : (Except.ok (⟨r.start, me.endb⟩ : Rg I) :
          Except TryFromBoundsError (Rg I)) = .ok ret := h2
      have h4 := Except.ok.inj h3
      subst h4
      exact ⟨Or.inl ⟨rfl, rfl⟩, Or.inr ⟨me, rfl, rfl⟩, Or.inr hP⟩
  · have h2 : try_from_bounds P ms.start r.endb = .ok ret := h
    unfold try_from_bounds at h2
    rcases hP : P ⟨ms.start, r.endb⟩ with _ | _ <;> rw [hP] at h2
    · have h3 : (Except.error .tryFromBoundsError :
          Except TryFromBoundsError (Rg I)) = .ok ret := h2
      cases h3
    · have h3 : (Except.ok (⟨ms.start, r.endb⟩ : Rg I) :
          Except TryFromBoundsError (Rg I)) = .ok ret := h2
      have h4 := Except.ok.inj h3
      subst h4
      exact ⟨Or.inr ⟨ms, rfl, rfl⟩, Or.inl ⟨rfl, rfl⟩, Or.inr hP⟩
  · have h2 : try_from_bounds P ms.start me.endb = .ok ret := h
    unfold try_from_bounds at h2
    rcases hP : P ⟨ms.start, me.endb⟩ with _ | _ <;> rw [hP] at h2
    · have h3 : (Except.error .tryFromBoundsError :
          Except TryFromBoundsError (Rg I)) = .ok ret := h2
      cases h3
    · have h3 : (Except.ok (⟨ms.start, me.endb⟩ : Rg I) :
          Except TryFromBoundsError (Rg I)) = .ok ret := h2
      have h4 := Except.ok.inj h3
      subst h4
      exact ⟨Or.inr ⟨ms, rfl, rfl⟩, Or.inr ⟨me, rfl, rfl⟩, Or.inr hP⟩

theorem btRemove_snd_sublist {comp : Rg I → Ordering} :
    ∀ (m : RBMap I V), ((btRemove comp m).2).Sublist m := by
  intro m
  induction m with
  | nil => exact List.Sublist.refl _
  | cons e rest ih =>
    by_cases hc : comp e.1 = .eq
    · have hr : (btRemove comp (e :: rest)).2 = rest := by
        unfold btRemove
        rw [if_pos hc]
      rw [hr]
      exact List.sublist_cons_self e rest
    · have hr : (btRemove comp (e :: rest)).2 = e :: (btRemove comp rest).2 := by
        show (if comp e.1 = .eq then ((some e.2 : Option V), rest)
          else ((btRemove comp rest).1, e :: (btRemove comp rest).2)).2 =
          e :: (btRemove comp rest).2
        rw [if_neg hc]
      rw [hr]
      exact List.Sublist.cons₂ e ih

/-- Master lemma for the four merging inserts: given that the side
lookups only report stored neighbours matched by a touching comparator
(then removed before reinsertion) or an overlapping comparator, a
successful merging insert preserves the invariant and every resulting
entry is an old entry or carries the merged range. -/
theorem imwc_master {P : Rg I → Bool} {m : RBMap I V} {r : Rg I} {v : V}
    {gs ge : RBMap I V → V → Option (Rg I)}
    {rs re : RBMap I V → V → RBMap I V} {m' : RBMap I V} {ret : Rg I}
    (hInv : MapInv m) (hvr : is_valid_range r = true)
    (h : insert_merge_with_comps P m r v gs ge rs re = (m', .ok ret))
    (hsub2 : (mergeRem m r v rs re).Sublist
      ((btDrainFilter (fun e => overlaps e.1 r) m).2))
    (hOS : ∀ ms, gs m v = some ms → ∃ l ∈ m, ms.start = l.1.start ∧
        ((touching_start_comp r.start l.1 = .eq ∧
          ∀ x ∈ mergeRem m r v rs re, x ≠ l) ∨
         overlapping_start_comp r.start l.1 = .eq))
    (hOE : ∀ me, ge m v = some me → ∃ u ∈ m, me.endb = u.1.endb ∧
        ((touching_end_comp r.endb u.1 = .eq ∧
          ∀ x ∈ mergeRem m r v rs re, x ≠ u) ∨
         overlapping_end_comp r.endb u.1 = .eq)) :
    MapInv m' ∧ (∀ x ∈ m', x ∈ m ∨ x.1 = ret) ∧ (ret = r ∨ P ret = true) := by
  obtain ⟨hm', hmr⟩ := imwc_eq h
  obtain ⟨hsc, hec, hretp⟩ := merge_returning_cases hmr
  have hstart : startKey ret.start ≤ endKey r.endb ∧
      ((∃ l ∈ m, touching_start_comp r.start l.1 = .eq ∧
          ret.start = l.1.start ∧ ∀ x ∈ mergeRem m r v rs re, x ≠ l) ∨
       (∃ l ∈ m, overlapping_start_comp r.start l.1 = .eq ∧
          ret.start = l.1.start) ∨ ret.start = r.start) := by
    rcases hsc with ⟨hn, he⟩ | ⟨ms, hs, he⟩
    · refine ⟨?_, Or.inr (Or.inr he)⟩
      rw [he]
      exact is_valid_range_iff.mp hvr
    · obtain ⟨l, hl, hms, hcase⟩ := hOS ms hs
      rcases hcase with ⟨hct, hnx⟩ | hco
      · refine ⟨?_, Or.inl ⟨l, hl, hct, by rw [he, hms], hnx⟩⟩
        rw [he, hms]
        exact le_trans (is_valid_range_iff.mp (hInv.2 l hl))
          (le_of_lt (lt_of_lt_of_le (touching_start_lt hct)
            (is_valid_range_iff.mp hvr)))
      · refine ⟨?_, Or.inr (Or.inl ⟨l, hl, hco, by rw [he, hms]⟩)⟩
        rw [he, hms]
        exact le_trans (cmp_rwb_eq_iff.mp hco).1 (is_valid_range_iff.mp hvr)
  have hend : endKey r.endb ≤ endKey ret.endb ∧
      ((∃ u ∈ m, touching_end_comp r.endb u.1 = .eq ∧
          ret.endb = u.1.endb ∧ ∀ x ∈ mergeRem m r v rs re, x ≠ u) ∨
       (∃ u ∈ m, overlapping_end_comp r.endb u.1 = .eq ∧
          ret.endb = u.1.endb) ∨ ret.endb = r.endb) := by
    rcases hec with ⟨hn, he⟩ | ⟨me, hs, he⟩
    · refine ⟨?_, Or.inr (Or.inr he)⟩
      rw [he]
    · obtain ⟨u, hu, hme, hcase⟩ := hOE me hs
      rcases hcase with ⟨hct, hnx⟩ | hco
      · refine ⟨?_, Or.inl ⟨u, hu, hct, by rw [he, hme], hnx⟩⟩
        rw [he, hme]
        exact le_of_lt (lt_of_lt_of_le (touching_end_lt hct)
          (is_valid_range_iff.mp (hInv.2 u hu)))
      · refine ⟨?_, Or.inr (Or.inl ⟨u, hu, hco, by rw [he, hme]⟩)⟩
        rw [he, hme]
        exact (cmp_rwb_eq_iff.mp hco).2
  have hval : is_valid_range ret = true :=
    is_valid_range_iff.mpr (le_trans hstart.1 hend.1)
  have hmem2 : ∀ x ∈ mergeRem m r v rs re, x ∈ m ∧ overlaps x.1 r = false := by
    intro x hx
    have hx2 := hsub2.mem hx
    obtain ⟨hxm, hxp⟩ := List.mem_filter.mp hx2
    rw [Bool.not_eq_true'] at hxp
    exact ⟨hxm, hxp⟩
  have hInvRem : MapInv (mergeRem m r v rs re) :=
    hInv.sublist (List.Sublist.trans hsub2 (List.filter_sublist m))
  have hno : ∀ x ∈ mergeRem m r v rs re, overlaps x.1 ret = false := by
    intro x hx
    obtain ⟨hxm, hxno⟩ := hmem2 x hx
    have hsS : (∃ l ∈ m, touching_start_comp r.start l.1 = .eq ∧
          ret.start = l.1.start ∧ x ≠ l) ∨
        (∃ l ∈ m, overlapping_start_comp r.start l.1 = .eq ∧
          ret.start = l.1.start) ∨ ret.start = r.start := by
      rcases hstart.2 with ⟨l, hl, hct, heq, hnx⟩ | h2 | h3
      · exact Or.inl ⟨l, hl, hct, heq, hnx x hx⟩
      · exact Or.inr (Or.inl h2)
      · exact Or.inr (Or.inr h3)
    have hsE : (∃ u ∈ m, touching_end_comp r.endb u.1 = .eq ∧
          ret.endb = u.1.endb ∧ x ≠ u) ∨
        (∃ u ∈ m, overlapping_end_comp r.endb u.1 = .eq ∧
          ret.endb = u.1.endb) ∨ ret.endb = r.endb := by
      rcases hend.2 with ⟨u, hu, hct, heq, hnx⟩ | h2 | h3
      · exact Or.inl ⟨u, hu, hct, heq, hnx x hx⟩
      · exact Or.inr (Or.inl h2)
      · exact Or.inr (Or.inr h3)
    exact merged_noov hInv hvr hxm hxno hsS hsE
  subst hm'
  refine ⟨MapInv.insert hInvRem hval hno, ?_, hretp⟩
  intro x hx
  rcases btInsert_mem_weak hx with rfl | hxm
  · exact Or.inr rfl
  · exact Or.inl (hmem2 x hxm).1

theorem removed_ts {m2 : RBMap I V} (hInv2 : MapInv m2) {s : RBound I}
    {x : Rg I × V} {Y : RBMap I V}
    (hY : Y.Sublist ((btRemove (touching_start_comp s) m2).2))
    (hx : x ∈ Y) : touching_start_comp s x.1 ≠ .eq := by
  have hlen := filter_matches_length_le_one hInv2 (touching_start_unique hInv2 s)
  have hxX := hY.mem hx
  rw [btRemove_snd_eq_filter hlen] at hxX
  obtain ⟨-, hc⟩ := List.mem_filter.mp hxX
  intro heq
  rw [heq] at hc
  exact absurd hc (by decide)

theorem removed_te {m2 : RBMap I V} (hInv2 : MapInv m2) {e : RBound I}
    {x : Rg I × V} {Y : RBMap I V}
    (hY : Y.Sublist ((btRemove (touching_end_comp e) m2).2))
    (hx : x ∈ Y) : touching_end_comp e x.1 ≠ .eq := by
  have hlen := filter_matches_length_le_one hInv2 (touching_end_unique hInv2 e)
  have hxX := hY.mem hx
  rw [btRemove_snd_eq_filter hlen] at hxX
  obtain ⟨-, hc⟩ := List.mem_filter.mp hxX
  intro heq
  rw [heq] at hc
  exact absurd hc (by decide)

theorem cond_remove_sublist {c : Bool} {comp : Rg I → Ordering}
    (X : RBMap I V) :
    (if c then (btRemove comp X).2 else X).Sublist X := by
  rcases c with _ | _
  · exact List.Sublist.refl _
  · exact btRemove_snd_sublist _

theorem insert_strict_ok {m : RBMap I V} {r : Rg I} {v : V}
    {m' : RBMap I V} (hInv : MapInv m) (hvr : is_valid_range r = true)
    (h : insert_strict m r v = (m', .ok ())) :
    MapInv m' ∧ ∀ x ∈ m', x ∈ m ∨ x.1 = r := by
  unfold insert_strict at h
  rcases hov : overlaps_map m r with _ | _ <;> rw [hov] at h
  · have h2 : ((insert_unchecked m r v : RBMap I V),
        (Except.ok () : Except OverlapError Unit)) = (m', .ok ()) := h
    have h1 : insert_unchecked m r v = m' := congrArg Prod.fst h2
    subst h1
    have hno : ∀ e ∈ m, overlaps e.1 r = false := by
      intro e he
      rcases hb : overlaps e.1 r with _ | _
      · rfl
      · have hx := (overlaps_map_iff hInv.2).mpr ⟨e, he, hb⟩
        rw [hov] at hx
        cases hx
    refine ⟨MapInv.insert hInv hvr hno, ?_⟩
    intro x hx
    rcases btInsert_mem_weak hx with rfl | hxm
    · exact Or.inr rfl
    · exact Or.inl hxm
  · have h2 : (Except.error OverlapError.overlapError :
        Except OverlapError Unit) = .ok () := congrArg Prod.snd h
    cases h2

theorem wrapper_ok {core : RBMap I V × Except TryFromBoundsError (Rg I)}
    {mm m' : RBMap I V} {ret : Rg I} {b : Bool}
    (h : (if b then
        (mm, Except.error (OverlapOrTryFromBoundsError.Overlap .overlapError))
      else (core.1, core.2.mapError .TryFromBounds)) = (m', .ok ret)) :
    core = (m', .ok ret) ∧ b = false := by
  rcases b with _ | _
  · have h2 : (core.1, core.2.mapError
        OverlapOrTryFromBoundsError.TryFromBounds) = (m', Except.ok ret) := h
    have hfst : core.1 = m' := congrArg Prod.fst h2
    have hsnd := congrArg Prod.snd h2
    rcases hc : core.2 with er | k
    · rw [hc] at hsnd
      have h3 : (Except.error (OverlapOrTryFromBoundsError.TryFromBounds er) :
          Except OverlapOrTryFromBoundsError (Rg I)) = .ok ret := hsnd
      cases h3
    · rw [hc] at hsnd
      have h3 : (Except.ok k : Except OverlapOrTryFromBoundsError (Rg I)) =
          .ok ret := hsnd
      have h4 := Except.ok.inj h3
      subst h4
      refine ⟨?_, rfl⟩
      have hpair : core = (core.1, core.2) := rfl
      rw [hpair, hfst, hc]
  · have h3 : (Except.error (OverlapOrTryFromBoundsError.Overlap .overlapError) :
        Except OverlapOrTryFromBoundsError (Rg I)) = .ok ret := congrArg Prod.snd h
    cases h3

theorem imt_core_inv {P : Rg I → Bool} {m : RBMap I V} {r : Rg I} {v : V}
    {m' : RBMap I V} {ret : Rg I} (hInv : MapInv m)
    (hvr : is_valid_range r = true)
    (h : insert_merge_touching_core P m r v = (m', .ok ret)) :
    MapInv m' ∧ (∀ x ∈ m', x ∈ m ∨ x.1 = ret) ∧ (ret = r ∨ P ret = true) := by
  have hInv2 : MapInv ((btDrainFilter (fun e => overlaps e.1 r) m).2) :=
    hInv.sublist (List.filter_sublist m)
  unfold insert_merge_touching_core at h
  refine imwc_master hInv hvr h ?_ ?_ ?_
  · exact List.Sublist.trans (btRemove_snd_sublist _) (btRemove_snd_sublist _)
  · intro ms hs
    have hs2 : (btGetKeyValue (touching_start_comp r.start) m).map Prod.fst =
        some ms := hs
    rcases hf : btGetKeyValue (touching_start_comp r.start) m with _ | l
    · rw [hf] at hs2
      have hs3 : (none : Option (Rg I)) = some ms := hs2
      cases hs3
    · rw [hf] at hs2
      have hs3 : some l.1 = some ms := hs2
      have hms := Option.some.inj hs3
      obtain ⟨hlm, hlc⟩ :=
        (btGetKeyValue_eq_some_iff (touching_start_unique hInv r.start)).mp hf
      refine ⟨l, hlm, by rw [← hms], Or.inl ⟨hlc, ?_⟩⟩
      intro x hx hxl
      have hx2 : x ∈ (btRemove (touching_end_comp r.endb)
          ((btRemove (touching_start_comp r.start)
            ((btDrainFilter (fun e => overlaps e.1 r) m).2)).2)).2 := hx
      have hne := removed_ts hInv2 (btRemove_snd_sublist _) hx2
      rw [hxl] at hne
      exact hne hlc
  · intro me hs
    have hs2 : (btGetKeyValue (touching_end_comp r.endb) m).map Prod.fst =
        some me := hs
    rcases hf : btGetKeyValue (touching_end_comp r.endb) m with _ | u
    · rw [hf] at hs2
      have hs3 : (none : Option (Rg I)) = some me := hs2
      cases hs3
    · rw [hf] at hs2
      have hs3 : some u.1 = some me := hs2
      have hme := Option.some.inj hs3
      obtain ⟨hum, huc⟩ :=
        (btGetKeyValue_eq_some_iff (touching_end_unique hInv r.endb)).mp hf
      refine ⟨u, hum, by rw [← hme], Or.inl ⟨huc, ?_⟩⟩
      intro x hx hxu
      have hx2 : x ∈ (btRemove (touching_end_comp r.endb)
          ((btRemove (touching_start_comp r.start)
            ((btDrainFilter (fun e => overlaps e.1 r) m).2)).2)).2 := hx
      have hInvX : MapInv ((btRemove (touching_start_comp r.start)
          ((btDrainFilter (fun e => overlaps e.1 r) m).2)).2) :=
        hInv2.sublist (btRemove_snd_sublist _)
      have hne := removed_te hInvX (List.Sublist.refl _) hx2
      rw [hxu] at hne
      exact hne huc

theorem imt_inv {P : Rg I → Bool} {m : RBMap I V} {r : Rg I} {v : V}
    {m' : RBMap I V} {ret : Rg I} (hInv : MapInv m)
    (hvr : is_valid_range r = true)
    (h : insert_merge_touching P m r v = (m', .ok ret)) :
    MapInv m' ∧ (∀ x ∈ m', x ∈ m ∨ x.1 = ret) ∧ (ret = r ∨ P ret = true) := by
  unfold insert_merge_touching at h
  obtain ⟨hcore, -⟩ := wrapper_ok h
  exact imt_core_inv hInv hvr hcore

theorem imo_inv {P : Rg I → Bool} {m : RBMap I V} {r : Rg I} {v : V}
    {m' : RBMap I V} {ret : Rg I} (hInv : MapInv m)
    (hvr : is_valid_range r = true)
    (h : insert_merge_overlapping P m r v = (m', .ok ret)) :
    MapInv m' ∧ (∀ x ∈ m', x ∈ m ∨ x.1 = ret) ∧ (ret = r ∨ P ret = true) := by
  unfold insert_merge_overlapping at h
  refine imwc_master hInv hvr h ?_ ?_ ?_
  · exact List.Sublist.refl _
  · intro ms hs
    have hs2 : (btGetKeyValue (overlapping_start_comp r.start) m).map Prod.fst =
        some ms := hs
    rcases hf : btGetKeyValue (overlapping_start_comp r.start) m with _ | l
    · rw [hf] at hs2
      have hs3 : (none : Option (Rg I)) = some ms := hs2
      cases hs3
    · rw [hf] at hs2
      have hs3 : some l.1 = some ms := hs2
      have hms := Option.some.inj hs3
      obtain ⟨hlm, hlc⟩ :=
        (btGetKeyValue_eq_some_iff (cmp_rwb_unique hInv (startKey r.start))).mp hf
      exact ⟨l, hlm, by rw [← hms], Or.inr hlc⟩
  · intro me hs
    have hs2 : (btGetKeyValue (overlapping_end_comp r.endb) m).map Prod.fst =
        some me := hs
    rcases hf : btGetKeyValue (overlapping_end_comp r.endb) m with _ | u
    · rw [hf] at hs2
      have hs3 : (none : Option (Rg I)) = some me := hs2
      cases hs3
    · rw [hf] at hs2
      have hs3 : some u.1 = some me := hs2
      have hme := Option.some.inj hs3
      obtain ⟨hum, huc⟩ :=
        (btGetKeyValue_eq_some_iff (cmp_rwb_unique hInv (endKey r.endb))).mp hf
      exact ⟨u, hum, by rw [← hme], Or.inr huc⟩

theorem imtoo_inv {P : Rg I → Bool} {m : RBMap I V} {r : Rg I} {v : V}
    {m' : RBMap I V} {ret : Rg I} (hInv : MapInv m)
    (hvr : is_valid_range r = true)
    (h : insert_merge_touching_or_overlapping P m r v = (m', .ok ret)) :
    MapInv m' ∧ (∀ x ∈ m', x ∈ m ∨ x.1 = ret) ∧ (ret = r ∨ P ret = true) := by
  have hInv2 : MapInv ((btDrainFilter (fun e => overlaps e.1 r) m).2) :=
    hInv.sublist (List.filter_sublist m)
  unfold insert_merge_touching_or_overlapping at h
  refine imwc_master hInv hvr h ?_ ?_ ?_
  · exact List.Sublist.trans (btRemove_snd_sublist _) (btRemove_snd_sublist _)
  · intro ms hs
    have hs2 : (((btGetKeyValue (touching_start_comp r.start) m).map Prod.fst).or
        ((btGetKeyValue (overlapping_start_comp r.start) m).map Prod.fst)) =
        some ms := hs
    rcases hf : btGetKeyValue (touching_start_comp r.start) m with _ | l
    · rw [hf] at hs2
      have hs3 : (btGetKeyValue (overlapping_start_comp r.start) m).map
          Prod.fst = some ms := hs2
      rcases hfo : btGetKeyValue (overlapping_start_comp r.start) m with _ | l
      · rw [hfo] at hs3
        have hs4 : (none : Option (Rg I)) = some ms := hs3
        cases hs4
      · rw [hfo] at hs3
        have hs4 : some l.1 = some ms := hs3
        have hms := Option.some.inj hs4
        obtain ⟨hlm, hlc⟩ := (btGetKeyValue_eq_some_iff
          (cmp_rwb_unique hInv (startKey r.start))).mp hfo
        exact ⟨l, hlm, by rw [← hms], Or.inr hlc⟩
    · rw [hf] at hs2
      have hs3 : some l.1 = some ms := hs2
      have hms := Option.some.inj hs3
      obtain ⟨hlm, hlc⟩ :=
        (btGetKeyValue_eq_some_iff (touching_start_unique hInv r.start)).mp hf
      refine ⟨l, hlm, by rw [← hms], Or.inl ⟨hlc, ?_⟩⟩
      intro x hx hxl
      have hx2 : x ∈ (btRemove (touching_end_comp r.endb)
          ((btRemove (touching_start_comp r.start)
            ((btDrainFilter (fun e => overlaps e.1 r) m).2)).2)).2 := hx
      have hne := removed_ts hInv2 (btRemove_snd_sublist _) hx2
      rw [hxl] at hne
      exact hne hlc
  · intro me hs
    have hs2 : (((btGetKeyValue (touching_end_comp r.endb) m).map Prod.fst).or
        ((btGetKeyValue (overlapping_end_comp r.endb) m).map Prod.fst)) =
        some me := hs
    rcases hf : btGetKeyValue (touching_end_comp r.endb) m with _ | u
    · rw [hf] at hs2
      have hs3 : (btGetKeyValue (overlapping_end_comp r.endb) m).map
          Prod.fst = some me := hs2
      rcases hfo : btGetKeyValue (overlapping_end_comp r.endb) m with _ | u
      · rw [hfo] at hs3
        have hs4 : (none : Option (Rg I)) = some me := hs3
        cases hs4
      · rw [hfo] at hs3
        have hs4 : some u.1 = some me := hs3
        have hme := Option.some.inj hs4
        obtain ⟨hum, huc⟩ := (btGetKeyValue_eq_some_iff
          (cmp_rwb_unique hInv (endKey r.endb))).mp hfo
        exact ⟨u, hum, by rw [← hme], Or.inr huc⟩
    · rw [hf] at hs2
      have hs3 : some u.1 = some me := hs2
      have hme := Option.some.inj hs3
      obtain ⟨hum, huc⟩ :=
        (btGetKeyValue_eq_some_iff (touching_end_unique hInv r.endb)).mp hf
      refine ⟨u, hum, by rw [← hme], Or.inl ⟨huc, ?_⟩⟩
      intro x hx hxu
      have hx2 : x ∈ (btRemove (touching_end_comp r.endb)
          ((btRemove (touching_start_comp r.start)
            ((btDrainFilter (fun e => overlaps e.1 r) m).2)).2)).2 := hx
      have hInvX : MapInv ((btRemove (touching_start_comp r.start)
          ((btDrainFilter (fun e => overlaps e.1 r) m).2)).2) :=
        hInv2.sublist (btRemove_snd_sublist _)
      have hne := removed_te hInvX (List.Sublist.refl _) hx2
      rw [hxu] at hne
      exact hne huc

theorem imtve_end_aux [DecidableEq V] {r : Rg I} {v : V}
    {u x : Rg I × V} {X1 : RBMap I V}
    (hInvX1 : MapInv X1) (hu1 : u ∈ X1)
    (huc : touching_end_comp r.endb u.1 = .eq) (huv : u.2 = v)
    (hx : x ∈ (if (get_end_if_values_equal r X1 v).isSome then
        (btRemove (touching_end_comp r.endb) X1).2 else X1)) :
    touching_end_comp r.endb x.1 ≠ .eq := by
  have hf2 : btGetKeyValue (touching_end_comp r.endb) X1 = some u :=
    (btGetKeyValue_eq_some_iff (touching_end_unique hInvX1 r.endb)).mpr ⟨hu1, huc⟩
  have hfire : (get_end_if_values_equal r X1 v).isSome = true := by
    unfold get_end_if_values_equal
    rw [hf2]
    simp [Option.filter, huv]
  rw [if_pos hfire] at hx
  exact removed_te hInvX1 (List.Sublist.refl _) hx

theorem imtve_core_inv [DecidableEq V] {P : Rg I → Bool} {m : RBMap I V}
    {r : Rg I} {v : V} {m' : RBMap I V} {ret : Rg I} (hInv : MapInv m)
    (hvr : is_valid_range r = true)
    (h : insert_merge_touching_if_values_equal_core P m r v = (m', .ok ret)) :
    MapInv m' ∧ (∀ x ∈ m', x ∈ m ∨ x.1 = ret) ∧ (ret = r ∨ P ret = true) := by
  have hInv2 : MapInv ((btDrainFilter (fun e => overlaps e.1 r) m).2) :=
    hInv.sublist (List.filter_sublist m)
  unfold insert_merge_touching_if_values_equal_core at h
  refine imwc_master hInv hvr h ?_ ?_ ?_
  · exact List.Sublist.trans (cond_remove_sublist _) (cond_remove_sublist _)
  · intro ms hs
    have hs2 : get_start_if_values_equal r m v = some ms := hs
    unfold get_start_if_values_equal at hs2
    rcases hf : btGetKeyValue (touching_start_comp r.start) m with _ | l
    · rw [hf] at hs2
      have hs3 : (none : Option (Rg I)) = some ms := hs2
      cases hs3
    · rw [hf] at hs2
      have hkey : l.2 = v ∧ l.1 = ms := by
        by_cases hlv : l.2 = v
        · refine ⟨hlv, ?_⟩
          simp [Option.filter, hlv] at hs2
          exact hs2
        · exfalso
          simp [Option.filter, hlv] at hs2
      obtain ⟨hlv, hms⟩ := hkey
      obtain ⟨hlm, hlc⟩ :=
        (btGetKeyValue_eq_some_iff (touching_start_unique hInv r.start)).mp hf
      have hnol : overlaps l.1 r = false :=
        overlaps_false_of_left (touching_start_lt hlc)
      have hlm2 : l ∈ ((btDrainFilter (fun e => overlaps e.1 r) m).2) := by
        show l ∈ m.filter (fun e => !(overlaps e.1 r))
        exact List.mem_filter.mpr ⟨hlm, by simp [hnol]⟩
      have hf2 : btGetKeyValue (touching_start_comp r.start)
          ((btDrainFilter (fun e => overlaps e.1 r) m).2) = some l :=
        (btGetKeyValue_eq_some_iff (touching_start_unique hInv2 r.start)).mpr
          ⟨hlm2, hlc⟩
      have hfire : (get_start_if_values_equal r
          ((btDrainFilter (fun e => overlaps e.1 r) m).2) v).isSome = true := by
        unfold get_start_if_values_equal
        rw [hf2]
        simp [Option.filter, hlv]
      refine ⟨l, hlm, by rw [← hms], Or.inl ⟨hlc, ?_⟩⟩
      intro x hx hxl
      have hx1 := (cond_remove_sublist _).mem hx
      have hx1' : x ∈ (if (get_start_if_values_equal r
          ((btDrainFilter (fun e => overlaps e.1 r) m).2) v).isSome then
          (btRemove (touching_start_comp r.start)
            ((btDrainFilter (fun e => overlaps e.1 r) m).2)).2
        else ((btDrainFilter (fun e => overlaps e.1 r) m).2)) := hx1
      rw [if_pos hfire] at hx1'
      have hne := removed_ts hInv2 (List.Sublist.refl _) hx1'
      rw [hxl] at hne
      exact hne hlc
  · intro me hs
    have hs2 : get_end_if_values_equal r m v = some me := hs
    unfold get_end_if_values_equal at hs2
    rcases hf : btGetKeyValue (touching_end_comp r.endb) m with _ | u
    · rw [hf] at hs2
      have hs3 : (none : Option (Rg I)) = some me := hs2
      cases hs3
    · rw [hf] at hs2
      have hkey : u.2 = v ∧ u.1 = me := by
        by_cases huv : u.2 = v
        · refine ⟨huv, ?_⟩
          simp [Option.filter, huv] at hs2
          exact hs2
        · exfalso
          simp [Option.filter, huv] at hs2
      obtain ⟨huv, hme⟩ := hkey
      obtain ⟨hum, huc⟩ :=
        (btGetKeyValue_eq_some_iff (touching_end_unique hInv r.endb)).mp hf
      have hnou : overlaps u.1 r = false :=
        overlaps_false_of_right (touching_end_lt huc)
      have hum2 : u ∈ ((btDrainFilter (fun e => overlaps e.1 r) m).2) := by
        show u ∈ m.filter (fun e => !(overlaps e.1 r))
        exact List.mem_filter.mpr ⟨hum, by simp [hnou]⟩
      refine ⟨u, hum, by rw [← hme], Or.inl ⟨huc, ?_⟩⟩
      intro x hx hxu
      by_cases hcs : (get_start_if_values_equal r
          ((btDrainFilter (fun e => overlaps e.1 r) m).2) v).isSome = true
      · have hX1u : u ∈ (btRemove (touching_start_comp r.start)
            ((btDrainFilter (fun e => overlaps e.1 r) m).2)).2 := by
          rw [btRemove_snd_eq_filter (filter_matches_length_le_one hInv2
            (touching_start_unique hInv2 r.start))]
          refine List.mem_filter.mpr ⟨hum2, ?_⟩
          have hnts : touching_start_comp r.start u.1 ≠ .eq := by
            intro hts
            exact not_touching_both (hInv.2 u hum) hvr hts huc
          show (!(touching_start_comp r.start u.1 == Ordering.eq)) = true
          rw [ordering_beq_false_iff.mpr hnts]
          rfl
        have hInvX1 : MapInv ((btRemove (touching_start_comp r.start)
            ((btDrainFilter (fun e => overlaps e.1 r) m).2)).2) :=
          hInv2.sublist (btRemove_snd_sublist _)
        have hx1 : x ∈ (if (get_end_if_values_equal r
            (if (get_start_if_values_equal r
                ((btDrainFilter (fun e => overlaps e.1 r) m).2) v).isSome then
              (btRemove (touching_start_comp r.start)
                ((btDrainFilter (fun e => overlaps e.1 r) m).2)).2
            else ((btDrainFilter (fun e => overlaps e.1 r) m).2)) v).isSome then
            (btRemove (touching_end_comp r.endb)
              (if (get_start_if_values_equal r
                  ((btDrainFilter (fun e => overlaps e.1 r) m).2) v).isSome then
                (btRemove (touching_start_comp r.start)
                  ((btDrainFilter (fun e => overlaps e.1 r) m).2)).2
              else ((btDrainFilter (fun e => overlaps e.1 r) m).2))).2
          else (if (get_start_if_values_equal r
              ((btDrainFilter (fun e => overlaps e.1 r) m).2) v).isSome then
            (btRemove (touching_start_comp r.start)
              ((btDrainFilter (fun e => overlaps e.1 r) m).2)).2
          else ((btDrainFilter (fun e => overlaps e.1 r) m).2))) := hx
        rw [if_pos hcs] at hx1
        have hne := imtve_end_aux hInvX1 hX1u huc huv hx1
        rw [hxu] at hne
        exact hne huc
      · have hx1 : x ∈ (if (get_end_if_values_equal r
            (if (get_start_if_values_equal r
                ((btDrainFilter (fun e => overlaps e.1 r) m).2) v).isSome then
              (btRemove (touching_start_comp r.start)
                ((btDrainFilter (fun e => overlaps e.1 r) m).2)).2
            else ((btDrainFilter (fun e => overlaps e.1 r) m).2)) v).isSome then
            (btRemove (touching_end_comp r.endb)
              (if (get_start_if_values_equal r
                  ((btDrainFilter (fun e => overlaps e.1 r) m).2) v).isSome then
                (btRemove (touching_start_comp r.start)
                  ((btDrainFilter (fun e => overlaps e.1 r) m).2)).2
              else ((btDrainFilter (fun e => overlaps e.1 r) m).2))).2
          else (if (get_start_if_values_equal r
              ((btDrainFilter (fun e => overlaps e.1 r) m).2) v).isSome then
            (btRemove (touching_start_comp r.start)
              ((btDrainFilter (fun e => overlaps e.1 r) m).2)).2
          else ((btDrainFilter (fun e => overlaps e.1 r) m).2))) := hx
        rw [if_neg hcs] at hx1
        have hne := imtve_end_aux hInv2 hum2 huc huv hx1
        rw [hxu] at hne
        exact hne huc

theorem imtve_inv [DecidableEq V] {P : Rg I → Bool} {m : RBMap I V}
    {r : Rg I} {v : V} {m' : RBMap I V} {ret : Rg I} (hInv : MapInv m)
    (hvr : is_valid_range r = true)
    (h : insert_merge_touching_if_values_equal P m r v = (m', .ok ret)) :
    MapInv m' ∧ (∀ x ∈ m', x ∈ m ∨ x.1 = ret) ∧ (ret = r ∨ P ret = true) := by
  unfold insert_merge_touching_if_values_equal at h
  obtain ⟨hcore, -⟩ := wrapper_ok h
  exact imtve_core_inv hInv hvr hcore

/-- The public mutating operations of the map, each carrying the
caller-supplied range (a `K` value in the source) and, where applicable,
the inserted value. -/
inductive MapOp (I V : Type) where
  | insStrict : Rg I → V → MapOp I V
  | remOverlapping : Rg I → MapOp I V
  | cutR : Rg I → MapOp I V
  | insOverwrite : Rg I → V → MapOp I V
  | insMergeTouching : Rg I → V → MapOp I V
  | insMergeTouchingIfValuesEqual : Rg I → V → MapOp I V
  | insMergeOverlapping : Rg I → V → MapOp I V
  | insMergeTouchingOrOverlapping : Rg I → V → MapOp I V

/-- The caller-supplied range of an operation. -/
def opArg : MapOp I V → Rg I
  | .insStrict r _ => r
  | .remOverlapping r => r
  | .cutR r => r
  | .insOverwrite r _ => r
  | .insMergeTouching r _ => r
  | .insMergeTouchingIfValuesEqual r _ => r
  | .insMergeOverlapping r _ => r
  | .insMergeTouchingOrOverlapping r _ => r

/-- One public operation, returning the new store only when the source
call returns successfully: an invalid argument range (which the source
rejects by panicking) or an error result is not a success. -/
def runOp [DecidableEq V] (P : Rg I → Bool) (m : RBMap I V) :
    MapOp I V → Option (RBMap I V)
  | .insStrict r v =>
    if is_valid_range r then
      match insert_strict m r v with
      | (m1, .ok _) => some m1
      | (_, .error _) => none
    else none
  | .remOverlapping r =>
    if is_valid_range r then some (remove_overlapping m r).1 else none
  | .cutR r =>
    if is_valid_range r then
      match cut P m r with
      | some (m1, .ok _) => some m1
      | _ => none
    else none
  | .insOverwrite r v =>
    if is_valid_range r then
      match insert_overwrite P m r v with
      | some (m1, .ok _) => some m1
      | _ => none
    else none
  | .insMergeTouching r v =>
    if is_valid_range r then
      match insert_merge_touching P m r v with
      | (m1, .ok _) => some m1
      | (_, .error _) => none
    else none
  | .insMergeTouchingIfValuesEqual r v =>
    if is_valid_range r then
      match insert_merge_touching_if_values_equal P m r v with
      | (m1, .ok _) => some m1
      | (_, .error _) => none
    else none
  | .insMergeOverlapping r v =>
    if is_valid_range r then
      match insert_merge_overlapping P m r v with
      | (m1, .ok _) => some m1
      | (_, .error _) => none
    else none
  | .insMergeTouchingOrOverlapping r v =>
    if is_valid_range r then
      match insert_merge_touching_or_overlapping P m r v with
      | (m1, .ok _) => some m1
      | (_, .error _) => none
    else none

/-- A sequence of public operations from a given store, all succeeding. -/
def runOpsFrom [DecidableEq V] (P : Rg I → Bool) :
    RBMap I V → List (MapOp I V) → Option (RBMap I V)
  | m, [] => some m
  | m, op :: ops =>
    match runOp P m op with
    | none => none
    | some m1 => runOpsFrom P m1 ops

/-- A sequence of public operations from the empty store. -/
def runOps [DecidableEq V] (P : Rg I → Bool) (ops : List (MapOp I V)) :
    Option (RBMap I V) :=
  runOpsFrom P [] ops

/-- Any single successful public operation preserves the invariant, and
every entry of the result was already stored, or carries the operation's
own range, or carries a representable merged range. -/
theorem runOp_inv [DecidableEq V] {P : Rg I → Bool} {m m' : RBMap I V}
    {op : MapOp I V} (hInv : MapInv m) (h : runOp P m op = some m') :
    MapInv m' ∧ ∀ e ∈ m', e ∈ m ∨ e.1 = opArg op ∨ P e.1 = true := by
  cases op with
  | insStrict r v =>
    have h0 : (if is_valid_range r then
        match insert_strict m r v with
        | (m1, .ok _) => some m1
        | (_, .error _) => none
      else none) = some m' := h
    rcases hv : is_valid_range r with _ | _ <;> rw [hv] at h0
    · have h3 : (none : Option (RBMap I V)) = some m' := h0
      cases h3
    · have h4 : (match insert_strict m r v with
        | (m1, .ok _) => some m1
        | (_, .error _) => none) = some m' := h0
      rcases hrun : insert_strict m r v with ⟨m1, er | u⟩
      · rw [hrun] at h4
        have h5 : (none : Option (RBMap I V)) = some m' := h4
        cases h5
      · rw [hrun] at h4
        have h5 : some m1 = some m' := h4
        have h6 := Option.some.inj h5
        subst h6
        obtain ⟨hInv', hmem⟩ := insert_strict_ok hInv hv hrun
        refine ⟨hInv', ?_⟩
        intro e he
        rcases hmem e he with hm | hr2
        · exact Or.inl hm
        · exact Or.inr (Or.inl hr2)
  | remOverlapping r =>
    have h0 : (if is_valid_range r then
        some (remove_overlapping m r).1
      else none) = some m' := h
    rcases hv : is_valid_range r with _ | _ <;> rw [hv] at h0
    · have h3 : (none : Option (RBMap I V)) = some m' := h0
      cases h3
    · have h2 : some ((remove_overlapping m r).1) = some m' := h0
      have h4 := Option.some.inj h2
      subst h4
      refine ⟨hInv.sublist (List.filter_sublist m), ?_⟩
      intro e he
      exact Or.inl (List.mem_filter.mp he).1
  | cutR r =>
    have h0 : (if is_valid_range r then
        match cut P m r with
        | some (m1, .ok _) => some m1
        | _ => none
      else none) = some m' := h
    rcases hv : is_valid_range r with _ | _ <;> rw [hv] at h0
    · have h3 : (none : Option (RBMap I V)) = some m' := h0
      cases h3
    · have h2 : (match cut P m r with
        | some (m1, .ok _) => some m1
        | _ => none) = some m' := h0
      rcases hc : cut P m r with _ | ⟨m1, er | ys⟩
      · rw [hc] at h2
        have h3 : (none : Option (RBMap I V)) = some m' := h2
        cases h3
      · rw [hc] at h2
        have h3 : (none : Option (RBMap I V)) = some m' := h2
        cases h3
      · rw [hc] at h2
        have h3 : some m1 = some m' := h2
        have h4 := Option.some.inj h3
        subst h4
        obtain ⟨hInv1, -, -, -, hprov⟩ := cut_ok_spec hInv hv hc
        refine ⟨hInv1, ?_⟩
        intro e he
        rcases hprov e he with hm | hP
        · exact Or.inl hm
        · exact Or.inr (Or.inr hP)
  | insOverwrite r v =>
    have h0 : (if is_valid_range r then
        match insert_overwrite P m r v with
        | some (m1, .ok _) => some m1
        | _ => none
      else none) = some m' := h
    rcases hv : is_valid_range r with _ | _ <;> rw [hv] at h0
    · have h3 : (none : Option (RBMap I V)) = some m' := h0
      cases h3
    · have h2 : (match insert_overwrite P m r v with
        | some (m1, .ok _) => some m1
        | _ => none) = some m' := h0
      rcases hc : cut P m r with _ | ⟨m1, er | ys⟩
      · have hio : insert_overwrite P m r v = none := by
          unfold insert_overwrite
          rw [hc]
        rw [hio] at h2
        have h3 : (none : Option (RBMap I V)) = some m' := h2
        cases h3
      · have hio : insert_overwrite P m r v = some (m1, .error er) := by
          unfold insert_overwrite
          rw [hc]
        rw [hio] at h2
        have h3 : (none : Option (RBMap I V)) = some m' := h2
        cases h3
      · have hio : insert_overwrite P m r v =
            some (insert_unchecked m1 r v, .ok ()) := by
          unfold insert_overwrite
          rw [hc]
        rw [hio] at h2
        have h3 : some (insert_unchecked m1 r v) = some m' := h2
        have h4 := Option.some.inj h3
        subst h4
        obtain ⟨hInv1, hno1, -, -, hprov⟩ := cut_ok_spec hInv hv hc
        refine ⟨MapInv.insert hInv1 hv hno1, ?_⟩
        intro e he
        rcases btInsert_mem_weak he with rfl | hm1
        · exact Or.inr (Or.inl rfl)
        · rcases hprov e hm1 with hm | hP
          · exact Or.inl hm
          · exact Or.inr (Or.inr hP)
  | insMergeTouching r v =>
    have h0 : (if is_valid_range r then
        match insert_merge_touching P m r v with
        | (m1, .ok _) => some m1
        | (_, .error _) => none
      else none) = some m' := h
    rcases hv : is_valid_range r with _ | _ <;> rw [hv] at h0
    · have h3 : (none : Option (RBMap I V)) = some m' := h0
      cases h3
    · have h4 : (match insert_merge_touching P m r v with
        | (m1, .ok _) => some m1
        | (_, .error _) => none) = some m' := h0
      rcases hrun : insert_merge_touching P m r v with ⟨m1, er | ret⟩
      · rw [hrun] at h4
        have h5 : (none : Option (RBMap I V)) = some m' := h4
        cases h5
      · rw [hrun] at h4
        have h5 : some m1 = some m' := h4
        have h6 := Option.some.inj h5
        subst h6
        obtain ⟨hInv', hmem, hretp⟩ := imt_inv hInv hv hrun
        refine ⟨hInv', ?_⟩
        intro e he
        rcases hmem e he with hm | hr2
        · exact Or.inl hm
        · rcases hretp with hrr | hP
          · refine Or.inr (Or.inl ?_)
            rw [hr2]
            exact hrr
          · refine Or.inr (Or.inr ?_)
            rw [hr2]
            exact hP
  | insMergeTouchingIfValuesEqual r v =>
    have h0 : (if is_valid_range r then
        match insert_merge_touching_if_values_equal P m r v with
        | (m1, .ok _) => some m1
        | (_, .error _) => none
      else none) = some m' := h
    rcases hv : is_valid_range r with _ | _ <;> rw [hv] at h0
    · have h3 : (none : Option (RBMap I V)) = some m' := h0
      cases h3
    · have h4 : (match insert_merge_touching_if_values_equal P m r v with
        | (m1, .ok _) => some m1
        | (_, .error _) => none) = some m' := h0
      rcases hrun : insert_merge_touching_if_values_equal P m r v with
        ⟨m1, er | ret⟩
      · rw [hrun] at h4
        have h5 : (none : Option (RBMap I V)) = some m' := h4
        cases h5
      · rw [hrun] at h4
        have h5 : some m1 = some m' := h4
        have h6 := Option.some.inj h5
        subst h6
        obtain ⟨hInv', hmem, hretp⟩ := imtve_inv hInv hv hrun
        refine ⟨hInv', ?_⟩
        intro e he
        rcases hmem e he with hm | hr2
        · exact Or.inl hm
        · rcases hretp with hrr | hP
          · refine Or.inr (Or.inl ?_)
            rw [hr2]
            exact hrr
          · refine Or.inr (Or.inr ?_)
            rw [hr2]
            exact hP
  | insMergeOverlapping r v =>
    have h0 : (if is_valid_range r then
        match insert_merge_overlapping P m r v with
        | (m1, .ok _) => some m1
        | (_, .error _) => none
      else none) = some m' := h
    rcases hv : is_valid_range r with _ | _ <;> rw [hv] at h0
    · have h3 : (none : Option (RBMap I V)) = some m' := h0
      cases h3
    · have h4 : (match insert_merge_overlapping P m r v with
        | (m1, .ok _) => some m1
        | (_, .error _) => none) = some m' := h0
      rcases hrun : insert_merge_overlapping P m r v with ⟨m1, er | ret⟩
      · rw [hrun] at h4
        have h5 : (none : Option (RBMap I V)) = some m' := h4
        cases h5
      · rw [hrun] at h4
        have h5 : some m1 = some m' := h4
        have h6 := Option.some.inj h5
        subst h6
        obtain ⟨hInv', hmem, hretp⟩ := imo_inv hInv hv hrun
        refine ⟨hInv', ?_⟩
        intro e he
        rcases hmem e he with hm | hr2
        · exact Or.inl hm
        · rcases hretp with hrr | hP
          · refine Or.inr (Or.inl ?_)
            rw [hr2]
            exact hrr
          · refine Or.inr (Or.inr ?_)
            rw [hr2]
            exact hP
  | insMergeTouchingOrOverlapping r v =>
    have h0 : (if is_valid_range r then
        match insert_merge_touching_or_overlapping P m r v with
        | (m1, .ok _) => some m1
        | (_, .error _) => none
      else none) = some m' := h
    rcases hv : is_valid_range r with _ | _ <;> rw [hv] at h0
    · have h3 : (none : Option (RBMap I V)) = some m' := h0
      cases h3
    · have h4 : (match insert_merge_touching_or_overlapping P m r v with
        | (m1, .ok _) => some m1
        | (_, .error _) => none) = some m' := h0
      rcases hrun : insert_merge_touching_or_overlapping P m r v with
        ⟨m1, er | ret⟩
      · rw [hrun] at h4
        have h5 : (none : Option (RBMap I V)) = some m' := h4
        cases h5
      · rw [hrun] at h4
        have h5 : some m1 = some m' := h4
        have h6 := Option.some.inj h5
        subst h6
        obtain ⟨hInv', hmem, hretp⟩ := imtoo_inv hInv hv hrun
        refine ⟨hInv', ?_⟩
        intro e he
        rcases hmem e he with hm | hr2
        · exact Or.inl hm
        · rcases hretp with hrr | hP
          · refine Or.inr (Or.inl ?_)
            rw [hr2]
            exact hrr
          · refine Or.inr (Or.inr ?_)
            rw [hr2]
            exact hP

theorem runOpsFrom_inv [DecidableEq V] {P : Rg I → Bool} :
    ∀ {ops : List (MapOp I V)} {m m' : RBMap I V}, MapInv m →
      runOpsFrom P m ops = some m' →
      MapInv m' ∧ ∀ e ∈ m', e ∈ m ∨ (∃ op ∈ ops, e.1 = opArg op) ∨
        P e.1 = true := by
  intro ops
  induction ops with
  | nil =>
    intro m m' hInv h
    have h2 : some m = some m' := h
    have h3 := Option.some.inj h2
    subst h3
    exact ⟨hInv, fun e he => Or.inl he⟩
  | cons op ops ih =>
    intro m m' hInv h
    have h2 : (match runOp P m op with
      | none => none
      | some m1 => runOpsFrom P m1 ops) = some m' := h
    rcases hr : runOp P m op with _ | m1
    · rw [hr] at h2
      have h3 : (none : Option (RBMap I V)) = some m' := h2
      cases h3
    · rw [hr] at h2
      have h3 : runOpsFrom P m1 ops = some m' := h2
      obtain ⟨hInv1, hmem1⟩ := runOp_inv hInv hr
      obtain ⟨hInv', hmem'⟩ := ih hInv1 h3
      refine ⟨hInv', ?_⟩
      intro e he
      rcases hmem' e he with hm1 | hrest
      · rcases hmem1 e hm1 with hm | harg | hP
        · exact Or.inl hm
        · exact Or.inr (Or.inl ⟨op, List.mem_cons_self op ops, harg⟩)
        · exact Or.inr (Or.inr hP)
      · rcases hrest with ⟨op2, hop2, harg⟩ | hP
        · exact Or.inr (Or.inl ⟨op2, List.mem_cons_of_mem op hop2, harg⟩)
        · exact Or.inr (Or.inr hP)

/-- C1: for every sequence of public mutating operations that all return
success, starting from the empty map, the resulting map satisfies the
four representation invariants: I1, no two distinct stored entries
contain a common point; I2, every stored range is valid; I3, iteration
yields entries in strictly ascending order of start endpoint; I4, every
stored range is a caller-supplied argument range (a `K` value) or
satisfies the representability predicate of a successful
`try_from_bounds` reconstruction. -/
theorem C1_invariants [DecidableEq V] {P : Rg I → Bool}
    {ops : List (MapOp I V)} {m' : RBMap I V}
    (h : runOps P ops = some m') :
    (∀ a ∈ m', ∀ b ∈ m', a ≠ b → ∀ p : I,
      ¬ (containsPoint a.1 p ∧ containsPoint b.1 p)) ∧
    (∀ e ∈ m', is_valid_range e.1 = true) ∧
    m'.Pairwise (fun a b => startKey a.1.start < startKey b.1.start) ∧
    (∀ e ∈ m', (∃ op ∈ ops, e.1 = opArg op) ∨ P e.1 = true) := by
  have hbase : MapInv ([] : RBMap I V) :=
    ⟨List.Pairwise.nil, fun e he => absurd he (List.not_mem_nil e)⟩
  obtain ⟨hInv, hmem⟩ := runOpsFrom_inv hbase h
  refine ⟨?_, hInv.2, inv_sorted hInv, ?_⟩
  · intro a ha b hb hne p hc
    rcases pairwise_cases hInv.1 ha hb with heq | hsep | hsep
    · exact hne heq
    · have h2 : endKey a.1.endb < startKey b.1.start := hsep
      exact absurd ((hc.2.1.trans hc.1.2).trans_lt h2) (lt_irrefl _)
    · have h2 : endKey b.1.endb < startKey a.1.start := hsep
      exact absurd ((hc.1.1.trans hc.2.2).trans_lt h2) (lt_irrefl _)
  · intro e he
    rcases hmem e he with hm | hrest
    · exact absurd hm (List.not_mem_nil e)
    · exact hrest

theorem C1_invariants_witness :
    (∀ e ∈ ([(⟨RBound.inc (0 : Int), RBound.inc 1⟩, true)] : RBMap Int Bool),
      is_valid_range e.1 = true) ∧
    (∀ e ∈ ([(⟨RBound.inc (0 : Int), RBound.inc 1⟩, true)] : RBMap Int Bool),
      (∃ op ∈ [MapOp.insStrict (⟨RBound.inc (0 : Int), RBound.inc 1⟩ : Rg Int)
        true], e.1 = opArg op) ∨ (fun _ => false) e.1 = true) := by
  have h := @C1_invariants Int _ Bool _ (fun _ => false)
    [MapOp.insStrict ⟨RBound.inc 0, RBound.inc 1⟩ true]
    [(⟨RBound.inc 0, RBound.inc 1⟩, true)] rfl
  exact ⟨h.2.1, h.2.2.2⟩
